import Mathlib

/-!
A verification development of thttpd.

Shallow embedding of parts of `libhttpd.c`, `thttpd.c` and `mmc.c`.

C strings are modelled by the list of their bytes before the terminating NUL
(`List Char`); reading the byte at the position of the terminator gives `'\x00'`.
-/

set_option autoImplicit false

namespace Thttpd

/-! ## C string helpers -/

/-- The byte `s[i]` of a C string; the terminator reads as NUL. -/
def cAt (s : List Char) (i : Nat) : Char := s.getD i '\x00'

/-- The test `strncmp( s, p, strlen(p) ) == 0`: the string `s` begins with `p`. -/
def hasPrefix : List Char → List Char → Bool
  | _, [] => true
  | [], _ :: _ => false
  | c :: s, d :: p => c == d && hasPrefix s p

/-- The call `strstr( s, p )`: offset of the first occurrence of `p` in `s`, if any. -/
def strstr : List Char → List Char → Option Nat
  | [], p => if p.isEmpty then some 0 else none
  | c :: s, p =>
    if hasPrefix (c :: s) p then some 0
    else match strstr s p with
      | some i => some (i + 1)
      | none => none

/-- The call `ol_strcpy( s + i, s + j )` with `i ≤ j`: the tail from `j` is moved down to `i`. -/
def ol_strcpy (s : List Char) (i j : Nat) : List Char := s.take i ++ s.drop j

/-! ## de_dotdot (libhttpd.c) -/

/-- The scan `for ( cp2 = cp + 2; *cp2 == '/'; ++cp2 )`: given the suffix at `cp2`,
the number of slashes skipped. -/
def skipSlashes : List Char → Nat
  | [] => 0
  | c :: s => if c = '/' then skipSlashes s + 1 else 0

/-- The loop `while ( ( cp = strstr( file, "//") ) != 0 )`, with an iteration bound. -/
def collapseSlashes : Nat → List Char → List Char
  | 0, file => file
  | n + 1, file =>
    match strstr file ['/', '/'] with
    | none => file
    | some cp =>
      let cp2 := cp + 2 + skipSlashes (file.drop (cp + 2))
      collapseSlashes n (ol_strcpy file (cp + 1) cp2)

/-- The loop `while ( strncmp( file, "./", 2 ) == 0 )`, with an iteration bound. -/
def stripDotSlash : Nat → List Char → List Char
  | 0, file => file
  | n + 1, file =>
    if hasPrefix file ['.', '/'] then stripDotSlash n (ol_strcpy file 0 2) else file

/-- The loop `while ( ( cp = strstr( file, "/./") ) != 0 )`, with an iteration bound. -/
def removeSlashDotSlash : Nat → List Char → List Char
  | 0, file => file
  | n + 1, file =>
    match strstr file ['/', '.', '/'] with
    | none => file
    | some cp => removeSlashDotSlash n (ol_strcpy file cp (cp + 2))

/-- The loop `while ( strncmp( file, "../", 3 ) == 0 )`, with an iteration bound. -/
def stripDotDotSlash : Nat → List Char → List Char
  | 0, file => file
  | n + 1, file =>
    if hasPrefix file ['.', '.', '/'] then stripDotDotSlash n (ol_strcpy file 0 3) else file

/-- The scan `for ( cp2 = cp - 1; cp2 >= file && *cp2 != '/'; --cp2 )`, started with
`cp` at offset `k`: the result is the offset of `cp2 + 1` (so `0` means `cp2 < file`). -/
def scanBack (file : List Char) : Nat → Nat
  | 0 => 0
  | k + 1 => if cAt file k = '/' then k + 1 else scanBack file k

/-- The `for (;;)` loop alternating between removing a leading `../` and removing
`xxx/../`, with an iteration bound. -/
def dotdotLoop : Nat → List Char → List Char
  | 0, file => file
  | n + 1, file =>
    let file1 := stripDotDotSlash file.length file
    match strstr file1 ['/', '.', '.', '/'] with
    | none => file1
    | some cp => dotdotLoop n (ol_strcpy file1 (scanBack file1 cp) (cp + 4))

/-- The final loop eliding `xxx/..` at the end, with an iteration bound. -/
def elideTrailing : Nat → List Char → List Char
  | 0, file => file
  | n + 1, file =>
    let l := file.length
    if l > 3 ∧ file.drop (l - 3) = ['/', '.', '.'] then
      match scanBack file (l - 3) with
      | 0 => file
      | k + 1 => elideTrailing n (file.take k)
    else file

/-- The function `de_dotdot`: every loop shortens the string, so its length bounds the
number of iterations. -/
def de_dotdot (file : List Char) : List Char :=
  let n := file.length + 1
  let f1 := collapseSlashes n file
  let f2 := stripDotSlash n f1
  let f3 := removeSlashDotSlash n f2
  let f4 := dotdotLoop n f3
  elideTrailing n f4

/-- The test applied by `httpd_parse_request` right after `de_dotdot`; `true` means the
request is answered 400. -/
def dotdot_rejected (f : List Char) : Bool :=
  cAt f 0 == '/' ||
    (cAt f 0 == '.' && cAt f 1 == '.' && (cAt f 2 == '\x00' || cAt f 2 == '/'))


/-- The `/`-separated components of a path, in order (a path without `/` is one
component; `a//b` has an empty component in the middle). -/
def components : List Char → List (List Char)
  | [] => [[]]
  | c :: s =>
    if c = '/' then [] :: components s
    else match components s with
      | [] => [[c]]
      | h :: t => (c :: h) :: t

/-- A component that means "up one level". -/
def isDotDot (comp : List Char) : Bool := comp == ['.', '.']

/-- A component that names a directory entry: not empty, not `.`, not `..`. -/
def isOrdinary (comp : List Char) : Bool :=
  !(comp == []) && !(comp == ['.']) && !(comp == ['.', '.'])

/-- Walking the components from the left never climbs above the starting directory:
no initial run of components has more `..` than ordinary components. -/
def staysInside (comps : List (List Char)) : Prop :=
  ∀ n : Nat, ((comps.take n).filter isDotDot).length ≤ ((comps.take n).filter isOrdinary).length

/-- The string `p` occurs in `s`. -/
def Sub (p s : List Char) : Prop := ∃ a b, s = a ++ (p ++ b)

/-- The string `s` begins with `p`. -/
def Pre (p s : List Char) : Prop := ∃ b, s = p ++ b

/-- The state reached before the `../` loop of `de_dotdot`: no `//`, no `/./`, and no
leading `./`. -/
def Clean (f : List Char) : Prop :=
  ¬ Sub ['/', '/'] f ∧ ¬ Sub ['/', '.', '/'] f ∧ ¬ Pre ['.', '/'] f

/-! ## httpd_parse_request (libhttpd.c): request line, decoding, canonicalisation -/

/-- A buffer read as a C string: the bytes before the first NUL. -/
def cstr (s : List Char) : List Char := s.takeWhile (fun c => c != '\x00')

/-- The call `strpbrk( s, set )`: offset of the first byte of `s` that is in `set`. -/
def strpbrk (s : List Char) (set : List Char) : Option Nat :=
  match s with
  | [] => none
  | c :: s =>
    if set.contains c then some 0
    else match strpbrk s set with
      | some i => some (i + 1)
      | none => none

/-- The call `strspn( s, set )`: length of the initial run of bytes of `s` that are in `set`. -/
def strspn (s : List Char) (set : List Char) : Nat :=
  match s with
  | [] => 0
  | c :: s => if set.contains c then strspn s set + 1 else 0

/-- The call `strchr( s, c )` for a byte `c` other than NUL. -/
def strchr (s : List Char) (c : Char) : Option Nat := strpbrk s [c]

/-- The test `strcasecmp( a, b ) == 0`. -/
def strcasecmp_eq (a b : List Char) : Bool := a.map Char.toLower == b.map Char.toLower

/-- The test `strncasecmp( a, b, n ) == 0`. -/
def strncasecmp_eq (a b : List Char) (n : Nat) : Bool :=
  (a.take n).map Char.toLower == (b.take n).map Char.toLower

/-- The set `" \t\012\015"` used to split the request line. -/
def reqWs : List Char := [' ', '\t', '\n', '\r']

/-- The C library test `isxdigit`. -/
def isxdigit (c : Char) : Bool :=
  ('0' ≤ c && c ≤ '9') || ('a' ≤ c && c ≤ 'f') || ('A' ≤ c && c ≤ 'F')

/-- The function `hexit`. -/
def hexit (c : Char) : Nat :=
  if '0' ≤ c ∧ c ≤ '9' then c.toNat - '0'.toNat
  else if 'a' ≤ c ∧ c ≤ 'f' then c.toNat - 'a'.toNat + 10
  else if 'A' ≤ c ∧ c ≤ 'F' then c.toNat - 'A'.toNat + 10
  else 0

/-- The function `strdecode`: the bytes written to `to` before the terminator (a decoded
`%00` is a byte of the result; read as a C string the result ends there). -/
def strdecode : List Char → List Char
  | [] => []
  | [c] => [c]
  | [c, d] => c :: strdecode [d]
  | c :: h :: l :: rest =>
    if c = '%' ∧ isxdigit h ∧ isxdigit l then
      Char.ofNat (hexit h * 16 + hexit l) :: strdecode rest
    else c :: strdecode (h :: l :: rest)

/-- The function `bufgets`, on the bytes of `read_buf` from `checked_idx` on: the line
up to the first CR or LF, and what follows the terminator (LF, CR or CRLF). No line is
returned when there is no terminator. -/
def bufgets : List Char → Option (List Char × List Char)
  | [] => none
  | c :: s =>
    if c = '\n' then some ([], s)
    else if c = '\r' then
      match s with
      | d :: s' => if d = '\n' then some ([], s') else some ([], s)
      | [] => some ([], s)
    else match bufgets s with
      | some (line, rest) => some (c :: line, rest)
      | none => none

/-- The request methods. -/
inductive Method where
  | GET | HEAD | POST | PUT | DELETE | TRACE
  deriving DecidableEq, Repr

/-- The function `httpd_method_str`. -/
def httpd_method_str : Method → List Char
  | .GET => "GET".toList
  | .HEAD => "HEAD".toList
  | .POST => "POST".toList
  | .PUT => "PUT".toList
  | .DELETE => "DELETE".toList
  | .TRACE => "TRACE".toList

/-- The fields of `httpd_conn` set by the first part of `httpd_parse_request`. -/
structure ParsedURL where
  method : Method
  protocol : List Char
  mime_flag : Bool
  one_one : Bool
  reqhost : List Char
  encodedurl : List Char
  decodedurl : List Char
  origfilename : List Char
  query : List Char
  /-- What is left of `read_buf` after the request line. -/
  rest : List Char
  deriving DecidableEq, Repr

/-- The filename copied from the decoded URL (without its leading `/`, `.` for the
top-level URL) and cut at the first `?` when the encoded URL has a query. -/
def origfilename_of (encodedurl : List Char) : List Char :=
  let decodedurl := cstr (strdecode encodedurl)
  let orig := decodedurl.drop 1
  let orig := if orig = [] then ['.'] else orig
  match strchr encodedurl '?' with
  | none => orig
  | some _ =>
    match strchr orig '?' with
    | none => orig
    | some i => orig.take i

/-- The request line as split by `httpd_parse_request`. -/
structure ReqLine where
  method_str : List Char
  url : List Char
  protocol : List Char
  mime_flag : Bool
  one_one : Bool
  deriving DecidableEq, Repr

/-- The start of `httpd_parse_request`: the request line is cut into the method, the URL
and the protocol at the bytes of `" \t\012\015"`; without a protocol the request is
HTTP/0.9 and has no MIME headers, and a protocol other than `HTTP/1.0` sets `one_one`.
No result means that the line has no such byte (answered 400). -/
def split_request_line (line : List Char) : Option ReqLine :=
  match strpbrk line reqWs with
  | none => none
  | some u =>
    let method_str := line.take u
    let url0 := line.drop (u + 1)
    let url := url0.drop (strspn url0 reqWs)
    match strpbrk url reqWs with
    | none =>
      some { method_str := method_str, url := url, protocol := "HTTP/0.9".toList,
             mime_flag := false, one_one := false }
    | some p =>
      let pr0 := url.drop (p + 1)
      let pr1 := pr0.drop (strspn pr0 reqWs)
      if pr1 ≠ [] then
        let protocol := match strpbrk pr1 reqWs with
          | some e => pr1.take e
          | none => pr1
        some { method_str := method_str, url := url.take p, protocol := protocol,
               mime_flag := true, one_one := !(strcasecmp_eq protocol "HTTP/1.0".toList) }
      else
        some { method_str := method_str, url := url.take p, protocol := pr1,
               mime_flag := true, one_one := false }

/-- The check for an HTTP/1.1 absolute URL in `httpd_parse_request`: the URL that is left
and the host copied to `reqhost`, or the status of the error. -/
def strip_absolute_url (url : List Char) (one_one : Bool) : Except Nat (List Char × List Char) :=
  if strncasecmp_eq url "http://".toList 7 then
    if !one_one then .error 400
    else
      let reqhost := url.drop 7
      match strchr reqhost '/' with
      | none => .error 400
      | some s =>
        let host := reqhost.take s
        if (strchr host '/').isSome ∨ cAt host 0 = '.' then .error 400
        else .ok (reqhost.drop s, host)
  else .ok (url, [])

/-- The chain of `strcasecmp` tests on the method in `httpd_parse_request`. -/
def lookup_method (method_str : List Char) : Option Method :=
  if strcasecmp_eq method_str (httpd_method_str .GET) then some .GET
  else if strcasecmp_eq method_str (httpd_method_str .HEAD) then some .HEAD
  else if strcasecmp_eq method_str (httpd_method_str .POST) then some .POST
  else if strcasecmp_eq method_str (httpd_method_str .PUT) then some .PUT
  else if strcasecmp_eq method_str (httpd_method_str .DELETE) then some .DELETE
  else if strcasecmp_eq method_str (httpd_method_str .TRACE) then some .TRACE
  else none

/-- The part of `httpd_parse_request` that comes before `de_dotdot`: the request line is
split into method, URL and protocol, an absolute URL is reduced to its path, the method
is looked up, the URL is decoded and the query is split off. An error is the status
given to `httpd_send_err`. -/
def parse_request_head (read_buf : List Char) : Except Nat ParsedURL :=
  match bufgets read_buf with
  | none => .error 400
  | some (line0, rest) =>
    match split_request_line (cstr line0) with
    | none => .error 400
    | some rl =>
      match strip_absolute_url rl.url rl.one_one with
      | .error e => .error e
      | .ok (url, reqhost) =>
        if cAt url 0 ≠ '/' then .error 400
        else
          match lookup_method rl.method_str with
          | none => .error 501
          | some m =>
            .ok { method := m, protocol := rl.protocol, mime_flag := rl.mime_flag,
                  one_one := rl.one_one, reqhost := reqhost, encodedurl := url,
                  decodedurl := cstr (strdecode url),
                  origfilename := origfilename_of url,
                  query := match strchr url '?' with
                    | none => []
                    | some q => url.drop (q + 1),
                  rest := rest }

/-- The function `httpd_parse_request` up to the test that follows `de_dotdot`: the
filename is canonicalised and the request is answered 400 when the result begins with
`/`, is `..` or begins with `../`. -/
def httpd_parse_request (read_buf : List Char) : Except Nat ParsedURL :=
  match parse_request_head read_buf with
  | .error e => .error e
  | .ok r =>
    let f := de_dotdot r.origfilename
    if dotdot_rejected f then .error 400
    else .ok { r with origfilename := f }

/-- The request of scenario S3: `GET /%2e%2e/%2e%2e/etc/passwd HTTP/1.0` and an empty
line. -/
def traversal_request : List Char :=
  "GET /%2e%2e/%2e%2e/etc/passwd HTTP/1.0\r\n\r\n".toList

/-! ## httpd_got_request (libhttpd.c) -/

/-- The states `CHST_*` of the request-framing machine. -/
inductive CheckedState where
  | CHST_FIRSTWORD | CHST_FIRSTWS | CHST_SECONDWORD | CHST_SECONDWS | CHST_THIRDWORD
  | CHST_THIRDWS | CHST_LINE | CHST_LF | CHST_CR | CHST_CRLF | CHST_CRLFCR | CHST_BOGUS
  deriving DecidableEq, Repr

/-- The results `GR_*` of `httpd_got_request`. -/
inductive GotRequest where
  | GR_NO_REQUEST | GR_GOT_REQUEST | GR_BAD_REQUEST
  deriving DecidableEq, Repr

open CheckedState GotRequest

/-- One turn of the `switch` in the loop of `httpd_got_request`, on the byte `c` in
state `st`: the new value of `checked_state`, and the value returned if this turn
returns. -/
def got_request_switch (st : CheckedState) (c : Char) : CheckedState × Option GotRequest :=
  match st with
  | CHST_FIRSTWORD =>
    if c = ' ' ∨ c = '\t' then (CHST_FIRSTWS, none)
    else if c = '\n' ∨ c = '\r' then (CHST_BOGUS, some GR_BAD_REQUEST)
    else (st, none)
  | CHST_FIRSTWS =>
    if c = ' ' ∨ c = '\t' then (st, none)
    else if c = '\n' ∨ c = '\r' then (CHST_BOGUS, some GR_BAD_REQUEST)
    else (CHST_SECONDWORD, none)
  | CHST_SECONDWORD =>
    if c = ' ' ∨ c = '\t' then (CHST_SECONDWS, none)
    else if c = '\n' ∨ c = '\r' then (st, some GR_GOT_REQUEST)
    else (st, none)
  | CHST_SECONDWS =>
    if c = ' ' ∨ c = '\t' then (st, none)
    else if c = '\n' ∨ c = '\r' then (CHST_BOGUS, some GR_BAD_REQUEST)
    else (CHST_THIRDWORD, none)
  | CHST_THIRDWORD =>
    if c = ' ' ∨ c = '\t' then (CHST_THIRDWS, none)
    else if c = '\n' then (CHST_LF, none)
    else if c = '\r' then (CHST_CR, none)
    else (st, none)
  | CHST_THIRDWS =>
    if c = ' ' ∨ c = '\t' then (st, none)
    else if c = '\n' then (CHST_LF, none)
    else if c = '\r' then (CHST_CR, none)
    else (CHST_BOGUS, some GR_BAD_REQUEST)
  | CHST_LINE =>
    if c = '\n' then (CHST_LF, none)
    else if c = '\r' then (CHST_CR, none)
    else (st, none)
  | CHST_LF =>
    if c = '\n' then (st, some GR_GOT_REQUEST)
    else if c = '\r' then (CHST_CR, none)
    else (CHST_LINE, none)
  | CHST_CR =>
    if c = '\n' then (CHST_CRLF, none)
    else if c = '\r' then (st, some GR_GOT_REQUEST)
    else (CHST_LINE, none)
  | CHST_CRLF =>
    if c = '\n' then (st, some GR_GOT_REQUEST)
    else if c = '\r' then (CHST_CRLFCR, none)
    else (CHST_LINE, none)
  | CHST_CRLFCR =>
    if c = '\n' ∨ c = '\r' then (st, some GR_GOT_REQUEST)
    else (CHST_LINE, none)
  | CHST_BOGUS => (st, some GR_BAD_REQUEST)

/-- The fields of `httpd_conn` used by `httpd_got_request`. -/
structure ReadState where
  read_buf : List Char
  read_idx : Nat
  checked_idx : Nat
  checked_state : CheckedState
  deriving DecidableEq, Repr

/-- The outcome of a call of `httpd_got_request`: the value returned, the connection
afterwards, and the number of bytes of `read_buf` the call has looked at. -/
structure GotRequestOut where
  result : GotRequest
  hc : ReadState
  examined : Nat
  deriving DecidableEq, Repr

/-- The loop of `httpd_got_request`; `n` bounds the number of turns and `examined`
counts the bytes read so far. -/
def got_request_loop : Nat → ReadState → Nat → GotRequestOut
  | 0, hc, examined => { result := GR_NO_REQUEST, hc := hc, examined := examined }
  | n + 1, hc, examined =>
    if hc.checked_idx < hc.read_idx then
      let c := cAt hc.read_buf hc.checked_idx
      match got_request_switch hc.checked_state c with
      | (st, some r) =>
        { result := r, hc := { hc with checked_state := st }, examined := examined + 1 }
      | (st, none) =>
        got_request_loop n { hc with checked_state := st, checked_idx := hc.checked_idx + 1 }
          (examined + 1)
    else { result := GR_NO_REQUEST, hc := hc, examined := examined }

/-- The function `httpd_got_request`: at most `read_idx - checked_idx` turns of the loop
remain. -/
def httpd_got_request (hc : ReadState) : GotRequestOut :=
  got_request_loop (hc.read_idx - hc.checked_idx) hc 0

/-- A connection that has read the bytes `buf` and checked none of them. -/
def fresh_read (buf : List Char) : ReadState :=
  { read_buf := buf, read_idx := buf.length, checked_idx := 0,
    checked_state := CHST_FIRSTWORD }

/-- A three-word request line ended by LF, then an empty line ended by CRLF. -/
def lf_then_crlf_request : List Char := "GET / HTTP/1.0\n\r\n".toList

/-! ## mmc.c: the cache of mapped files -/

/-- The constant `DEFAULT_EXPIRE_AGE`. -/
def DEFAULT_EXPIRE_AGE : Int := 600

/-- The constant `DESIRED_FREE_COUNT`. -/
def DESIRED_FREE_COUNT : Int := 100

/-- The constant `DESIRED_MAX_MAPPED_FILES`. -/
def DESIRED_MAX_MAPPED_FILES : Int := 2000

/-- The constant `DESIRED_MAX_MAPPED_BYTES`. -/
def DESIRED_MAX_MAPPED_BYTES : Int := 1000000000

/-- The constant `INITIAL_HASH_SIZE`. -/
def INITIAL_HASH_SIZE : Nat := 1 <<< 10

/-- The `Map` struct. The field `ptr` stands for the address of the struct itself: the
hash table holds such addresses. The identity fields of a file are taken non-negative. -/
structure Map where
  ptr : Nat
  ino : Nat
  dev : Nat
  size : Nat
  ctime : Nat
  refcount : Int
  reftime : Int
  addr : Nat
  hash : Nat
  hash_idx : Nat
  deriving DecidableEq, Repr

/-- The identity of a file as found in a `struct stat`. -/
structure Stat where
  st_ino : Nat
  st_dev : Nat
  st_size : Nat
  st_ctime : Nat
  deriving DecidableEq, Repr

/-- The globals of `mmc.c`. `maps` and `free_maps` are the two linked lists, read along
their `next` pointers; `hash_table` is absent before the first `check_hash_size` and
otherwise gives for each slot the `Map*` it holds. The last three fields are not in the
source: `released` lists the entries handed to `really_unmap` (latest first), `log` the
messages given to `syslog` (latest first), and `next_ptr` is the address `malloc` gives
to the next `Map`. -/
structure Mmc where
  maps : List Map
  free_maps : List Map
  alloc_count : Int
  map_count : Int
  free_count : Int
  hash_table : Option (Nat → Option Nat)
  hash_size : Nat
  hash_mask : Nat
  expire_age : Int
  mapped_bytes : Int
  released : List Map
  log : List String
  next_ptr : Nat

/-- The initial values of the globals. -/
def mmc_init : Mmc :=
  { maps := [], free_maps := [], alloc_count := 0, map_count := 0, free_count := 0,
    hash_table := none, hash_size := 0, hash_mask := 0, expire_age := DEFAULT_EXPIRE_AGE,
    mapped_bytes := 0, released := [], log := [], next_ptr := 1 }

/-- The function `hash`, in `unsigned int` arithmetic. -/
def hash (hash_mask : Nat) (ino dev size ctime : Nat) : Nat :=
  let h := 177573
  let h := (h ^^^ ino) % 2 ^ 32
  let h := (h + (h <<< 5)) % 2 ^ 32
  let h := (h ^^^ dev) % 2 ^ 32
  let h := (h + (h <<< 5)) % 2 ^ 32
  let h := (h ^^^ size) % 2 ^ 32
  let h := (h + (h <<< 5)) % 2 ^ 32
  let h := (h ^^^ ctime) % 2 ^ 32
  h &&& hash_mask

/-- The `Map` struct at address `p`, looked up among the structs on the two lists. -/
def deref (s : Mmc) (p : Nat) : Option Map :=
  (s.maps ++ s.free_maps).find? (fun m => m.ptr == p)

/-- The probe loop of `add_hash`, from slot `i`: the empty slot found, if any; `n`
bounds the number of turns. -/
def add_hash_probe (table : Nat → Option Nat) (hash_mask he : Nat) : Nat → Nat → Option Nat
  | 0, _ => none
  | n + 1, i =>
    if table i = none then some i
    else if i = he then none
    else add_hash_probe table hash_mask he n ((i + 1) &&& hash_mask)

/-- The function `add_hash`, on a table: the table and the entry with `hash` and
`hash_idx` filled in, or nothing for the result `-1`. -/
def add_hash (table : Nat → Option Nat) (hash_size hash_mask : Nat) (m : Map) :
    Option ((Nat → Option Nat) × Map) :=
  let h := hash hash_mask m.ino m.dev m.size m.ctime
  let he := (h + hash_size - 1) &&& hash_mask
  match add_hash_probe table hash_mask he hash_size h with
  | some i =>
    some (fun j => if j = i then some m.ptr else table j, { m with hash := h, hash_idx := i })
  | none => none

/-- The probe loop of `find_hash`, from slot `i`; `n` bounds the number of turns. An
empty slot ends the search. -/
def find_hash_probe (s : Mmc) (table : Nat → Option Nat) (h he : Nat)
    (ino dev size ctime : Nat) : Nat → Nat → Option Map
  | 0, _ => none
  | n + 1, i =>
    match table i with
    | none => none
    | some p =>
      match deref s p with
      | none => none
      | some m =>
        if m.hash = h ∧ m.ino = ino ∧ m.dev = dev ∧ m.size = size ∧ m.ctime = ctime then some m
        else if i = he then none
        else find_hash_probe s table h he ino dev size ctime n ((i + 1) &&& s.hash_mask)

/-- The function `find_hash`. -/
def find_hash (s : Mmc) (ino dev size ctime : Nat) : Option Map :=
  match s.hash_table with
  | none => none
  | some table =>
    let h := hash s.hash_mask ino dev size ctime
    let he := (h + s.hash_size - 1) &&& s.hash_mask
    find_hash_probe s table h he ino dev size ctime s.hash_size h

/-- What `really_unmap` does besides unlinking the entry from the active list (which
the caller's walk does): the byte count and the counters are updated, the entry is put
on the free list and its hash slot is zeroed. -/
def really_unmap (s : Mmc) (m : Map) : Mmc :=
  { s with
    mapped_bytes := s.mapped_bytes - m.size
    map_count := s.map_count - 1
    free_maps := m :: s.free_maps
    free_count := s.free_count + 1
    hash_table := s.hash_table.map (fun table j => if j = m.hash_idx then none else table j)
    released := m :: s.released }

/-- The walk `for ( mm = &maps; *mm != 0; )` of `mmc_cleanup` and `panic` over the
active list: an entry that meets `cond` is really unmapped and unlinked, the others are
kept. The result is the list that is left and the other globals. -/
def unmap_walk (cond : Map → Bool) : List Map → Mmc → List Map × Mmc
  | [], s => ([], s)
  | m :: rest, s =>
    if cond m then unmap_walk cond rest (really_unmap s m)
    else
      let r := unmap_walk cond rest s
      (m :: r.1, r.2)

/-- The function `panic`. -/
def panic (s : Mmc) : Mmc :=
  let s := { s with log := "mmc panic - freeing all unreferenced maps" :: s.log }
  let r := unmap_walk (fun m => m.refcount == 0) s.maps s
  { r.2 with maps := r.1 }

/-- The loop `while ( free_count > DESIRED_FREE_COUNT )` of `mmc_cleanup`; `n` bounds the
number of turns. -/
def trim_free : Nat → Mmc → Mmc
  | 0, s => s
  | n + 1, s =>
    if s.free_count > DESIRED_FREE_COUNT then
      trim_free n { s with free_maps := s.free_maps.tail, free_count := s.free_count - 1,
                           alloc_count := s.alloc_count - 1 }
    else s

/-- The function `mmc_cleanup`, at time `now`. -/
def mmc_cleanup (s : Mmc) (now : Int) : Mmc :=
  let age := s.expire_age
  let r := unmap_walk (fun m => m.refcount == 0 && decide (now - m.reftime ≥ age)) s.maps s
  let s := { r.2 with maps := r.1 }
  let s :=
    if s.mapped_bytes > DESIRED_MAX_MAPPED_BYTES then
      { s with expire_age := max (Int.tdiv (s.expire_age * 2) 3) (Int.tdiv DEFAULT_EXPIRE_AGE 10) }
    else if s.map_count > DESIRED_MAX_MAPPED_FILES then
      { s with expire_age := max (Int.tdiv (s.expire_age * 2) 3) (Int.tdiv DEFAULT_EXPIRE_AGE 10) }
    else if s.map_count < Int.tdiv DESIRED_MAX_MAPPED_FILES 2 then
      { s with expire_age := min (Int.tdiv (s.expire_age * 5) 4) (DEFAULT_EXPIRE_AGE * 3) }
    else s
  trim_free s.free_count.toNat s

/-- The loop `do hash_size = hash_size << 1; while ( hash_size < map_count * 6 )` of
`check_hash_size`; `n` bounds the number of turns after the first. -/
def double_hash_size (map_count : Int) : Nat → Nat → Nat
  | 0, hash_size => hash_size <<< 1
  | n + 1, hash_size =>
    if ((hash_size <<< 1 : Nat) : Int) < map_count * 6 then
      double_hash_size map_count n (hash_size <<< 1)
    else hash_size <<< 1

/-- The loop `for ( m = maps; m != 0; m = m->next ) if ( add_hash( m ) < 0 ) return -1`
of `check_hash_size`: whether every entry was added, the table, and the list (the
entries that were added have their `hash` and `hash_idx` updated). -/
def rehash (hash_size hash_mask : Nat) :
    List Map → (Nat → Option Nat) → Bool × (Nat → Option Nat) × List Map
  | [], table => (true, table, [])
  | m :: rest, table =>
    match add_hash table hash_size hash_mask m with
    | none => (false, table, m :: rest)
    | some (table', m') =>
      let r := rehash hash_size hash_mask rest table'
      (r.1, r.2.1, m' :: r.2.2)

/-- The tail of `check_hash_size`: a new table is allocated (`malloc_ok` says whether
`malloc` succeeds), cleared, and every active entry is added to it. -/
def new_hash_table (s : Mmc) (malloc_ok : Bool) : Bool × Mmc :=
  if malloc_ok then
    let r := rehash s.hash_size s.hash_mask s.maps (fun _ => none)
    (r.1, { s with hash_table := some r.2.1, maps := r.2.2 })
  else (false, { s with hash_table := none })

/-- The function `check_hash_size`; the result `false` stands for `-1`. -/
def check_hash_size (s : Mmc) (malloc_ok : Bool) : Bool × Mmc :=
  match s.hash_table with
  | none =>
    new_hash_table { s with hash_size := INITIAL_HASH_SIZE,
                            hash_mask := INITIAL_HASH_SIZE - 1 } malloc_ok
  | some _ =>
    if (s.hash_size : Int) ≥ s.map_count * 3 then (true, s)
    else
      let hash_size := double_hash_size s.map_count (s.map_count * 6).toNat s.hash_size
      new_hash_table { s with hash_table := none, hash_size := hash_size,
                              hash_mask := hash_size - 1 } malloc_ok

/-- What `mmap` (or `malloc`, without `HAVE_MMAP`) answers. -/
inductive MmapResult where
  | mapped (addr : Nat)
  | enomem
  | failed
  deriving DecidableEq, Repr

/-- What the system answers during one call of `mmc_map`. -/
structure MapEnv where
  stat_ok : Bool
  table_malloc_ok : Bool
  open_ok : Bool
  map_malloc_ok : Bool
  mmap_first : MmapResult
  mmap_second : MmapResult
  deriving DecidableEq, Repr

/-- A call of `mmc_map` in which every system call succeeds and `mmap` answers `addr`. -/
def env_ok (addr : Nat) : MapEnv :=
  { stat_ok := true, table_malloc_ok := true, open_ok := true, map_malloc_ok := true,
    mmap_first := .mapped addr, mmap_second := .mapped addr }

/-- The replacement of the struct at address `m.ptr` on the active list by `m`. -/
def store (maps : List Map) (m : Map) : List Map :=
  maps.map (fun x => if x.ptr = m.ptr then m else x)

/-- The entry that `mmc_map` fills in for a file it did not find: the struct at address
`p`, with the identity of the file, one reference, and the address `addr` of the mapping
(`(void*) 1` for a file of length zero). -/
def fresh_map (p : Nat) (sb : Stat) (now : Int) (addr : Nat) : Map :=
  { ptr := p, ino := sb.st_ino, dev := sb.st_dev, size := sb.st_size, ctime := sb.st_ctime,
    refcount := 1, reftime := now, addr := addr, hash := 0, hash_idx := 0 }

/-- The end of `mmc_map`, once the entry `m` has its address: `add_hash`, then the entry
is put on the active list. -/
def mmc_map_link (s : Mmc) (m : Map) : Option Nat × Mmc :=
  match s.hash_table with
  | none => (none, { s with log := "add_hash() failure" :: s.log,
                            alloc_count := s.alloc_count - 1 })
  | some table =>
    match add_hash table s.hash_size s.hash_mask m with
    | none => (none, { s with log := "add_hash() failure" :: s.log,
                              alloc_count := s.alloc_count - 1 })
    | some (table', m') =>
      (some m'.addr,
        { s with hash_table := some table', maps := m' :: s.maps,
                 map_count := s.map_count + 1, mapped_bytes := s.mapped_bytes + m'.size })

/-- The function `mmc_map` for a file whose `stat` is `sb`, at time `now`; the result is
the address returned (nothing for `(void*) 0`) and the globals afterwards. -/
def mmc_map (s : Mmc) (sb : Stat) (now : Int) (env : MapEnv) : Option Nat × Mmc :=
  if !env.stat_ok then (none, { s with log := "stat - %m" :: s.log })
  else
    let c := check_hash_size s env.table_malloc_ok
    let s := c.2
    if !c.1 then (none, { s with log := "check_hash_size() failure" :: s.log })
    else
      match find_hash s sb.st_ino sb.st_dev sb.st_size sb.st_ctime with
      | some m =>
        let m' := { m with refcount := m.refcount + 1, reftime := now }
        (some m'.addr, { s with maps := store s.maps m' })
      | none =>
        if !env.open_ok then (none, { s with log := "open - %m" :: s.log })
        else
          -- find a free Map entry or make a new one
          let got : Option (Nat × Mmc) :=
            match s.free_maps with
            | f :: rest => some (f.ptr, { s with free_maps := rest, free_count := s.free_count - 1 })
            | [] =>
              if env.map_malloc_ok then
                some (s.next_ptr, { s with alloc_count := s.alloc_count + 1,
                                           next_ptr := s.next_ptr + 1 })
              else none
          match got with
          | none => (none, { s with log := "out of memory allocating a Map" :: s.log })
          | some (p, s) =>
            if sb.st_size = 0 then mmc_map_link s (fresh_map p sb now 1)
            else
              match env.mmap_first with
              | .mapped a => mmc_map_link s (fresh_map p sb now a)
              | .failed =>
                (none, { s with log := "mmap - %m" :: s.log, alloc_count := s.alloc_count - 1 })
              | .enomem =>
                let s := panic s
                match env.mmap_second with
                | .mapped a => mmc_map_link s (fresh_map p sb now a)
                | _ =>
                  (none, { s with log := "mmap - %m" :: s.log,
                                  alloc_count := s.alloc_count - 1 })

/-- The function `mmc_unmap` for the address `addr`, with the stat buffer `sbP` when the
caller has one, at time `now`. -/
def mmc_unmap (s : Mmc) (addr : Nat) (sbP : Option Stat) (now : Int) : Mmc :=
  let byhash : Option Map :=
    match sbP with
    | some sb =>
      match find_hash s sb.st_ino sb.st_dev sb.st_size sb.st_ctime with
      | some m => if m.addr ≠ addr then none else some m
      | none => none
    | none => none
  let found : Option Map :=
    match byhash with
    | some m => some m
    | none => s.maps.find? (fun m => m.addr == addr)
  match found with
  | none => { s with log := "mmc_unmap failed to find entry!" :: s.log }
  | some m =>
    if m.refcount ≤ 0 then
      { s with log := "mmc_unmap found zero or negative refcount!" :: s.log }
    else
      { s with maps := store s.maps { m with refcount := m.refcount - 1, reftime := now } }

/-- The loop `while ( free_maps != 0 )` of `mmc_destroy` along the free list: every
struct is taken off the list and freed. -/
def free_all : List Map → Mmc → Mmc
  | [], s => s
  | _ :: rest, s =>
    free_all rest { s with free_maps := rest, free_count := s.free_count - 1,
                           alloc_count := s.alloc_count - 1 }

/-- The function `mmc_destroy`: `really_unmap( &maps )` until the active list is empty,
then the free list is freed. -/
def mmc_destroy (s : Mmc) : Mmc :=
  let r := unmap_walk (fun _ => true) s.maps s
  let s := { r.2 with maps := r.1 }
  free_all s.free_maps s

/-- The error that `mmc_logstats` reports besides its line of statistics, if any. -/
def mmc_logstats (s : Mmc) : Option String :=
  if s.map_count + s.free_count ≠ s.alloc_count then some "map counts don't add up!"
  else none

/-- The counters of the cache agree with its two lists, and the structs have different
addresses, all of them handed out by `malloc` before. Inside `mmc_map` the struct being
filled in is on neither list: `held` lists the addresses of the structs that are
allocated and on neither list, and is empty between the calls. -/
structure CacheInv (s : Mmc) (held : List Nat) : Prop where
  active : s.map_count = s.maps.length
  free : s.free_count = s.free_maps.length
  alloc : s.map_count + s.free_count + held.length = s.alloc_count
  bytes : s.mapped_bytes = (s.maps.map (fun m => (m.size : Int))).sum
  nodup : (held ++ (s.maps ++ s.free_maps).map (fun m => m.ptr)).Nodup
  below : ∀ p ∈ held ++ (s.maps ++ s.free_maps).map (fun m => m.ptr), p < s.next_ptr

/-- The sum of the `refcount` fields over the active list. -/
def total_refcount (s : Mmc) : Int := (s.maps.map (fun m => m.refcount)).sum

/-- A `struct stat` on device 0 with the given inode, size and ctime. -/
def stat_of (ino size ctime : Nat) : Stat :=
  { st_ino := ino, st_dev := 0, st_size := size, st_ctime := ctime }

/-- Two files of length zero are mapped; both calls return the address `(void*) 1`. -/
def two_empty_files : Mmc :=
  (mmc_map (mmc_map mmc_init (stat_of 1 0 0) 0 (env_ok 0)).2 (stat_of 2 0 0) 0 (env_ok 0)).2

/-- After `two_empty_files`, the address is released twice, without a stat buffer. -/
def two_empty_files_released : Mmc :=
  mmc_unmap (mmc_unmap two_empty_files 1 none 10) 1 none 10

/-- A file of five bytes (inode 1), then two files of length zero (inodes 964 and 2) are
mapped; the slot of inode 964 comes right after that of inode 1 in the same probe
sequence. The first file is released at time 0 and inode 2 at time 1000, `mmc_cleanup`
runs at time 1000, and then inode 964 is released with its stat buffer. -/
def empty_file_behind_gap : Mmc :=
  let s := (mmc_map mmc_init (stat_of 1 5 0) 0 (env_ok 4096)).2
  let s := (mmc_map s (stat_of 964 0 0) 0 (env_ok 0)).2
  let s := (mmc_map s (stat_of 2 0 0) 0 (env_ok 0)).2
  let s := mmc_unmap s 4096 (some (stat_of 1 5 0)) 0
  let s := mmc_unmap s 1 (some (stat_of 2 0 0)) 1000
  let s := mmc_cleanup s 1000
  mmc_unmap s 1 (some (stat_of 964 0 0)) 1000

/-- Two files whose identities have the same hash (inode 1 with five bytes, inode 131
with seven) are mapped; the first is released and `mmc_cleanup` runs 600 seconds later,
which really unmaps it and zeroes its hash slot. The second file is still referenced. -/
def probe_chain_broken : Mmc :=
  let s := (mmc_map mmc_init (stat_of 1 5 0) 0 (env_ok 4096)).2
  let s := (mmc_map s (stat_of 131 7 0) 0 (env_ok 8192)).2
  let s := mmc_unmap s 4096 (some (stat_of 1 5 0)) 0
  mmc_cleanup s 600

/-- The cache of `two_empty_files_released` with the aging threshold set to zero. -/
def zero_age_cache : Mmc := { two_empty_files_released with expire_age := 0 }

/-! ## Range headers, `send_mime` and the static-file end of `really_start_request`
(libhttpd.c) -/

/-- The C library test `isdigit`. -/
def isdigit (c : Char) : Bool := '0' ≤ c && c ≤ '9'

/-- The C library test `isspace` in the C locale. -/
def isspace (c : Char) : Bool :=
  c == ' ' || c == '\t' || c == '\n' || c == '\x0b' || c == '\x0c' || c == '\r'

/-- The value of the leading decimal digits of `s`, continuing from `acc`. -/
def digits_value : List Char → Nat → Nat
  | [], acc => acc
  | c :: s, acc => if isdigit c then digits_value s (acc * 10 + (c.toNat - '0'.toNat)) else acc

/-- The C library function `atoll`: leading white space, an optional sign, decimal
digits. A value out of the range of `long long` is clamped to the nearest bound. -/
def atoll (s : List Char) : Int :=
  let s := s.dropWhile isspace
  let v : Int :=
    match s with
    | '-' :: r => - (digits_value r 0 : Int)
    | '+' :: r => (digits_value r 0 : Int)
    | _ => (digits_value s 0 : Int)
  max (-(2 : Int) ^ 63) (min v ((2 : Int) ^ 63 - 1))

/-- The decimal digits of `n`, put in front of `acc`; `fuel` bounds the number of digits. -/
def decimal_digits : Nat → Nat → List Char → List Char
  | 0, _, acc => acc
  | fuel + 1, n, acc =>
    let acc := Char.ofNat ('0'.toNat + n % 10) :: acc
    if n / 10 = 0 then acc else decimal_digits fuel (n / 10) acc

/-- The text printed for a natural number by the conversions `%d` and `%lld`. -/
def decimal (n : Nat) : List Char := decimal_digits (n + 1) n []

/-- The text printed for an integer by the conversions `%d` and `%lld`. -/
def fmt_int (n : Int) : List Char :=
  if n < 0 then '-' :: decimal n.natAbs else decimal n.natAbs

/-- What `my_snprintf` leaves in a buffer of `size` bytes when the formatted text is `s`:
at most `size - 1` bytes before the terminator. -/
def snprintf_fit (size : Nat) (s : List Char) : List Char := s.take (size - 1)

/-- The fields of `httpd_server` used by `send_mime`; `server_software` stands for the
macro `EXPOSED_SERVER_SOFTWARE`. -/
structure HttpdServer where
  charset : List Char
  p3p : List Char
  max_age : Int
  server_software : List Char
  deriving DecidableEq, Repr

/-- The clock and the date formatting used by `send_mime`: the value of `time(0)`, and
the text that `strftime` with `%a, %d %b %Y %H:%M:%S GMT` gives for `gmtime` of a time. -/
structure Clock where
  now : Int
  strftime : Int → List Char

/-- The calls of `add_response` made by `send_mime`, by what they add. -/
inductive MimePart where
  | status_and_fixed_headers
  | cache_control_no_cache
  | content_encoding
  | content_range_and_length
  | content_length
  | p3p
  | max_age_and_expires
  | extra_headers
  | blank_line
  deriving DecidableEq, Repr

/-- The fields of `httpd_conn` used by the static-file path. `type` and `encodings` are
what `figure_mime` gives; `response` is the response buffer, of which `responselen` is
the length. The field `headers` is not in the source: it lists the pieces that
`send_mime` has handed to `add_response`, in order. -/
structure HttpdConn where
  hs : HttpdServer
  method : Method
  mime_flag : Bool
  protocol : List Char
  got_range : Bool
  first_byte_index : Int
  last_byte_index : Int
  range_if : Int
  if_modified_since : Int
  sb : Stat
  st_mtime : Int
  type : List Char
  encodings : List Char
  status : Int
  bytes_to_send : Int
  bytes_sent : Int
  response : List Char
  headers : List (MimePart × List Char)
  file_address : Option Nat
  deriving DecidableEq, Repr

/-- The length `responselen` of the pending response. -/
def HttpdConn.responselen (hc : HttpdConn) : Nat := hc.response.length

/-- The body of the `Range:` branch of the header loop of `httpd_parse_request`, on the
header line `buf`: only `%d-` and `%d-%d` are supported. -/
def parse_range_header (hc : HttpdConn) (buf : List Char) : HttpdConn :=
  if (strchr buf ',').isSome then hc
  else
    match strpbrk buf ['='] with
    | none => hc
    | some cp =>
      let after := buf.drop (cp + 1)
      match strchr after '-' with
      | none => hc
      | some dash =>
        if dash = 0 then hc
        else
          let first := atoll (after.take dash)
          let hc := { hc with got_range := true,
                              first_byte_index := if first < 0 then 0 else first }
          if isdigit (cAt after (dash + 1)) then
            let last := atoll (after.drop (dash + 1))
            { hc with last_byte_index := if last < 0 then -1 else last }
          else hc

/-- The text `"\015\012"`. -/
def crlf : List Char := ['\r', '\n']

/-- The test of `send_mime` that turns a 200 answer into a 206 one. -/
def partial_content (hc : HttpdConn) (status : Int) (length : Int) : Bool :=
  decide (status = 200) && hc.got_range &&
    decide (hc.last_byte_index ≥ hc.first_byte_index) &&
    (decide (hc.last_byte_index ≠ length - 1) || decide (hc.first_byte_index ≠ 0)) &&
    (decide (hc.range_if = -1) || decide (hc.range_if = hc.st_mtime))

/-- The pieces that `send_mime` hands to `add_response`, in order, when `mime_flag` is
set. `fixed_type` is the content type with the charset filled in. -/
def send_mime_parts (hc : HttpdConn) (clock : Clock) (status : Int)
    (title encodings extraheads fixed_type : List Char) (length : Int) (mod : Int) :
    List (MimePart × List Char) :=
  let partial_content := partial_content hc status length
  let status := if partial_content then 206 else status
  let title := if partial_content then "Partial Content".toList else title
  let mod := if mod = 0 then clock.now else mod
  let nowbuf := clock.strftime clock.now
  let modbuf := clock.strftime mod
  let s100 := Int.tdiv status 100
  [(MimePart.status_and_fixed_headers,
      snprintf_fit 1000 (hc.protocol.take 20 ++ " ".toList ++ fmt_int status ++ " ".toList ++
        title ++ crlf ++ "Server: ".toList ++ hc.hs.server_software ++ crlf ++
        "Content-Type: ".toList ++ fixed_type ++ crlf ++ "Date: ".toList ++ nowbuf ++ crlf ++
        "Last-Modified: ".toList ++ modbuf ++ crlf ++ "Accept-Ranges: bytes".toList ++ crlf ++
        "Connection: close".toList ++ crlf))] ++
  (if s100 ≠ 2 ∧ s100 ≠ 3 then
    [(MimePart.cache_control_no_cache,
      snprintf_fit 1000 ("Cache-Control: no-cache,no-store".toList ++ crlf))]
   else []) ++
  (if encodings ≠ [] then
    [(MimePart.content_encoding,
      snprintf_fit 1000 ("Content-Encoding: ".toList ++ encodings ++ crlf))]
   else []) ++
  (if partial_content then
    [(MimePart.content_range_and_length,
      snprintf_fit 1000 ("Content-Range: bytes ".toList ++ fmt_int hc.first_byte_index ++
        "-".toList ++ fmt_int hc.last_byte_index ++ "/".toList ++ fmt_int length ++ crlf ++
        "Content-Length: ".toList ++
        fmt_int (hc.last_byte_index - hc.first_byte_index + 1) ++ crlf))]
   else if length ≥ 0 then
    [(MimePart.content_length,
      snprintf_fit 1000 ("Content-Length: ".toList ++ fmt_int length ++ crlf))]
   else []) ++
  (if hc.hs.p3p ≠ [] then
    [(MimePart.p3p, snprintf_fit 1000 ("P3P: ".toList ++ hc.hs.p3p ++ crlf))]
   else []) ++
  (if hc.hs.max_age ≥ 0 then
    [(MimePart.max_age_and_expires,
      snprintf_fit 1000 ("Cache-Control: max-age=".toList ++ fmt_int hc.hs.max_age ++ crlf ++
        "Expires: ".toList ++ clock.strftime (clock.now + hc.hs.max_age) ++ crlf))]
   else []) ++
  (if extraheads ≠ [] then [(MimePart.extra_headers, extraheads)] else []) ++
  [(MimePart.blank_line, crlf)]

/-- The function `send_mime`. -/
def send_mime (hc : HttpdConn) (clock : Clock) (status : Int)
    (title encodings extraheads fixed_type : List Char) (length : Int) (mod : Int) :
    HttpdConn :=
  if hc.mime_flag then
    let parts := send_mime_parts hc clock status title encodings extraheads fixed_type length mod
    let text := (parts.map (fun p => p.2)).flatten
    if partial_content hc status length then
      { hc with status := 206, bytes_to_send := length, response := hc.response ++ text,
                headers := hc.headers ++ parts }
    else
      { hc with status := status, bytes_to_send := length, got_range := false,
                response := hc.response ++ text, headers := hc.headers ++ parts }
  else { hc with status := status, bytes_to_send := length }

/-- The effect of `my_snprintf( fixed_type, sizeof(fixed_type), type, charset )`: the
first `%s` of `type` is replaced by the charset. -/
def fill_charset : List Char → List Char → List Char
  | [], _ => []
  | [c], _ => [c]
  | c :: d :: rest, charset =>
    if c = '%' ∧ d = 's' then charset ++ rest
    else c :: fill_charset (d :: rest) charset

/-- The content type handed to `send_mime`, with the charset filled in. -/
def fixed_type (hs : HttpdServer) (type : List Char) : List Char :=
  snprintf_fit 500 (fill_charset type hs.charset)

/-- What the system and the tables outside `libhttpd.c` answer during
`really_start_request`: the clock, what `figure_mime` finds for the file (type and
encodings), the answers to `mmc_map`, and the text of the error page for a status. -/
structure StartEnv where
  clock : Clock
  figured_type : List Char
  figured_encodings : List Char
  map_env : MapEnv
  err_page : Int → List Char

/-- The function `httpd_send_err` through `send_response`: the headers of `send_mime`
without a length, followed by the error page. -/
def httpd_send_err (hc : HttpdConn) (env : StartEnv) (status : Int) (title : List Char) :
    HttpdConn :=
  let hc := send_mime hc env.clock status title [] []
    (fixed_type hc.hs "text/html; charset=%s".toList) (-1) 0
  { hc with response := hc.response ++ env.err_page status }

/-- The end of `really_start_request`, from the test of the method on: the file is a
plain file that is neither CGI nor executable and the request has no path info. The
result is the value returned, the connection and the cache of mapped files. -/
def really_start_request (hc : HttpdConn) (cache : Mmc) (now : Int) (env : StartEnv) :
    Int × HttpdConn × Mmc :=
  if hc.method ≠ .GET ∧ hc.method ≠ .HEAD then
    (-1, httpd_send_err hc env 501 "Not Implemented".toList, cache)
  else
    -- fill in last_byte_index, if necessary
    let hc :=
      if hc.got_range ∧ (hc.last_byte_index = -1 ∨ hc.last_byte_index ≥ hc.sb.st_size) then
        { hc with last_byte_index := (hc.sb.st_size : Int) - 1 }
      else hc
    -- figure_mime
    let hc := { hc with type := env.figured_type, encodings := env.figured_encodings }
    if hc.method = .HEAD then
      (0, send_mime hc env.clock 200 "OK".toList hc.encodings [] (fixed_type hc.hs hc.type)
            hc.sb.st_size hc.st_mtime, cache)
    else if hc.if_modified_since ≠ -1 ∧ hc.if_modified_since ≥ hc.st_mtime then
      (0, send_mime hc env.clock 304 "Not Modified".toList hc.encodings []
            (fixed_type hc.hs hc.type) (-1) hc.st_mtime, cache)
    else
      let r := mmc_map cache hc.sb now env.map_env
      match r.1 with
      | none => (-1, httpd_send_err hc env 500 "Internal Error".toList, r.2)
      | some a =>
        (0, send_mime { hc with file_address := some a } env.clock 200 "OK".toList
              hc.encodings [] (fixed_type hc.hs hc.type) hc.sb.st_size hc.st_mtime, r.2)

/-- The header line `Range: bytes=A-B`. -/
def range_line (A B : Nat) : List Char :=
  "Range: bytes=".toList ++ decimal A ++ '-' :: decimal B

/-- The text of the `Content-Range` and `Content-Length` headers of a 206 answer for the
bytes `A` to `B` of a file of `S` bytes. -/
def content_range_text (A B S : Nat) : List Char :=
  "Content-Range: bytes ".toList ++ decimal A ++ "-".toList ++ decimal B ++ "/".toList ++
    decimal S ++ crlf ++ "Content-Length: ".toList ++ decimal (B - A + 1) ++ crlf

/-! ## handle_read and handle_send (thttpd.c) -/

/-- The constant `THROTTLE_NOLIMIT`. -/
def THROTTLE_NOLIMIT : Int := -1

/-- The struct `throttletab`. -/
structure Throttle where
  pattern : List Char
  max_limit : Int
  min_limit : Int
  rate : Int
  bytes_since_avg : Int
  num_sending : Int
  deriving DecidableEq, Repr

/-- The connection states `CNST_*`. -/
inductive ConnState where
  | CNST_FREE | CNST_READING | CNST_SENDING | CNST_PAUSING | CNST_LINGERING
  deriving DecidableEq, Repr

/-- The fields of `connecttab` used by `handle_read` and `handle_send`. `tnums` holds the
first `numtnums` throttle indexes; `wakeup_timer` is the delay in milliseconds of the
pending wakeup timer, if there is one. -/
structure Connecttab where
  conn_state : ConnState
  hc : HttpdConn
  tnums : List Nat
  max_limit : Int
  min_limit : Int
  started_at : Int
  active_at : Int
  wakeup_timer : Option Int
  wouldblock_delay : Int
  end_byte_index : Int
  next_byte_index : Int
  deriving DecidableEq, Repr

/-- What a handler does with the connection when it returns. -/
inductive Handled where
  | stays
  | finish_connection
  | clear_connection
  | division_by_zero
  deriving DecidableEq, Repr

/-- The loop `for ( tind = 0; tind < c->numtnums; ++tind )
throttles[c->tnums[tind]].bytes_since_avg += n`. -/
def add_bytes_since_avg (throttles : List Throttle) (tnums : List Nat) (n : Int) :
    List Throttle :=
  tnums.foldl (fun ts t =>
    ts.modify (fun th => { th with bytes_since_avg := th.bytes_since_avg + n }) t) throttles

/-- The end of `handle_read`, after `httpd_start_request` has returned 0: the window of
bytes to send is set up and the connection starts sending, or is finished when there is
nothing to send. -/
def handle_read_start (c : Connecttab) (throttles : List Throttle) (now : Int) :
    Connecttab × List Throttle × Handled :=
  let hc := c.hc
  -- fill in end_byte_index
  let c :=
    if hc.got_range then
      { c with next_byte_index := hc.first_byte_index,
               end_byte_index := hc.last_byte_index + 1 }
    else if hc.bytes_to_send < 0 then { c with end_byte_index := 0 }
    else { c with end_byte_index := hc.bytes_to_send }
  -- check if it's already handled
  if hc.file_address = none then
    ({ c with next_byte_index := hc.bytes_sent },
      add_bytes_since_avg throttles c.tnums hc.bytes_sent, .finish_connection)
  else if c.next_byte_index ≥ c.end_byte_index then
    (c, throttles, .finish_connection)
  else
    ({ c with conn_state := .CNST_SENDING, started_at := now, wouldblock_delay := 0 },
      throttles, .stays)

/-- What `write` or `writev` answers: the number of bytes accepted, or an error. -/
inductive WriteResult where
  | wrote (sz : Nat)
  | eintr
  | ewouldblock
  | failed
  deriving DecidableEq, Repr

/-- A value of type `off_t` or `long` converted to `size_t`. -/
def to_size_t (n : Int) : Nat := (n % (2 : Int) ^ 64).toNat

/-- The byte budget `max_bytes` of `handle_send`. -/
def max_bytes (c : Connecttab) : Nat :=
  if c.max_limit = THROTTLE_NOLIMIT then 1000000000 else to_size_t (Int.tdiv c.max_limit 4)

/-- The number of file bytes offered to `write` or `writev` by `handle_send`:
`MIN( c->end_byte_index - c->next_byte_index, max_bytes )`, compared as `size_t`. -/
def file_bytes_offered (c : Connecttab) : Nat :=
  min (to_size_t (c.end_byte_index - c.next_byte_index)) (max_bytes c)

/-- The bytes that `handle_send` offers to the socket: the pending response, if any,
then the bytes of the mapped file `file` from `next_byte_index` on. -/
def bytes_offered (c : Connecttab) (file : List Char) : List Char :=
  c.hc.response ++ (file.drop c.next_byte_index.toNat).take (file_bytes_offered c)

/-- The outcome of a call of `handle_send`: the connection, the throttle table, the
bytes that the socket accepted during the call, and what becomes of the connection. -/
structure SendOut where
  c : Connecttab
  throttles : List Throttle
  accepted : List Char
  handled : Handled
  deriving DecidableEq, Repr

/-- The part of `handle_send` that follows a successful `write` or `writev` of `sz`
bytes: the headers that were written are dropped from the response buffer and the rest
of `sz` is counted as file bytes, in `next_byte_index`, `bytes_sent` and the throttles. -/
def count_written (c : Connecttab) (throttles : List Throttle) (now : Int) (sz : Nat) :
    Connecttab × List Throttle :=
  -- ok, we wrote something
  let c := { c with active_at := now }
  -- was this a headers + file writev()?
  let hc := c.hc
  let response :=
    if hc.responselen > 0 then
      (if sz < hc.responselen then hc.response.drop sz else [])
    else hc.response
  let sz : Nat :=
    if hc.responselen > 0 then
      (if sz < hc.responselen then 0 else sz - hc.responselen)
    else sz
  -- and update how much of the file we wrote
  let hc := { hc with response := response, bytes_sent := hc.bytes_sent + sz }
  ({ c with hc := hc, next_byte_index := c.next_byte_index + sz },
    add_bytes_since_avg throttles c.tnums sz)

/-- A value converted to `int`: 32 bits, two's complement. -/
def to_int (n : Int) : Int := (n + (2 : Int) ^ 31) % (2 : Int) ^ 32 - (2 : Int) ^ 31

/-- The variable `elapsed` of `handle_send`: the seconds since the connection started
sending, counted as at least one second. -/
def elapsed_since (c : Connecttab) (now : Int) : Int :=
  let elapsed := now - c.started_at
  -- count at least one second
  if elapsed = 0 then 1 else elapsed

/-- The variable `coast` of `handle_send`, an `int`: how long to wait to get back on
schedule. It is computed only when `max_limit` is not zero. -/
def coast (c : Connecttab) (elapsed : Int) : Int :=
  to_int (Int.tdiv c.hc.bytes_sent c.max_limit - elapsed)

/-- The end of `handle_send`, when the connection is not finished: the wouldblock delay
is tuned, and a throttled connection that is sending too fast is paused for the coasting
time. The outcome `division_by_zero` stands for the evaluation of
`bytes_sent / c->max_limit` with `c->max_limit == 0`. -/
def pace (c : Connecttab) (now : Int) (delay_unit : Int) : Connecttab × Handled :=
  -- tune the wouldblock delay
  let c :=
    if c.wouldblock_delay > delay_unit then
      { c with wouldblock_delay := c.wouldblock_delay - delay_unit }
    else c
  -- if we're throttling, check if we're sending too fast
  if c.max_limit ≠ THROTTLE_NOLIMIT then
    let elapsed := elapsed_since c now
    if Int.tdiv c.hc.bytes_sent elapsed > c.max_limit then
      if c.max_limit = 0 then ({ c with conn_state := .CNST_PAUSING }, .division_by_zero)
      else
        let coast := coast c elapsed
        ({ c with conn_state := .CNST_PAUSING,
                  wakeup_timer := some (if coast > 0 then coast * 1000 else 500) }, .stays)
    else (c, .stays)
  else (c, .stays)

/-- What holds of the byte count of a connection from `httpd_get_conn` on, through every
call of `handle_send`: it is not negative, and no file byte is counted while a part of
the response headers is still to be written. -/
structure Counted (c : Connecttab) : Prop where
  nonneg : 0 ≤ c.hc.bytes_sent
  headers : 0 < c.hc.responselen → c.hc.bytes_sent = 0

/-- The function `handle_send` at time `now`; `file` is the mapped file at
`hc->file_address`, `w` is what `write` or `writev` answers and `delay_unit` is the
constant `MIN_WOULDBLOCK_DELAY` of `config.h`. -/
def handle_send (c : Connecttab) (throttles : List Throttle) (file : List Char) (now : Int)
    (w : WriteResult) (delay_unit : Int) : SendOut :=
  match w with
  | .eintr => { c := c, throttles := throttles, accepted := [], handled := .stays }
  | .failed =>
    { c := c, throttles := throttles, accepted := [], handled := .clear_connection }
  | .ewouldblock =>
    { c := { c with wouldblock_delay := c.wouldblock_delay + delay_unit,
                    conn_state := .CNST_PAUSING,
                    wakeup_timer := some (c.wouldblock_delay + delay_unit) },
      throttles := throttles, accepted := [], handled := .stays }
  | .wrote 0 =>
    { c := { c with wouldblock_delay := c.wouldblock_delay + delay_unit,
                    conn_state := .CNST_PAUSING,
                    wakeup_timer := some (c.wouldblock_delay + delay_unit) },
      throttles := throttles, accepted := [], handled := .stays }
  | .wrote (n + 1) =>
    let accepted := (bytes_offered c file).take (n + 1)
    let r := count_written c throttles now (n + 1)
    -- are we done?
    if r.1.next_byte_index ≥ r.1.end_byte_index then
      { c := r.1, throttles := r.2, accepted := accepted, handled := .finish_connection }
    else
      let p := pace r.1 now delay_unit
      { c := p.1, throttles := r.2, accepted := accepted, handled := p.2 }

/-- The function `wakeup_connection`, run when the wakeup timer fires. -/
def wakeup_connection (c : Connecttab) : Connecttab :=
  let c := { c with wakeup_timer := none }
  if c.conn_state = .CNST_PAUSING then { c with conn_state := .CNST_SENDING } else c

/-- The calls of `handle_send` on a connection from the moment it enters `CNST_SENDING`
until one of them calls `finish_connection`: the `i`-th call runs at time `now i`, and the
socket accepts `w i n` of the `n` bytes it is offered; a paused connection is woken up by
its timer before the next call. The result is the sequence of bytes accepted by the
socket, or nothing if the connection is cleared or not finished after `fuel` calls. -/
def send_until_finished (delay_unit : Int) (file : List Char) (now : Nat → Int)
    (w : Nat → Nat → Nat) : Nat → Nat → Connecttab → List Throttle → Option (List Char)
  | 0, _, _, _ => none
  | fuel + 1, i, c, throttles =>
    let out := handle_send c throttles file (now i)
      (.wrote (w i (bytes_offered c file).length)) delay_unit
    match out.handled with
    | .finish_connection => some out.accepted
    | .stays =>
      let c := if out.c.conn_state = .CNST_PAUSING then wakeup_connection out.c else out.c
      match send_until_finished delay_unit file now w fuel (i + 1) c out.throttles with
      | some rest => some (out.accepted ++ rest)
      | none => none
    | _ => none

/-- The state of a connection that is sending the file `file` without a throttle, with
`K` bytes of the file counted as sent and more to send. -/
structure Sending (file : List Char) (c : Connecttab) (K : Nat) : Prop where
  next : c.next_byte_index = K
  last : c.end_byte_index = file.length
  more : K < file.length
  nolimit : c.max_limit = THROTTLE_NOLIMIT

/-! ## Sample values for the concrete scenarios -/

/-- A server without P3P and max-age settings. -/
def sample_server : HttpdServer :=
  { charset := "iso-8859-1".toList, p3p := [], max_age := -1,
    server_software := "thttpd".toList }

/-- A system in which every call succeeds: the time is 1000, dates are printed as the
number of seconds, the file is of type `text/plain` and `mmap` answers 4096. -/
def sample_env : StartEnv :=
  { clock := { now := 1000, strftime := fun t => fmt_int t },
    figured_type := "text/plain; charset=%s".toList, figured_encodings := [],
    map_env := env_ok 4096, err_page := fun _ => "error".toList }

/-- The connection as `httpd_get_conn` and a request line `GET ... HTTP/1.1` leave it, for
a file of `size` bytes with mtime 5: MIME headers are expected and none has been read. -/
def sample_conn (size : Nat) : HttpdConn :=
  { hs := sample_server, method := .GET, mime_flag := true, protocol := "HTTP/1.1".toList,
    got_range := false, first_byte_index := 0, last_byte_index := -1, range_if := -1,
    if_modified_since := -1, sb := stat_of 7 size 5, st_mtime := 5, type := [],
    encodings := [], status := 0, bytes_to_send := 0, bytes_sent := 0, response := [],
    headers := [], file_address := none }

/-- The slot of a connection that is reading the request of `hc`, without throttles. -/
def sample_connecttab (hc : HttpdConn) : Connecttab :=
  { conn_state := .CNST_READING, hc := hc, tnums := [], max_limit := THROTTLE_NOLIMIT,
    min_limit := THROTTLE_NOLIMIT, started_at := 0, active_at := 0, wakeup_timer := none,
    wouldblock_delay := 0, end_byte_index := 0, next_byte_index := 0 }

/-! ## check_throttles (thttpd.c) -/

/-- The body of the loop of `check_throttles` for a matching throttle that passed the two
rate tests: the throttle `t` of index `tnum` is bound to the connection. The result is
the throttle as stored back in the table, and the connection. -/
def bind_throttle (t : Throttle) (tnum : Nat) (c : Connecttab) : Throttle × Connecttab :=
  let t := if t.num_sending < 0 then { t with num_sending := 0 } else t
  let c := { c with tnums := c.tnums ++ [tnum] }
  let t := { t with num_sending := t.num_sending + 1 }
  let l := Int.tdiv t.max_limit t.num_sending
  let c :=
    if c.max_limit = THROTTLE_NOLIMIT then { c with max_limit := l }
    else { c with max_limit := min c.max_limit l }
  let l := t.min_limit
  let c :=
    if c.min_limit = THROTTLE_NOLIMIT then { c with min_limit := l }
    else { c with min_limit := max c.min_limit l }
  (t, c)

/-- The loop of `check_throttles` from index `tnum` on; `fuel` bounds the number of
turns. The function `match` (match.c) and the constant `MAXTHROTTLENUMS` (config.h) are
not among the sources: they are the parameters `mtch` and `maxthrottlenums`. The result
is the value returned, the connection and the throttle table. -/
def check_throttles_loop (mtch : List Char → List Char → Bool) (maxthrottlenums : Nat)
    (expnfilename : List Char) :
    Nat → Nat → Connecttab → List Throttle → Bool × Connecttab × List Throttle
  | 0, _, c, throttles => (true, c, throttles)
  | fuel + 1, tnum, c, throttles =>
    match throttles[tnum]? with
    | none => (true, c, throttles)
    | some t =>
      if c.tnums.length < maxthrottlenums then
        if mtch t.pattern expnfilename then
          -- if we're way over the limit, don't even start
          if t.rate > t.max_limit * 2 then (false, c, throttles)
          -- also don't start if we're under the minimum
          else if t.rate < t.min_limit then (false, c, throttles)
          else
            check_throttles_loop mtch maxthrottlenums expnfilename fuel (tnum + 1)
              (bind_throttle t tnum c).2 (throttles.set tnum (bind_throttle t tnum c).1)
        else check_throttles_loop mtch maxthrottlenums expnfilename fuel (tnum + 1) c throttles
      else (true, c, throttles)

/-- The function `check_throttles`, for a connection whose expanded filename is
`expnfilename`. -/
def check_throttles (mtch : List Char → List Char → Bool) (maxthrottlenums : Nat)
    (expnfilename : List Char) (c : Connecttab) (throttles : List Throttle) :
    Bool × Connecttab × List Throttle :=
  check_throttles_loop mtch maxthrottlenums expnfilename throttles.length 0
    { c with tnums := [], max_limit := THROTTLE_NOLIMIT, min_limit := THROTTLE_NOLIMIT }
    throttles

/-- The step of `handle_read` that checks the throttle table: when `check_throttles`
returns 0 the request is answered 503 and the connection is finished. -/
def handle_read_throttles (mtch : List Char → List Char → Bool) (maxthrottlenums : Nat)
    (expnfilename : List Char) (env : StartEnv) (c : Connecttab) (throttles : List Throttle) :
    Connecttab × List Throttle × Handled :=
  let r := check_throttles mtch maxthrottlenums expnfilename c throttles
  if !r.1 then
    ({ r.2.1 with hc := httpd_send_err r.2.1.hc env 503 "Service Temporarily Overloaded".toList },
      r.2.2, .finish_connection)
  else (r.2.1, r.2.2, .stays)

/-- Modelled from the spec: the function `match` of match.c is not among the sources.
The scenarios use the pattern `*` of scenario S5 only, which matches every filename. -/
def match_star (pattern _filename : List Char) : Bool := pattern == ['*']

/-- A throttle as `read_throttlefile` stores it for the line `pattern min-max`. -/
def throttle_line (pattern : List Char) (min_limit max_limit : Int) : Throttle :=
  { pattern := pattern, max_limit := max_limit, min_limit := min_limit, rate := 0,
    bytes_since_avg := 0, num_sending := 0 }

/-- The table of scenario S5: the single throttle `* 1000`, with a rate of 2001. -/
def overloaded_table : List Throttle :=
  [{ throttle_line ['*'] 0 1000 with rate := 2001 }]

/-- Ten throttles `* 1000` at rest, then an eleventh `* 1000` with a rate of 2001. -/
def capped_table : List Throttle :=
  List.replicate 10 (throttle_line ['*'] 0 1000) ++ overloaded_table

/-- The share `max_limit / num_sending` of a throttle, with the division of C. -/
def throttle_share (t : Throttle) : Int := Int.tdiv t.max_limit t.num_sending

/-- What a run of `check_throttles_loop` from index `tnum` that returns 1 has done, in
terms of the list `bound` of the indexes it has bound: `c` and `ts` are the connection
and the table before the run, `c'` and `ts'` after it. -/
structure BoundBy (mtch : List Char → List Char → Bool) (maxthrottlenums : Nat)
    (expnfilename : List Char) (tnum : Nat) (c : Connecttab) (ts : List Throttle)
    (c' : Connecttab) (ts' : List Throttle) (bound : List Nat) : Prop where
  tnums : c'.tnums = c.tnums ++ bound
  from_tnum : ∀ i ∈ bound, tnum ≤ i
  nodup : bound.Nodup
  cap : c.tnums.length + bound.length ≤ max maxthrottlenums c.tnums.length
  length : ts'.length = ts.length
  table : ∀ i t, ts[i]? = some t →
    ts'[i]? = some (if i ∈ bound then { t with num_sending := t.num_sending + 1 } else t)
  matching : ∀ i ∈ bound, ∃ t, ts[i]? = some t ∧ mtch t.pattern expnfilename = true
  all_bound : ∀ i t, tnum ≤ i → ts[i]? = some t → mtch t.pattern expnfilename = true →
    i ∈ bound ∨ maxthrottlenums ≤ c.tnums.length + bound.length
  none_bound : bound = [] → c'.max_limit = c.max_limit ∧ c'.min_limit = c.min_limit
  max_le : (c.max_limit = THROTTLE_NOLIMIT ∨ 0 ≤ c.max_limit) →
    ∀ i ∈ bound, ∀ t, ts'[i]? = some t → c'.max_limit ≤ throttle_share t
  max_le_start : 0 ≤ c.max_limit → c'.max_limit ≤ c.max_limit ∧ 0 ≤ c'.max_limit
  max_attained : (c.max_limit = THROTTLE_NOLIMIT ∨ 0 ≤ c.max_limit) →
    c'.max_limit = c.max_limit ∨
      ∃ i ∈ bound, ∃ t, ts'[i]? = some t ∧ c'.max_limit = throttle_share t
  min_ge : (c.min_limit = THROTTLE_NOLIMIT ∨ 0 ≤ c.min_limit) →
    ∀ i ∈ bound, ∀ t, ts'[i]? = some t → t.min_limit ≤ c'.min_limit
  min_ge_start : 0 ≤ c.min_limit → c.min_limit ≤ c'.min_limit
  min_attained : (c.min_limit = THROTTLE_NOLIMIT ∨ 0 ≤ c.min_limit) →
    c'.min_limit = c.min_limit ∨
      ∃ i ∈ bound, ∃ t, ts'[i]? = some t ∧ c'.min_limit = t.min_limit
  nonneg : bound ≠ [] → (c.max_limit = THROTTLE_NOLIMIT ∨ 0 ≤ c.max_limit) →
    (c.min_limit = THROTTLE_NOLIMIT ∨ 0 ≤ c.min_limit) →
    0 ≤ c'.max_limit ∧ 0 ≤ c'.min_limit

/-- The table that `read_throttlefile` makes of the two lines `* -1-100` and `* -5-100`. -/
def negative_min_table : List Throttle :=
  [throttle_line ['*'] (-1) 100, throttle_line ['*'] (-5) 100]

/-- A table with one throttle `* 1000` whose sending count is -1. -/
def negative_count_table : List Throttle :=
  [{ throttle_line ['*'] 0 1000 with num_sending := -1 }]

/-- A table of three throttles: `* 1000` with one connection sending, `*.jpg 50-600` at
rest, and `* 100-900` with two connections sending; only `*` matches in the scenarios. -/
def shared_table : List Throttle :=
  [{ throttle_line ['*'] 0 1000 with num_sending := 1 },
   throttle_line "*.jpg".toList 50 600,
   { throttle_line ['*'] 100 900 with num_sending := 2, rate := 150 }]

/-! ## strdecode on memory, defang, make_argp (libhttpd.c) -/

/-- The loop of `strdecode( to, from )` on the memory `mem`, in which `tp` and `fp` are
the positions of the pointers `to` and `from`; `fuel` bounds the number of turns, and
there is no result when it runs out. A read past the end of `mem` gives NUL. The result is
the memory after the terminator has been written, the position of the terminator, and
whether `to ≤ from` held at every test of the loop (this flag is not in the source). -/
def strdecode_loop : Nat → List Char → Nat → Nat → Bool → Option (List Char × Nat × Bool)
  | 0, _, _, _, _ => none
  | fuel + 1, mem, tp, fp, ok =>
    let ok := ok && decide (tp ≤ fp)
    if cAt mem fp = '\x00' then some (mem.set tp '\x00', tp, ok)
    else if cAt mem fp = '%' ∧ isxdigit (cAt mem (fp + 1)) ∧ isxdigit (cAt mem (fp + 2)) then
      strdecode_loop fuel
        (mem.set tp (Char.ofNat (hexit (cAt mem (fp + 1)) * 16 + hexit (cAt mem (fp + 2)))))
        (tp + 1) (fp + 3) ok
    else strdecode_loop fuel (mem.set tp (cAt mem fp)) (tp + 1) (fp + 1) ok

/-- The call `strdecode( to, from )` with both pointers into the memory `mem`, at the
positions `tp` and `fp`. -/
def strdecode_mem (mem : List Char) (tp fp : Nat) : Option (List Char × Nat × Bool) :=
  strdecode_loop (mem.length + 1) mem tp fp true

/-- Percent-decoding as the specification words it, from left to right: a `%` that is
immediately followed by two hexadecimal digits `h`, `l` is replaced by the byte
`16 * hexit h + hexit l` and the three bytes are consumed (`skip` counts the bytes still
to consume); every other byte is copied. -/
def percent_decode_from : Nat → List Char → List Char
  | _, [] => []
  | skip + 1, _ :: s => percent_decode_from skip s
  | 0, c :: s =>
    if c = '%' ∧ isxdigit (cAt s 0) ∧ isxdigit (cAt s 1) then
      Char.ofNat (16 * hexit (cAt s 0) + hexit (cAt s 1)) :: percent_decode_from 2 s
    else c :: percent_decode_from 0 s

/-- The reference definition of percent-decoding. -/
def percent_decode (s : List Char) : List Char := percent_decode_from 0 s

/-- The bytes that one turn of the loop of `defang` writes for the byte `c`. -/
def defang_byte (c : Char) : List Char :=
  if c = '<' then ['&', 'l', 't', ';']
  else if c = '>' then ['&', 'g', 't', ';']
  else [c]

/-- The loop of `defang`: `str` is what is left of the input (the bytes before its
terminator) and `pos` is `cp2 - dfstr`; the result is what is written from `cp2` on,
before the terminator. -/
def defang_loop (dfsize : Int) : List Char → Nat → List Char
  | [], _ => []
  | c :: rest, pos =>
    if (pos : Int) < dfsize - 5 then
      defang_byte c ++ defang_loop dfsize rest (pos + (defang_byte c).length)
    else []

/-- The function `defang`: the string written to `dfstr`. -/
def defang (str : List Char) (dfsize : Int) : List Char := defang_loop dfsize str 0

/-- The escape of a string as the specification words it: `<` becomes `&lt;`,
`>` becomes `&gt;`, every other byte is copied. -/
def html_escape (s : List Char) : List Char :=
  (s.map (fun c => if c = '<' then "&lt;".toList else if c = '>' then "&gt;".toList
    else [c])).flatten

/-- The call `strrchr( s, c )` for a byte `c` other than NUL: offset of the last `c`. -/
def strrchr (s : List Char) (c : Char) : Option Nat :=
  match s with
  | [] => none
  | d :: s =>
    match strrchr s c with
    | some i => some (i + 1)
    | none => if d = c then some 0 else none

/-- The loop of `make_argp` over the query, which lies in the memory `mem`; `cp1` and
`cp2` are the positions of the two pointers and `args` the pointers stored in `argp` so
far. At the end of the query the last piece is decoded if it is not empty. `fuel` bounds
the number of turns, and there is no result when it runs out. The result is the memory
and the pointers stored in `argp[1..]`. -/
def make_argp_loop : Nat → List Char → Nat → Nat → List Nat → Option (List Char × List Nat)
  | 0, _, _, _, _ => none
  | fuel + 1, mem, cp1, cp2, args =>
    if cAt mem cp2 = '\x00' then
      if cp2 ≠ cp1 then
        match strdecode_mem mem cp1 cp1 with
        | some r => some (r.1, args ++ [cp1])
        | none => none
      else some (mem, args)
    else if cAt mem cp2 = '+' then
      match strdecode_mem (mem.set cp2 '\x00') cp1 cp1 with
      | some r => make_argp_loop fuel r.1 (cp2 + 1) (cp2 + 1) (args ++ [cp1])
      | none => none
    else make_argp_loop fuel mem cp1 (cp2 + 1) args

/-- The function `make_argp`: the strings of the argument vector, before the terminating
NULL. `expnfilename` and `query` are the two strings of the connection; the query lies
in a memory of its own, followed by its terminator. -/
def make_argp (expnfilename query : List Char) : Option (List (List Char)) :=
  let argp0 := match strrchr expnfilename '/' with
    | some i => expnfilename.drop (i + 1)
    | none => expnfilename
  if (strchr query '=').isNone then
    match make_argp_loop (query.length + 1) (query ++ ['\x00']) 0 0 [] with
    | some r => some (argp0 :: r.2.map (fun p => cstr (r.1.drop p)))
    | none => none
  else some [argp0]

/-- The pieces of the query as the specification words them: the query is split at every
`+`, and an empty piece after a trailing `+` (or the only piece of an empty query) is
dropped. -/
def query_pieces (query : List Char) : List (List Char) :=
  if (query.splitOn '+').getLast? = some [] then (query.splitOn '+').dropLast
  else query.splitOn '+'

/-! ## Request lines and header lines (libhttpd.c) -/

/-- A word of a request line: it has no byte of `" \t\012\015"` and no NUL. -/
def Word (s : List Char) : Prop := ∀ c ∈ s, reqWs.contains c = false ∧ c ≠ '\x00'

/-- The request line `method url protocol`, ended by CRLF and followed by `rest`. -/
def request_line (method url protocol rest : List Char) : List Char :=
  method ++ ' ' :: url ++ ' ' :: protocol ++ '\r' :: '\n' :: rest

/-- The request line `method url` without a protocol, ended by CRLF and followed by
`rest`. -/
def simple_request_line (method url rest : List Char) : List Char :=
  method ++ ' ' :: url ++ '\r' :: '\n' :: rest

/-- The fields `accept` and `accepte` of `httpd_conn`, as C strings. -/
structure AcceptFields where
  accept : List Char
  accepte : List Char
  deriving DecidableEq, Repr

/-- The value of a header line `buf` whose name and colon take `n` bytes:
`cp = &buf[n]; cp += strspn( cp, " \t" )`. -/
def header_value (buf : List Char) (n : Nat) : List Char :=
  (buf.drop n).drop (strspn (buf.drop n) [' ', '\t'])

/-- The effect of one turn of the header loop of `httpd_parse_request` on `accept` and
`accepte`, for the header line `buf`: the tests on the name of the header are made in the
order of the source, and the branches that come after `Accept-Encoding:` leave the two
fields alone. An error is the status given to `httpd_send_err` by the `Host:` branch. -/
def accept_header_line (st : AcceptFields) (buf : List Char) : Except Nat AcceptFields :=
  if strncasecmp_eq buf "Referer:".toList 8 then .ok st
  else if strncasecmp_eq buf "Referrer:".toList 9 then .ok st
  else if strncasecmp_eq buf "User-Agent:".toList 11 then .ok st
  else if strncasecmp_eq buf "Host:".toList 5 then
    let cp := header_value buf 5
    let hdrhost := match strchr cp ':' with
      | some i => cp.take i
      | none => cp
    if (strchr hdrhost '/').isSome ∨ cAt hdrhost 0 = '.' then .error 400 else .ok st
  else if strncasecmp_eq buf "Accept:".toList 7 then
    let cp := header_value buf 7
    if st.accept ≠ [] then
      if st.accept.length > 5000 then .ok st
      else
        -- strcat( hc->accept, ", " ); strcat( hc->accept, cp );
        .ok { st with accept := (st.accept ++ [',', ' ']) ++ cp }
    else .ok { st with accept := st.accept ++ cp }
  else if strncasecmp_eq buf "Accept-Encoding:".toList 16 then
    let cp := header_value buf 16
    if st.accepte ≠ [] then
      if st.accepte.length > 5000 then .ok st
      else
        -- strcat( hc->accepte, ", " ); strcpy( hc->accepte, cp );
        let _appended := st.accepte ++ [',', ' ']
        .ok { st with accepte := cp }
    else .ok { st with accepte := cp }
  else .ok st

/-- The header loop of `httpd_parse_request` on what is left of the read buffer after the
request line, as far as `accept` and `accepte` go: lines are taken with `bufgets` until
an empty line or the end of the buffer. `fuel` bounds the number of lines, and there is
no result when it runs out. -/
def read_accept_headers : Nat → List Char → AcceptFields → Option (Except Nat AcceptFields)
  | 0, _, _ => none
  | fuel + 1, buf, st =>
    match bufgets buf with
    | none => some (.ok st)
    | some (line, rest) =>
      if cstr line = [] then some (.ok st)
      else
        match accept_header_line st (cstr line) with
        | .error e => some (.error e)
        | .ok st => read_accept_headers fuel rest st

/-- The fields `accept` and `accepte` after `httpd_parse_request` has read the headers
`headers` (what follows the request line in the read buffer); `httpd_get_conn` leaves
both fields empty. -/
def parsed_accept_fields (headers : List Char) : Option (Except Nat AcceptFields) :=
  read_accept_headers (headers.length + 1) headers { accept := [], accepte := [] }

/-! ## The connection table and its free list (thttpd.c) -/

/-- The fields of `connecttab` that the free list of the connection table is made of. -/
structure Slot where
  conn_state : ConnState
  next_free_connect : Int
  deriving DecidableEq, Repr

/-- The globals `connects` (of `max_connects` slots), `first_free_connect` and
`num_connects`. -/
structure Pool where
  connects : List Slot
  first_free_connect : Int
  num_connects : Int
  deriving DecidableEq, Repr

/-- The global `max_connects`: the number of slots of the table. -/
def Pool.max_connects (p : Pool) : Int := p.connects.length

/-- The initialisation of the connection table in `main`, for `max_connects ≥ 1`. -/
def pool_init (max_connects : Nat) : Pool :=
  let connects : List Slot := (List.range max_connects).map
    (fun (cnum : Nat) => { conn_state := .CNST_FREE, next_free_connect := (cnum : Int) + 1 })
  -- end of link list
  let connects := connects.set (max_connects - 1)
    { conn_state := .CNST_FREE, next_free_connect := -1 }
  { connects := connects, first_free_connect := 0, num_connects := 0 }

/-- What `httpd_get_conn` answers. -/
inductive GetConn where
  | GC_OK | GC_FAIL | GC_NO_MORE
  deriving DecidableEq, Repr

/-- How `handle_newconnect` ends: it returns 0 or 1, or it calls `exit( 1 )` after
logging "the connects free list is messed up". -/
inductive Newconnect where
  | returned (value : Int)
  | free_list_messed_up
  deriving DecidableEq, Repr

/-- The slot `connects[cnum]`, if `cnum` is an index of the table. -/
def Pool.slot (p : Pool) (cnum : Int) : Option Slot :=
  if cnum < 0 then none else p.connects[cnum.toNat]?

/-- One turn of the loop of `handle_newconnect`, in which `httpd_get_conn` answers `gc`:
the table after a connection has been accepted, or how the function ends. An index
`first_free_connect` outside the table is treated like a slot that is not free. -/
def handle_newconnect_turn (gc : GetConn) (p : Pool) : Pool ⊕ Newconnect :=
  -- is there room in the connection table?
  if p.num_connects ≥ p.max_connects then .inr (.returned 0)
  else
    -- get the first free connection entry off the free list
    match p.slot p.first_free_connect with
    | none => .inr .free_list_messed_up
    | some c =>
      if p.first_free_connect = -1 ∨ c.conn_state ≠ .CNST_FREE then .inr .free_list_messed_up
      else
        match gc with
        | .GC_FAIL => .inr (.returned 0)
        | .GC_NO_MORE => .inr (.returned 1)
        | .GC_OK =>
          -- pop it off the free list
          .inl { connects := p.connects.set p.first_free_connect.toNat
                   { conn_state := .CNST_READING, next_free_connect := -1 },
                 first_free_connect := c.next_free_connect,
                 num_connects := p.num_connects + 1 }

/-- The function `handle_newconnect`; `results` lists what the successive calls of
`httpd_get_conn` answer, and a call after the last of them answers `GC_NO_MORE`. -/
def handle_newconnect : List GetConn → Pool → Pool × Newconnect
  | [], p =>
    match handle_newconnect_turn .GC_NO_MORE p with
    | .inl p' => (p', .returned 1)
    | .inr r => (p, r)
  | gc :: results, p =>
    match handle_newconnect_turn gc p with
    | .inl p' => handle_newconnect results p'
    | .inr r => (p, r)

/-- The function `really_clear_connection` on the slot `cnum`, as far as the table and
its free list go. -/
def really_clear_connection (p : Pool) (cnum : Nat) : Pool :=
  { connects := p.connects.set cnum
      { conn_state := .CNST_FREE, next_free_connect := p.first_free_connect },
    first_free_connect := cnum,
    num_connects := p.num_connects - 1 }

/-- An assignment `c->conn_state = st` by one of the handlers (`handle_read`,
`handle_send`, `clear_connection`, `wakeup_connection`) on the slot `cnum`. -/
def set_conn_state (p : Pool) (cnum : Nat) (st : ConnState) : Pool :=
  match p.connects[cnum]? with
  | none => p
  | some c => { p with connects := p.connects.set cnum { c with conn_state := st } }

/-- The slots met from `cur` on along `next_free_connect`, up to the end mark -1; `fuel`
bounds the number of slots, and there is no result when the end mark is not reached or
an index lies outside the table. -/
def free_list_walk (connects : List Slot) : Nat → Int → Option (List Nat)
  | 0, cur => if cur = -1 then some [] else none
  | fuel + 1, cur =>
    if cur = -1 then some []
    else if cur < 0 then none
    else
      match connects[cur.toNat]? with
      | none => none
      | some c => (free_list_walk connects fuel c.next_free_connect).map (cur.toNat :: ·)

/-- The free list of the table: the slots met from `first_free_connect` on. A list that
visits no slot twice has at most `max_connects` slots. -/
def free_list (p : Pool) : Option (List Nat) :=
  free_list_walk p.connects p.connects.length p.first_free_connect

/-- The states of the connection table reachable from its initialisation (with
`max_connects ≥ 1`) by `handle_newconnect`, by `really_clear_connection` on a connection
in use (its callers act on connections that are reading, sending, pausing or lingering)
and by the changes of state of a connection in use made by the handlers. -/
inductive Reachable (max_connects : Nat) : Pool → Prop where
  | init : Reachable max_connects (pool_init max_connects)
  | newconnect (p : Pool) (results : List GetConn) :
      Reachable max_connects p → Reachable max_connects (handle_newconnect results p).1
  | clear (p : Pool) (cnum : Nat) (c : Slot) :
      Reachable max_connects p → p.connects[cnum]? = some c → c.conn_state ≠ .CNST_FREE →
      Reachable max_connects (really_clear_connection p cnum)
  | state (p : Pool) (cnum : Nat) (c : Slot) (st : ConnState) :
      Reachable max_connects p → p.connects[cnum]? = some c → c.conn_state ≠ .CNST_FREE →
      st ≠ .CNST_FREE → Reachable max_connects (set_conn_state p cnum st)

/-- The list `l` is the free list from `first` on: each slot of `l` points to the next
one, and the last one to -1. -/
def FreeChain (connects : List Slot) : Int → List Nat → Prop
  | first, [] => first = -1
  | first, i :: l =>
    first = (i : Int) ∧ ∃ c, connects[i]? = some c ∧ FreeChain connects c.next_free_connect l

/-- The invariant of the connection table: `l` is the free list, it visits no slot twice,
its slots are exactly the free slots, and `num_connects` counts the other slots. -/
structure PoolInv (p : Pool) (l : List Nat) : Prop where
  chain : FreeChain p.connects p.first_free_connect l
  nodup : l.Nodup
  free : ∀ i, i ∈ l ↔ ∃ c, p.connects[i]? = some c ∧ c.conn_state = .CNST_FREE
  count : p.num_connects = (p.connects.length : Int) - (l.length : Int)

/-! ## Reachable states of the cache of mapped files -/

/-- The states of the cache reachable from the initial values of its globals by calls of
`mmc_map`, `mmc_unmap`, `mmc_cleanup` and `mmc_destroy`. -/
inductive MmcReachable : Mmc → Prop where
  | init : MmcReachable mmc_init
  | map (s : Mmc) (sb : Stat) (now : Int) (env : MapEnv) :
      MmcReachable s → MmcReachable (mmc_map s sb now env).2
  | unmap (s : Mmc) (addr : Nat) (sbP : Option Stat) (now : Int) :
      MmcReachable s → MmcReachable (mmc_unmap s addr sbP now)
  | cleanup (s : Mmc) (now : Int) : MmcReachable s → MmcReachable (mmc_cleanup s now)
  | destroy (s : Mmc) : MmcReachable s → MmcReachable (mmc_destroy s)

/-! ## cgi_interpose_output (libhttpd.c): the status of a CGI answer -/

/-- The call `strcspn( s, set )`: length of the initial run of bytes of `s` that are not
in `set`. -/
def strcspn (s : List Char) (set : List Char) : Nat :=
  match s with
  | [] => 0
  | c :: s => if set.contains c then 0 else strcspn s set + 1

/-- The C library function `atoi`, as `(int) strtol( s, 0, 10 )`. -/
def atoi (s : List Char) : Int :=
  (atoll s + (2 : Int) ^ 31) % (2 : Int) ^ 32 - (2 : Int) ^ 31

/-- The position `br` that the reading loop of `cgi_interpose_output` leaves: the first
`\r\n\r\n` of the accumulated headers, else their first `\n\n`, else (end of file) their
end. -/
def cgi_headers_end (headers : List Char) : Nat :=
  match strstr headers ['\r', '\n', '\r', '\n'] with
  | some i => i
  | none =>
    match strstr headers ['\n', '\n'] with
    | some i => i
    | none => headers.length

/-- The status that `cgi_interpose_output` figures out from the accumulated `headers`;
there is none when the CGI program wrote no headers. -/
def cgi_status (headers : List Char) : Option Int :=
  let br := cgi_headers_end headers
  -- if there were no headers, bail
  if headers = [] then none
  else
    let status : Int := 200
    let status :=
      if hasPrefix headers "HTTP/".toList then
        atoi (headers.drop (strcspn headers [' ', '\t']))
      else status
    let status :=
      match strstr headers "Location:".toList with
      | some cp => if cp < br ∧ (cp = 0 ∨ cAt headers (cp - 1) = '\n') then 302 else status
      | none => status
    let status :=
      match strstr headers "Status:".toList with
      | some cp =>
        if cp < br ∧ (cp = 0 ∨ cAt headers (cp - 1) = '\n') then
          atoi ((headers.drop (cp + 7)).drop (strspn (headers.drop (cp + 7)) [' ', '\t']))
        else status
      | none => status
    some status

/-! ## cgi (libhttpd.c) and handle_chld (thttpd.c): the count of running CGI programs -/

/-- The two fields of `httpd_server` that `cgi` and `handle_chld` work on. -/
structure CgiServer where
  cgi_limit : Int
  cgi_count : Int
deriving DecidableEq, Repr

/-- What a call of `cgi` leaves in the calling process: the value returned (`none` in the
child, which goes into `cgi_child` and never returns), the status of the answer that was
prepared, and the server. -/
structure CgiOut where
  ret : Option Int
  status : Option Int
  hs : CgiServer
deriving DecidableEq, Repr

/-- The function `cgi`, with the value `r` that `fork( )` returns as a parameter
(it is looked at only when the ceiling lets the request through). -/
def cgi (hs : CgiServer) (r : Int) : CgiOut :=
  if hs.cgi_limit ≠ 0 ∧ hs.cgi_count ≥ hs.cgi_limit then
    { ret := some (-1), status := some 503, hs := hs }
  else
    let hs := { hs with cgi_count := hs.cgi_count + 1 }
    if r < 0 then
      { ret := some (-1), status := some 500, hs := hs }
    else if r = 0 then
      -- Child process.
      { ret := none, status := none, hs := hs }
    else
      -- Parent process.
      { ret := some 0, status := some 200, hs := hs }

/-- One turn of the loop of `handle_chld`, for a child that `waitpid` reaped: the count
goes down by one and is kept from going below zero. -/
def handle_chld_reaped (hs : CgiServer) : CgiServer :=
  let hs := { hs with cgi_count := hs.cgi_count - 1 }
  if hs.cgi_count < 0 then { hs with cgi_count := 0 } else hs

/-! ## handle_read (thttpd.c): the request arrives in pieces -/

open CheckedState GotRequest

/-- The connection as `httpd_get_conn` sets it up: nothing read, nothing checked. -/
def initial_read : ReadState :=
  { read_buf := [], read_idx := 0, checked_idx := 0, checked_state := CHST_FIRSTWORD }

/-- The `read` of `handle_read` that delivers the bytes `chunk`: they are stored at
`read_buf[read_idx]` and `read_idx` moves behind them. -/
def read_bytes (hc : ReadState) (chunk : List Char) : ReadState :=
  { hc with
    read_buf := hc.read_buf.take hc.read_idx ++ chunk
    read_idx := hc.read_idx + chunk.length }

/-- The calls of `handle_read` for the chunks that arrive, one call per chunk: the
chunk is read, `httpd_got_request` is asked, and the connection goes on reading only on
`GR_NO_REQUEST`. The result is the last verdict and the connection after it. -/
def read_chunks : List (List Char) → ReadState → GotRequest × ReadState
  | [], hc => (GR_NO_REQUEST, hc)
  | chunk :: rest, hc =>
    let out := httpd_got_request (read_bytes hc chunk)
    if out.result = GR_NO_REQUEST then read_chunks rest out.hc
    else (out.result, out.hc)

/-- The verdicts of calling `httpd_got_request` after each of the chunks `later` has been
read, whatever the earlier verdicts were. -/
def later_verdicts : List (List Char) → ReadState → List GotRequest
  | [], _ => []
  | chunk :: rest, hc =>
    let out := httpd_got_request (read_bytes hc chunk)
    out.result :: later_verdicts rest out.hc

/-- The loop of `httpd_got_request` as a function of the bytes from `read_buf[checked_idx]`
up to `read_buf[read_idx]` alone: the verdict, and the `checked_state` and `checked_idx`
that are left. -/
def got_request_scan : CheckedState → Nat → List Char → GotRequest × CheckedState × Nat
  | st, i, [] => (GR_NO_REQUEST, st, i)
  | st, i, c :: cs =>
    match got_request_switch st c with
    | (st1, some r) => (r, st1, i)
    | (st1, none) => got_request_scan st1 (i + 1) cs

/-! ## b64_decode (libhttpd.c) -/

/-- The array `b64_decode_table`, one row for sixteen byte values. -/
def b64_decode_table : List Int := [
    -1,-1,-1,-1,-1,-1,-1,-1,-1,-1,-1,-1,-1,-1,-1,-1,  -- 00-0F
    -1,-1,-1,-1,-1,-1,-1,-1,-1,-1,-1,-1,-1,-1,-1,-1,  -- 10-1F
    -1,-1,-1,-1,-1,-1,-1,-1,-1,-1,-1,62,-1,-1,-1,63,  -- 20-2F
    52,53,54,55,56,57,58,59,60,61,-1,-1,-1,-1,-1,-1,  -- 30-3F
    -1, 0, 1, 2, 3, 4, 5, 6, 7, 8, 9,10,11,12,13,14,  -- 40-4F
    15,16,17,18,19,20,21,22,23,24,25,-1,-1,-1,-1,-1,  -- 50-5F
    -1,26,27,28,29,30,31,32,33,34,35,36,37,38,39,40,  -- 60-6F
    41,42,43,44,45,46,47,48,49,50,51,-1,-1,-1,-1,-1,  -- 70-7F
    -1,-1,-1,-1,-1,-1,-1,-1,-1,-1,-1,-1,-1,-1,-1,-1,  -- 80-8F
    -1,-1,-1,-1,-1,-1,-1,-1,-1,-1,-1,-1,-1,-1,-1,-1,  -- 90-9F
    -1,-1,-1,-1,-1,-1,-1,-1,-1,-1,-1,-1,-1,-1,-1,-1,  -- A0-AF
    -1,-1,-1,-1,-1,-1,-1,-1,-1,-1,-1,-1,-1,-1,-1,-1,  -- B0-BF
    -1,-1,-1,-1,-1,-1,-1,-1,-1,-1,-1,-1,-1,-1,-1,-1,  -- C0-CF
    -1,-1,-1,-1,-1,-1,-1,-1,-1,-1,-1,-1,-1,-1,-1,-1,  -- D0-DF
    -1,-1,-1,-1,-1,-1,-1,-1,-1,-1,-1,-1,-1,-1,-1,-1,  -- E0-EF
    -1,-1,-1,-1,-1,-1,-1,-1,-1,-1,-1,-1,-1,-1,-1,-1]  -- F0-FF

/-- The variables of `b64_decode` that live across the turns of its loop. The bytes stored
so far are `space[0..space_idx)`, so `space_idx` is the length of `space`; `prev_d` only
ever holds `0` or a table entry other than `-1`. -/
structure B64State where
  space : List Nat
  phase : Nat
  prev_d : Nat
deriving DecidableEq, Repr

/-- The statement `if ( space_idx < size ) space[space_idx++] = c;`, the value being
narrowed to `unsigned char`. -/
def b64_store (space : List Nat) (size : Int) (c : Nat) : List Nat :=
  if (space.length : Int) < size then space ++ [c % 256] else space

/-- The body of `if ( d != -1 )` in the loop of `b64_decode`. -/
def b64_digit (size : Int) (st : B64State) (d : Nat) : B64State :=
  let st :=
    match st.phase with
    | 0 => { st with phase := st.phase + 1 }
    | 1 =>
      let c := (st.prev_d <<< 2) ||| ((d &&& 0x30) >>> 4)
      { st with space := b64_store st.space size c, phase := st.phase + 1 }
    | 2 =>
      let c := ((st.prev_d &&& 0xf) <<< 4) ||| ((d &&& 0x3c) >>> 2)
      { st with space := b64_store st.space size c, phase := st.phase + 1 }
    | 3 =>
      let c := ((st.prev_d &&& 0x03) <<< 6) ||| d
      { st with space := b64_store st.space size c, phase := 0 }
    | _ => st
  { st with prev_d := d }

/-- The loop `for ( cp = str; *cp != '\0'; ++cp )` of `b64_decode`. -/
def b64_decode_loop : List Char → Int → B64State → B64State
  | [], _, st => st
  | ch :: cp, size, st =>
    if ch = '\x00' then st
    else
      let d := b64_decode_table.getD ch.toNat (-1)
      b64_decode_loop cp size (if d ≠ -1 then b64_digit size st d.toNat else st)

/-- The function `b64_decode`: the bytes stored in `space`, and the value returned. -/
def b64_decode (str : List Char) (size : Int) : List Nat × Int :=
  let st := b64_decode_loop str size { space := [], phase := 0, prev_d := 0 }
  (st.space, st.space.length)

/-- The alphabet of base 64, in the order of the values 0 to 63. -/
def b64_alphabet : List Char :=
  "ABCDEFGHIJKLMNOPQRSTUVWXYZabcdefghijklmnopqrstuvwxyz0123456789+/".toList

/-- The character that stands for the six-bit value `v`. -/
def b64_char (v : Nat) : Char := b64_alphabet.getD v 'A'

/-- The standard base-64 encoding of a string of bytes, by the words of the claim: three
bytes give four characters, and a last group of one or two bytes is filled up with `=`. -/
def b64_encode : List Nat → List Char
  | [] => []
  | [a] => [b64_char (a / 4), b64_char (a % 4 * 16), '=', '=']
  | [a, b] => [b64_char (a / 4), b64_char (a % 4 * 16 + b / 16), b64_char (b % 16 * 4), '=']
  | a :: b :: c :: x =>
    b64_char (a / 4) :: b64_char (a % 4 * 16 + b / 16) :: b64_char (b % 16 * 4 + c / 64)
      :: b64_char (c % 64) :: b64_encode x

/-- The string `s` is the string `enc` with bytes outside the alphabet inserted anywhere. -/
def outside_inserted : List Char → List Char → Bool
  | [], [] => true
  | [], c :: s => !b64_alphabet.contains c && outside_inserted [] s
  | _ :: _, [] => false
  | e :: enc, c :: s =>
    (c == e && outside_inserted enc s)
      || (!b64_alphabet.contains c && outside_inserted (e :: enc) s)

/-- A connection about to send a file of five bytes whose share of its throttle is zero
bytes per second; the response headers are still to be written. -/
def starved_connecttab : Connecttab :=
  { sample_connecttab { sample_conn 5 with response := "HTTP/1.1 200 OK\r\n\r\n".toList } with
    conn_state := .CNST_SENDING, tnums := [0], max_limit := 0, end_byte_index := 5 }

/-- A connection that has sent 5000 bytes of a file of 9000 bytes in its first second,
under a limit of 1000 bytes per second. -/
def hasty_connecttab : Connecttab :=
  { sample_connecttab { sample_conn 9000 with bytes_sent := 5000 } with
    conn_state := .CNST_SENDING, tnums := [0], max_limit := 1000, end_byte_index := 9000,
    next_byte_index := 5000 }

/-! ## mmc.c: the hash table after a failed `malloc` -/

/-- The files with inodes 1 to `n` (one byte each) are mapped in this order, every system
call succeeding. -/
def map_files : Nat → Mmc → Mmc
  | 0, s => s
  | n + 1, s => (mmc_map (map_files n s) (stat_of (n + 1) 1 0) 0 (env_ok (4096 * (n + 1)))).2

/-- After 342 files have been mapped, a call of `mmc_map` for one more file in which the
`malloc` of the hash table fails. -/
def table_malloc_failed : Mmc :=
  (mmc_map (map_files 342 mmc_init) (stat_of 343 1 0) 0
    { env_ok 1404928 with table_malloc_ok := false }).2

/-! ## The window of bytes to send -/

/-- What holds of the range fields of a connection from `httpd_get_conn` on, through the
header loop of `httpd_parse_request`: the first index is not negative, the last index is
not below `-1`, and a range is only ever got from a header, which are read only when
`mime_flag` is set. -/
structure RangeParsed (hc : HttpdConn) : Prop where
  first : 0 ≤ hc.first_byte_index
  last : -1 ≤ hc.last_byte_index
  mime : hc.got_range = true → hc.mime_flag = true

/-! ## update_throttles and clear_throttles (thttpd.c) -/

/-- The messages that `update_throttles` logs for the throttle of index `tnum`. -/
inductive ThrottleNote where
  | greatly_exceeding (tnum : Nat)
  | exceeding (tnum : Nat)
  | lower_than_minimum (tnum : Nat)
  deriving DecidableEq, Repr

/-- The first two statements of the first loop of `update_throttles`, for one throttle:
the average rate is updated and the byte count starts again at zero. The constant
`THROTTLE_TIME` of `config.h` is the parameter `throttle_time`. -/
def update_rate (throttle_time : Int) (t : Throttle) : Throttle :=
  { t with
    rate := Int.tdiv (2 * t.rate + Int.tdiv t.bytes_since_avg throttle_time) 3
    bytes_since_avg := 0 }

/-- The rest of the body of the first loop of `update_throttles`, for the throttle `t` of
index `tnum` after its rate is updated: the warnings logged. -/
def throttle_notes (tnum : Nat) (t : Throttle) : List ThrottleNote :=
  (if t.rate > t.max_limit ∧ t.num_sending ≠ 0 then
    (if t.rate > t.max_limit * 2 then [ThrottleNote.greatly_exceeding tnum]
     else [ThrottleNote.exceeding tnum])
   else []) ++
  (if t.rate < t.min_limit ∧ t.num_sending ≠ 0 then [ThrottleNote.lower_than_minimum tnum]
   else [])

/-- The loop `for ( tind = 0; tind < c->numtnums; ++tind )` of `update_throttles` over the
throttles of a connection, with the value of `c->max_limit` so far. There is no result
when `max_limit` is divided by a sending count of zero (or an index lies outside the
table). -/
def share_max_limit (throttles : List Throttle) : List Nat → Int → Option Int
  | [], max_limit => some max_limit
  | tnum :: tnums, max_limit =>
    match throttles[tnum]? with
    | none => none
    | some t =>
      if t.num_sending = 0 then none
      else
        let l := Int.tdiv t.max_limit t.num_sending
        share_max_limit throttles tnums
          (if max_limit = THROTTLE_NOLIMIT then l else min max_limit l)

/-- The body of the second loop of `update_throttles`, for one connection. -/
def update_max_limit (throttles : List Throttle) (c : Connecttab) : Option Connecttab :=
  if c.conn_state = .CNST_SENDING ∨ c.conn_state = .CNST_PAUSING then
    match share_max_limit throttles c.tnums THROTTLE_NOLIMIT with
    | none => none
    | some l => some { c with max_limit := l }
  else some c

/-- The second loop of `update_throttles`, over the connection table. -/
def update_connects (throttles : List Throttle) : List Connecttab → Option (List Connecttab)
  | [] => some []
  | c :: connects =>
    match update_max_limit throttles c with
    | none => none
    | some c1 =>
      match update_connects throttles connects with
      | none => none
      | some rest => some (c1 :: rest)

/-- The outcome of `update_throttles`: the throttle table, the connection table (nothing
when the function divides by zero) and the warnings logged. -/
structure UpdateOut where
  throttles : List Throttle
  connects : Option (List Connecttab)
  notes : List ThrottleNote

/-- The function `update_throttles`. -/
def update_throttles (throttle_time : Int) (throttles : List Throttle)
    (connects : List Connecttab) : UpdateOut :=
  -- update the average sending rate for each throttle
  let throttles := throttles.map (update_rate throttle_time)
  let notes := (throttles.enum.map (fun p => throttle_notes p.1 p.2)).flatten
  -- now update the sending rate on all the currently-sending connections
  { throttles := throttles,
    connects := update_connects throttles connects,
    notes := notes }

/-- The function `clear_throttles`. -/
def clear_throttles (c : Connecttab) (throttles : List Throttle) : List Throttle :=
  c.tnums.foldl (fun ts tnum =>
    ts.modify (fun t => { t with num_sending := t.num_sending - 1 }) tnum) throttles

/-- The function `really_clear_connection`, as far as the state of the connection and the
throttles go (the free list of the table is the matter of `really_clear_connection`
above). -/
def really_clear_connection_throttles (c : Connecttab) (throttles : List Throttle) :
    Connecttab × List Throttle :=
  ({ c with conn_state := .CNST_FREE }, clear_throttles c throttles)

/-- The function `clear_connection`; `should_linger` is the flag `hc->should_linger`. -/
def clear_connection (c : Connecttab) (throttles : List Throttle) (should_linger : Bool) :
    Connecttab × List Throttle :=
  let c := { c with wakeup_timer := none }
  -- if we were already lingering, shut down for real
  let should_linger := if c.conn_state = .CNST_LINGERING then false else should_linger
  if should_linger then ({ c with conn_state := .CNST_LINGERING }, throttles)
  else really_clear_connection_throttles c throttles

/-- The statements of `handle_newconnect` on the slot it takes off the free list. -/
def handle_newconnect_slot (c : Connecttab) (now : Int) : Connecttab :=
  { c with conn_state := .CNST_READING, active_at := now, wakeup_timer := none,
           next_byte_index := 0, tnums := [] }

/-- The function `handle_read` from the call of `check_throttles` on, for a request that
is complete and parsed: a request that `check_throttles` rejects is answered 503 and the
connection is finished; otherwise the connection starts sending (`sending`), or is
finished when `httpd_start_request` fails or leaves nothing to send. -/
def handle_read_checked (mtch : List Char → List Char → Bool) (maxthrottlenums : Nat)
    (expnfilename : List Char) (c : Connecttab) (throttles : List Throttle)
    (sending should_linger : Bool) : Connecttab × List Throttle :=
  let r := check_throttles mtch maxthrottlenums expnfilename c throttles
  if !r.1 then clear_connection r.2.1 r.2.2 should_linger
  else if sending then ({ r.2.1 with conn_state := .CNST_SENDING }, r.2.2)
  else clear_connection r.2.1 r.2.2 should_linger

/-- The connection table and the throttle table. -/
structure Server where
  connects : List Connecttab
  throttles : List Throttle

/-- The tables after a handler has worked on the slot `cnum` and left `r`. -/
def Server.handled (s : Server) (cnum : Nat) (r : Connecttab × List Throttle) : Server :=
  { connects := s.connects.set cnum r.1, throttles := r.2 }

/-- The connection is not free and has the throttle `tnum` among `tnums[0 .. numtnums)`. -/
def sends_under (tnum : Nat) (c : Connecttab) : Bool :=
  c.conn_state != .CNST_FREE && c.tnums.contains tnum

/-- The number of connections that are not free and have the throttle `tnum` among their
`tnums`. -/
def senders (connects : List Connecttab) (tnum : Nat) : Nat :=
  connects.countP (sends_under tnum)

/-- The states of the two tables reachable from the start of the server (every slot free,
every sending count zero) through `handle_newconnect`, `handle_read` with its call of
`check_throttles`, the switches between sending and pausing, the byte counts of
`handle_send`, `clear_connection`, `really_clear_connection` and `update_throttles`; the
step `other` stands for the assignments of the handlers to fields other than
`conn_state`, `tnums` and `num_sending`. -/
inductive ServerReachable (mtch : List Char → List Char → Bool) (maxthrottlenums : Nat) :
    Server → Prop where
  | init (connects : List Connecttab) (throttles : List Throttle) :
      (∀ c ∈ connects, c.conn_state = .CNST_FREE) → (∀ t ∈ throttles, t.num_sending = 0) →
      ServerReachable mtch maxthrottlenums { connects := connects, throttles := throttles }
  | newconnect (s : Server) (cnum : Nat) (c : Connecttab) (now : Int) :
      ServerReachable mtch maxthrottlenums s → s.connects[cnum]? = some c →
      c.conn_state = .CNST_FREE →
      ServerReachable mtch maxthrottlenums
        (s.handled cnum (handle_newconnect_slot c now, s.throttles))
  | read (s : Server) (cnum : Nat) (c : Connecttab) (expnfilename : List Char)
      (sending should_linger : Bool) :
      ServerReachable mtch maxthrottlenums s → s.connects[cnum]? = some c →
      c.conn_state = .CNST_READING →
      ServerReachable mtch maxthrottlenums
        (s.handled cnum (handle_read_checked mtch maxthrottlenums expnfilename c s.throttles
          sending should_linger))
  | pace (s : Server) (cnum : Nat) (c : Connecttab) (st : ConnState) (n : Int) :
      ServerReachable mtch maxthrottlenums s → s.connects[cnum]? = some c →
      (c.conn_state = .CNST_SENDING ∨ c.conn_state = .CNST_PAUSING) →
      (st = .CNST_SENDING ∨ st = .CNST_PAUSING) →
      ServerReachable mtch maxthrottlenums
        (s.handled cnum ({ c with conn_state := st },
          add_bytes_since_avg s.throttles c.tnums n))
  | clear (s : Server) (cnum : Nat) (c : Connecttab) (should_linger : Bool) :
      ServerReachable mtch maxthrottlenums s → s.connects[cnum]? = some c →
      c.conn_state ≠ .CNST_FREE →
      ServerReachable mtch maxthrottlenums
        (s.handled cnum (clear_connection c s.throttles should_linger))
  | really_clear (s : Server) (cnum : Nat) (c : Connecttab) :
      ServerReachable mtch maxthrottlenums s → s.connects[cnum]? = some c →
      c.conn_state ≠ .CNST_FREE →
      ServerReachable mtch maxthrottlenums
        (s.handled cnum (really_clear_connection_throttles c s.throttles))
  | other (s : Server) (connects : List Connecttab) (throttles : List Throttle) :
      ServerReachable mtch maxthrottlenums s →
      connects.map (fun c => (c.conn_state, c.tnums))
        = s.connects.map (fun c => (c.conn_state, c.tnums)) →
      throttles.map (fun t => t.num_sending) = s.throttles.map (fun t => t.num_sending) →
      ServerReachable mtch maxthrottlenums { connects := connects, throttles := throttles }
  | update (s : Server) (throttle_time : Int) (connects : List Connecttab) :
      ServerReachable mtch maxthrottlenums s →
      (update_throttles throttle_time s.throttles s.connects).connects = some connects →
      ServerReachable mtch maxthrottlenums
        { connects := connects,
          throttles := (update_throttles throttle_time s.throttles s.connects).throttles }

/-- What holds of the two tables in every reachable state: the sending counts are exact,
a connection that is still reading has no throttle, and the throttles of a connection
that is not free are different indexes into the table. -/
structure SendersInv (s : Server) : Prop where
  exact : ∀ tnum t, s.throttles[tnum]? = some t →
    t.num_sending = ((senders s.connects tnum : Nat) : Int)
  reading : ∀ c ∈ s.connects, c.conn_state = .CNST_READING → c.tnums = []
  bound : ∀ c ∈ s.connects, c.conn_state ≠ .CNST_FREE →
    c.tnums.Nodup ∧ ∀ tnum ∈ c.tnums, tnum < s.throttles.length

/-- A free slot of the connection table. -/
def free_slot : Connecttab :=
  { sample_connecttab (sample_conn 5) with conn_state := .CNST_FREE }

/-- A server with two free slots and the throttles `* 1000` and `* 100-900`, at rest. -/
def idle_server : Server :=
  { connects := [free_slot, free_slot],
    throttles := [throttle_line ['*'] 0 1000, throttle_line ['*'] 100 900] }

/-- The first slot of `idle_server` after `handle_newconnect` at time 0. -/
def accepted_server : Server :=
  idle_server.handled 0 (handle_newconnect_slot free_slot 0, idle_server.throttles)

/-- The request on the first slot is read: the first throttle is bound, the second
rejects the request for its rate under the minimum, and the connection lingers. -/
def rejected_server : Server :=
  accepted_server.handled 0
    (handle_read_checked match_star 10 "a".toList (handle_newconnect_slot free_slot 0)
      accepted_server.throttles true true)

/-! ## A long download under a throttle that fills up (thttpd.c) -/

/-- The calls number `i`, `i + 1`, ... of `handle_send` on a connection, `n` of them, the
call number `i` at the time `now i`; the socket accepts all the bytes it is offered. -/
def send_calls (file : List Char) (now : Nat → Int) (delay_unit : Int) :
    Nat → Nat → Connecttab × List Throttle → Connecttab × List Throttle
  | 0, _, s => s
  | n + 1, i, s =>
    let out := handle_send s.1 s.2 file (now i)
      (.wrote (s.1.hc.responselen + file_bytes_offered s.1)) delay_unit
    send_calls file now delay_unit n (i + 1) (out.c, out.throttles)

/-- Four calls a second, from the second 1 on. -/
def quarter_seconds (i : Nat) : Int := ((i / 4 + 1 : Nat) : Int)

/-- The function `update_throttles` with `THROTTLE_TIME` 2, for a server with one
connection. There is no result when it divides by zero. -/
def update_round (s : Connecttab × List Throttle) : Option (Connecttab × List Throttle) :=
  match (update_throttles 2 s.2 [s.1]).connects with
  | some [c] => some (c, (update_throttles 2 s.2 [s.1]).throttles)
  | _ => none

/-- The periods number `j`, `j + 1`, ... of the timer of `update_throttles`, `n` of them:
eight calls of `handle_send` in two seconds, then `update_throttles`. -/
def send_rounds (file : List Char) (delay_unit : Int) :
    Nat → Nat → Connecttab × List Throttle → Option (Connecttab × List Throttle)
  | 0, _, s => some s
  | n + 1, j, s =>
    (update_round (send_calls file quarter_seconds delay_unit 8 (8 * j) s)).bind
      (send_rounds file delay_unit n (j + 1))

/-- The throttle table after `n` more requests for `expnfilename` have passed
`check_throttles`, each read on a slot in the state `c`. -/
def more_senders (mtch : List Char → List Char → Bool) (maxthrottlenums : Nat)
    (expnfilename : List Char) (c : Connecttab) : Nat → List Throttle → List Throttle
  | 0, throttles => throttles
  | n + 1, throttles =>
    more_senders mtch maxthrottlenums expnfilename c n
      (check_throttles mtch maxthrottlenums expnfilename c throttles).2.2

/-- The request for a file of 9000000000 bytes, with its response headers to write. -/
def patient_conn : HttpdConn :=
  { sample_conn 9000000000 with response := "HTTP/1.1 200 OK\r\n\r\n".toList }

/-- The file of `patient_conn`: 9000000000 bytes. -/
def patient_file : List Char := List.replicate 9000000000 'x'

/-- The connection of `patient_conn` as `handle_read` leaves it at time 0, the only
sender under the throttle `* 40000`. -/
def patient_connecttab : Connecttab :=
  { sample_connecttab patient_conn with
    conn_state := .CNST_SENDING, tnums := [0], max_limit := 40000, min_limit := 0,
    end_byte_index := 9000000000 }

/-- The connection `patient_connecttab` after `k` calls of `handle_send` that each sent
10000 bytes of the file, the last one at the second `(k - 1) / 4 + 1`. -/
def steady_connecttab (k : Nat) : Connecttab :=
  { patient_connecttab with
    hc := { patient_conn with response := [], bytes_sent := 10000 * (k : Int) },
    next_byte_index := 10000 * (k : Int), active_at := quarter_seconds (k - 1) }

/-- The table of the throttle `* 40000` measured at `rate`, with `bytes` counted since
the last update and `n` connections sending. -/
def steady_table (rate bytes n : Int) : List Throttle :=
  [{ throttle_line ['*'] 0 40000 with rate := rate, bytes_since_avg := bytes,
                                      num_sending := n }]

/-- The rate that `update_throttles` measures after `j` periods of 80000 bytes. -/
def steady_rate : Nat → Int
  | 0 => 0
  | j + 1 => Int.tdiv (2 * steady_rate j + Int.tdiv 80000 2) 3

/-- The connection `steady_connecttab 860000` once `update_throttles` has found 10000
connections under its throttle and set `max_limit` to 40000 / 10000. -/
def crowded_connecttab : Connecttab :=
  { steady_connecttab 860000 with max_limit := 4 }

/-! ## The measured rates of the throttles (thttpd.c) -/

theorem hasPrefix_iff (s p : List Char) : hasPrefix s p = true ↔ Pre p s := by
  induction p generalizing s with
  | nil => cases s <;> simp [hasPrefix, Pre]
  | cons d p ih =>
    cases s with
    | nil => simp [hasPrefix, Pre]
    | cons c s =>
      simp only [hasPrefix, Bool.and_eq_true, beq_iff_eq, ih, Pre, List.cons_append,
        List.cons.injEq]
      constructor
      · rintro ⟨h1, b, h2⟩
        exact ⟨b, h1, h2⟩
      · rintro ⟨b, h1, h2⟩
        exact ⟨h1, b, h2⟩

theorem hasPrefix_false_iff (s p : List Char) : hasPrefix s p = false ↔ ¬ Pre p s := by
  rw [← hasPrefix_iff]
  cases hasPrefix s p <;> simp

theorem strstr_some {s p : List Char} {i : Nat} (h : strstr s p = some i) :
    Pre p (s.drop i) ∧ i ≤ s.length := by
  induction s generalizing i with
  | nil =>
    simp only [strstr] at h
    split at h
    · cases h
      rename_i hp
      simp only [List.isEmpty_iff] at hp
      subst hp
      exact ⟨⟨[], rfl⟩, le_refl _⟩
    · cases h
  | cons c s ih =>
    simp only [strstr] at h
    split at h
    · cases h
      rename_i hp
      exact ⟨(hasPrefix_iff _ _).1 hp, Nat.zero_le _⟩
    · split at h
      · cases h
        rename_i j hj
        have := ih hj
        exact ⟨by simpa using this.1, by simpa using this.2⟩
      · cases h

theorem strstr_none {s p : List Char} (h : strstr s p = none) : ¬ Sub p s := by
  induction s with
  | nil =>
    simp only [strstr] at h
    split at h
    · cases h
    · rename_i hp
      rintro ⟨a, b, hab⟩
      have h1 : a ++ (p ++ b) = [] := hab.symm
      simp only [List.append_eq_nil] at h1
      exact hp (by simp [h1.2.1])
  | cons c s ih =>
    simp only [strstr] at h
    split at h
    · cases h
    · rename_i hp
      split at h
      · cases h
      · rename_i hs
        rintro ⟨a, b, hab⟩
        cases a with
        | nil =>
          apply hp
          rw [hasPrefix_iff]
          exact ⟨b, by simpa using hab⟩
        | cons x a =>
          simp only [List.cons_append, List.cons.injEq] at hab
          exact ih hs ⟨a, b, hab.2⟩

theorem split_at_drop {s p b : List Char} {i : Nat} (h : s.drop i = p ++ b) :
    s = s.take i ++ (p ++ b) := by
  rw [← h, List.take_append_drop]

theorem sub_append_left {p a : List Char} (b : List Char) (h : Sub p a) : Sub p (a ++ b) := by
  obtain ⟨u, v, rfl⟩ := h
  exact ⟨u, v ++ b, by simp⟩

theorem sub_append_right {p b : List Char} (a : List Char) (h : Sub p b) : Sub p (a ++ b) := by
  obtain ⟨u, v, rfl⟩ := h
  exact ⟨a ++ u, v, by simp⟩

theorem not_snoc_slash_of_snoc_dot {a P : List Char}
    (hP : P = [] ∨ ∃ P', P = P' ++ ['/']) (h : P = a ++ ['/', '.']) : False := by
  rcases hP with hP | ⟨P', hP⟩
  · subst hP
    simp at h
  · subst hP
    have := congrArg List.reverse h
    simp at this

/-! ### Cutting a middle piece that ends with a slash

The string is `P ++ M ++ "/" ++ Y`, where `P` is empty or ends with a slash; the piece
`M ++ "/"` is removed. -/

theorem cut_noSub_slashDotSlash {P M Y : List Char}
    (hP : P = [] ∨ ∃ P', P = P' ++ ['/'])
    (h : ¬ Sub ['/', '.', '/'] (P ++ (M ++ '/' :: Y))) : ¬ Sub ['/', '.', '/'] (P ++ Y) := by
  rintro ⟨a, b, hab⟩
  rcases List.append_eq_append_iff.1 hab with ⟨a', -, h2⟩ | ⟨c', h1, h2⟩
  · exact h ⟨P ++ (M ++ '/' :: a'), b, by simp [h2]⟩
  · rcases c' with _ | ⟨x, _ | ⟨y, _ | ⟨z, c'⟩⟩⟩
    · simp only [List.nil_append] at h2
      exact h ⟨P ++ (M ++ ['/']), b, by simp [← h2]⟩
    · simp only [List.cons_append, List.nil_append, List.cons.injEq] at h2
      exact h ⟨P ++ M, b, by simp [← h2.2]⟩
    · simp only [List.cons_append, List.nil_append, List.cons.injEq] at h2
      obtain ⟨rfl, rfl, -⟩ := h2
      exact not_snoc_slash_of_snoc_dot hP h1
    · simp only [List.cons_append, List.cons.injEq] at h2
      obtain ⟨rfl, rfl, rfl, -⟩ := h2
      exact h ⟨a, c' ++ (M ++ '/' :: Y), by simp [h1]⟩

theorem cut_noSub_slashSlash {P M Y : List Char}
    (h : ¬ Sub ['/', '/'] (P ++ (M ++ '/' :: Y))) : ¬ Sub ['/', '/'] (P ++ Y) := by
  rintro ⟨a, b, hab⟩
  rcases List.append_eq_append_iff.1 hab with ⟨a', -, h2⟩ | ⟨c', h1, h2⟩
  · exact h ⟨P ++ (M ++ '/' :: a'), b, by simp [h2]⟩
  · rcases c' with _ | ⟨x, _ | ⟨y, c'⟩⟩
    · simp only [List.nil_append] at h2
      exact h ⟨P ++ (M ++ ['/']), b, by simp [← h2]⟩
    · simp only [List.cons_append, List.nil_append, List.cons.injEq] at h2
      exact h ⟨P ++ M, b, by simp [← h2.2]⟩
    · simp only [List.cons_append, List.cons.injEq] at h2
      obtain ⟨rfl, rfl, -⟩ := h2
      exact h ⟨a, c' ++ (M ++ '/' :: Y), by simp [h1]⟩

theorem cut_noPre_dotSlash {P M Y : List Char}
    (hP : P = [] ∨ ∃ P', P = P' ++ ['/'])
    (h : ¬ Sub ['/', '.', '/'] (P ++ (M ++ '/' :: Y)))
    (hp : ¬ Pre ['.', '/'] (P ++ (M ++ '/' :: Y))) : ¬ Pre ['.', '/'] (P ++ Y) := by
  rintro ⟨b, hb⟩
  rcases P with _ | ⟨x, _ | ⟨y, P⟩⟩
  · simp only [List.nil_append] at hb h
    exact h ⟨M, b, by simp [hb]⟩
  · rcases hP with hP | ⟨P', hP⟩
    · cases hP
    · have := congrArg List.reverse hP
      simp only [List.reverse_cons, List.reverse_nil, List.nil_append, List.reverse_append,
        List.singleton_append] at this
      simp only [List.cons_append, List.nil_append, List.cons.injEq] at hb
      have h3 := (List.cons.inj this).1
      rw [hb.1] at h3
      exact absurd h3 (by decide)
  · simp only [List.cons_append, List.cons.injEq] at hb
    obtain ⟨rfl, rfl, -⟩ := hb
    exact hp ⟨P ++ (M ++ '/' :: Y), by simp⟩

theorem cut_noPre_slash {P M Y : List Char}
    (h : ¬ Sub ['/', '/'] (P ++ (M ++ '/' :: Y)))
    (hp : ¬ Pre ['/'] (P ++ (M ++ '/' :: Y))) : ¬ Pre ['/'] (P ++ Y) := by
  rintro ⟨b, hb⟩
  rcases P with _ | ⟨x, P⟩
  · simp only [List.nil_append] at hb h
    exact h ⟨M, b, by simp [hb]⟩
  · simp only [List.cons_append, List.cons.injEq] at hb
    obtain ⟨rfl, -⟩ := hb
    exact hp ⟨P ++ (M ++ '/' :: Y), by simp⟩

theorem cut_clean {P M Y : List Char} (hP : P = [] ∨ ∃ P', P = P' ++ ['/'])
    (h : Clean (P ++ (M ++ '/' :: Y))) : Clean (P ++ Y) :=
  ⟨cut_noSub_slashSlash h.1, cut_noSub_slashDotSlash hP h.2.1, cut_noPre_dotSlash hP h.2.1 h.2.2⟩

theorem cAt_eq_slash {f : List Char} {j : Nat} (h : cAt f j = '/') : f[j]? = some '/' := by
  unfold cAt at h
  rw [List.getD_eq_getElem?_getD] at h
  cases hj : f[j]? with
  | none => rw [hj] at h; simp at h
  | some c => rw [hj] at h; simp at h; rw [h]

theorem take_succ_of_cAt {f : List Char} {j : Nat} (h : cAt f j = '/') :
    f.take (j + 1) = f.take j ++ ['/'] := by
  rw [List.take_succ, cAt_eq_slash h]
  rfl

theorem scanBack_le (f : List Char) (k : Nat) : scanBack f k ≤ k := by
  induction k with
  | zero => simp [scanBack]
  | succ k ih =>
    simp only [scanBack]
    split
    · exact le_refl _
    · exact Nat.le_succ_of_le ih

theorem scanBack_take (f : List Char) (k : Nat) :
    f.take (scanBack f k) = [] ∨ ∃ P', f.take (scanBack f k) = P' ++ ['/'] := by
  induction k with
  | zero => left; simp [scanBack]
  | succ k ih =>
    simp only [scanBack]
    split
    · rename_i h
      right
      exact ⟨f.take k, take_succ_of_cAt h⟩
    · exact ih

theorem scanBack_zero (f : List Char) (k : Nat) (h : scanBack f k = 0) :
    ∀ i, i < k → cAt f i ≠ '/' := by
  induction k with
  | zero => intro i hi; omega
  | succ k ih =>
    simp only [scanBack] at h
    split at h
    · omega
    · rename_i hk
      intro i hi
      rcases Nat.lt_succ_iff_lt_or_eq.1 hi with h1 | h1
      · exact ih h i h1
      · rw [h1]; exact hk

/-! ### The loops of `de_dotdot` run to completion -/

theorem collapseSlashes_spec (n : Nat) (f : List Char) (hn : f.length < n) :
    ¬ Sub ['/', '/'] (collapseSlashes n f) ∧
    (¬ Pre ['/'] f → ¬ Pre ['/'] (collapseSlashes n f)) ∧
    (collapseSlashes n f).length ≤ f.length := by
  induction n generalizing f with
  | zero => omega
  | succ n ih =>
    simp only [collapseSlashes]
    cases hs : strstr f ['/', '/'] with
    | none => exact ⟨strstr_none hs, id, le_refl _⟩
    | some cp =>
      simp only
      obtain ⟨⟨b, hb⟩, hcp⟩ := strstr_some hs
      have hlen : cp + 2 ≤ f.length := by
        have := congrArg List.length hb
        simp at this
        omega
      have hlt : (ol_strcpy f (cp + 1) (cp + 2 + skipSlashes (List.drop (cp + 2) f))).length
          < f.length := by
        simp only [ol_strcpy, List.length_append, List.length_take, List.length_drop]
        omega
      obtain ⟨h1, h2, h3⟩ :=
        ih (ol_strcpy f (cp + 1) (cp + 2 + skipSlashes (List.drop (cp + 2) f))) (by omega)
      refine ⟨h1, ?_, by omega⟩
      intro hpre
      apply h2
      rintro ⟨b', hb'⟩
      apply hpre
      cases f with
      | nil => simp at hlen
      | cons x f =>
        simp only [ol_strcpy, List.take_succ_cons, List.cons_append, List.cons.injEq] at hb'
        exact ⟨f, by simp [hb'.1]⟩

theorem stripDotSlash_spec (n : Nat) (f : List Char) (hn : f.length < n)
    (h2 : ¬ Sub ['/', '/'] f) :
    ¬ Sub ['/', '/'] (stripDotSlash n f) ∧ ¬ Pre ['.', '/'] (stripDotSlash n f) ∧
    (¬ Pre ['/'] f → ¬ Pre ['/'] (stripDotSlash n f)) ∧
    (stripDotSlash n f).length ≤ f.length := by
  induction n generalizing f with
  | zero => omega
  | succ n ih =>
    simp only [stripDotSlash]
    split
    · rename_i hp
      obtain ⟨b, rfl⟩ := (hasPrefix_iff _ _).1 hp
      have e : ol_strcpy (['.', '/'] ++ b) 0 2 = b := by simp [ol_strcpy]
      rw [e]
      have hcut : ¬ Sub ['/', '/'] ([] ++ b) :=
        cut_noSub_slashSlash (P := []) (M := ['.']) (by simpa using h2)
      obtain ⟨a1, a2, a3, a4⟩ := ih b (by simp at hn; omega) (by simpa using hcut)
      refine ⟨a1, a2, ?_, by simp; omega⟩
      intro hpre
      apply a3
      have := cut_noPre_slash (P := []) (M := ['.']) (Y := b) (by simpa using h2)
        (by simpa using hpre)
      simpa using this
    · rename_i hp
      exact ⟨h2, (hasPrefix_false_iff _ _).1 (by simpa using hp), id, le_refl _⟩

theorem drop_add_of_drop {f p b : List Char} {cp : Nat} (k : Nat)
    (h : f.drop cp = p ++ b) : f.drop (cp + k) = (p ++ b).drop k := by
  rw [← h, List.drop_drop, Nat.add_comm]

theorem removeSlashDotSlash_step {A B : List Char}
    (h2 : ¬ Sub ['/', '/'] (A ++ (['/', '.', '/'] ++ B)))
    (hp : ¬ Pre ['.', '/'] (A ++ (['/', '.', '/'] ++ B))) :
    ¬ Sub ['/', '/'] (A ++ '/' :: B) ∧ ¬ Pre ['.', '/'] (A ++ '/' :: B) ∧
    (¬ Pre ['/'] (A ++ (['/', '.', '/'] ++ B)) → ¬ Pre ['/'] (A ++ '/' :: B)) := by
  refine ⟨?_, ?_, ?_⟩
  · rintro ⟨a, b, hab⟩
    rcases List.append_eq_append_iff.1 hab with ⟨a', -, h3⟩ | ⟨c', h1, h3⟩
    · rcases a' with _ | ⟨x, a'⟩
      · simp only [List.nil_append, List.cons_append, List.cons.injEq, true_and] at h3
        exact h2 ⟨A ++ ['/', '.'], b, by simp [h3]⟩
      · simp only [List.cons_append, List.cons.injEq] at h3
        exact h2 ⟨A ++ ['/', '.', '/'] ++ a', b, by simp [h3.2]⟩
    · rcases c' with _ | ⟨x, _ | ⟨y, c'⟩⟩
      · simp only [List.nil_append, List.cons_append, List.cons.injEq, true_and] at h3
        exact h2 ⟨A ++ ['/', '.'], b, by simp [← h3]⟩
      · simp only [List.cons_append, List.nil_append, List.cons.injEq] at h3
        obtain ⟨rfl, -⟩ := h3
        exact h2 ⟨a, ['.', '/'] ++ B, by simp [h1]⟩
      · simp only [List.cons_append, List.cons.injEq] at h3
        obtain ⟨rfl, rfl, -⟩ := h3
        exact h2 ⟨a, c' ++ (['/', '.', '/'] ++ B), by simp [h1]⟩
  · rintro ⟨b, hb⟩
    rcases A with _ | ⟨x, _ | ⟨y, A⟩⟩
    · simp only [List.nil_append, List.cons_append, List.cons.injEq] at hb
      exact absurd hb.1 (by decide)
    · simp only [List.cons_append, List.nil_append, List.cons.injEq] at hb
      obtain ⟨rfl, -⟩ := hb
      exact hp ⟨['.', '/'] ++ B, by simp⟩
    · simp only [List.cons_append, List.cons.injEq] at hb
      obtain ⟨rfl, rfl, -⟩ := hb
      exact hp ⟨A ++ (['/', '.', '/'] ++ B), by simp⟩
  · rintro hpre ⟨b, hb⟩
    apply hpre
    rcases A with _ | ⟨x, A⟩
    · exact ⟨['.', '/'] ++ B, by simp⟩
    · simp only [List.cons_append, List.cons.injEq] at hb
      obtain ⟨rfl, -⟩ := hb
      exact ⟨A ++ (['/', '.', '/'] ++ B), by simp⟩

theorem removeSlashDotSlash_spec (n : Nat) (f : List Char) (hn : f.length < n)
    (h2 : ¬ Sub ['/', '/'] f) (hp : ¬ Pre ['.', '/'] f) :
    Clean (removeSlashDotSlash n f) ∧
    (¬ Pre ['/'] f → ¬ Pre ['/'] (removeSlashDotSlash n f)) ∧
    (removeSlashDotSlash n f).length ≤ f.length := by
  induction n generalizing f with
  | zero => omega
  | succ n ih =>
    simp only [removeSlashDotSlash]
    cases hs : strstr f ['/', '.', '/'] with
    | none => exact ⟨⟨h2, strstr_none hs, hp⟩, id, le_refl _⟩
    | some cp =>
      simp only
      obtain ⟨⟨B, hB⟩, hcp⟩ := strstr_some hs
      have hf : f = f.take cp ++ (['/', '.', '/'] ++ B) := split_at_drop hB
      have hd : f.drop (cp + 2) = '/' :: B := by
        rw [drop_add_of_drop 2 hB]; rfl
      have e : ol_strcpy f cp (cp + 2) = f.take cp ++ '/' :: B := by
        simp only [ol_strcpy, hd]
      rw [e]
      rw [hf] at h2 hp
      obtain ⟨s1, s2, s3⟩ := removeSlashDotSlash_step h2 hp
      have hl : (f.take cp ++ '/' :: B).length < f.length := by
        have := congrArg List.length hf
        simp only [List.length_append, List.length_cons, List.length_take] at this ⊢
        omega
      obtain ⟨a1, a2, a3⟩ := ih (f.take cp ++ '/' :: B) (by omega) s1 s2
      refine ⟨a1, ?_, by omega⟩
      intro hpre
      apply a2
      apply s3
      rw [← hf]
      exact hpre

theorem stripDotDotSlash_spec (n : Nat) (f : List Char) (hn : f.length ≤ n) (hc : Clean f) :
    Clean (stripDotDotSlash n f) ∧ ¬ Pre ['.', '.', '/'] (stripDotDotSlash n f) ∧
    (¬ Pre ['/'] f → ¬ Pre ['/'] (stripDotDotSlash n f)) ∧
    (stripDotDotSlash n f).length ≤ f.length := by
  induction n generalizing f with
  | zero =>
    have : f = [] := List.length_eq_zero.1 (by omega)
    subst this
    refine ⟨hc, ?_, id, le_refl _⟩
    rintro ⟨b, hb⟩
    simp [stripDotDotSlash] at hb
  | succ n ih =>
    simp only [stripDotDotSlash]
    split
    · rename_i hp
      obtain ⟨b, rfl⟩ := (hasPrefix_iff _ _).1 hp
      have e : ol_strcpy (['.', '.', '/'] ++ b) 0 3 = b := by simp [ol_strcpy]
      rw [e]
      have hc' : Clean ([] ++ b) :=
        cut_clean (P := []) (M := ['.', '.']) (Or.inl rfl) (by simpa using hc)
      obtain ⟨a1, a2, a3, a4⟩ := ih b (by simp at hn; omega) (by simpa using hc')
      refine ⟨a1, a2, ?_, by simp; omega⟩
      intro hpre
      apply a3
      have := cut_noPre_slash (P := []) (M := ['.', '.']) (Y := b) (by simpa using hc.1)
        (by simpa using hpre)
      simpa using this
    · rename_i hp
      exact ⟨hc, (hasPrefix_false_iff _ _).1 (by simpa using hp), id, le_refl _⟩

theorem dotdotLoop_spec (n : Nat) (f : List Char) (hn : f.length < n) (hc : Clean f) :
    Clean (dotdotLoop n f) ∧ ¬ Pre ['.', '.', '/'] (dotdotLoop n f) ∧
    ¬ Sub ['/', '.', '.', '/'] (dotdotLoop n f) ∧
    (¬ Pre ['/'] f → ¬ Pre ['/'] (dotdotLoop n f)) ∧
    (dotdotLoop n f).length ≤ f.length := by
  induction n generalizing f with
  | zero => omega
  | succ n ih =>
    simp only [dotdotLoop]
    obtain ⟨c1, c2, c3, c4⟩ := stripDotDotSlash_spec f.length f (le_refl _) hc
    generalize stripDotDotSlash f.length f = f1 at c1 c2 c3 c4
    cases hs : strstr f1 ['/', '.', '.', '/'] with
    | none => exact ⟨c1, c2, strstr_none hs, c3, c4⟩
    | some cp =>
      simp only
      obtain ⟨⟨Y, hY⟩, hcp⟩ := strstr_some hs
      have hd : f1.drop (cp + 4) = Y := by
        rw [drop_add_of_drop 4 hY]; rfl
      have hk := scanBack_le f1 cp
      have hP := scanBack_take f1 cp
      generalize scanBack f1 cp = k at hk hP
      have hf : f1 = f1.take k ++ ((f1.take cp).drop k ++ ['/', '.', '.'] ++ '/' :: Y) := by
        have h1 : f1.take k ++ (f1.take cp).drop k = f1.take cp := by
          have := List.take_append_drop k (f1.take cp)
          rwa [List.take_take, Nat.min_eq_left hk] at this
        calc f1 = f1.take cp ++ (['/', '.', '.', '/'] ++ Y) := split_at_drop hY
          _ = (f1.take k ++ (f1.take cp).drop k) ++ (['/', '.', '.', '/'] ++ Y) := by rw [h1]
          _ = _ := by simp
      have e : ol_strcpy f1 k (cp + 4) = f1.take k ++ Y := by
        simp only [ol_strcpy, hd]
      rw [e]
      have hl : (f1.take k ++ Y).length < f1.length := by
        have := congrArg List.length (split_at_drop hY)
        simp only [List.length_append, List.length_cons, List.length_take, List.length_nil]
          at this ⊢
        omega
      have hc1 : Clean (f1.take k ++ Y) := by
        apply cut_clean (M := (f1.take cp).drop k ++ ['/', '.', '.']) hP
        rw [← hf]
        exact c1
      obtain ⟨a1, a2, a3, a4, a5⟩ := ih (f1.take k ++ Y) (by omega) hc1
      refine ⟨a1, a2, a3, ?_, by omega⟩
      intro hpre
      apply a4
      apply cut_noPre_slash (M := (f1.take cp).drop k ++ ['/', '.', '.'])
      · rw [← hf]; exact c1.1
      · rw [← hf]; exact c3 hpre

theorem pre_of_take {p f : List Char} {k : Nat} (h : Pre p (f.take k)) : Pre p f := by
  obtain ⟨b, hb⟩ := h
  exact ⟨b ++ f.drop k, by rw [← List.append_assoc, ← hb, List.take_append_drop]⟩

theorem sub_of_take {p f : List Char} {k : Nat} (h : Sub p (f.take k)) : Sub p f := by
  have := sub_append_left (f.drop k) h
  rwa [List.take_append_drop] at this

/-- What the last loop of `de_dotdot` leaves: the string itself or a cut of it at a
slash; and either the result does not end with `/..` (or is too short), or it is `x/..`
with a first component `x` free of slashes. -/
theorem elideTrailing_spec (n : Nat) (f : List Char) (hn : f.length < n)
    (hs : ¬ Sub ['/', '.', '.', '/'] f) :
    (elideTrailing n f = f ∨ ∃ k, elideTrailing n f = f.take k ∧ cAt f k = '/') ∧
    (¬ (3 < (elideTrailing n f).length ∧ ∃ a, elideTrailing n f = a ++ ['/', '.', '.']) ∨
      ∃ x, elideTrailing n f = x ++ ['/', '.', '.'] ∧ x ≠ [] ∧
        ∀ i, i < x.length → cAt x i ≠ '/') := by
  induction n generalizing f with
  | zero => omega
  | succ n ih =>
    simp only [elideTrailing]
    split
    · rename_i hcond
      obtain ⟨hl, hend⟩ := hcond
      have hf : f = f.take (f.length - 3) ++ ['/', '.', '.'] := by
        rw [← hend, List.take_append_drop]
      cases hk : scanBack f (f.length - 3) with
      | zero =>
        simp only
        refine ⟨Or.inl (by trivial), Or.inr ⟨f.take (f.length - 3), hf, ?_, ?_⟩⟩
        · intro h0
          have := congrArg List.length h0
          simp at this
          omega
        · intro i hi
          rw [List.length_take] at hi
          have h1 := scanBack_zero f (f.length - 3) hk i (by omega)
          unfold cAt at h1 ⊢
          rw [List.getD_eq_getElem?_getD] at h1 ⊢
          rwa [List.getElem?_take_of_lt (by omega)]
      | succ k =>
        simp only
        have hkle := scanBack_le f (f.length - 3)
        rw [hk] at hkle
        have hslash : cAt f k = '/' := by
          have h1 := scanBack_take f (f.length - 3)
          rw [hk] at h1
          rcases h1 with h1 | ⟨P', h1⟩
          · have := congrArg List.length h1
            rw [List.length_take] at this
            simp only [List.length_nil] at this
            omega
          · have h2 : (f.take (k + 1))[k]? = (P' ++ ['/'])[k]? := by rw [h1]
            have hP' : P'.length = k := by
              have := congrArg List.length h1
              rw [List.length_take] at this
              simp only [List.length_append, List.length_cons, List.length_nil] at this
              omega
            rw [List.getElem?_take_of_lt (by omega)] at h2
            unfold cAt
            rw [List.getD_eq_getElem?_getD, h2, ← hP']
            simp
        have hs' : ¬ Sub ['/', '.', '.', '/'] (f.take k) := fun h => hs (sub_of_take h)
        have hlt : (f.take k).length < n := by
          rw [List.length_take]
          omega
        obtain ⟨hcut, -⟩ := ih (f.take k) hlt hs'
        have hcut' : ∃ m, elideTrailing n (f.take k) = f.take m ∧ cAt f m = '/' := by
          rcases hcut with h1 | ⟨j, h1, h2⟩
          · exact ⟨k, h1, hslash⟩
          · have hj := cAt_eq_slash h2
            obtain ⟨hjlt, -⟩ := List.getElem?_eq_some_iff.1 hj
            rw [List.length_take] at hjlt
            refine ⟨j, ?_, ?_⟩
            · rw [h1, List.take_take, Nat.min_eq_left (by omega)]
            · unfold cAt at h2 ⊢
              rw [List.getD_eq_getElem?_getD] at h2 ⊢
              rwa [List.getElem?_take_of_lt (by omega)] at h2
        obtain ⟨m, hm1, hm2⟩ := hcut'
        refine ⟨Or.inr ⟨m, hm1, hm2⟩, Or.inl ?_⟩
        rintro ⟨-, a, ha⟩
        rw [hm1] at ha
        apply hs
        have hm3 := cAt_eq_slash hm2
        obtain ⟨hmlt, hme⟩ := List.getElem?_eq_some_iff.1 hm3
        have h3 : f = a ++ (['/', '.', '.'] ++ f.drop m) := by
          rw [← List.append_assoc, ← ha, List.take_append_drop]
        rw [List.drop_eq_getElem_cons hmlt, hme] at h3
        exact ⟨a, f.drop (m + 1), h3⟩
    · rename_i hcond
      refine ⟨Or.inl (by trivial), Or.inl ?_⟩
      rintro ⟨hl, a, ha⟩
      apply hcond
      refine ⟨hl, ?_⟩
      rw [ha]
      simp

/-- Summary of `de_dotdot`: what holds of the string it leaves. -/
theorem de_dotdot_spec (f : List Char) :
    ¬ Pre ['.', '.', '/'] (de_dotdot f) ∧ ¬ Sub ['/', '.', '.', '/'] (de_dotdot f) ∧
    ¬ Pre ['.', '/'] (de_dotdot f) ∧
    (¬ Pre ['/'] f → ¬ Pre ['/'] (de_dotdot f)) ∧
    (¬ (3 < (de_dotdot f).length ∧ ∃ a, de_dotdot f = a ++ ['/', '.', '.']) ∨
      ∃ x, de_dotdot f = x ++ ['/', '.', '.'] ∧ x ≠ [] ∧
        ∀ i, i < x.length → cAt x i ≠ '/') := by
  unfold de_dotdot
  simp only
  obtain ⟨a1, a2, a3⟩ := collapseSlashes_spec (f.length + 1) f (by omega)
  generalize collapseSlashes (f.length + 1) f = f1 at a1 a2 a3
  obtain ⟨b1, b2, b3, b4⟩ := stripDotSlash_spec (f.length + 1) f1 (by omega) a1
  generalize stripDotSlash (f.length + 1) f1 = f2 at b1 b2 b3 b4
  obtain ⟨c1, c2, c3⟩ := removeSlashDotSlash_spec (f.length + 1) f2 (by omega) b1 b2
  generalize removeSlashDotSlash (f.length + 1) f2 = f3 at c1 c2 c3
  obtain ⟨d1, d2, d3, d4, d5⟩ := dotdotLoop_spec (f.length + 1) f3 (by omega) c1
  generalize dotdotLoop (f.length + 1) f3 = f4 at d1 d2 d3 d4 d5
  obtain ⟨e1, e2⟩ := elideTrailing_spec (f.length + 1) f4 (by omega) d3
  have hk : ∃ k, elideTrailing (f.length + 1) f4 = f4.take k := by
    rcases e1 with h | ⟨k, h, -⟩
    · exact ⟨f4.length, by rw [h, List.take_length]⟩
    · exact ⟨k, h⟩
  obtain ⟨k, hk⟩ := hk
  refine ⟨?_, ?_, ?_, ?_, e2⟩
  · rw [hk]; exact fun h => d2 (pre_of_take h)
  · rw [hk]; exact fun h => d3 (sub_of_take h)
  · rw [hk]; exact fun h => d1.2.2 (pre_of_take h)
  · intro hpre
    rw [hk]
    exact fun h => d4 (c2 (b3 (a2 hpre))) (pre_of_take h)

/-! ### Components of a path -/

theorem components_ne_nil (s : List Char) : components s ≠ [] := by
  cases s with
  | nil => simp [components]
  | cons c s =>
    simp only [components]
    split
    · simp
    · split <;> simp

theorem components_head {s h : List Char} {t : List (List Char)}
    (hc : components s = h :: t) :
    (t = [] ∧ s = h) ∨ ∃ rest, s = h ++ '/' :: rest ∧ t = components rest := by
  induction s generalizing h t with
  | nil =>
    simp only [components, List.cons.injEq] at hc
    left
    exact ⟨hc.2.symm, hc.1⟩
  | cons c s ih =>
    simp only [components] at hc
    split at hc
    · rename_i hslash
      simp only [List.cons.injEq] at hc
      right
      exact ⟨s, by rw [← hc.1, hslash]; rfl, hc.2.symm⟩
    · split at hc
      · rename_i hnil
        exact absurd hnil (components_ne_nil s)
      · rename_i h' t' hs
        simp only [List.cons.injEq] at hc
        obtain ⟨rfl, rfl⟩ := hc
        rcases ih hs with ⟨h1, h2⟩ | ⟨rest, h1, h2⟩
        · left
          exact ⟨h1, by rw [h2]⟩
        · right
          exact ⟨rest, by rw [h1]; rfl, h2⟩

theorem dotdot_mem_tail {s : List Char} (h : ['.', '.'] ∈ (components s).tail) :
    (∃ a, s = a ++ ['/', '.', '.']) ∨ Sub ['/', '.', '.', '/'] s := by
  induction s with
  | nil => simp [components] at h
  | cons c s ih =>
    simp only [components] at h
    split at h
    · rename_i hslash
      subst hslash
      simp only [List.tail_cons] at h
      cases hcs : components s with
      | nil => exact absurd hcs (components_ne_nil s)
      | cons h' t' =>
        rw [hcs] at h
        rcases List.mem_cons.1 h with h1 | h1
        · subst h1
          rcases components_head hcs with ⟨-, h2⟩ | ⟨rest, h2, -⟩
          · left; exact ⟨[], by rw [h2]; rfl⟩
          · right; exact ⟨[], rest, by rw [h2]; rfl⟩
        · have : ['.', '.'] ∈ (components s).tail := by rw [hcs]; exact h1
          rcases ih this with ⟨a, h2⟩ | ⟨a, b, h2⟩
          · left; exact ⟨'/' :: a, by rw [h2]; rfl⟩
          · right; exact ⟨'/' :: a, b, by rw [h2]; rfl⟩
    · split at h
      · simp at h
      · rename_i h' t' hcs
        simp only [List.tail_cons] at h
        have : ['.', '.'] ∈ (components s).tail := by rw [hcs]; exact h
        rcases ih this with ⟨a, h2⟩ | ⟨a, b, h2⟩
        · left; exact ⟨c :: a, by rw [h2]; rfl⟩
        · right; exact ⟨c :: a, b, by rw [h2]; rfl⟩

theorem dotdot_mem {s : List Char} (h : ['.', '.'] ∈ components s) :
    s = ['.', '.'] ∨ Pre ['.', '.', '/'] s ∨ (∃ a, s = a ++ ['/', '.', '.']) ∨
      Sub ['/', '.', '.', '/'] s := by
  cases hcs : components s with
  | nil => exact absurd hcs (components_ne_nil s)
  | cons h' t' =>
    rw [hcs] at h
    rcases List.mem_cons.1 h with h1 | h1
    · subst h1
      rcases components_head hcs with ⟨-, h2⟩ | ⟨rest, h2, -⟩
      · left; exact h2
      · right; left; exact ⟨rest, by rw [h2]; rfl⟩
    · have : ['.', '.'] ∈ (components s).tail := by rw [hcs]; exact h1
      right; right
      exact dotdot_mem_tail this

theorem no_slash_of_cAt {x : List Char} (h : ∀ i, i < x.length → cAt x i ≠ '/') :
    ∀ c ∈ x, c ≠ '/' := by
  intro c hc
  obtain ⟨i, hi, rfl⟩ := List.mem_iff_getElem.1 hc
  have := h i hi
  unfold cAt at this
  rwa [List.getD_eq_getElem?_getD, List.getElem?_eq_getElem hi] at this

theorem components_append_slash {x : List Char} (r : List Char) (h : ∀ c ∈ x, c ≠ '/') :
    components (x ++ '/' :: r) = x :: components r := by
  induction x with
  | nil => simp [components]
  | cons c x ih =>
    have hc : c ≠ '/' := h c (List.mem_cons_self _ _)
    have hx := ih (fun d hd => h d (List.mem_cons_of_mem _ hd))
    show components (c :: (x ++ '/' :: r)) = (c :: x) :: components r
    simp only [components, hc, if_false, hx]

/-- C1. Path canonicalisation cannot escape the document root: whenever the string left
by `de_dotdot` passes the test that `httpd_parse_request` applies to it, walking its
components from the left never climbs above the starting directory. -/
theorem de_dotdot_stays_inside (f : List Char) (_hnul : ∀ c ∈ f, c ≠ '\x00')
    (hok : dotdot_rejected (de_dotdot f) = false) :
    staysInside (components (de_dotdot f)) := by
  obtain ⟨h1, h2, h3, -, h5⟩ := de_dotdot_spec f
  generalize de_dotdot f = g at hok h1 h2 h3 h5
  rcases h5 with h5 | ⟨x, hx, hne, hns⟩
  · -- no component is `..`
    have hno : ['.', '.'] ∉ components g := by
      intro hm
      rcases dotdot_mem hm with e | e | ⟨a, e⟩ | e
      · subst e
        simp [dotdot_rejected, cAt] at hok
      · exact h1 e
      · rcases a with _ | ⟨y, a⟩
        · subst e
          simp [dotdot_rejected, cAt] at hok
        · exact h5 ⟨by rw [e]; simp, y :: a, e⟩
      · exact h2 e
    intro n
    have : (List.take n (components g)).filter isDotDot = [] := by
      rw [List.filter_eq_nil_iff]
      intro c hc hd
      have hmem := List.mem_of_mem_take hc
      simp only [isDotDot, beq_iff_eq] at hd
      rw [hd] at hmem
      exact hno hmem
    rw [this]
    exact Nat.zero_le _
  · -- the path is `x/..` with an ordinary first component
    have hcomp : components g = [x, ['.', '.']] := by
      rw [hx]
      show components (x ++ '/' :: ['.', '.']) = _
      rw [components_append_slash _ (no_slash_of_cAt hns)]
      rfl
    have hx1 : x ≠ ['.'] := by
      intro e
      exact h3 ⟨['.', '.'], by rw [hx, e]; rfl⟩
    have hx2 : x ≠ ['.', '.'] := by
      intro e
      exact h1 ⟨['.', '.'], by rw [hx, e]; rfl⟩
    have ho : isOrdinary x = true := by
      simp [isOrdinary, hne, hx1, hx2]
    have hd : isDotDot x = false := by
      simp [isDotDot, hx2]
    rw [hcomp]
    intro n
    have hd2 : isDotDot ['.', '.'] = true := rfl
    have ho2 : isOrdinary ['.', '.'] = false := rfl
    rcases n with _ | _ | n
    · simp
    · simp [List.filter, ho, hd]
    · simp [List.filter, ho, hd, hd2, ho2]

/-- The hypotheses of C1 hold at a concrete path, `a//b/./c/../d/e/..`. -/
theorem de_dotdot_stays_inside_witness :
    staysInside (components (de_dotdot
      ['a', '/', '/', 'b', '/', '.', '/', 'c', '/', '.', '.', '/', 'd', '/', 'e', '/', '.', '.'])) :=
  de_dotdot_stays_inside _ (by decide) (by decide)

/-! ## The canonicalisation check of `httpd_parse_request` -/

theorem mem_ol_strcpy {f : List Char} {i j : Nat} {c : Char} (h : c ∈ ol_strcpy f i j) :
    c ∈ f := by
  unfold ol_strcpy at h
  rcases List.mem_append.1 h with h | h
  · exact List.mem_of_mem_take h
  · exact List.mem_of_mem_drop h

theorem mem_collapseSlashes (n : Nat) (f : List Char) (c : Char)
    (h : c ∈ collapseSlashes n f) : c ∈ f := by
  induction n generalizing f with
  | zero => exact h
  | succ n ih =>
    simp only [collapseSlashes] at h
    split at h
    · exact h
    · exact mem_ol_strcpy (ih _ h)

theorem mem_stripDotSlash (n : Nat) (f : List Char) (c : Char)
    (h : c ∈ stripDotSlash n f) : c ∈ f := by
  induction n generalizing f with
  | zero => exact h
  | succ n ih =>
    simp only [stripDotSlash] at h
    split at h
    · exact mem_ol_strcpy (ih _ h)
    · exact h

theorem mem_removeSlashDotSlash (n : Nat) (f : List Char) (c : Char)
    (h : c ∈ removeSlashDotSlash n f) : c ∈ f := by
  induction n generalizing f with
  | zero => exact h
  | succ n ih =>
    simp only [removeSlashDotSlash] at h
    split at h
    · exact h
    · exact mem_ol_strcpy (ih _ h)

theorem mem_stripDotDotSlash (n : Nat) (f : List Char) (c : Char)
    (h : c ∈ stripDotDotSlash n f) : c ∈ f := by
  induction n generalizing f with
  | zero => exact h
  | succ n ih =>
    simp only [stripDotDotSlash] at h
    split at h
    · exact mem_ol_strcpy (ih _ h)
    · exact h

theorem mem_dotdotLoop (n : Nat) (f : List Char) (c : Char)
    (h : c ∈ dotdotLoop n f) : c ∈ f := by
  induction n generalizing f with
  | zero => exact h
  | succ n ih =>
    simp only [dotdotLoop] at h
    split at h
    · exact mem_stripDotDotSlash _ _ _ h
    · exact mem_stripDotDotSlash _ _ _ (mem_ol_strcpy (ih _ h))

theorem mem_elideTrailing (n : Nat) (f : List Char) (c : Char)
    (h : c ∈ elideTrailing n f) : c ∈ f := by
  induction n generalizing f with
  | zero => exact h
  | succ n ih =>
    simp only [elideTrailing] at h
    split at h
    · split at h
      · exact h
      · exact List.mem_of_mem_take (ih _ h)
    · exact h

/-- Every byte of the string left by `de_dotdot` is a byte of its argument. -/
theorem mem_de_dotdot {f : List Char} {c : Char} (h : c ∈ de_dotdot f) : c ∈ f := by
  unfold de_dotdot at h
  simp only at h
  exact mem_collapseSlashes _ _ _ (mem_stripDotSlash _ _ _ (mem_removeSlashDotSlash _ _ _
    (mem_dotdotLoop _ _ _ (mem_elideTrailing _ _ _ h))))

/-- On a NUL-free string that begins neither with `/` nor with `../`, the test after
`de_dotdot` fires exactly for the string `..`. -/
theorem dotdot_rejected_iff {g : List Char} (hnul : ∀ c ∈ g, c ≠ '\x00')
    (h1 : ¬ Pre ['/'] g) (h2 : ¬ Pre ['.', '.', '/'] g) :
    dotdot_rejected g = true ↔ g = ['.', '.'] := by
  constructor
  · intro h
    rcases g with _ | ⟨a, _ | ⟨b, _ | ⟨c, g⟩⟩⟩
    · simp [dotdot_rejected, cAt] at h
    · simp only [dotdot_rejected, cAt, List.getD_cons_zero, List.getD_cons_succ, List.getD_nil,
        Bool.or_eq_true, Bool.and_eq_true, beq_iff_eq] at h
      rcases h with h | ⟨⟨-, h⟩, -⟩
      · exact absurd ⟨[], by rw [h]; rfl⟩ h1
      · exact absurd h (by decide)
    · simp only [dotdot_rejected, cAt, List.getD_cons_zero, List.getD_cons_succ, List.getD_nil,
        Bool.or_eq_true, Bool.and_eq_true, beq_iff_eq] at h
      rcases h with h | ⟨⟨h3, h4⟩, -⟩
      · exact absurd ⟨[b], by rw [h]; rfl⟩ h1
      · rw [h3, h4]
    · simp only [dotdot_rejected, cAt, List.getD_cons_zero, List.getD_cons_succ,
        Bool.or_eq_true, Bool.and_eq_true, beq_iff_eq] at h
      rcases h with h | ⟨⟨h3, h4⟩, h5 | h5⟩
      · exact absurd ⟨b :: c :: g, by rw [h]; rfl⟩ h1
      · exact absurd h5 (hnul c (by simp))
      · exact absurd ⟨g, by rw [h3, h4, h5]; rfl⟩ h2
  · rintro rfl
    rfl

theorem mem_cstr {s : List Char} {c : Char} (h : c ∈ cstr s) : c ≠ '\x00' := by
  unfold cstr at h
  have := List.mem_takeWhile_imp h
  simpa using this

theorem origfilename_of_nul_free (url : List Char) : ∀ c ∈ origfilename_of url, c ≠ '\x00' := by
  intro c hc
  have key : ∀ d ∈ (if (cstr (strdecode url)).drop 1 = [] then ['.']
      else (cstr (strdecode url)).drop 1), d ≠ '\x00' := by
    intro d hd
    split at hd
    · simp only [List.mem_singleton] at hd
      rw [hd]; decide
    · exact mem_cstr (List.mem_of_mem_drop hd)
  unfold origfilename_of at hc
  simp only at hc
  split at hc
  · exact key c hc
  · split at hc
    · exact key c hc
    · exact key c (List.mem_of_mem_take hc)

theorem strpbrk_some_take {s set : List Char} {i : Nat} (h : strpbrk s set = some i) :
    ∀ p, Pre p s → (∀ c ∈ p, set.contains c = false) → Pre p (s.take i) := by
  induction s generalizing i with
  | nil => simp [strpbrk] at h
  | cons c s ih =>
    intro p hp hset
    rcases p with _ | ⟨d, p⟩
    · exact ⟨_, rfl⟩
    · obtain ⟨b, hb⟩ := hp
      simp only [List.cons_append, List.cons.injEq] at hb
      obtain ⟨rfl, rfl⟩ := hb
      simp only [strpbrk, hset c (by simp), Bool.false_eq_true, if_false] at h
      split at h
      · rename_i j hj
        cases h
        obtain ⟨b', hb'⟩ := ih hj p ⟨b, rfl⟩ (fun x hx => hset x (by simp [hx]))
        exact ⟨b', by simp [hb']⟩
      · cases h

theorem origfilename_of_pre {url : List Char}
    (h : Pre ['/', '.', '.', '/'] (strdecode url)) : Pre ['.', '.', '/'] (origfilename_of url) := by
  obtain ⟨b, hb⟩ := h
  have h1 : (cstr (strdecode url)).drop 1 = ['.', '.', '/'] ++ cstr b := by
    rw [hb]
    simp [cstr, List.takeWhile]
  unfold origfilename_of
  simp only [h1]
  split
  · exact ⟨_, rfl⟩
  · split
    · exact ⟨_, rfl⟩
    · rename_i i hi
      exact strpbrk_some_take hi _ ⟨_, rfl⟩ (by decide)

theorem parse_request_head_origfilename {read_buf : List Char} {r : ParsedURL}
    (h : parse_request_head read_buf = .ok r) :
    r.origfilename = origfilename_of r.encodedurl := by
  unfold parse_request_head at h
  split at h
  · cases h
  · split at h
    · cases h
    · split at h
      · cases h
      · split at h
        · cases h
        · split at h
          · cases h
          · cases h
            rfl

/-- C2, as the code has it. For every request whose URL percent-decodes to a path that
begins with `/../`, `de_dotdot` drops the leading `../`; the test after `de_dotdot`
answers 400 exactly when the string left is `..`, and otherwise the request passes the
test with a canonical filename that begins neither with `/` nor with `../`. -/
theorem parse_request_dotdot_url (read_buf : List Char) (r : ParsedURL)
    (h : parse_request_head read_buf = .ok r)
    (hd : Pre ['/', '.', '.', '/'] (strdecode r.encodedurl)) :
    (de_dotdot r.origfilename = ['.', '.'] → httpd_parse_request read_buf = .error 400) ∧
    (de_dotdot r.origfilename ≠ ['.', '.'] →
      httpd_parse_request read_buf = .ok { r with origfilename := de_dotdot r.origfilename } ∧
      ¬ Pre ['/'] (de_dotdot r.origfilename) ∧
      ¬ Pre ['.', '.', '/'] (de_dotdot r.origfilename)) := by
  have horig := parse_request_head_origfilename h
  have hpre : Pre ['.', '.', '/'] r.origfilename := by
    rw [horig]; exact origfilename_of_pre hd
  have hnoslash : ¬ Pre ['/'] r.origfilename := by
    obtain ⟨b, hb⟩ := hpre
    rintro ⟨b', hb'⟩
    rw [hb] at hb'
    simp at hb'
  obtain ⟨s1, -, -, s4, -⟩ := de_dotdot_spec r.origfilename
  have hnul : ∀ c ∈ de_dotdot r.origfilename, c ≠ '\x00' := by
    intro c hc
    have := mem_de_dotdot hc
    rw [horig] at this
    exact origfilename_of_nul_free _ c this
  have hiff := dotdot_rejected_iff hnul (s4 hnoslash) s1
  constructor
  · intro he
    simp only [httpd_parse_request, h, hiff.2 he, if_true]
  · intro hne
    have : dotdot_rejected (de_dotdot r.origfilename) = false := by
      cases hrej : dotdot_rejected (de_dotdot r.origfilename) with
      | false => rfl
      | true => exact absurd (hiff.1 hrej) hne
    refine ⟨?_, s4 hnoslash, s1⟩
    simp only [httpd_parse_request, h, this, Bool.false_eq_true, if_false]

/-- The hypotheses of `parse_request_dotdot_url` hold for the request of scenario S3. -/
theorem parse_request_dotdot_url_witness :
    (de_dotdot ['.', '.', '/', '.', '.', '/', 'e', 't', 'c', '/', 'p', 'a', 's', 's', 'w', 'd']
        = ['.', '.'] → httpd_parse_request traversal_request = .error 400) ∧
    (de_dotdot ['.', '.', '/', '.', '.', '/', 'e', 't', 'c', '/', 'p', 'a', 's', 's', 'w', 'd']
        ≠ ['.', '.'] →
      httpd_parse_request traversal_request =
        .ok { method := .GET, protocol := "HTTP/1.0".toList, mime_flag := true,
              one_one := false, reqhost := [],
              encodedurl := "/%2e%2e/%2e%2e/etc/passwd".toList,
              decodedurl := "/../../etc/passwd".toList,
              origfilename := de_dotdot
                ['.', '.', '/', '.', '.', '/', 'e', 't', 'c', '/', 'p', 'a', 's', 's', 'w', 'd'],
              query := [], rest := ['\r', '\n'] } ∧
      ¬ Pre ['/'] (de_dotdot
        ['.', '.', '/', '.', '.', '/', 'e', 't', 'c', '/', 'p', 'a', 's', 's', 'w', 'd']) ∧
      ¬ Pre ['.', '.', '/'] (de_dotdot
        ['.', '.', '/', '.', '.', '/', 'e', 't', 'c', '/', 'p', 'a', 's', 's', 'w', 'd'])) :=
  parse_request_dotdot_url traversal_request
    { method := .GET, protocol := "HTTP/1.0".toList, mime_flag := true,
      one_one := false, reqhost := [],
      encodedurl := "/%2e%2e/%2e%2e/etc/passwd".toList,
      decodedurl := "/../../etc/passwd".toList,
      origfilename := "../../etc/passwd".toList,
      query := [], rest := ['\r', '\n'] }
    (by rfl) ⟨"../etc/passwd".toList, by decide⟩

/-- C2 fails as stated: the URL of the request of scenario S3 decodes to
`/../../etc/passwd`, which begins with `/../`, and `httpd_parse_request` does not answer
400: the test after `de_dotdot` passes, with the filename `etc/passwd`. -/
theorem traversal_request_not_rejected :
    (parse_request_head traversal_request).toOption.map
      (fun r => (strdecode r.encodedurl).take 4) = some ['/', '.', '.', '/'] ∧
    httpd_parse_request traversal_request ≠ .error 400 ∧
    (httpd_parse_request traversal_request).toOption.map (fun r => r.origfilename)
      = some "etc/passwd".toList := by
  refine ⟨by decide, ?_, by decide⟩
  intro h
  have h2 : (httpd_parse_request traversal_request).toOption.isSome = true := by decide
  rw [h] at h2
  exact absurd h2 (by decide)

/-! ## The cache of mapped files -/

/-- C6 at the failing inputs. Two files of length zero share the address `(void*) 1`:
after two `mmc_map` and two `mmc_unmap` calls on that address (no stat buffer) the second
`mmc_unmap` finds the entry released before, logs "zero or negative refcount" and
decrements nothing, so the refcounts add up to 1 and not to 2 - 2. With stat buffers the
same happens once the probe chain of the entry is broken by `mmc_cleanup`: three maps,
three unmaps, refcounts adding up to 1. -/
theorem mmc_unmap_empty_file_leak :
    total_refcount two_empty_files = 2 ∧
    total_refcount two_empty_files_released = 1 ∧
    two_empty_files_released.log = ["mmc_unmap found zero or negative refcount!"] ∧
    total_refcount empty_file_behind_gap = 1 ∧
    empty_file_behind_gap.log = ["mmc_unmap found zero or negative refcount!"] := by
  refine ⟨by decide, by decide, by decide, by decide, by decide⟩

theorem unmap_walk_fst (cond : Map → Bool) (l : List Map) (s : Mmc) :
    (unmap_walk cond l s).1 = l.filter (fun m => !cond m) := by
  induction l generalizing s with
  | nil => rfl
  | cons m rest ih =>
    simp only [unmap_walk]
    split
    · rename_i h
      simp [ih, h]
    · rename_i h
      simp [ih, h]

theorem unmap_walk_released (cond : Map → Bool) (l : List Map) (s : Mmc) :
    (unmap_walk cond l s).2.released = (l.filter cond).reverse ++ s.released := by
  induction l generalizing s with
  | nil => rfl
  | cons m rest ih =>
    simp only [unmap_walk]
    split
    · rename_i h
      simp [ih, h, really_unmap]
    · rename_i h
      simp [ih, h]

theorem trim_free_maps (n : Nat) (s : Mmc) :
    (trim_free n s).maps = s.maps ∧ (trim_free n s).released = s.released := by
  induction n generalizing s with
  | zero => exact ⟨rfl, rfl⟩
  | succ n ih =>
    simp only [trim_free]
    split
    · exact ih _
    · exact ⟨rfl, rfl⟩

theorem mmc_cleanup_maps (s : Mmc) (now : Int) :
    (mmc_cleanup s now).maps =
      s.maps.filter (fun m => !(m.refcount == 0 && decide (now - m.reftime ≥ s.expire_age))) ∧
    (mmc_cleanup s now).released =
      (s.maps.filter (fun m => m.refcount == 0 && decide (now - m.reftime ≥ s.expire_age))).reverse
        ++ s.released := by
  unfold mmc_cleanup
  simp only
  rw [(trim_free_maps _ _).1, (trim_free_maps _ _).2]
  split
  · exact ⟨unmap_walk_fst _ _ _, unmap_walk_released _ _ _⟩
  · split
    · exact ⟨unmap_walk_fst _ _ _, unmap_walk_released _ _ _⟩
    · split
      · exact ⟨unmap_walk_fst _ _ _, unmap_walk_released _ _ _⟩
      · exact ⟨unmap_walk_fst _ _ _, unmap_walk_released _ _ _⟩

theorem panic_maps (s : Mmc) :
    (panic s).maps = s.maps.filter (fun m => !(m.refcount == 0)) ∧
    (panic s).released = (s.maps.filter (fun m => m.refcount == 0)).reverse ++ s.released := by
  unfold panic
  exact ⟨unmap_walk_fst _ _ _, unmap_walk_released _ _ _⟩

/-- C7. The cache never unmaps a live reference and releases everything that is expired:
`mmc_cleanup` hands to `really_unmap` exactly the active entries with `refcount = 0` and
`now - reftime ≥ expire_age`, and `panic` exactly those with `refcount = 0`; the active
list that is left consists of all the other entries, in order and unchanged, among them
every entry with a positive refcount. With `expire_age = 0` and `now` not before any
`reftime`, no entry with `refcount = 0` is left after one `mmc_cleanup`. -/
theorem mmc_cleanup_exact (s : Mmc) (now : Int) :
    (mmc_cleanup s now).maps =
      s.maps.filter (fun m => !(m.refcount == 0 && decide (now - m.reftime ≥ s.expire_age))) ∧
    (mmc_cleanup s now).released =
      (s.maps.filter (fun m => m.refcount == 0 && decide (now - m.reftime ≥ s.expire_age))).reverse
        ++ s.released ∧
    (panic s).maps = s.maps.filter (fun m => !(m.refcount == 0)) ∧
    (panic s).released = (s.maps.filter (fun m => m.refcount == 0)).reverse ++ s.released ∧
    (∀ m ∈ s.maps, 0 < m.refcount → m ∈ (mmc_cleanup s now).maps ∧ m ∈ (panic s).maps) ∧
    (s.expire_age = 0 → (∀ m ∈ s.maps, m.reftime ≤ now) →
      ∀ m ∈ (mmc_cleanup s now).maps, m.refcount ≠ 0) := by
  obtain ⟨c1, c2⟩ := mmc_cleanup_maps s now
  obtain ⟨p1, p2⟩ := panic_maps s
  refine ⟨c1, c2, p1, p2, ?_, ?_⟩
  · intro m hm hpos
    rw [c1, p1]
    have hne : (m.refcount == 0) = false := by
      simp only [beq_eq_false_iff_ne, ne_eq]
      omega
    constructor
    · rw [List.mem_filter]
      exact ⟨hm, by simp [hne]⟩
    · rw [List.mem_filter]
      exact ⟨hm, by simp [hne]⟩
  · intro h0 hnow m hm
    rw [c1, List.mem_filter] at hm
    obtain ⟨hm1, hm2⟩ := hm
    intro hz
    have h1 := hnow m hm1
    simp only [hz, h0, beq_self_eq_true, Bool.true_and, Bool.not_eq_true',
      decide_eq_false_iff_not] at hm2
    omega

/-- The last part of C7 at a concrete cache with `expire_age = 0`: after one
`mmc_cleanup` no entry with `refcount = 0` is left. -/
theorem mmc_cleanup_exact_witness :
    ∀ m ∈ (mmc_cleanup zero_age_cache 10).maps, m.refcount ≠ 0 :=
  (mmc_cleanup_exact zero_age_cache 10).2.2.2.2.2 rfl (by decide)

/-! ## Decimal numbers: `%lld` and `atoll` -/

theorem isdigit_digit (k : Nat) (hk : k < 10) : isdigit (Char.ofNat ('0'.toNat + k)) = true := by
  interval_cases k <;> decide

theorem digit_value (k : Nat) (hk : k < 10) :
    (Char.ofNat ('0'.toNat + k)).toNat - '0'.toNat = k := by
  interval_cases k <;> decide

theorem decimal_digits_acc (fuel n : Nat) (acc : List Char) :
    decimal_digits fuel n acc = decimal_digits fuel n [] ++ acc := by
  induction fuel generalizing n acc with
  | zero => simp [decimal_digits]
  | succ f ih =>
    simp only [decimal_digits]
    split
    · simp
    · rw [ih (n / 10) (Char.ofNat ('0'.toNat + n % 10) :: acc),
        ih (n / 10) [Char.ofNat ('0'.toNat + n % 10)]]
      simp

/-- The digits printed for `n`, the most significant first. -/
theorem decimal_digits_step (f n : Nat) :
    decimal_digits (f + 1) n [] =
      if n / 10 = 0 then [Char.ofNat ('0'.toNat + n % 10)]
      else decimal_digits f (n / 10) [] ++ [Char.ofNat ('0'.toNat + n % 10)] := by
  simp only [decimal_digits]
  split
  · rfl
  · rw [decimal_digits_acc]

theorem digits_value_append (s t : List Char) (a : Nat) (hs : ∀ c ∈ s, isdigit c = true) :
    digits_value (s ++ t) a = digits_value t (digits_value s a) := by
  induction s generalizing a with
  | nil => rfl
  | cons c s ih =>
    have hc := hs c (List.mem_cons_self _ _)
    simp only [List.cons_append, digits_value, hc, if_true]
    exact ih _ (fun d hd => hs d (List.mem_cons_of_mem _ hd))

theorem decimal_digits_spec (f n : Nat) (hn : n < 10 ^ (f + 1)) :
    (∀ c ∈ decimal_digits (f + 1) n [], isdigit c = true) ∧
    decimal_digits (f + 1) n [] ≠ [] ∧
    (decimal_digits (f + 1) n []).length ≤ f + 1 ∧
    digits_value (decimal_digits (f + 1) n []) 0 = n := by
  induction f generalizing n with
  | zero =>
    have h10 : n < 10 := by simpa using hn
    have h0 : n / 10 = 0 := by omega
    rw [decimal_digits_step, if_pos h0]
    have hm : n % 10 = n := by omega
    refine ⟨?_, by simp, by simp, ?_⟩
    · intro c hc
      simp only [List.mem_singleton] at hc
      rw [hc]
      exact isdigit_digit _ (by omega)
    · simp only [digits_value, isdigit_digit _ (show n % 10 < 10 by omega), if_true,
        digit_value _ (show n % 10 < 10 by omega)]
      omega
  | succ f ih =>
    rw [decimal_digits_step]
    split
    · rename_i h0
      have hm : n % 10 = n := by omega
      refine ⟨?_, by simp, by simp, ?_⟩
      · intro c hc
        simp only [List.mem_singleton] at hc
        rw [hc]
        exact isdigit_digit _ (by omega)
      · simp only [digits_value, isdigit_digit _ (show n % 10 < 10 by omega), if_true,
          digit_value _ (show n % 10 < 10 by omega)]
        omega
    · have hlt : n / 10 < 10 ^ (f + 1) := by
        rw [Nat.div_lt_iff_lt_mul (by norm_num)]
        calc n < 10 ^ (f + 1 + 1) := hn
          _ = 10 ^ (f + 1) * 10 := by ring
      obtain ⟨h1, h2, h3, h4⟩ := ih (n / 10) hlt
      refine ⟨?_, by simp, ?_, ?_⟩
      · intro c hc
        rcases List.mem_append.1 hc with hc | hc
        · exact h1 c hc
        · simp only [List.mem_singleton] at hc
          rw [hc]
          exact isdigit_digit _ (by omega)
      · simp only [List.length_append, List.length_singleton]
        omega
      · rw [digits_value_append _ _ _ h1, h4]
        simp only [digits_value, isdigit_digit _ (show n % 10 < 10 by omega), if_true,
          digit_value _ (show n % 10 < 10 by omega)]
        omega

theorem lt_ten_pow_succ (n : Nat) : n < 10 ^ (n + 1) :=
  calc n < n + 1 := Nat.lt_succ_self n
    _ < 10 ^ (n + 1) := Nat.lt_pow_self (by norm_num) _

/-- What `%lld` prints for `n` consists of digits, is not empty, and reads back as `n`. -/
theorem decimal_spec (n : Nat) :
    (∀ c ∈ decimal n, isdigit c = true) ∧ decimal n ≠ [] ∧ digits_value (decimal n) 0 = n := by
  obtain ⟨h1, h2, -, h4⟩ := decimal_digits_spec n n (lt_ten_pow_succ n)
  exact ⟨h1, h2, h4⟩

theorem decimal_digits_fuel (f g n : Nat) (hf : n < 10 ^ (f + 1)) (hg : n < 10 ^ (g + 1)) :
    decimal_digits (f + 1) n [] = decimal_digits (g + 1) n [] := by
  induction f generalizing g n with
  | zero =>
    have h0 : n / 10 = 0 := by
      have : n < 10 := by simpa using hf
      omega
    rw [decimal_digits_step 0 n, decimal_digits_step g n, if_pos h0, if_pos h0]
  | succ f ih =>
    rw [decimal_digits_step (f + 1) n, decimal_digits_step g n]
    by_cases h0 : n / 10 = 0
    · rw [if_pos h0, if_pos h0]
    · rw [if_neg h0, if_neg h0]
      have hlt : n / 10 < 10 ^ (f + 1) := by
        rw [Nat.div_lt_iff_lt_mul (by norm_num)]
        calc n < 10 ^ (f + 1 + 1) := hf
          _ = 10 ^ (f + 1) * 10 := by ring
      cases g with
      | zero =>
        exfalso
        have : n < 10 := by simpa using hg
        omega
      | succ g =>
        have hlt' : n / 10 < 10 ^ (g + 1) := by
          rw [Nat.div_lt_iff_lt_mul (by norm_num)]
          calc n < 10 ^ (g + 1 + 1) := hg
            _ = 10 ^ (g + 1) * 10 := by ring
        rw [ih g (n / 10) hlt hlt']

/-- A number below `2 ^ 63` is printed with at most 19 digits. -/
theorem decimal_length (n : Nat) (hn : n < 2 ^ 63) : (decimal n).length ≤ 19 := by
  have h19 : n < 10 ^ (18 + 1) := lt_of_lt_of_le hn (by norm_num)
  unfold decimal
  rw [decimal_digits_fuel n 18 n (lt_ten_pow_succ n) h19]
  exact (decimal_digits_spec 18 n h19).2.2.1

theorem isdigit_not_space {c : Char} (h : isdigit c = true) : isspace c = false := by
  simp only [isdigit, Bool.and_eq_true, decide_eq_true_eq] at h
  simp only [isspace, Bool.or_eq_false_iff, beq_eq_false_iff_ne, ne_eq]
  obtain ⟨h1, h2⟩ := h
  refine ⟨⟨⟨⟨⟨?_, ?_⟩, ?_⟩, ?_⟩, ?_⟩, ?_⟩ <;> (intro e; rw [e] at h1; revert h1; decide)

theorem atoll_decimal (n : Nat) (hn : n < 2 ^ 63) : atoll (decimal n) = n := by
  obtain ⟨h1, h2, h3⟩ := decimal_spec n
  cases hd : decimal n with
  | nil => exact absurd hd h2
  | cons c rest =>
    rw [hd] at h1 h3
    have hc := h1 c (List.mem_cons_self _ _)
    have hsp := isdigit_not_space hc
    have hminus : c ≠ '-' := by
      intro e; rw [e] at hc; revert hc; decide
    have hplus : c ≠ '+' := by
      intro e; rw [e] at hc; revert hc; decide
    unfold atoll
    simp only [List.dropWhile, hsp]
    have hmatch : (match c :: rest with
        | '-' :: r => -(digits_value r 0 : Int)
        | '+' :: r => (digits_value r 0 : Int)
        | _ => (digits_value (c :: rest) 0 : Int)) = (n : Int) := by
      split
      · rename_i r heq
        exact absurd (List.cons.inj heq).1 hminus
      · rename_i r heq
        exact absurd (List.cons.inj heq).1 hplus
      · rw [h3]
    rw [hmatch]
    have hn' : (n : Int) < 2 ^ 63 := by exact_mod_cast hn
    rw [min_eq_left (by omega), max_eq_right (by omega)]


theorem strpbrk_none {s set : List Char} (h : ∀ c ∈ s, set.contains c = false) :
    strpbrk s set = none := by
  induction s with
  | nil => rfl
  | cons c s ih =>
    simp only [strpbrk, h c (List.mem_cons_self _ _), Bool.false_eq_true, if_false,
      ih (fun d hd => h d (List.mem_cons_of_mem _ hd))]

theorem strpbrk_first {p rest set : List Char} {c : Char}
    (hp : ∀ x ∈ p, set.contains x = false) (hc : set.contains c = true) :
    strpbrk (p ++ c :: rest) set = some p.length := by
  induction p with
  | nil => simp only [List.nil_append, strpbrk, hc, if_true, List.length_nil]
  | cons x p ih =>
    have h := ih (fun d hd => hp d (List.mem_cons_of_mem _ hd))
    simp only [List.cons_append, strpbrk, hp x (List.mem_cons_self _ _), Bool.false_eq_true,
      if_false, List.append_eq, h, List.length_cons]

theorem isdigit_ne {c d : Char} (h : isdigit c = true) (hd : isdigit d = false) : c ≠ d := by
  intro e
  rw [e, hd] at h
  exact absurd h (by decide)

/-- The `Range:` branch of the header loop on the line `Range: bytes=A-B`. -/
theorem parse_range_header_decimal (hc : HttpdConn) (A B : Nat) (hA : A < 2 ^ 63)
    (hB : B < 2 ^ 63) :
    parse_range_header hc ("Range: bytes=".toList ++ decimal A ++ '-' :: decimal B) =
      { hc with got_range := true, first_byte_index := A, last_byte_index := B } := by
  obtain ⟨a1, a2, -⟩ := decimal_spec A
  obtain ⟨b1, b2, -⟩ := decimal_spec B
  have hline : "Range: bytes=".toList ++ decimal A ++ '-' :: decimal B =
      "Range: bytes".toList ++ '=' :: (decimal A ++ '-' :: decimal B) := by
    simp
  have hlit : ∀ c ∈ "Range: bytes=".toList, c ≠ ',' := by decide
  have hcomma : strchr ("Range: bytes=".toList ++ decimal A ++ '-' :: decimal B) ',' = none := by
    unfold strchr
    apply strpbrk_none
    intro c hc
    simp only [List.contains_cons, List.contains_nil, Bool.or_false, beq_eq_false_iff_ne, ne_eq]
    rcases List.mem_append.1 hc with h | h
    · rcases List.mem_append.1 h with h | h
      · exact hlit c h
      · exact isdigit_ne (a1 c h) (by decide)
    · rcases List.mem_cons.1 h with h | h
      · rw [h]; decide
      · exact isdigit_ne (b1 c h) (by decide)
  have heq : strpbrk ("Range: bytes=".toList ++ decimal A ++ '-' :: decimal B) ['='] =
      some 12 := by
    rw [hline]
    exact strpbrk_first (by decide) (by decide)
  have hafter : ("Range: bytes=".toList ++ decimal A ++ '-' :: decimal B).drop (12 + 1) =
      decimal A ++ '-' :: decimal B := by
    rw [List.append_assoc]
    exact List.drop_left' (by decide)
  have hdash : strchr (decimal A ++ '-' :: decimal B) '-' = some (decimal A).length := by
    unfold strchr
    apply strpbrk_first
    · intro c hc
      simp only [List.contains_cons, List.contains_nil, Bool.or_false, beq_eq_false_iff_ne, ne_eq]
      exact isdigit_ne (a1 c hc) (by decide)
    · decide
  have hlen : (decimal A).length ≠ 0 := by
    intro h
    exact a2 (List.length_eq_zero.1 h)
  have htake : (decimal A ++ '-' :: decimal B).take (decimal A).length = decimal A :=
    List.take_left' rfl
  have hdrop : (decimal A ++ '-' :: decimal B).drop ((decimal A).length + 1) = decimal B := by
    have : decimal A ++ '-' :: decimal B = (decimal A ++ ['-']) ++ decimal B := by simp
    rw [this]
    exact List.drop_left' (by simp)
  have hdig : isdigit (cAt (decimal A ++ '-' :: decimal B) ((decimal A).length + 1)) = true := by
    have : cAt (decimal A ++ '-' :: decimal B) ((decimal A).length + 1) = cAt (decimal B) 0 := by
      unfold cAt
      rw [List.getD_eq_getElem?_getD, List.getD_eq_getElem?_getD,
        List.getElem?_append_right (by omega)]
      simp
    rw [this]
    cases hB' : decimal B with
    | nil => exact absurd hB' b2
    | cons c rest =>
      rw [hB'] at b1
      simpa [cAt] using b1 c (List.mem_cons_self _ _)
  unfold parse_range_header
  simp only [hcomma, heq, hafter, hdash, Option.isSome_none, Bool.false_eq_true, if_false, hlen,
    htake, hdrop, hdig, if_true, atoll_decimal A hA, atoll_decimal B hB]
  have h1 : ¬ ((A : Int) < 0) := by omega
  have h2 : ¬ ((B : Int) < 0) := by omega
  simp only [h1, h2, if_false]


theorem fmt_int_nat (n : Nat) : fmt_int (n : Int) = decimal n := by
  unfold fmt_int
  have : ¬ ((n : Int) < 0) := by omega
  rw [if_neg this]
  simp

theorem text_of_mem_parts {parts : List (MimePart × List Char)} {k : MimePart} {T : List Char}
    (h : (k, T) ∈ parts) : ∃ pre post, (parts.map (fun p => p.2)).flatten = pre ++ T ++ post := by
  obtain ⟨s, t, rfl⟩ := List.append_of_mem h
  exact ⟨(s.map (fun p => p.2)).flatten, (t.map (fun p => p.2)).flatten, by simp⟩

theorem content_range_fits (A B S : Nat) (hAB : A ≤ B) (hBS : B < S) (hS : S < 2 ^ 63) :
    snprintf_fit 1000 (content_range_text A B S) = content_range_text A B S := by
  unfold snprintf_fit
  apply List.take_of_length_le
  have h1 := decimal_length A (by omega)
  have h2 := decimal_length B (by omega)
  have h3 := decimal_length S hS
  have h4 := decimal_length (B - A + 1) (by omega)
  simp only [content_range_text, crlf, List.length_append, List.length_cons, List.length_nil]
  have e1 : "Content-Range: bytes ".toList.length = 21 := by decide
  have e2 : "-".toList.length = 1 := by decide
  have e3 : "/".toList.length = 1 := by decide
  have e4 : "Content-Length: ".toList.length = 16 := by decide
  omega


theorem partial_content_true (hc : HttpdConn) (length : Int)
    (hr : hc.got_range = true) (hle : hc.last_byte_index ≥ hc.first_byte_index)
    (hne : hc.last_byte_index ≠ length - 1 ∨ hc.first_byte_index ≠ 0)
    (hif : hc.range_if = -1) : partial_content hc 200 length = true := by
  unfold partial_content
  rcases hne with hne | hne <;> simp [hr, hle, hne, hif]

theorem really_start_request_get (hc : HttpdConn) (cache : Mmc) (now : Int) (env : StartEnv)
    (addr : Nat) (hget : hc.method = .GET)
    (hfill : ¬ (hc.got_range = true ∧
      (hc.last_byte_index = -1 ∨ hc.last_byte_index ≥ hc.sb.st_size)))
    (hims : ¬ (hc.if_modified_since ≠ -1 ∧ hc.if_modified_since ≥ hc.st_mtime))
    (hmap : (mmc_map cache hc.sb now env.map_env).1 = some addr) :
    really_start_request hc cache now env =
      (0, send_mime { hc with type := env.figured_type, encodings := env.figured_encodings,
                              file_address := some addr }
            env.clock 200 "OK".toList env.figured_encodings []
            (fixed_type hc.hs env.figured_type) hc.sb.st_size hc.st_mtime,
        (mmc_map cache hc.sb now env.map_env).2) := by
  unfold really_start_request
  rw [if_neg (by rw [hget]; simp)]
  simp only [if_neg hfill, hget, reduceCtorEq, if_false, if_neg hims, hmap]

theorem send_mime_status_206 (hc : HttpdConn) (clock : Clock)
    (title encodings extraheads ft : List Char) (length mod : Int)
    (hmime : hc.mime_flag = true) (hp : partial_content hc 200 length = true) :
    send_mime hc clock 200 title encodings extraheads ft length mod =
      { hc with status := 206, bytes_to_send := length,
                response := hc.response ++
                  ((send_mime_parts hc clock 200 title encodings extraheads ft length mod).map
                    (fun p => p.2)).flatten,
                headers := hc.headers ++
                  send_mime_parts hc clock 200 title encodings extraheads ft length mod } := by
  unfold send_mime
  rw [if_pos hmime]
  simp only
  rw [if_pos hp]

theorem send_mime_parts_range (hc : HttpdConn) (clock : Clock)
    (title encodings extraheads ft : List Char) (length mod : Int)
    (hp : partial_content hc 200 length = true) :
    (MimePart.content_range_and_length,
      snprintf_fit 1000 ("Content-Range: bytes ".toList ++ fmt_int hc.first_byte_index ++
        "-".toList ++ fmt_int hc.last_byte_index ++ "/".toList ++ fmt_int length ++ crlf ++
        "Content-Length: ".toList ++
        fmt_int (hc.last_byte_index - hc.first_byte_index + 1) ++ crlf)) ∈
      send_mime_parts hc clock 200 title encodings extraheads ft length mod := by
  unfold send_mime_parts
  simp only [hp, if_true]
  simp only [List.mem_append]
  exact Or.inl (Or.inl (Or.inl (Or.inl (Or.inr (List.mem_singleton.2 rfl)))))

theorem handle_read_start_range (c : Connecttab) (throttles : List Throttle) (now : Int)
    (hr : c.hc.got_range = true) (hfa : c.hc.file_address ≠ none)
    (hlt : c.hc.first_byte_index < c.hc.last_byte_index + 1) :
    (handle_read_start c throttles now).1.next_byte_index = c.hc.first_byte_index ∧
    (handle_read_start c throttles now).1.end_byte_index = c.hc.last_byte_index + 1 ∧
    (handle_read_start c throttles now).1.conn_state = .CNST_SENDING := by
  unfold handle_read_start
  simp only [hr, if_true, hfa, if_false]
  rw [if_neg (by simp only [ge_iff_le, not_le]; exact hlt)]
  exact ⟨rfl, rfl, rfl⟩

/-- C3, as the code has it. For a file of `S` bytes and `0 ≤ A ≤ B < S` other than the
whole file (`A = 0` and `B = S - 1`), a GET request with MIME headers whose header loop
runs the `Range:` branch on `Range: bytes=A-B`, without `If-Range` and without an
`If-Modified-Since` at or after the file's mtime, is answered 206 with the pair of headers
`Content-Range: bytes A-B/S`, `Content-Length: B-A+1`, and `handle_read` schedules the
bytes `A` to `B`: `next_byte_index = A` and `end_byte_index = B + 1`. -/
theorem range_request_partial_content (hc : HttpdConn) (cache : Mmc) (now : Int)
    (env : StartEnv) (c : Connecttab) (throttles : List Throttle) (A B addr : Nat)
    (hAB : A ≤ B) (hBS : B < hc.sb.st_size) (hS : hc.sb.st_size < 2 ^ 63)
    (hnot : ¬ (A = 0 ∧ B + 1 = hc.sb.st_size))
    (hget : hc.method = .GET) (hmime : hc.mime_flag = true) (hif : hc.range_if = -1)
    (hims : hc.if_modified_since = -1 ∨ hc.if_modified_since < hc.st_mtime)
    (hmap : (mmc_map cache hc.sb now env.map_env).1 = some addr) :
    (really_start_request (parse_range_header hc (range_line A B)) cache now env).1 = 0 ∧
    (really_start_request (parse_range_header hc (range_line A B)) cache now env).2.1.status
      = 206 ∧
    (MimePart.content_range_and_length, content_range_text A B hc.sb.st_size) ∈
      (really_start_request (parse_range_header hc (range_line A B)) cache now env).2.1.headers ∧
    (∃ pre post,
      (really_start_request (parse_range_header hc (range_line A B)) cache now env).2.1.response
        = pre ++ content_range_text A B hc.sb.st_size ++ post) ∧
    (handle_read_start { c with hc :=
        (really_start_request (parse_range_header hc (range_line A B)) cache now env).2.1 }
      throttles now).1.next_byte_index = A ∧
    (handle_read_start { c with hc :=
        (really_start_request (parse_range_header hc (range_line A B)) cache now env).2.1 }
      throttles now).1.end_byte_index = B + 1 ∧
    (handle_read_start { c with hc :=
        (really_start_request (parse_range_header hc (range_line A B)) cache now env).2.1 }
      throttles now).1.conn_state = .CNST_SENDING := by
  have hparse := parse_range_header_decimal hc A B (by omega) (by omega)
  unfold range_line
  rw [hparse]
  obtain ⟨hc1, hdef⟩ : ∃ x, x =
      { hc with got_range := true, first_byte_index := (A : Int), last_byte_index := (B : Int) } :=
    ⟨_, rfl⟩
  rw [← hdef]
  have f1 : hc1.method = .GET := by rw [hdef]; exact hget
  have f2 : hc1.got_range = true := by rw [hdef]
  have f3 : hc1.first_byte_index = A := by rw [hdef]
  have f4 : hc1.last_byte_index = B := by rw [hdef]
  have f5 : hc1.sb = hc.sb := by rw [hdef]
  have f6 : hc1.if_modified_since = hc.if_modified_since := by rw [hdef]
  have f7 : hc1.st_mtime = hc.st_mtime := by rw [hdef]
  have f8 : hc1.range_if = -1 := by rw [hdef]; exact hif
  have f9 : hc1.mime_flag = true := by rw [hdef]; exact hmime
  have f10 : hc1.response = hc.response := by rw [hdef]
  have hims' : ¬ (hc1.if_modified_since ≠ -1 ∧ hc1.if_modified_since ≥ hc1.st_mtime) := by
    rw [f6, f7]
    rintro ⟨h1, h2⟩
    rcases hims with h | h
    · exact h1 h
    · omega
  have hfill : ¬ (hc1.got_range = true ∧
      (hc1.last_byte_index = -1 ∨ hc1.last_byte_index ≥ hc1.sb.st_size)) := by
    rw [f4, f5]
    omega
  rw [really_start_request_get hc1 cache now env addr f1 hfill hims' (by rw [f5]; exact hmap)]
  simp only
  obtain ⟨hc2, hdef2⟩ : ∃ x, x =
      { hc1 with type := env.figured_type
                 encodings := env.figured_encodings
                 file_address := some addr } :=
    ⟨_, rfl⟩
  rw [← hdef2]
  have g2 : hc2.got_range = true := by rw [hdef2]; exact f2
  have g3 : hc2.first_byte_index = A := by rw [hdef2]; exact f3
  have g4 : hc2.last_byte_index = B := by rw [hdef2]; exact f4
  have g8 : hc2.range_if = -1 := by rw [hdef2]; exact f8
  have g9 : hc2.mime_flag = true := by rw [hdef2]; exact f9
  have g10 : hc2.response = hc.response := by rw [hdef2]; exact f10
  have hp : partial_content hc2 200 (hc1.sb.st_size : Int) = true := by
    apply partial_content_true hc2 _ g2
    · rw [g3, g4]; omega
    · rw [g3, g4, f5]; omega
    · exact g8
  rw [send_mime_status_206 hc2 _ _ _ _ _ _ _ g9 hp]
  have hmem := send_mime_parts_range hc2 env.clock "OK".toList
    env.figured_encodings [] (fixed_type hc1.hs env.figured_type) hc1.sb.st_size hc1.st_mtime hp
  have htext : snprintf_fit 1000 ("Content-Range: bytes ".toList ++ fmt_int hc2.first_byte_index ++
        "-".toList ++ fmt_int hc2.last_byte_index ++ "/".toList ++
        fmt_int (hc1.sb.st_size : Int) ++ crlf ++ "Content-Length: ".toList ++
        fmt_int (hc2.last_byte_index - hc2.first_byte_index + 1) ++ crlf)
      = content_range_text A B hc.sb.st_size := by
    have e : (B : Int) - (A : Int) + 1 = ((B - A + 1 : Nat) : Int) := by omega
    rw [g3, g4, f5, e, fmt_int_nat, fmt_int_nat, fmt_int_nat, fmt_int_nat]
    exact content_range_fits A B hc.sb.st_size hAB hBS hS
  simp only at hmem
  rw [htext] at hmem
  obtain ⟨hc3, hdef3⟩ : ∃ x, x =
      { hc2 with status := 206
                 bytes_to_send := (hc1.sb.st_size : Int)
                 response := hc2.response ++
                   ((send_mime_parts hc2 env.clock 200 "OK".toList env.figured_encodings []
                     (fixed_type hc1.hs env.figured_type) hc1.sb.st_size hc1.st_mtime).map
                       (fun p : MimePart × List Char => p.2)).flatten
                 headers := hc2.headers ++
                   send_mime_parts hc2 env.clock 200 "OK".toList env.figured_encodings []
                     (fixed_type hc1.hs env.figured_type) hc1.sb.st_size hc1.st_mtime } :=
    ⟨_, rfl⟩
  rw [← hdef3]
  have k1 : hc3.status = 206 := by rw [hdef3]
  have k2 : hc3.got_range = true := by rw [hdef3]; exact g2
  have k3 : hc3.first_byte_index = A := by rw [hdef3]; exact g3
  have k4 : hc3.last_byte_index = B := by rw [hdef3]; exact g4
  have k5 : hc3.file_address ≠ none := by rw [hdef3, hdef2]; simp
  have k6 : hc3.headers = hc2.headers ++
      send_mime_parts hc2 env.clock 200 "OK".toList env.figured_encodings []
        (fixed_type hc1.hs env.figured_type) hc1.sb.st_size hc1.st_mtime := by rw [hdef3]
  have k7 : hc3.response = hc2.response ++
      ((send_mime_parts hc2 env.clock 200 "OK".toList env.figured_encodings []
        (fixed_type hc1.hs env.figured_type) hc1.sb.st_size hc1.st_mtime).map
          (fun p : MimePart × List Char => p.2)).flatten := by rw [hdef3]
  refine ⟨by trivial, k1, ?_, ?_, ?_⟩
  · show _ ∈ hc3.headers
    rw [k6]
    exact List.mem_append_right _ hmem
  · obtain ⟨pre, post, hpp⟩ := text_of_mem_parts hmem
    refine ⟨hc2.response ++ pre, post, ?_⟩
    show hc3.response = _
    rw [k7, hpp]
    simp
  · have t := handle_read_start_range { c with hc := hc3 } throttles now k2 k5
      (by show hc3.first_byte_index < hc3.last_byte_index + 1; rw [k3, k4]; omega)
    exact ⟨t.1.trans k3, t.2.1.trans (by show hc3.last_byte_index + 1 = _; rw [k4]), t.2.2⟩


/-- Scenario S4: a file of 100 bytes and `Range: bytes=10-19`. -/
theorem range_request_partial_content_witness :
    (really_start_request (parse_range_header (sample_conn 100) (range_line 10 19)) mmc_init
      1000 sample_env).2.1.status = 206 ∧
    (MimePart.content_range_and_length,
      "Content-Range: bytes 10-19/100\r\nContent-Length: 10\r\n".toList) ∈
      (really_start_request (parse_range_header (sample_conn 100) (range_line 10 19)) mmc_init
        1000 sample_env).2.1.headers ∧
    (handle_read_start { sample_connecttab (sample_conn 100) with hc :=
        (really_start_request (parse_range_header (sample_conn 100) (range_line 10 19)) mmc_init
          1000 sample_env).2.1 } [] 1000).1.next_byte_index = 10 ∧
    (handle_read_start { sample_connecttab (sample_conn 100) with hc :=
        (really_start_request (parse_range_header (sample_conn 100) (range_line 10 19)) mmc_init
          1000 sample_env).2.1 } [] 1000).1.end_byte_index = 20 := by
  have h := range_request_partial_content (sample_conn 100) mmc_init 1000 sample_env
    (sample_connecttab (sample_conn 100)) [] 10 19 4096 (by decide) (by decide) (by decide)
    (by decide) rfl rfl rfl (Or.inl rfl) (by decide)
  have ht : content_range_text 10 19 (sample_conn 100).sb.st_size =
      "Content-Range: bytes 10-19/100\r\nContent-Length: 10\r\n".toList := by decide
  rw [ht] at h
  exact ⟨h.2.1, h.2.2.1, h.2.2.2.2.1, h.2.2.2.2.2.1⟩

/-- C3 fails as stated for the range that covers the whole file: for a file of 100 bytes
and `Range: bytes=0-99` the answer is 200 with a plain `Content-Length` header and no
`Content-Range`; with `Range: bytes=10-19` and an `If-Modified-Since` at the file's mtime
the answer is 304. -/
theorem range_whole_file_answered_200 :
    (really_start_request (parse_range_header (sample_conn 100) (range_line 0 99)) mmc_init
      1000 sample_env).2.1.status = 200 ∧
    ((really_start_request (parse_range_header (sample_conn 100) (range_line 0 99)) mmc_init
      1000 sample_env).2.1.headers.map (fun p => p.1)) =
        [MimePart.status_and_fixed_headers, MimePart.content_length, MimePart.blank_line] ∧
    (really_start_request
      (parse_range_header { sample_conn 100 with if_modified_since := 5 } (range_line 10 19))
      mmc_init 1000 sample_env).2.1.status = 304 := by
  refine ⟨by decide, by decide, by decide⟩


theorem send_mime_parts_no_length (hc : HttpdConn) (clock : Clock) (status : Int)
    (title encodings extraheads ft : List Char) (mod : Int) (hs : status ≠ 200) :
    ∀ p ∈ send_mime_parts hc clock status title encodings extraheads ft (-1) mod,
      p.1 ≠ MimePart.content_length ∧ p.1 ≠ MimePart.content_range_and_length := by
  have hp : partial_content hc status (-1) = false := by
    unfold partial_content
    simp [hs]
  intro p hmem
  unfold send_mime_parts at hmem
  simp only [hp, Bool.false_eq_true, if_false, List.mem_append, List.mem_singleton] at hmem
  rcases hmem with (((((((h | h) | h) | h) | h) | h) | h) | h)
  · rw [h]; exact ⟨by simp, by simp⟩
  · split at h
    · rw [List.mem_singleton.1 h]; exact ⟨by simp, by simp⟩
    · simp at h
  · split at h
    · rw [List.mem_singleton.1 h]; exact ⟨by simp, by simp⟩
    · simp at h
  · simp at h
  · split at h
    · rw [List.mem_singleton.1 h]; exact ⟨by simp, by simp⟩
    · simp at h
  · split at h
    · rw [List.mem_singleton.1 h]; exact ⟨by simp, by simp⟩
    · simp at h
  · split at h
    · rw [List.mem_singleton.1 h]; exact ⟨by simp, by simp⟩
    · simp at h
  · rw [h]; exact ⟨by simp, by simp⟩

/-- C4, as the code has it. For a GET request for a static file whose `If-Modified-Since`
time is not `-1` and not before the file's mtime, `really_start_request` returns 0 with
status 304, `bytes_to_send = -1`, no `Content-Length` and no `Content-Range` among the
headers it adds, and without calling `mmc_map`: the cache of mapped files and
`file_address` are unchanged, so that `handle_read` finishes the connection without
sending a body. -/
theorem if_modified_since_get_304 (hc : HttpdConn) (cache : Mmc) (now : Int) (env : StartEnv)
    (c : Connecttab) (throttles : List Throttle)
    (hget : hc.method = .GET) (hset : hc.if_modified_since ≠ -1)
    (hnew : hc.if_modified_since ≥ hc.st_mtime) (hfile : hc.file_address = none) :
    (really_start_request hc cache now env).1 = 0 ∧
    (really_start_request hc cache now env).2.1.status = 304 ∧
    (really_start_request hc cache now env).2.1.bytes_to_send = -1 ∧
    (really_start_request hc cache now env).2.1.file_address = none ∧
    (really_start_request hc cache now env).2.2 = cache ∧
    (∃ parts, (really_start_request hc cache now env).2.1.headers = hc.headers ++ parts ∧
      ∀ p ∈ parts, p.1 ≠ MimePart.content_length ∧ p.1 ≠ MimePart.content_range_and_length) ∧
    (handle_read_start { c with hc := (really_start_request hc cache now env).2.1 }
      throttles now).2.2 = .finish_connection := by
  have hrsr : really_start_request hc cache now env =
      (0, send_mime { (if hc.got_range = true ∧
              (hc.last_byte_index = -1 ∨ hc.last_byte_index ≥ hc.sb.st_size) then
            { hc with last_byte_index := (hc.sb.st_size : Int) - 1 } else hc) with
            type := env.figured_type, encodings := env.figured_encodings }
          env.clock 304 "Not Modified".toList env.figured_encodings []
          (fixed_type hc.hs env.figured_type) (-1) hc.st_mtime, cache) := by
    unfold really_start_request
    rw [if_neg (by rw [hget]; simp)]
    split <;> simp [hget, hset, hnew]
  rw [hrsr]
  obtain ⟨hc1, hdef⟩ : ∃ x, x = { (if hc.got_range = true ∧
              (hc.last_byte_index = -1 ∨ hc.last_byte_index ≥ hc.sb.st_size) then
            { hc with last_byte_index := (hc.sb.st_size : Int) - 1 } else hc) with
            type := env.figured_type, encodings := env.figured_encodings } := ⟨_, rfl⟩
  rw [← hdef]
  have f1 : hc1.file_address = none := by
    rw [hdef]; split <;> exact hfile
  have f2 : hc1.headers = hc.headers := by
    rw [hdef]; split <;> rfl
  have hp : partial_content hc1 304 (-1) = false := by
    unfold partial_content
    simp
  simp only
  by_cases hm : hc1.mime_flag = true
  · have hsm : send_mime hc1 env.clock 304 "Not Modified".toList env.figured_encodings []
        (fixed_type hc.hs env.figured_type) (-1) hc.st_mtime =
        { hc1 with status := 304
                   bytes_to_send := -1
                   got_range := false
                   response := hc1.response ++ ((send_mime_parts hc1 env.clock 304
                     "Not Modified".toList env.figured_encodings []
                     (fixed_type hc.hs env.figured_type) (-1) hc.st_mtime).map
                       (fun p : MimePart × List Char => p.2)).flatten
                   headers := hc1.headers ++ send_mime_parts hc1 env.clock 304
                     "Not Modified".toList env.figured_encodings []
                     (fixed_type hc.hs env.figured_type) (-1) hc.st_mtime } := by
      unfold send_mime
      rw [if_pos hm]
      simp only [hp, Bool.false_eq_true, if_false]
    rw [hsm]
    refine ⟨by trivial, by trivial, by trivial, f1, by trivial, ⟨_, by rw [← f2], ?_⟩, ?_⟩
    · exact send_mime_parts_no_length hc1 _ 304 _ _ _ _ _ (by decide)
    · unfold handle_read_start
      simp [f1]
  · have hsm : send_mime hc1 env.clock 304 "Not Modified".toList env.figured_encodings []
        (fixed_type hc.hs env.figured_type) (-1) hc.st_mtime =
        { hc1 with status := 304, bytes_to_send := -1 } := by
      unfold send_mime
      rw [if_neg hm]
    rw [hsm]
    refine ⟨by trivial, by trivial, by trivial, f1, by trivial, ⟨[], by simp [f2], ?_⟩, ?_⟩
    · intro p hp'
      simp at hp'
    · unfold handle_read_start
      simp [f1]


/-- The hypotheses of `if_modified_since_get_304` hold for a GET request whose
`If-Modified-Since` time is the mtime of the file. -/
theorem if_modified_since_get_304_witness :
    (really_start_request { sample_conn 100 with if_modified_since := 5 } mmc_init 1000
      sample_env).2.1.status = 304 ∧
    (handle_read_start { sample_connecttab (sample_conn 100) with hc :=
      (really_start_request { sample_conn 100 with if_modified_since := 5 } mmc_init 1000
        sample_env).2.1 } [] 1000).2.2 = .finish_connection := by
  have h := if_modified_since_get_304 { sample_conn 100 with if_modified_since := 5 } mmc_init
    1000 sample_env (sample_connecttab (sample_conn 100)) [] rfl (by decide) (by decide) rfl
  exact ⟨h.2.1, h.2.2.2.2.2.2⟩

/-- C4 fails as stated for HEAD: with an `If-Modified-Since` time equal to the mtime of
the file, a HEAD request is answered 200 with a `Content-Length` header. -/
theorem if_modified_since_head_200 :
    (really_start_request { sample_conn 100 with method := .HEAD, if_modified_since := 5 }
      mmc_init 1000 sample_env).2.1.status = 200 ∧
    (MimePart.content_length, "Content-Length: 100\r\n".toList) ∈
      (really_start_request { sample_conn 100 with method := .HEAD, if_modified_since := 5 }
        mmc_init 1000 sample_env).2.1.headers := by
  refine ⟨by decide, by decide⟩


/-! ## The send path: handle_read, handle_send (C5) -/

theorem pace_nolimit (c : Connecttab) (now du : Int) (hnl : c.max_limit = THROTTLE_NOLIMIT) :
    (pace c now du).2 = .stays ∧ (pace c now du).1.next_byte_index = c.next_byte_index ∧
    (pace c now du).1.end_byte_index = c.end_byte_index ∧
    (pace c now du).1.max_limit = c.max_limit ∧
    (pace c now du).1.conn_state = c.conn_state ∧ (pace c now du).1.hc = c.hc := by
  unfold pace
  by_cases h : c.wouldblock_delay > du
  · simp only [h, if_true, hnl, ne_eq, not_true_eq_false, if_false, and_self]
  · simp only [h, if_false, hnl, ne_eq, not_true_eq_false, and_self]

theorem count_written_fields (c : Connecttab) (ts : List Throttle) (now : Int) (sz : Nat) :
    (count_written c ts now sz).1.end_byte_index = c.end_byte_index ∧
    (count_written c ts now sz).1.max_limit = c.max_limit ∧
    (count_written c ts now sz).1.conn_state = c.conn_state :=
  ⟨rfl, rfl, rfl⟩

theorem count_written_headers (c : Connecttab) (ts : List Throttle) (now : Int) (sz : Nat)
    (h : sz < c.hc.response.length) :
    (count_written c ts now sz).1.next_byte_index = c.next_byte_index ∧
    (count_written c ts now sz).1.hc.response = c.hc.response.drop sz := by
  have hpos : c.hc.response.length > 0 := by omega
  unfold count_written
  simp only [HttpdConn.responselen, hpos, h, if_true]
  simp

theorem count_written_file (c : Connecttab) (ts : List Throttle) (now : Int) (sz : Nat)
    (h : ¬ sz < c.hc.response.length) :
    (count_written c ts now sz).1.next_byte_index =
      c.next_byte_index + ((sz - c.hc.response.length : Nat) : Int) ∧
    (count_written c ts now sz).1.hc.response = [] := by
  unfold count_written
  by_cases hpos : c.hc.response.length > 0
  · simp only [HttpdConn.responselen, hpos, h, if_true, if_false, and_self]
  · have h0 : c.hc.response = [] := List.length_eq_zero.1 (by omega)
    simp [HttpdConn.responselen, h0]

theorem to_size_t_natCast (n : Nat) (h : n < 2 ^ 64) : to_size_t (n : Int) = n := by
  unfold to_size_t
  have h1 : ((n : Int)) % (2 : Int) ^ 64 = (n : Int) :=
    Int.emod_eq_of_lt (by omega) (by exact_mod_cast h)
  rw [h1]; rfl

theorem file_bytes_offered_nolimit (c : Connecttab) (S K : Nat)
    (hk : c.next_byte_index = K) (hend : c.end_byte_index = S)
    (hKS : K < S) (hS : S < 2 ^ 63) (hnl : c.max_limit = THROTTLE_NOLIMIT) :
    file_bytes_offered c = min (S - K) 1000000000 := by
  unfold file_bytes_offered max_bytes
  rw [if_pos hnl, hk, hend]
  have h1 : ((S : Int) - (K : Int)) = ((S - K : Nat) : Int) := by omega
  rw [h1, to_size_t_natCast _ (by omega)]

theorem handle_send_wrote_eq (c : Connecttab) (ts : List Throttle) (file : List Char)
    (now du : Int) (n : Nat) :
    handle_send c ts file now (.wrote (n + 1)) du =
      if (count_written c ts now (n + 1)).1.next_byte_index ≥
          (count_written c ts now (n + 1)).1.end_byte_index then
        { c := (count_written c ts now (n + 1)).1, throttles := (count_written c ts now (n + 1)).2,
          accepted := (bytes_offered c file).take (n + 1), handled := .finish_connection }
      else
        { c := (pace (count_written c ts now (n + 1)).1 now du).1,
          throttles := (count_written c ts now (n + 1)).2,
          accepted := (bytes_offered c file).take (n + 1),
          handled := (pace (count_written c ts now (n + 1)).1 now du).2 } := rfl

theorem handle_send_wrote (c : Connecttab) (ts : List Throttle) (file : List Char)
    (now du : Int) (K sz : Nat) (hI : Sending file c K) (hS : file.length < 2 ^ 63)
    (h1 : 1 ≤ sz) (h2 : sz ≤ (bytes_offered c file).length) :
    ((handle_send c ts file now (.wrote sz) du).handled = .finish_connection ∧
      (handle_send c ts file now (.wrote sz) du).accepted = c.hc.response ++ file.drop K) ∨
    ((handle_send c ts file now (.wrote sz) du).handled = .stays ∧
      ∃ K' : Nat, Sending file (handle_send c ts file now (.wrote sz) du).c K' ∧
        (handle_send c ts file now (.wrote sz) du).accepted ++
          ((handle_send c ts file now (.wrote sz) du).c.hc.response ++ file.drop K') =
          c.hc.response ++ file.drop K ∧
        (handle_send c ts file now (.wrote sz) du).c.hc.response.length + (file.length - K') <
          c.hc.response.length + (file.length - K)) := by
  obtain ⟨hk, hend, hKS, hnl⟩ := hI
  obtain ⟨n, rfl⟩ : ∃ n, sz = n + 1 := ⟨sz - 1, by omega⟩
  have hoff : bytes_offered c file =
      c.hc.response ++ (file.drop K).take (min (file.length - K) 1000000000) := by
    unfold bytes_offered
    rw [file_bytes_offered_nolimit c file.length K hk hend hKS hS hnl, hk]; rfl
  obtain ⟨r, hr⟩ : ∃ r, r = count_written c ts now (n + 1) := ⟨_, rfl⟩
  obtain ⟨re, rm, _⟩ := count_written_fields c ts now (n + 1)
  rw [handle_send_wrote_eq, ← hr]
  rw [← hr] at re rm
  obtain ⟨p1, p2, p3, p4, _, p6⟩ := pace_nolimit r.1 now du (rm.trans hnl)
  by_cases hlt : n + 1 < c.hc.response.length
  · obtain ⟨rn, rr⟩ := count_written_headers c ts now (n + 1) hlt
    rw [← hr] at rn rr
    have hnot : ¬ r.1.next_byte_index ≥ r.1.end_byte_index := by
      rw [rn, re, hk, hend]; omega
    rw [if_neg hnot]
    refine Or.inr ⟨p1, K, ⟨?_, ?_, hKS, ?_⟩, ?_, ?_⟩
    · show (pace r.1 now du).1.next_byte_index = K
      rw [p2, rn, hk]
    · show (pace r.1 now du).1.end_byte_index = file.length
      rw [p3, re, hend]
    · show (pace r.1 now du).1.max_limit = THROTTLE_NOLIMIT
      rw [p4, rm, hnl]
    · show (bytes_offered c file).take (n + 1) ++ ((pace r.1 now du).1.hc.response ++ _) = _
      rw [p6, rr, hoff, List.take_append_of_le_length (by omega), ← List.append_assoc,
        List.take_append_drop]
    · show (pace r.1 now du).1.hc.response.length + _ < _
      rw [p6, rr, List.length_drop]; omega
  · obtain ⟨rn, rr⟩ := count_written_file c ts now (n + 1) hlt
    rw [← hr] at rn rr
    have hlen : (bytes_offered c file).length =
        c.hc.response.length + min (file.length - K) 1000000000 := by
      rw [hoff, List.length_append, List.length_take, List.length_drop]; omega
    obtain ⟨m, hm⟩ : ∃ m, m = n + 1 - c.hc.response.length := ⟨_, rfl⟩
    have hacc : (bytes_offered c file).take (n + 1) = c.hc.response ++ (file.drop K).take m := by
      rw [hoff, List.take_append_eq_append_take, List.take_of_length_le (by omega),
        List.take_take, ← hm]
      congr 2; omega
    rw [← hm] at rn
    by_cases hfin : r.1.next_byte_index ≥ r.1.end_byte_index
    · rw [if_pos hfin]
      refine Or.inl ⟨rfl, ?_⟩
      show (bytes_offered c file).take (n + 1) = _
      rw [rn, re, hk, hend] at hfin
      rw [hacc, List.take_of_length_le (by rw [List.length_drop]; omega)]
    · rw [if_neg hfin]
      rw [rn, re, hk, hend] at hfin
      refine Or.inr ⟨p1, K + m, ⟨?_, ?_, by omega, ?_⟩, ?_, ?_⟩
      · show (pace r.1 now du).1.next_byte_index = ((K + m : Nat) : Int)
        rw [p2, rn, hk]; push_cast; rfl
      · show (pace r.1 now du).1.end_byte_index = file.length
        rw [p3, re, hend]
      · show (pace r.1 now du).1.max_limit = THROTTLE_NOLIMIT
        rw [p4, rm, hnl]
      · show (bytes_offered c file).take (n + 1) ++ ((pace r.1 now du).1.hc.response ++ _) = _
        rw [p6, rr, hacc, List.nil_append, List.append_assoc, ← List.drop_drop,
          List.take_append_drop]
      · show (pace r.1 now du).1.hc.response.length + _ < _
        rw [p6, rr, List.length_nil]; omega

theorem wakeup_connection_sending (file : List Char) (c : Connecttab) (K : Nat)
    (h : Sending file c K) :
    Sending file (wakeup_connection c) K ∧ (wakeup_connection c).hc = c.hc := by
  obtain ⟨h1, h2, h3, h4⟩ := h
  unfold wakeup_connection
  simp only
  by_cases hp : c.conn_state = .CNST_PAUSING
  · rw [if_pos hp]; exact ⟨⟨h1, h2, h3, h4⟩, rfl⟩
  · rw [if_neg hp]; exact ⟨⟨h1, h2, h3, h4⟩, rfl⟩

theorem bytes_offered_pos (file : List Char) (c : Connecttab) (K : Nat)
    (hI : Sending file c K) (hS : file.length < 2 ^ 63) :
    1 ≤ (bytes_offered c file).length := by
  obtain ⟨hk, hend, hKS, hnl⟩ := hI
  unfold bytes_offered
  rw [file_bytes_offered_nolimit c file.length K hk hend hKS hS hnl, hk, List.length_append,
    List.length_take, List.length_drop]
  have : ((K : Int)).toNat = K := rfl
  rw [this]; omega

theorem send_until_finished_spec (du : Int) (file : List Char) (now : Nat → Int)
    (w : Nat → Nat → Nat) (hS : file.length < 2 ^ 63)
    (hw : ∀ i n, 1 ≤ n → 1 ≤ w i n ∧ w i n ≤ n) :
    ∀ (fuel i : Nat) (c : Connecttab) (ts : List Throttle) (K : Nat), Sending file c K →
      c.hc.response.length + (file.length - K) ≤ fuel →
      send_until_finished du file now w fuel i c ts = some (c.hc.response ++ file.drop K) := by
  intro fuel
  induction fuel with
  | zero =>
    intro i c ts K hI hle
    have := hI.more
    omega
  | succ fuel ih =>
    intro i c ts K hI hle
    obtain ⟨hw1, hw2⟩ := hw i _ (bytes_offered_pos file c K hI hS)
    have hstep := handle_send_wrote c ts file (now i) du K _ hI hS hw1 hw2
    unfold send_until_finished
    simp only
    obtain ⟨out, hout⟩ : ∃ out, out = handle_send c ts file (now i)
      (.wrote (w i (bytes_offered c file).length)) du := ⟨_, rfl⟩
    rw [← hout] at hstep ⊢
    rcases hstep with ⟨hf, hacc⟩ | ⟨hs, K', hI', hacc, hm⟩
    · rw [hf]; simp only; rw [hacc]
    · rw [hs]; simp only
      by_cases hp : out.c.conn_state = .CNST_PAUSING
      · rw [if_pos hp]
        obtain ⟨hI2, hhc⟩ := wakeup_connection_sending file out.c K' hI'
        rw [ih (i + 1) _ out.throttles K' hI2 (by rw [hhc]; omega), hhc]
        simp only; rw [hacc]
      · rw [if_neg hp]
        rw [ih (i + 1) _ out.throttles K' hI' (by omega)]
        simp only; rw [hacc]

theorem send_mime_whole (hc : HttpdConn) (clock : Clock) (status : Int)
    (title encodings extraheads ft : List Char) (length mod : Int)
    (hr : hc.got_range = false) :
    (send_mime hc clock status title encodings extraheads ft length mod).bytes_to_send = length ∧
    (send_mime hc clock status title encodings extraheads ft length mod).got_range = false ∧
    (send_mime hc clock status title encodings extraheads ft length mod).file_address =
      hc.file_address := by
  unfold send_mime
  split_ifs
  · exact ⟨rfl, hr, rfl⟩
  · exact ⟨rfl, rfl, rfl⟩
  · exact ⟨rfl, hr, rfl⟩

theorem handle_read_start_whole (c : Connecttab) (throttles : List Throttle) (now : Int)
    (S : Nat) (hr : c.hc.got_range = false) (hfa : c.hc.file_address ≠ none)
    (hb : c.hc.bytes_to_send = S) (hS : 1 ≤ S) (hn : c.next_byte_index = 0) :
    handle_read_start c throttles now =
      ({ c with end_byte_index := S, conn_state := .CNST_SENDING, started_at := now,
                wouldblock_delay := 0 }, throttles, .stays) := by
  unfold handle_read_start
  have h1 : ¬ ((S : Int) < 0) := by omega
  have h2 : ¬ ((0 : Int) ≥ (S : Int)) := by omega
  simp only [hr, hb, h1, hfa, hn, h2, if_false, Bool.false_eq_true]

/-- C5. A GET request for a file `file` of `S ≥ 1` bytes, without a range and answered
200 by `really_start_request` with the file mapped, on a connection without a throttle:
`handle_read` puts the connection in `CNST_SENDING`, and whatever number of bytes between
1 and the number offered the socket accepts at each call of `handle_send`, the calls end
with `finish_connection` (within `fuel` calls, for every `fuel` of at least the number of
bytes to send) and the bytes accepted, in order, are exactly the pending response
followed by the whole file. -/
theorem send_path_byte_fidelity (hc : HttpdConn) (cache : Mmc) (env : StartEnv)
    (c : Connecttab) (throttles : List Throttle) (file : List Char) (addr : Nat)
    (start delay_unit : Int) (now : Nat → Int) (w : Nat → Nat → Nat) (fuel : Nat)
    (hget : hc.method = .GET) (hrange : hc.got_range = false)
    (hims : hc.if_modified_since = -1 ∨ hc.if_modified_since < hc.st_mtime)
    (hmap : (mmc_map cache hc.sb start env.map_env).1 = some addr)
    (hsize : hc.sb.st_size = file.length) (hS1 : 1 ≤ file.length)
    (hS : file.length < 2 ^ 63)
    (hnext : c.next_byte_index = 0) (hnl : c.max_limit = THROTTLE_NOLIMIT)
    (hw : ∀ i n, 1 ≤ n → 1 ≤ w i n ∧ w i n ≤ n)
    (hfuel : (really_start_request hc cache start env).2.1.response.length + file.length
      ≤ fuel) :
    (really_start_request hc cache start env).1 = 0 ∧
    (handle_read_start { c with hc := (really_start_request hc cache start env).2.1 }
      throttles start).2.2 = .stays ∧
    (handle_read_start { c with hc := (really_start_request hc cache start env).2.1 }
      throttles start).1.conn_state = .CNST_SENDING ∧
    send_until_finished delay_unit file now w fuel 0
      (handle_read_start { c with hc := (really_start_request hc cache start env).2.1 }
        throttles start).1
      (handle_read_start { c with hc := (really_start_request hc cache start env).2.1 }
        throttles start).2.1 =
      some ((really_start_request hc cache start env).2.1.response ++ file) := by
  have hims' : ¬ (hc.if_modified_since ≠ -1 ∧ hc.if_modified_since ≥ hc.st_mtime) := by
    rintro ⟨h1, h2⟩
    rcases hims with h | h
    · exact h1 h
    · omega
  have hstart := really_start_request_get hc cache start env addr hget
    (by rw [hrange]; simp) hims' hmap
  obtain ⟨hc1, hdef⟩ : ∃ x, x = (really_start_request hc cache start env).2.1 := ⟨_, rfl⟩
  rw [← hdef] at hfuel ⊢
  have hret : (really_start_request hc cache start env).1 = 0 := by rw [hstart]
  rw [hstart] at hdef
  obtain ⟨f1, f2, f3⟩ := send_mime_whole
    { hc with type := env.figured_type, encodings := env.figured_encodings,
              file_address := some addr }
    env.clock 200 "OK".toList env.figured_encodings [] (fixed_type hc.hs env.figured_type)
    hc.sb.st_size hc.st_mtime hrange
  have hdef' : hc1 = send_mime
    { hc with type := env.figured_type, encodings := env.figured_encodings,
              file_address := some addr }
    env.clock 200 "OK".toList env.figured_encodings [] (fixed_type hc.hs env.figured_type)
    hc.sb.st_size hc.st_mtime := hdef
  rw [← hdef'] at f1 f2 f3
  have g3 : hc1.file_address ≠ none := by rw [f3]; simp
  have g1 : hc1.bytes_to_send = (file.length : Int) := by rw [f1, hsize]
  have hrs := handle_read_start_whole { c with hc := hc1 } throttles start file.length
    f2 g3 g1 hS1 hnext
  rw [hrs]
  refine ⟨hret, rfl, rfl, ?_⟩
  have hI : Sending file
      { c with hc := hc1, end_byte_index := (file.length : Int),
               conn_state := .CNST_SENDING, started_at := start, wouldblock_delay := 0 } 0 :=
    ⟨hnext, rfl, by omega, hnl⟩
  exact send_until_finished_spec delay_unit file now w hS hw fuel 0 _ throttles 0 hI
    (by simpa using hfuel)

set_option maxRecDepth 100000 in
/-- A file of 13 bytes, sent on a socket that accepts at most 5 bytes at a time: the
bytes accepted are the response headers followed by the 13 bytes of the file. -/
theorem send_path_byte_fidelity_witness :
    send_until_finished 100 "Hello, world\n".toList (fun _ => 1000) (fun _ n => min n 5) 400 0
      (handle_read_start { sample_connecttab (sample_conn 13) with hc :=
        (really_start_request (sample_conn 13) mmc_init 1000 sample_env).2.1 } [] 1000).1
      (handle_read_start { sample_connecttab (sample_conn 13) with hc :=
        (really_start_request (sample_conn 13) mmc_init 1000 sample_env).2.1 } [] 1000).2.1 =
      some ((really_start_request (sample_conn 13) mmc_init 1000 sample_env).2.1.response ++
        "Hello, world\n".toList) :=
  (send_path_byte_fidelity (sample_conn 13) mmc_init sample_env
    (sample_connecttab (sample_conn 13)) [] "Hello, world\n".toList 4096 1000 100
    (fun _ => 1000) (fun _ n => min n 5) 400 rfl rfl (Or.inl rfl) (by decide) (by decide)
    (by decide) (by decide) rfl rfl (fun _ n h => ⟨le_min h (by decide), min_le_left n 5⟩) (by decide)).2.2.2

/-! ## The request-framing machine -/

theorem got_request_loop_spec (n : Nat) (hc : ReadState) (e : Nat)
    (hle : hc.checked_idx ≤ hc.read_idx) (hn : hc.read_idx - hc.checked_idx ≤ n) :
    (got_request_loop n hc e).examined ≤ e + (hc.read_idx - hc.checked_idx) ∧
    (got_request_loop n hc e).hc.checked_idx ≤ hc.read_idx ∧
    hc.checked_idx ≤ (got_request_loop n hc e).hc.checked_idx ∧
    (got_request_loop n hc e).hc.read_idx = hc.read_idx ∧
    ((got_request_loop n hc e).result = GR_NO_REQUEST →
      (got_request_loop n hc e).hc.checked_idx = hc.read_idx ∧
      (got_request_loop n hc e).examined = e + (hc.read_idx - hc.checked_idx)) ∧
    ((got_request_loop n hc e).result ≠ GR_NO_REQUEST →
      (got_request_loop n hc e).hc.checked_idx < hc.read_idx ∧
      (got_request_loop n hc e).examined =
        e + ((got_request_loop n hc e).hc.checked_idx - hc.checked_idx) + 1) := by
  induction n generalizing hc e with
  | zero =>
    simp only [got_request_loop]
    refine ⟨by omega, hle, le_refl _, by trivial,
      fun _ => ⟨by omega, by omega⟩, fun h => absurd rfl h⟩
  | succ n ih =>
    simp only [got_request_loop]
    split
    · rename_i hlt
      split
      · rename_i st r hsw
        refine ⟨by dsimp only; omega, hle, le_refl _, by trivial, ?_, ?_⟩
        · intro h
          simp only at h
          subst h
          exfalso
          revert hsw
          unfold got_request_switch
          split <;> (try split) <;> (try split) <;> (try split) <;> simp
        · intro _
          exact ⟨hlt, by dsimp only; omega⟩
      · rename_i st hsw
        have := ih { hc with checked_state := st, checked_idx := hc.checked_idx + 1 } (e + 1)
          (by simp only; omega) (by simp only; omega)
        simp only at this
        obtain ⟨h1, h2, h3, h4, h5, h6⟩ := this
        refine ⟨by omega, h2, by omega, h4, ?_, ?_⟩
        · intro h
          obtain ⟨h7, h8⟩ := h5 h
          exact ⟨h7, by omega⟩
        · intro h
          obtain ⟨h7, h8⟩ := h6 h
          exact ⟨h7, by omega⟩
    · rename_i hlt
      refine ⟨by dsimp only; omega, hle, le_refl _, by trivial,
        fun _ => ⟨by dsimp only; omega, by dsimp only; omega⟩, fun h => absurd rfl h⟩

/-- C9. Parser totality: from every buffer and every state with
`checked_idx ≤ read_idx`, `httpd_got_request` returns after looking at no more than
`read_idx - checked_idx` bytes, with one of the three results, and it returns
`GR_NO_REQUEST` only with `checked_idx = read_idx`, every byte having been looked at. -/
theorem httpd_got_request_total (hc : ReadState) (hle : hc.checked_idx ≤ hc.read_idx) :
    (httpd_got_request hc).examined ≤ hc.read_idx - hc.checked_idx ∧
    ((httpd_got_request hc).result = GR_NO_REQUEST ∨
      (httpd_got_request hc).result = GR_GOT_REQUEST ∨
      (httpd_got_request hc).result = GR_BAD_REQUEST) ∧
    ((httpd_got_request hc).result = GR_NO_REQUEST →
      (httpd_got_request hc).hc.checked_idx = hc.read_idx ∧
      (httpd_got_request hc).examined = hc.read_idx - hc.checked_idx) := by
  obtain ⟨h1, -, -, -, h5, -⟩ :=
    got_request_loop_spec (hc.read_idx - hc.checked_idx) hc 0 hle (le_refl _)
  refine ⟨by simpa [httpd_got_request] using h1, ?_, ?_⟩
  · cases (httpd_got_request hc).result <;> simp
  · intro h
    have := h5 h
    simpa [httpd_got_request] using this

/-- The hypothesis of C9 holds for a connection that has read `GET / HTTP/1.0` and a
line feed and checked nothing yet. -/
theorem httpd_got_request_total_witness :
    (httpd_got_request (fresh_read "GET / HTTP/1.0\n".toList)).examined
        ≤ (fresh_read "GET / HTTP/1.0\n".toList).read_idx
          - (fresh_read "GET / HTTP/1.0\n".toList).checked_idx ∧
    ((httpd_got_request (fresh_read "GET / HTTP/1.0\n".toList)).result = GR_NO_REQUEST ∨
      (httpd_got_request (fresh_read "GET / HTTP/1.0\n".toList)).result = GR_GOT_REQUEST ∨
      (httpd_got_request (fresh_read "GET / HTTP/1.0\n".toList)).result = GR_BAD_REQUEST) ∧
    ((httpd_got_request (fresh_read "GET / HTTP/1.0\n".toList)).result = GR_NO_REQUEST →
      (httpd_got_request (fresh_read "GET / HTTP/1.0\n".toList)).hc.checked_idx
        = (fresh_read "GET / HTTP/1.0\n".toList).read_idx ∧
      (httpd_got_request (fresh_read "GET / HTTP/1.0\n".toList)).examined
        = (fresh_read "GET / HTTP/1.0\n".toList).read_idx
          - (fresh_read "GET / HTTP/1.0\n".toList).checked_idx) :=
  httpd_got_request_total (fresh_read "GET / HTTP/1.0\n".toList) (by decide)

/-- C10 at the failing input: a request line ended by LF followed by an empty line ended
by CRLF is a complete request in the sense of the claim, and `httpd_got_request`
answers `GR_NO_REQUEST`, left in state `CHST_CRLF` with every byte consumed. -/
theorem got_request_lf_then_crlf :
    (httpd_got_request (fresh_read lf_then_crlf_request)).result = GR_NO_REQUEST ∧
    (httpd_got_request (fresh_read lf_then_crlf_request)).hc.checked_state = CHST_CRLF ∧
    (httpd_got_request (fresh_read lf_then_crlf_request)).hc.checked_idx
      = lf_then_crlf_request.length := by
  decide

/-! ## Throttles: check_throttles (C11, C12) -/

theorem bind_throttle_fst (t : Throttle) (tnum : Nat) (c : Connecttab) :
    (bind_throttle t tnum c).1 =
      { t with num_sending := (if t.num_sending < 0 then 0 else t.num_sending) + 1 } := by
  unfold bind_throttle
  by_cases h : t.num_sending < 0
  · simp only [h, if_true]
  · simp only [h, if_false]

theorem bind_throttle_tnums (t : Throttle) (tnum : Nat) (c : Connecttab) :
    (bind_throttle t tnum c).2.tnums = c.tnums ++ [tnum] := by
  unfold bind_throttle
  simp only
  split_ifs <;> rfl

theorem drop_take_set (ts : List Throttle) (tnum i : Nat) (x : Throttle) :
    ((ts.set tnum x).take i).drop (tnum + 1) = (ts.take i).drop (tnum + 1) := by
  apply List.ext_getElem?
  intro n
  simp only [List.getElem?_drop, List.getElem?_take, List.getElem?_set]
  have : tnum ≠ tnum + 1 + n := by omega
  simp [this]

theorem check_throttles_loop_cutoff (mtch : List Char → List Char → Bool) (maxnums : Nat)
    (fname : List Char) (i : Nat) (t : Throttle) (hm : mtch t.pattern fname = true)
    (hbad : t.rate > t.max_limit * 2 ∨ t.rate < t.min_limit) :
    ∀ (fuel tnum : Nat) (c : Connecttab) (ts : List Throttle), tnum ≤ i → i < tnum + fuel →
      ts[i]? = some t →
      c.tnums.length + (((ts.take i).drop tnum).filter (fun u => mtch u.pattern fname)).length
        < maxnums →
      (check_throttles_loop mtch maxnums fname fuel tnum c ts).1 = false := by
  intro fuel
  induction fuel with
  | zero => intro tnum c ts h1 h2; omega
  | succ fuel ih =>
    intro tnum c ts h1 h2 hi hcap
    unfold check_throttles_loop
    rcases Nat.eq_or_lt_of_le h1 with heq | hlt
    · subst heq
      have hc : c.tnums.length < maxnums := by omega
      simp only [hi, hc, if_true, hm]
      rcases hbad with hb | hb
      · simp only [hb, if_true]
      · by_cases hb2 : t.rate > t.max_limit * 2
        · simp only [hb2, if_true]
        · simp only [hb2, if_false, hb, if_true]
    · have hlen : i < ts.length := by
        rcases Nat.lt_or_ge i ts.length with h | h
        · exact h
        · rw [List.getElem?_eq_none h] at hi; cases hi
      have htl : tnum < ts.length := by omega
      have hget : ts[tnum]? = some ts[tnum] := List.getElem?_eq_getElem htl
      have hdrop : (ts.take i).drop tnum = ts[tnum] :: (ts.take i).drop (tnum + 1) := by
        have h3 : tnum < (ts.take i).length := by rw [List.length_take]; omega
        rw [List.drop_eq_getElem_cons h3, List.getElem_take]
      rw [hdrop] at hcap
      simp only [hget]
      by_cases hc : c.tnums.length < maxnums
      · simp only [hc, if_true]
        by_cases hmt : mtch ts[tnum].pattern fname = true
        · simp only [hmt, if_true]
          by_cases hb1 : ts[tnum].rate > ts[tnum].max_limit * 2
          · simp only [hb1, if_true]
          · simp only [hb1, if_false]
            by_cases hb2 : ts[tnum].rate < ts[tnum].min_limit
            · simp only [hb2, if_true]
            · simp only [hb2, if_false]
              apply ih (tnum + 1) _ _ (by omega) (by omega)
              · rw [List.getElem?_set_ne (by omega)]; exact hi
              · rw [bind_throttle_tnums, drop_take_set, List.length_append, List.length_singleton]
                rw [List.filter_cons_of_pos (by simpa using hmt), List.length_cons] at hcap
                omega
        · simp only [hmt, Bool.false_eq_true, if_false]
          apply ih (tnum + 1) _ _ (by omega) (by omega) hi
          rw [List.filter_cons_of_neg (by simpa using hmt)] at hcap
          exact hcap
      · exfalso; omega

theorem httpd_send_err_status (hc : HttpdConn) (env : StartEnv) (title : List Char) :
    (httpd_send_err hc env 503 title).status = 503 := by
  unfold httpd_send_err send_mime
  have hp : partial_content hc 503 (-1) = false := by
    unfold partial_content
    simp
  simp only [hp]
  split_ifs with h1 h2
  · exact absurd h2 (by simp)
  · rfl
  · rfl

/-- C11, as the code has it. Throttle cut-off: when a throttle of the table matches the
expanded filename of the connection and has `rate > 2 * max_limit` or `rate < min_limit`,
and fewer than `MAXTHROTTLENUMS` throttles ahead of it in the table match,
`check_throttles` returns 0 and `handle_read` answers 503 and finishes the connection. -/
theorem check_throttles_cutoff (mtch : List Char → List Char → Bool) (maxthrottlenums : Nat)
    (expnfilename : List Char) (env : StartEnv) (c : Connecttab) (throttles : List Throttle)
    (i : Nat) (t : Throttle) (hi : throttles[i]? = some t)
    (hmatch : mtch t.pattern expnfilename = true)
    (hrate : t.rate > t.max_limit * 2 ∨ t.rate < t.min_limit)
    (hcap : ((throttles.take i).filter (fun u => mtch u.pattern expnfilename)).length
      < maxthrottlenums) :
    (check_throttles mtch maxthrottlenums expnfilename c throttles).1 = false ∧
    (handle_read_throttles mtch maxthrottlenums expnfilename env c throttles).2.2
      = .finish_connection ∧
    (handle_read_throttles mtch maxthrottlenums expnfilename env c throttles).1.hc.status
      = 503 := by
  have hlen : i < throttles.length := by
    rcases Nat.lt_or_ge i throttles.length with h | h
    · exact h
    · rw [List.getElem?_eq_none h] at hi; cases hi
  have h0 : (check_throttles mtch maxthrottlenums expnfilename c throttles).1 = false := by
    unfold check_throttles
    apply check_throttles_loop_cutoff mtch maxthrottlenums expnfilename i t hmatch hrate
      throttles.length 0 _ throttles (Nat.zero_le _) (by omega) hi
    simpa using hcap
  refine ⟨h0, ?_, ?_⟩
  · unfold handle_read_throttles
    simp only [h0, Bool.not_false, if_true]
  · unfold handle_read_throttles
    simp only [h0, Bool.not_false, if_true]
    exact httpd_send_err_status _ _ _

/-- Scenario S5: the single throttle `* 1000` with a rate of 2001; the request is answered
503. -/
theorem check_throttles_cutoff_witness :
    (check_throttles match_star 10 "index.html".toList (sample_connecttab (sample_conn 100))
      overloaded_table).1 = false ∧
    (handle_read_throttles match_star 10 "index.html".toList sample_env
      (sample_connecttab (sample_conn 100)) overloaded_table).2.2 = .finish_connection ∧
    (handle_read_throttles match_star 10 "index.html".toList sample_env
      (sample_connecttab (sample_conn 100)) overloaded_table).1.hc.status = 503 :=
  check_throttles_cutoff match_star 10 "index.html".toList sample_env
    (sample_connecttab (sample_conn 100)) overloaded_table 0
    { throttle_line ['*'] 0 1000 with rate := 2001 } rfl rfl (Or.inl (by decide)) (by decide)

/-- C11 fails as stated behind the cap: the eleventh throttle of the table matches the
filename and has a rate of 2001 above twice its `max_limit` of 1000, and with
`MAXTHROTTLENUMS = 10` the ten matching throttles ahead of it are bound, the loop stops
and `check_throttles` returns 1; `handle_read` goes on to start the request. -/
theorem check_throttles_cap_passes :
    (∃ t ∈ capped_table, match_star t.pattern "index.html".toList = true ∧
      t.rate > t.max_limit * 2) ∧
    (check_throttles match_star 10 "index.html".toList (sample_connecttab (sample_conn 100))
      capped_table).1 = true ∧
    (check_throttles match_star 10 "index.html".toList (sample_connecttab (sample_conn 100))
      capped_table).2.1.tnums = [0, 1, 2, 3, 4, 5, 6, 7, 8, 9] ∧
    (handle_read_throttles match_star 10 "index.html".toList sample_env
      (sample_connecttab (sample_conn 100)) capped_table).2.2 = .stays := by
  refine ⟨⟨{ throttle_line ['*'] 0 1000 with rate := 2001 }, by decide, by decide, by decide⟩,
    by decide, by decide, by decide⟩

theorem bind_throttle_nonneg (t : Throttle) (tnum : Nat) (c : Connecttab)
    (h : 0 ≤ t.num_sending) :
    (bind_throttle t tnum c).1 = { t with num_sending := t.num_sending + 1 } ∧
    (bind_throttle t tnum c).2.max_limit =
      (if c.max_limit = THROTTLE_NOLIMIT then
        throttle_share { t with num_sending := t.num_sending + 1 }
       else min c.max_limit (throttle_share { t with num_sending := t.num_sending + 1 })) ∧
    (bind_throttle t tnum c).2.min_limit =
      (if c.min_limit = THROTTLE_NOLIMIT then t.min_limit else max c.min_limit t.min_limit) := by
  have hn : ¬ t.num_sending < 0 := by omega
  unfold bind_throttle throttle_share
  simp only [hn, if_false]
  refine ⟨by trivial, ?_, ?_⟩
  · split_ifs <;> rfl
  · split_ifs <;> rfl

theorem throttle_share_nonneg (t : Throttle) (h1 : 0 ≤ t.num_sending) (h2 : 0 ≤ t.max_limit) :
    0 ≤ throttle_share { t with num_sending := t.num_sending + 1 } := by
  unfold throttle_share
  exact Int.tdiv_nonneg h2 (by show 0 ≤ t.num_sending + 1; omega)

theorem boundBy_nil (mtch : List Char → List Char → Bool) (maxnums : Nat) (fname : List Char)
    (tnum : Nat) (c : Connecttab) (ts : List Throttle)
    (hall : ∀ i t, tnum ≤ i → ts[i]? = some t → mtch t.pattern fname = true →
      maxnums ≤ c.tnums.length) :
    BoundBy mtch maxnums fname tnum c ts c ts [] where
  tnums := by simp
  from_tnum := by simp
  nodup := List.nodup_nil
  cap := by simp
  length := rfl
  table := by intro i t h; simpa using h
  matching := by simp
  all_bound := by
    intro i t h1 h2 h3
    exact Or.inr (by simpa using hall i t h1 h2 h3)
  none_bound := fun _ => ⟨rfl, rfl⟩
  max_le := by simp
  max_le_start := fun h => ⟨le_refl _, h⟩
  max_attained := fun _ => Or.inl rfl
  min_ge := by simp
  min_ge_start := fun _ => le_refl _
  min_attained := fun _ => Or.inl rfl
  nonneg := fun h => absurd rfl h

theorem boundBy_skip (mtch : List Char → List Char → Bool) (maxnums : Nat) (fname : List Char)
    (tnum : Nat) (c : Connecttab) (ts : List Throttle) (c' : Connecttab) (ts' : List Throttle)
    (bound : List Nat) (t : Throttle) (ht : ts[tnum]? = some t)
    (hno : ¬ mtch t.pattern fname = true)
    (H : BoundBy mtch maxnums fname (tnum + 1) c ts c' ts' bound) :
    BoundBy mtch maxnums fname tnum c ts c' ts' bound where
  tnums := H.tnums
  from_tnum := fun i hi => by have := H.from_tnum i hi; omega
  nodup := H.nodup
  cap := H.cap
  length := H.length
  table := H.table
  matching := H.matching
  all_bound := by
    intro i u h1 h2 h3
    rcases Nat.eq_or_lt_of_le h1 with heq | hlt
    · subst heq
      rw [ht] at h2
      cases h2
      exact absurd h3 hno
    · exact H.all_bound i u hlt h2 h3
  none_bound := H.none_bound
  max_le := H.max_le
  max_le_start := H.max_le_start
  max_attained := H.max_attained
  min_ge := H.min_ge
  min_ge_start := H.min_ge_start
  min_attained := H.min_attained
  nonneg := H.nonneg

theorem boundBy_bind (mtch : List Char → List Char → Bool) (maxnums : Nat) (fname : List Char)
    (tnum : Nat) (c : Connecttab) (ts : List Throttle) (c' : Connecttab) (ts' : List Throttle)
    (bound : List Nat) (t : Throttle) (ht : ts[tnum]? = some t)
    (hm : mtch t.pattern fname = true) (hroom : c.tnums.length < maxnums)
    (h1 : 0 ≤ t.num_sending) (h2 : 0 ≤ t.max_limit) (h3 : 0 ≤ t.min_limit)
    (H : BoundBy mtch maxnums fname (tnum + 1) (bind_throttle t tnum c).2
      (ts.set tnum (bind_throttle t tnum c).1) c' ts' bound) :
    BoundBy mtch maxnums fname tnum c ts c' ts' (tnum :: bound) := by
  obtain ⟨hb1, hbmax, hbmin⟩ := bind_throttle_nonneg t tnum c h1
  have hbt := bind_throttle_tnums t tnum c
  have hl := throttle_share_nonneg t h1 h2
  obtain ⟨b, hb⟩ : ∃ b, b = bind_throttle t tnum c := ⟨_, rfl⟩
  rw [← hb] at H hb1 hbmax hbmin hbt
  obtain ⟨l, hldef⟩ : ∃ l, l = throttle_share { t with num_sending := t.num_sending + 1 } :=
    ⟨_, rfl⟩
  rw [← hldef] at hbmax hl
  have hlen : tnum < ts.length := by
    rcases Nat.lt_or_ge tnum ts.length with h | h
    · exact h
    · rw [List.getElem?_eq_none h] at ht; cases ht
  have hnotin : tnum ∉ bound := fun h => by have := H.from_tnum tnum h; omega
  have hmid : (ts.set tnum b.1)[tnum]? = some b.1 := List.getElem?_set_self hlen
  have hfin : ts'[tnum]? = some b.1 := by
    have := H.table tnum b.1 hmid
    rw [if_neg hnotin] at this
    exact this
  have hother : ∀ i, i ≠ tnum → (ts.set tnum b.1)[i]? = ts[i]? := fun i hi =>
    List.getElem?_set_ne (Ne.symm hi)
  have hshare : throttle_share b.1 = l := by rw [hb1, hldef]
  have hbminl : b.1.min_limit = t.min_limit := by rw [hb1]
  refine
    { tnums := ?_, from_tnum := ?_, nodup := ?_, cap := ?_, length := ?_, table := ?_,
      matching := ?_, all_bound := ?_, none_bound := ?_, max_le := ?_, max_le_start := ?_,
      max_attained := ?_, min_ge := ?_, min_ge_start := ?_, min_attained := ?_, nonneg := ?_ }
  · rw [H.tnums, hbt, List.append_assoc]; rfl
  · intro i hi
    rcases List.mem_cons.1 hi with h | h
    · omega
    · have := H.from_tnum i h; omega
  · exact List.nodup_cons.2 ⟨hnotin, H.nodup⟩
  · have := H.cap
    rw [hbt, List.length_append, List.length_singleton] at this
    rw [List.length_cons]
    omega
  · rw [H.length, List.length_set]
  · intro i u hu
    by_cases hi : i = tnum
    · subst hi
      rw [ht] at hu
      cases hu
      rw [hfin, if_pos (List.mem_cons_self _ _), hb1]
    · have := H.table i u (by rw [hother i hi]; exact hu)
      rw [this]
      congr 1
      by_cases hib : i ∈ bound
      · rw [if_pos hib, if_pos (List.mem_cons_of_mem _ hib)]
      · rw [if_neg hib, if_neg (by simp [hi, hib])]
  · intro i hi
    rcases List.mem_cons.1 hi with h | h
    · subst h; exact ⟨t, ht, hm⟩
    · obtain ⟨u, hu1, hu2⟩ := H.matching i h
      have hne : i ≠ tnum := fun he => hnotin (he ▸ h)
      rw [hother i hne] at hu1
      exact ⟨u, hu1, hu2⟩
  · intro i u hi hu hmu
    rcases Nat.eq_or_lt_of_le hi with heq | hlt
    · subst heq; exact Or.inl (List.mem_cons_self _ _)
    · have hne : i ≠ tnum := by omega
      rcases H.all_bound i u hlt (by rw [hother i hne]; exact hu) hmu with h | h
      · exact Or.inl (List.mem_cons_of_mem _ h)
      · rw [hbt, List.length_append, List.length_singleton] at h
        rw [List.length_cons]
        exact Or.inr (by omega)
  · intro h; cases h
  · intro hc i hi u hu
    have hc' : 0 ≤ b.2.max_limit ∧ b.2.max_limit ≤ l := by
      unfold THROTTLE_NOLIMIT at hc hbmax
      split_ifs at hbmax <;> omega
    rcases List.mem_cons.1 hi with h | h
    · subst h
      rw [hfin] at hu
      cases hu
      rw [hshare]
      have := (H.max_le_start hc'.1).1
      omega
    · exact H.max_le (Or.inr hc'.1) i h u hu
  · intro hc
    have hc' : 0 ≤ b.2.max_limit ∧ b.2.max_limit ≤ c.max_limit := by
      unfold THROTTLE_NOLIMIT at hbmax
      split_ifs at hbmax <;> omega
    have := H.max_le_start hc'.1
    exact ⟨by omega, this.2⟩
  · intro hc
    have hc' : 0 ≤ b.2.max_limit ∧ (b.2.max_limit = l ∨ b.2.max_limit = c.max_limit) := by
      unfold THROTTLE_NOLIMIT at hc hbmax
      split_ifs at hbmax <;> omega
    rcases H.max_attained (Or.inr hc'.1) with h | ⟨i, hi, u, hu1, hu2⟩
    · rcases hc'.2 with h' | h'
      · exact Or.inr ⟨tnum, List.mem_cons_self _ _, b.1, hfin, by rw [h, h', hshare]⟩
      · exact Or.inl (h.trans h')
    · exact Or.inr ⟨i, List.mem_cons_of_mem _ hi, u, hu1, hu2⟩
  · intro hc i hi u hu
    have hc' : 0 ≤ b.2.min_limit ∧ t.min_limit ≤ b.2.min_limit := by
      unfold THROTTLE_NOLIMIT at hc hbmin
      split_ifs at hbmin <;> omega
    rcases List.mem_cons.1 hi with h | h
    · subst h
      rw [hfin] at hu
      cases hu
      rw [hbminl]
      have := H.min_ge_start hc'.1
      omega
    · exact H.min_ge (Or.inr hc'.1) i h u hu
  · intro hc
    have hc' : 0 ≤ b.2.min_limit ∧ c.min_limit ≤ b.2.min_limit := by
      unfold THROTTLE_NOLIMIT at hbmin
      split_ifs at hbmin <;> omega
    have := H.min_ge_start hc'.1
    omega
  · intro hc
    have hc' : 0 ≤ b.2.min_limit ∧
        (b.2.min_limit = t.min_limit ∨ b.2.min_limit = c.min_limit) := by
      unfold THROTTLE_NOLIMIT at hc hbmin
      split_ifs at hbmin <;> omega
    rcases H.min_attained (Or.inr hc'.1) with h | ⟨i, hi, u, hu1, hu2⟩
    · rcases hc'.2 with h' | h'
      · exact Or.inr ⟨tnum, List.mem_cons_self _ _, b.1, hfin, by rw [h, h', hbminl]⟩
      · exact Or.inl (h.trans h')
    · exact Or.inr ⟨i, List.mem_cons_of_mem _ hi, u, hu1, hu2⟩
  · intro _ hcmax hcmin
    have hc1 : 0 ≤ b.2.max_limit := by
      unfold THROTTLE_NOLIMIT at hcmax hbmax
      split_ifs at hbmax <;> omega
    have hc2 : 0 ≤ b.2.min_limit := by
      unfold THROTTLE_NOLIMIT at hcmin hbmin
      split_ifs at hbmin <;> omega
    have := H.min_ge_start hc2
    exact ⟨(H.max_le_start hc1).2, by omega⟩

theorem check_throttles_loop_bound (mtch : List Char → List Char → Bool) (maxnums : Nat)
    (fname : List Char) :
    ∀ (fuel tnum : Nat) (c : Connecttab) (ts : List Throttle),
      (∀ t ∈ ts, mtch t.pattern fname = true → 0 ≤ t.num_sending ∧ 0 ≤ t.min_limit) →
      ts.length ≤ tnum + fuel →
      (check_throttles_loop mtch maxnums fname fuel tnum c ts).1 = true →
      ∃ bound, BoundBy mtch maxnums fname tnum c ts
        (check_throttles_loop mtch maxnums fname fuel tnum c ts).2.1
        (check_throttles_loop mtch maxnums fname fuel tnum c ts).2.2 bound := by
  intro fuel
  induction fuel with
  | zero =>
    intro tnum c ts _ hlen _
    refine ⟨[], boundBy_nil mtch maxnums fname tnum c ts ?_⟩
    intro i t hi ht
    rw [List.getElem?_eq_none (by omega)] at ht
    cases ht
  | succ fuel ih =>
    intro tnum c ts hnn hlen hret
    unfold check_throttles_loop at hret ⊢
    cases hget : ts[tnum]? with
    | none =>
      simp only [hget]
      refine ⟨[], boundBy_nil mtch maxnums fname tnum c ts ?_⟩
      intro i t hi ht
      have h1 : ts.length ≤ tnum := by
        rcases Nat.lt_or_ge tnum ts.length with h | h
        · rw [List.getElem?_eq_getElem h] at hget; cases hget
        · exact h
      rw [List.getElem?_eq_none (by omega)] at ht
      cases ht
    | some t =>
      simp only [hget] at hret ⊢
      have htmem : t ∈ ts := List.getElem?_mem hget
      by_cases hroom : c.tnums.length < maxnums
      · simp only [hroom, if_true] at hret ⊢
        by_cases hm : mtch t.pattern fname = true
        · simp only [hm, if_true] at hret ⊢
          by_cases hb1 : t.rate > t.max_limit * 2
          · simp only [hb1, if_true] at hret; cases hret
          · simp only [hb1, if_false] at hret ⊢
            by_cases hb2 : t.rate < t.min_limit
            · simp only [hb2, if_true] at hret; cases hret
            · simp only [hb2, if_false] at hret ⊢
              obtain ⟨n1, n3⟩ := hnn t htmem hm
              have n2 : 0 ≤ t.max_limit := by omega
              have hb := (bind_throttle_nonneg t tnum c n1).1
              obtain ⟨bound, H⟩ := ih (tnum + 1) (bind_throttle t tnum c).2
                (ts.set tnum (bind_throttle t tnum c).1)
                (by
                  intro u hu hmu
                  rcases List.mem_or_eq_of_mem_set hu with h | h
                  · exact hnn u h hmu
                  · rw [h, hb]
                    exact ⟨by show 0 ≤ t.num_sending + 1; omega, n3⟩)
                (by rw [List.length_set]; omega) hret
              exact ⟨tnum :: bound,
                boundBy_bind mtch maxnums fname tnum c ts _ _ bound t hget hm hroom n1 n2 n3 H⟩
        · simp only [hm, if_false] at hret ⊢
          obtain ⟨bound, H⟩ := ih (tnum + 1) c ts hnn (by omega) hret
          exact ⟨bound, boundBy_skip mtch maxnums fname tnum c ts _ _ bound t hget hm H⟩
      · simp only [hroom, if_false]
        refine ⟨[], boundBy_nil mtch maxnums fname tnum c ts ?_⟩
        intro i u _ _ _
        omega

theorem check_throttles_loop_no_match (mtch : List Char → List Char → Bool) (maxnums : Nat)
    (fname : List Char) :
    ∀ (fuel tnum : Nat) (c : Connecttab) (ts : List Throttle),
      (∀ t ∈ ts, mtch t.pattern fname = false) →
      check_throttles_loop mtch maxnums fname fuel tnum c ts = (true, c, ts) := by
  intro fuel
  induction fuel with
  | zero => intro tnum c ts _; rfl
  | succ fuel ih =>
    intro tnum c ts hno
    unfold check_throttles_loop
    cases hget : ts[tnum]? with
    | none => rfl
    | some t =>
      have hm := hno t (List.getElem?_mem hget)
      simp only [hm, Bool.false_eq_true, if_false]
      rw [ih (tnum + 1) c ts hno]
      split_ifs <;> rfl

/-- C12, as the code has it. Throttle binding, for a table in which the throttles that
match have a non-negative `num_sending` and a non-negative `min_limit`. When
`check_throttles` returns 1, the throttles bound to the connection (`tnums`) are distinct
matching throttles, at most `MAXTHROTTLENUMS` of them, and every matching throttle is
bound unless that cap is reached; each bound throttle has `num_sending` one higher than
before and the rest of the table is unchanged; when at least one throttle is bound,
`max_limit` of the connection is the least of the shares `max_limit / num_sending` of the
bound throttles (division of C, `num_sending` after binding) and `min_limit` is the
greatest of their `min_limit`; when none is bound both limits are `THROTTLE_NOLIMIT` and
the table is unchanged. When no throttle matches, `check_throttles` returns 1 and binds
none. -/
theorem check_throttles_binding (mtch : List Char → List Char → Bool) (maxthrottlenums : Nat)
    (expnfilename : List Char) (c : Connecttab) (throttles : List Throttle)
    (hnn : ∀ t ∈ throttles, mtch t.pattern expnfilename = true →
      0 ≤ t.num_sending ∧ 0 ≤ t.min_limit) :
    ((check_throttles mtch maxthrottlenums expnfilename c throttles).1 = true →
      (check_throttles mtch maxthrottlenums expnfilename c throttles).2.1.tnums.Nodup ∧
      (check_throttles mtch maxthrottlenums expnfilename c throttles).2.1.tnums.length
        ≤ maxthrottlenums ∧
      (∀ i ∈ (check_throttles mtch maxthrottlenums expnfilename c throttles).2.1.tnums,
        ∃ t, throttles[i]? = some t ∧ mtch t.pattern expnfilename = true) ∧
      (∀ i t, throttles[i]? = some t → mtch t.pattern expnfilename = true →
        i ∈ (check_throttles mtch maxthrottlenums expnfilename c throttles).2.1.tnums ∨
        maxthrottlenums
          ≤ (check_throttles mtch maxthrottlenums expnfilename c throttles).2.1.tnums.length) ∧
      (check_throttles mtch maxthrottlenums expnfilename c throttles).2.2.length
        = throttles.length ∧
      (∀ i t, throttles[i]? = some t →
        (check_throttles mtch maxthrottlenums expnfilename c throttles).2.2[i]? =
          some (if i ∈ (check_throttles mtch maxthrottlenums expnfilename c throttles).2.1.tnums
            then { t with num_sending := t.num_sending + 1 } else t)) ∧
      ((check_throttles mtch maxthrottlenums expnfilename c throttles).2.1.tnums ≠ [] →
        (∃ i ∈ (check_throttles mtch maxthrottlenums expnfilename c throttles).2.1.tnums,
          ∃ t, (check_throttles mtch maxthrottlenums expnfilename c throttles).2.2[i]? = some t ∧
            (check_throttles mtch maxthrottlenums expnfilename c throttles).2.1.max_limit
              = throttle_share t) ∧
        (∀ i ∈ (check_throttles mtch maxthrottlenums expnfilename c throttles).2.1.tnums,
          ∀ t, (check_throttles mtch maxthrottlenums expnfilename c throttles).2.2[i]? = some t →
            (check_throttles mtch maxthrottlenums expnfilename c throttles).2.1.max_limit
              ≤ throttle_share t) ∧
        (∃ i ∈ (check_throttles mtch maxthrottlenums expnfilename c throttles).2.1.tnums,
          ∃ t, (check_throttles mtch maxthrottlenums expnfilename c throttles).2.2[i]? = some t ∧
            (check_throttles mtch maxthrottlenums expnfilename c throttles).2.1.min_limit
              = t.min_limit) ∧
        (∀ i ∈ (check_throttles mtch maxthrottlenums expnfilename c throttles).2.1.tnums,
          ∀ t, (check_throttles mtch maxthrottlenums expnfilename c throttles).2.2[i]? = some t →
            t.min_limit
              ≤ (check_throttles mtch maxthrottlenums expnfilename c throttles).2.1.min_limit)) ∧
      ((check_throttles mtch maxthrottlenums expnfilename c throttles).2.1.tnums = [] →
        (check_throttles mtch maxthrottlenums expnfilename c throttles).2.1.max_limit
          = THROTTLE_NOLIMIT ∧
        (check_throttles mtch maxthrottlenums expnfilename c throttles).2.1.min_limit
          = THROTTLE_NOLIMIT ∧
        (check_throttles mtch maxthrottlenums expnfilename c throttles).2.2 = throttles)) ∧
    ((∀ t ∈ throttles, mtch t.pattern expnfilename = false) →
      (check_throttles mtch maxthrottlenums expnfilename c throttles).1 = true ∧
      (check_throttles mtch maxthrottlenums expnfilename c throttles).2.1.tnums = [] ∧
      (check_throttles mtch maxthrottlenums expnfilename c throttles).2.1.max_limit
        = THROTTLE_NOLIMIT ∧
      (check_throttles mtch maxthrottlenums expnfilename c throttles).2.1.min_limit
        = THROTTLE_NOLIMIT ∧
      (check_throttles mtch maxthrottlenums expnfilename c throttles).2.2 = throttles) := by
  constructor
  · intro hret
    unfold check_throttles at hret ⊢
    obtain ⟨c0, hc0⟩ : ∃ c0, c0 =
        { c with tnums := [], max_limit := THROTTLE_NOLIMIT, min_limit := THROTTLE_NOLIMIT } :=
      ⟨_, rfl⟩
    rw [← hc0] at hret ⊢
    have e1 : c0.tnums = [] := by rw [hc0]
    have e2 : c0.max_limit = THROTTLE_NOLIMIT := by rw [hc0]
    have e3 : c0.min_limit = THROTTLE_NOLIMIT := by rw [hc0]
    obtain ⟨bound, H⟩ := check_throttles_loop_bound mtch maxthrottlenums expnfilename
      throttles.length 0 c0 throttles hnn (by omega) hret
    obtain ⟨r, hr⟩ : ∃ r, r = check_throttles_loop mtch maxthrottlenums expnfilename
      throttles.length 0 c0 throttles := ⟨_, rfl⟩
    rw [← hr] at H ⊢
    have ht : r.2.1.tnums = bound := by rw [H.tnums, e1, List.nil_append]
    rw [ht]
    have hcap := H.cap
    rw [e1] at hcap
    simp only [List.length_nil, Nat.zero_add, Nat.max_zero] at hcap
    refine ⟨H.nodup, by omega, H.matching, ?_, H.length, H.table, ?_, ?_⟩
    · intro i t hi hm
      rcases H.all_bound i t (Nat.zero_le _) hi hm with h | h
      · exact Or.inl h
      · rw [e1] at h
        simp only [List.length_nil, Nat.zero_add] at h
        exact Or.inr h
    · intro hne
      obtain ⟨n1, n2⟩ := H.nonneg hne (Or.inl e2) (Or.inl e3)
      refine ⟨?_, H.max_le (Or.inl e2), ?_, H.min_ge (Or.inl e3)⟩
      · rcases H.max_attained (Or.inl e2) with h | h
        · rw [h, e2] at n1; unfold THROTTLE_NOLIMIT at n1; omega
        · exact h
      · rcases H.min_attained (Or.inl e3) with h | h
        · rw [h, e3] at n2; unfold THROTTLE_NOLIMIT at n2; omega
        · exact h
    · intro hnil
      obtain ⟨m1, m2⟩ := H.none_bound hnil
      refine ⟨m1.trans e2, m2.trans e3, ?_⟩
      apply List.ext_getElem?
      intro i
      cases hg : throttles[i]? with
      | none =>
        have : throttles.length ≤ i := by
          rcases Nat.lt_or_ge i throttles.length with h | h
          · rw [List.getElem?_eq_getElem h] at hg; cases hg
          · exact h
        exact List.getElem?_eq_none (by rw [H.length]; exact this)
      | some t =>
        have := H.table i t hg
        rw [hnil] at this
        simpa using this
  · intro hno
    unfold check_throttles
    rw [check_throttles_loop_no_match mtch maxthrottlenums expnfilename _ _ _ _ hno]
    exact ⟨rfl, rfl, rfl, rfl, rfl⟩

/-- The hypotheses of `check_throttles_binding` hold for a table of three throttles of
which the first and the third match, with one and two connections sending: both are
bound, their sending counts become 2 and 3, and the limits of the connection are
`min (1000 / 2) (900 / 3) = 300` and `max 0 100 = 100`. -/
theorem check_throttles_binding_witness :
    ((check_throttles match_star 10 "index.html".toList (sample_connecttab (sample_conn 100))
      shared_table).2.1.tnums.Nodup ∧
     (check_throttles match_star 10 "index.html".toList (sample_connecttab (sample_conn 100))
      shared_table).2.1.tnums.length ≤ 10) ∧
    (check_throttles match_star 10 "index.html".toList (sample_connecttab (sample_conn 100))
      shared_table).2.1.tnums = [0, 2] ∧
    (check_throttles match_star 10 "index.html".toList (sample_connecttab (sample_conn 100))
      shared_table).2.2.map (fun t => t.num_sending) = [2, 0, 3] ∧
    (check_throttles match_star 10 "index.html".toList (sample_connecttab (sample_conn 100))
      shared_table).2.1.max_limit = 300 ∧
    (check_throttles match_star 10 "index.html".toList (sample_connecttab (sample_conn 100))
      shared_table).2.1.min_limit = 100 :=
  ⟨⟨((check_throttles_binding match_star 10 "index.html".toList
        (sample_connecttab (sample_conn 100)) shared_table (by decide)).1 (by decide)).1,
    ((check_throttles_binding match_star 10 "index.html".toList
        (sample_connecttab (sample_conn 100)) shared_table (by decide)).1 (by decide)).2.1⟩,
    by decide, by decide, by decide, by decide⟩

/-- C12 fails as stated outside that domain. For the table of the lines `* -1-100` and
`* -5-100`, `check_throttles` returns 1 with both throttles bound and `min_limit = -5`,
below the `min_limit` of -1 of the first of them: the value -1 is taken for
`THROTTLE_NOLIMIT` and overwritten. For a throttle whose `num_sending` is -1 the count
after binding is 1: it is reset to 0 before it is incremented. -/
theorem check_throttles_sentinel_clash :
    (check_throttles match_star 10 "index.html".toList (sample_connecttab (sample_conn 100))
      negative_min_table).1 = true ∧
    (check_throttles match_star 10 "index.html".toList (sample_connecttab (sample_conn 100))
      negative_min_table).2.1.tnums = [0, 1] ∧
    (check_throttles match_star 10 "index.html".toList (sample_connecttab (sample_conn 100))
      negative_min_table).2.2.map (fun t => t.min_limit) = [-1, -5] ∧
    (check_throttles match_star 10 "index.html".toList (sample_connecttab (sample_conn 100))
      negative_min_table).2.1.min_limit = -5 ∧
    (check_throttles match_star 10 "index.html".toList (sample_connecttab (sample_conn 100))
      negative_count_table).1 = true ∧
    (check_throttles match_star 10 "index.html".toList (sample_connecttab (sample_conn 100))
      negative_count_table).2.1.tnums = [0] ∧
    negative_count_table.map (fun t => t.num_sending) = [-1] ∧
    (check_throttles match_star 10 "index.html".toList (sample_connecttab (sample_conn 100))
      negative_count_table).2.2.map (fun t => t.num_sending) = [1] := by
  refine ⟨by decide, by decide, by decide, by decide, by decide, by decide, by decide,
    by decide⟩

/-! ## strdecode: the reference definition and decoding in place (C13) -/

theorem cAt_of_drop (mem l : List Char) (fp k : Nat) (h : mem.drop fp = l) :
    cAt mem (fp + k) = cAt l k := by
  unfold cAt
  rw [← h, List.getD_eq_getElem?_getD, List.getD_eq_getElem?_getD, List.getElem?_drop]

theorem lt_length_of_drop (mem : List Char) (fp : Nat) (x : Char) (tail : List Char)
    (h : mem.drop fp = x :: tail) : fp < mem.length := by
  rcases Nat.lt_or_ge fp mem.length with h1 | h1
  · exact h1
  · rw [List.drop_eq_nil_of_le h1] at h; cases h

theorem take_succ_set (mem : List Char) (tp : Nat) (y : Char) (h : tp < mem.length) :
    (mem.set tp y).take (tp + 1) = mem.take tp ++ [y] := by
  rw [List.set_eq_take_append_cons_drop, if_pos h]
  have hl : (mem.take tp).length = tp := by rw [List.length_take]; omega
  rw [List.take_append_eq_append_take, hl, List.take_of_length_le (by omega)]
  simp

theorem drop_drop_of_drop (mem l : List Char) (fp k : Nat) (h : mem.drop fp = l) :
    mem.drop (fp + k) = l.drop k := by
  rw [← h, List.drop_drop]

theorem strdecode_length_le (s : List Char) : (strdecode s).length ≤ s.length := by
  induction s using strdecode.induct with
  | case1 => simp [strdecode]
  | case2 c => simp [strdecode]
  | case3 c d ih => simp [strdecode]
  | case4 c h l rest hc ih =>
    rw [strdecode, if_pos hc]
    simp only [List.length_cons]
    omega
  | case5 c h l rest hc ih =>
    rw [strdecode, if_neg hc]
    simp only [List.length_cons] at ih ⊢
    omega

theorem isxdigit_nul : isxdigit '\x00' = false := by decide

theorem percent_decode_from_eq (s : List Char) : percent_decode_from 0 s = strdecode s := by
  induction s using strdecode.induct with
  | case1 => rfl
  | case2 c =>
    simp [percent_decode_from, strdecode, cAt, isxdigit_nul]
  | case3 c d ih =>
    have h1 : cAt [d] 1 = '\x00' := rfl
    simp only [percent_decode_from, strdecode, h1, isxdigit_nul, Bool.false_eq_true, and_false,
      if_false] at ih ⊢
    rw [ih]
  | case4 c h l rest hc ih =>
    have h0 : cAt (h :: l :: rest) 0 = h := rfl
    have h1 : cAt (h :: l :: rest) 1 = l := rfl
    rw [strdecode, if_pos hc, percent_decode_from, h0, h1, if_pos hc]
    simp only [percent_decode_from]
    rw [ih, Nat.mul_comm]
  | case5 c h l rest hc ih =>
    have h0 : cAt (h :: l :: rest) 0 = h := rfl
    have h1 : cAt (h :: l :: rest) 1 = l := rfl
    rw [strdecode, if_neg hc, percent_decode_from, h0, h1, if_neg hc, ih]

theorem strdecode_loop_end (fuel : Nat) (mem : List Char) (tp fp : Nat) (ok : Bool)
    (post : List Char) (hle : tp ≤ fp) (hdrop : mem.drop fp = '\x00' :: post) :
    strdecode_loop (fuel + 1) mem tp fp ok =
      some (mem.take tp ++ '\x00' :: mem.drop (tp + 1), tp, ok) := by
  have h0 : cAt mem fp = '\x00' := by
    have := cAt_of_drop mem _ fp 0 hdrop
    simpa using this
  have hlt := lt_length_of_drop mem fp _ _ hdrop
  unfold strdecode_loop
  simp only [h0, if_true, hle, decide_True, Bool.and_true]
  rw [List.set_eq_take_append_cons_drop, if_pos (by omega)]

theorem strdecode_loop_copy (fuel : Nat) (mem : List Char) (tp fp : Nat) (ok : Bool)
    (c : Char) (tail : List Char) (hle : tp ≤ fp) (hdrop : mem.drop fp = c :: tail)
    (hc : c ≠ '\x00')
    (hno : ¬ (c = '%' ∧ isxdigit (cAt tail 0) = true ∧ isxdigit (cAt tail 1) = true)) :
    strdecode_loop (fuel + 1) mem tp fp ok =
      strdecode_loop fuel (mem.set tp c) (tp + 1) (fp + 1) ok := by
  have h0 : cAt mem fp = c := by
    have := cAt_of_drop mem _ fp 0 hdrop
    simpa using this
  have h1 : cAt mem (fp + 1) = cAt tail 0 := cAt_of_drop mem _ fp 1 hdrop
  have h2 : cAt mem (fp + 2) = cAt tail 1 := cAt_of_drop mem _ fp 2 hdrop
  rw [strdecode_loop]
  simp only [h0, h1, h2, hc, if_false, hno, hle, decide_True, Bool.and_true]

theorem strdecode_loop_escape (fuel : Nat) (mem : List Char) (tp fp : Nat) (ok : Bool)
    (c h l : Char) (tail : List Char) (hle : tp ≤ fp) (hdrop : mem.drop fp = c :: h :: l :: tail)
    (hyes : c = '%' ∧ isxdigit h = true ∧ isxdigit l = true) :
    strdecode_loop (fuel + 1) mem tp fp ok =
      strdecode_loop fuel (mem.set tp (Char.ofNat (hexit h * 16 + hexit l))) (tp + 1) (fp + 3)
        ok := by
  have h0 : cAt mem fp = c := by
    have := cAt_of_drop mem _ fp 0 hdrop
    simpa using this
  have h1 : cAt mem (fp + 1) = h := cAt_of_drop mem _ fp 1 hdrop
  have h2 : cAt mem (fp + 2) = l := cAt_of_drop mem _ fp 2 hdrop
  have hc : c ≠ '\x00' := by rw [hyes.1]; decide
  rw [strdecode_loop]
  have hp : ¬ ('%' : Char) = '\x00' := by decide
  simp only [h0, h1, h2, hc, if_false, hyes, and_self, if_true, hle, decide_True,
    Bool.and_true, hp]

theorem strdecode_loop_step_mem (mem : List Char) (tp fp k n : Nat) (y : Char)
    (out tail : List Char) (hle : tp ≤ fp) (hk : 1 ≤ k) (hlt : tp < mem.length)
    (hdrop : mem.drop (fp + k) = tail) :
    (mem.set tp y).drop (fp + k) = tail ∧
    (mem.set tp y).take (tp + 1) ++ out ++ '\x00' :: (mem.set tp y).drop (tp + 1 + n + 1) =
      mem.take tp ++ (y :: out) ++ '\x00' :: mem.drop (tp + (n + 1) + 1) := by
  constructor
  · rw [List.drop_set_of_lt _ _ (by omega)]; exact hdrop
  · rw [take_succ_set mem tp y hlt, List.drop_set_of_lt _ _ (by omega)]
    have : tp + 1 + n + 1 = tp + (n + 1) + 1 := by omega
    rw [this]
    simp

theorem strdecode_loop_spec (rem : List Char) :
    ∀ (fuel : Nat) (mem : List Char) (tp fp : Nat) (ok : Bool) (post : List Char),
      (∀ c ∈ rem, c ≠ '\x00') → tp ≤ fp → mem.drop fp = rem ++ '\x00' :: post →
      rem.length + 1 ≤ fuel →
      strdecode_loop fuel mem tp fp ok =
        some (mem.take tp ++ strdecode rem ++
            '\x00' :: mem.drop (tp + (strdecode rem).length + 1),
          tp + (strdecode rem).length, ok) := by
  induction rem using strdecode.induct with
  | case1 =>
    intro fuel mem tp fp ok post _ hle hdrop hfuel
    obtain ⟨f, rfl⟩ : ∃ f, fuel = f + 1 := ⟨fuel - 1, by simp at hfuel; omega⟩
    rw [strdecode_loop_end f mem tp fp ok post hle (by simpa using hdrop)]
    simp [strdecode]
  | case2 c =>
    intro fuel mem tp fp ok post hnul hle hdrop hfuel
    obtain ⟨f, rfl⟩ : ∃ f, fuel = f + 2 := ⟨fuel - 2, by simp at hfuel; omega⟩
    have hc : c ≠ '\x00' := hnul c (by simp)
    have hd : mem.drop fp = c :: '\x00' :: post := by simpa using hdrop
    have hlt := lt_length_of_drop mem fp _ _ hd
    rw [strdecode_loop_copy (f + 1) mem tp fp ok c _ hle hd hc
      (by simp [cAt, isxdigit_nul])]
    obtain ⟨m1, m2⟩ := strdecode_loop_step_mem mem tp fp 1 0 c [] ('\x00' :: post) hle
      (by omega) (by omega) (by rw [drop_drop_of_drop mem _ fp 1 hd]; rfl)
    rw [strdecode_loop_end f _ (tp + 1) (fp + 1) ok post (by omega) m1]
    simp only [strdecode, List.length_singleton]
    simp only [List.append_nil, Nat.add_zero] at m2
    rw [m2]
  | case3 c d ih =>
    intro fuel mem tp fp ok post hnul hle hdrop hfuel
    obtain ⟨f, rfl⟩ : ∃ f, fuel = f + 1 := ⟨fuel - 1, by simp at hfuel; omega⟩
    have hc : c ≠ '\x00' := hnul c (by simp)
    have hd : mem.drop fp = c :: d :: '\x00' :: post := by simpa using hdrop
    have hlt := lt_length_of_drop mem fp _ _ hd
    rw [strdecode_loop_copy f mem tp fp ok c _ hle hd hc (by simp [cAt, isxdigit_nul])]
    obtain ⟨m1, m2⟩ := strdecode_loop_step_mem mem tp fp 1 (strdecode [d]).length c
      (strdecode [d]) (d :: '\x00' :: post) hle (by omega) (by omega)
      (by rw [drop_drop_of_drop mem _ fp 1 hd]; rfl)
    rw [ih f _ (tp + 1) (fp + 1) ok post (fun x hx => hnul x (by simp at hx; simp [hx]))
      (by omega) (by simpa using m1) (by simp at hfuel ⊢; omega)]
    rw [m2, show tp + 1 + (strdecode [d]).length = tp + ((strdecode [d]).length + 1) by omega]
    simp only [strdecode, List.length_cons]
  | case4 c h l rest hyes ih =>
    intro fuel mem tp fp ok post hnul hle hdrop hfuel
    obtain ⟨f, rfl⟩ : ∃ f, fuel = f + 1 := ⟨fuel - 1, by simp at hfuel; omega⟩
    have hd : mem.drop fp = c :: h :: l :: (rest ++ '\x00' :: post) := by simpa using hdrop
    have hlt := lt_length_of_drop mem fp _ _ hd
    rw [strdecode_loop_escape f mem tp fp ok c h l _ hle hd hyes]
    obtain ⟨m1, m2⟩ := strdecode_loop_step_mem mem tp fp 3 (strdecode rest).length
      (Char.ofNat (hexit h * 16 + hexit l)) (strdecode rest) (rest ++ '\x00' :: post) hle
      (by omega) (by omega) (by rw [drop_drop_of_drop mem _ fp 3 hd]; rfl)
    rw [ih f _ (tp + 1) (fp + 3) ok post
      (fun x hx => hnul x (by simp [hx])) (by omega) m1 (by simp at hfuel ⊢; omega)]
    rw [m2, show tp + 1 + (strdecode rest).length = tp + ((strdecode rest).length + 1)
      by omega, strdecode, if_pos hyes]
    simp only [List.length_cons]
  | case5 c h l rest hno ih =>
    intro fuel mem tp fp ok post hnul hle hdrop hfuel
    obtain ⟨f, rfl⟩ : ∃ f, fuel = f + 1 := ⟨fuel - 1, by simp at hfuel; omega⟩
    have hc : c ≠ '\x00' := hnul c (by simp)
    have hd : mem.drop fp = c :: (h :: l :: rest ++ '\x00' :: post) := by simpa using hdrop
    have hlt := lt_length_of_drop mem fp _ _ hd
    rw [strdecode_loop_copy f mem tp fp ok c _ hle hd hc (by simpa [cAt] using hno)]
    obtain ⟨m1, m2⟩ := strdecode_loop_step_mem mem tp fp 1 (strdecode (h :: l :: rest)).length
      c (strdecode (h :: l :: rest)) (h :: l :: rest ++ '\x00' :: post) hle
      (by omega) (by omega) (by rw [drop_drop_of_drop mem _ fp 1 hd]; rfl)
    rw [ih f _ (tp + 1) (fp + 1) ok post
      (fun x hx => hnul x (by simp at hx; simp [hx])) (by omega) m1
      (by simp at hfuel ⊢; omega)]
    rw [m2, show tp + 1 + (strdecode (h :: l :: rest)).length =
      tp + ((strdecode (h :: l :: rest)).length + 1) by omega]
    conv_rhs => rw [strdecode, if_neg hno]
    simp only [List.length_cons]

/-- C13. Percent-decoding equals its reference definition. For a string `s` without NUL:
the bytes `strdecode` writes are `percent_decode s`, never more than `s` has; and run on
a memory in which `s` and its terminator lie at the read position and the write position
is at or before it (`gap` bytes before; none for decoding in place, `to == from`), the
loop of `strdecode` ends, leaves `percent_decode s` and a terminator at the write
position and nothing else changed, with `to ≤ from` at every turn. -/
theorem strdecode_refines (s pre gap post : List Char) (hs : ∀ c ∈ s, c ≠ '\x00') :
    strdecode s = percent_decode s ∧
    (percent_decode s).length ≤ s.length ∧
    strdecode_mem (pre ++ gap ++ s ++ '\x00' :: post) pre.length (pre.length + gap.length) =
      some (pre ++ percent_decode s ++
          '\x00' :: (pre ++ gap ++ s ++ '\x00' :: post).drop
            (pre.length + (percent_decode s).length + 1),
        pre.length + (percent_decode s).length, true) ∧
    strdecode_mem (pre ++ s ++ '\x00' :: post) pre.length pre.length =
      some (pre ++ percent_decode s ++
          '\x00' :: (pre ++ s ++ '\x00' :: post).drop
            (pre.length + (percent_decode s).length + 1),
        pre.length + (percent_decode s).length, true) := by
  have heq : percent_decode s = strdecode s := percent_decode_from_eq s
  have hgen : ∀ g : List Char,
      strdecode_mem (pre ++ g ++ s ++ '\x00' :: post) pre.length (pre.length + g.length) =
        some (pre ++ percent_decode s ++
            '\x00' :: (pre ++ g ++ s ++ '\x00' :: post).drop
              (pre.length + (percent_decode s).length + 1),
          pre.length + (percent_decode s).length, true) := by
    intro g
    unfold strdecode_mem
    rw [strdecode_loop_spec s _ (pre ++ g ++ s ++ '\x00' :: post) pre.length
      (pre.length + g.length) true post hs (by omega)
      (by
        rw [List.append_assoc, List.append_assoc, ← List.append_assoc pre g,
          List.drop_left' (by simp)])
      (by simp only [List.length_append, List.length_cons]; omega)]
    rw [heq]
    congr 3
    rw [List.append_assoc, List.append_assoc, List.take_left' rfl]
  refine ⟨heq.symm, by rw [heq]; exact strdecode_length_le s, hgen gap, ?_⟩
  have := hgen []
  simpa using this

/-- The hypothesis of `strdecode_refines` holds for the string `a%20b%2`, decoded in place
in a memory where it lies between `xy` and `zz`: the memory then holds `a b%2` and a
terminator between `xy` and what is left of the old bytes. -/
theorem strdecode_refines_witness :
    percent_decode "a%20b%2".toList = "a b%2".toList ∧
    strdecode_mem ("xy".toList ++ "a%20b%2".toList ++ '\x00' :: "zz".toList) 2 2 =
      some ("xya b%2\x002\x00zz".toList, 7, true) :=
  ⟨by decide,
    (strdecode_refines "a%20b%2".toList "xy".toList [] "zz".toList (by decide)).2.2.2.trans
      (by decide)⟩

/-! ## Request lines: absolute URLs (C14) and accumulated headers (C15) -/

theorem bufgets_line (line rest : List Char) (h : ∀ c ∈ line, c ≠ '\n' ∧ c ≠ '\r') :
    bufgets (line ++ '\r' :: '\n' :: rest) = some (line, rest) := by
  induction line with
  | nil => simp [bufgets]
  | cons c line ih =>
    have hc := h c (List.mem_cons_self _ _)
    simp only [List.cons_append, bufgets, hc.1, hc.2, if_false, List.append_eq,
      ih (fun d hd => h d (List.mem_cons_of_mem _ hd))]

theorem cstr_nul_free (s : List Char) (h : ∀ c ∈ s, c ≠ '\x00') : cstr s = s := by
  unfold cstr
  rw [List.takeWhile_eq_self_iff]
  intro c hc
  simpa using h c hc

theorem strspn_word (s rest : List Char) (hs : Word s) (hne : s ≠ []) :
    strspn (s ++ rest) reqWs = 0 := by
  rcases s with _ | ⟨c, s⟩
  · exact absurd rfl hne
  · simp only [List.cons_append, strspn, (hs c (List.mem_cons_self _ _)).1, Bool.false_eq_true,
      if_false]

theorem strpbrk_word (s : List Char) (hs : Word s) : strpbrk s reqWs = none :=
  strpbrk_none (fun c hc => (hs c hc).1)

theorem drop_succ_append (m x : List Char) (c : Char) :
    (m ++ c :: x).drop (m.length + 1) = x := by
  induction m with
  | nil => rfl
  | cons d m ih => simp [ih]

theorem take_length_append (m x : List Char) : (m ++ x).take m.length = m :=
  List.take_left' rfl

theorem split_request_line_three (m u p : List Char) (hm : Word m) (hu : Word u) (hp : Word p)
    (hune : u ≠ []) (hpne : p ≠ []) :
    split_request_line (m ++ ' ' :: u ++ ' ' :: p) =
      some { method_str := m, url := u, protocol := p, mime_flag := true,
             one_one := !(strcasecmp_eq p "HTTP/1.0".toList) } := by
  have h1 : strpbrk (m ++ ' ' :: (u ++ ' ' :: p)) reqWs = some m.length :=
    strpbrk_first (fun x hx => (hm x hx).1) (by decide)
  have h2 : strpbrk (u ++ ' ' :: p) reqWs = some u.length :=
    strpbrk_first (fun x hx => (hu x hx).1) (by decide)
  have h3 : strspn (u ++ ' ' :: p) reqWs = 0 := strspn_word u _ hu hune
  have h4 : strspn p reqWs = 0 := by
    have := strspn_word p [] hp hpne
    simpa using this
  have h5 : strpbrk p reqWs = none := strpbrk_word p hp
  unfold split_request_line
  rw [List.append_assoc]
  simp only [List.cons_append, h1, take_length_append, drop_succ_append, List.drop_zero, h3, h2,
    h4, h5, ne_eq, hpne, not_false_eq_true, if_true]

theorem split_request_line_two (m u : List Char) (hm : Word m) (hu : Word u) (hune : u ≠ []) :
    split_request_line (m ++ ' ' :: u) =
      some { method_str := m, url := u, protocol := "HTTP/0.9".toList, mime_flag := false,
             one_one := false } := by
  have h1 : strpbrk (m ++ ' ' :: u) reqWs = some m.length :=
    strpbrk_first (fun x hx => (hm x hx).1) (by decide)
  have h3 : strspn u reqWs = 0 := by
    have := strspn_word u [] hu hune
    simpa using this
  have h5 : strpbrk u reqWs = none := strpbrk_word u hu
  unfold split_request_line
  simp only [h1, take_length_append, drop_succ_append, List.drop_zero, h3, h5]

theorem word_line (m u : List Char) (hm : Word m) (hu : Word u) :
    (∀ c ∈ m ++ ' ' :: u, c ≠ '\n' ∧ c ≠ '\r') ∧ (∀ c ∈ m ++ ' ' :: u, c ≠ '\x00') := by
  have key : ∀ s, Word s → ∀ c ∈ s, (c ≠ '\n' ∧ c ≠ '\r') ∧ c ≠ '\x00' := by
    intro s hs c hc
    obtain ⟨h1, h2⟩ := hs c hc
    refine ⟨⟨?_, ?_⟩, h2⟩
    · rintro rfl; revert h1; decide
    · rintro rfl; revert h1; decide
  constructor
  · intro c hc
    rcases List.mem_append.1 hc with h | h
    · exact (key m hm c h).1
    · rcases List.mem_cons.1 h with h | h
      · rw [h]; decide
      · exact (key u hu c h).1
  · intro c hc
    rcases List.mem_append.1 hc with h | h
    · exact (key m hm c h).2
    · rcases List.mem_cons.1 h with h | h
      · rw [h]; decide
      · exact (key u hu c h).2

theorem strip_absolute_url_host (u host path : List Char)
    (hpre : strncasecmp_eq u "http://".toList 7 = true)
    (hu : u.drop 7 = host ++ '/' :: path) (hslash : '/' ∉ host) (hdot : cAt host 0 ≠ '.') :
    strip_absolute_url u true = .ok ('/' :: path, host) := by
  have hno : ∀ x ∈ host, ['/'].contains x = false := by
    intro x hx
    have : x ≠ '/' := fun e => hslash (e ▸ hx)
    simpa using this
  have h1 : strchr (host ++ '/' :: path) '/' = some host.length :=
    strpbrk_first hno (by decide)
  have h2 : strchr host '/' = none := strpbrk_none hno
  unfold strip_absolute_url
  simp only [hpre, if_true, Bool.not_true, Bool.false_eq_true, if_false, hu, h1,
    take_length_append, h2, Option.isSome_none, false_or, hdot, List.drop_left']

/-- C14, as the code has it. Absolute-form URLs: for a request line of the words `method`,
`url` and `protocol` whose URL begins (case-insensitively) with `http://`,
`httpd_parse_request` answers 400 when the protocol is absent and when it is `HTTP/1.0`
(case-insensitively); when the protocol is any other word (`HTTP/1.1` is one) and the URL
is `http://host/path` with a host that contains no `/` and does not start with `.`, the
host is copied to `reqhost` and parsing continues with `/path` as the encoded URL. -/
theorem absolute_url_protocol (method url protocol rest : List Char)
    (hm : Word method) (hu : Word url) (hp : Word protocol) (hpne : protocol ≠ [])
    (hpre : strncasecmp_eq url "http://".toList 7 = true) :
    parse_request_head (simple_request_line method url rest) = .error 400 ∧
    httpd_parse_request (simple_request_line method url rest) = .error 400 ∧
    (strcasecmp_eq protocol "HTTP/1.0".toList = true →
      parse_request_head (request_line method url protocol rest) = .error 400 ∧
      httpd_parse_request (request_line method url protocol rest) = .error 400) ∧
    (strcasecmp_eq protocol "HTTP/1.0".toList = false →
      ∀ (host path : List Char) (m : Method), url.drop 7 = host ++ '/' :: path → '/' ∉ host →
        cAt host 0 ≠ '.' → lookup_method method = some m →
        ∃ r, parse_request_head (request_line method url protocol rest) = .ok r ∧
          r.reqhost = host ∧ r.encodedurl = '/' :: path ∧ r.method = m ∧
          r.protocol = protocol ∧ r.one_one = true) := by
  have hune : url ≠ [] := by
    rintro rfl
    revert hpre
    decide
  obtain ⟨l1, l2⟩ := word_line method url hm hu
  have hb2 : bufgets (simple_request_line method url rest) = some (method ++ ' ' :: url, rest) :=
    bufgets_line _ rest l1
  have hline3 : (∀ c ∈ method ++ ' ' :: url ++ ' ' :: protocol, c ≠ '\n' ∧ c ≠ '\r') ∧
      (∀ c ∈ method ++ ' ' :: url ++ ' ' :: protocol, c ≠ '\x00') := by
    obtain ⟨p1, p2⟩ := word_line [] protocol (fun _ h => by simp at h) hp
    constructor
    · intro c hc
      rcases List.mem_append.1 hc with h | h
      · exact l1 c h
      · exact p1 c (by simpa using h)
    · intro c hc
      rcases List.mem_append.1 hc with h | h
      · exact l2 c h
      · exact p2 c (by simpa using h)
  have hb3 : bufgets (request_line method url protocol rest) =
      some (method ++ ' ' :: url ++ ' ' :: protocol, rest) :=
    bufgets_line _ rest hline3.1
  have hs2 := split_request_line_two method url hm hu hune
  have hs3 := split_request_line_three method url protocol hm hu hp hune hpne
  have e400 : ∀ buf line rl, bufgets buf = some (line, rest) →
      split_request_line (cstr line) = some rl → rl.url = url → rl.one_one = false →
      parse_request_head buf = .error 400 ∧ httpd_parse_request buf = .error 400 := by
    intro buf line rl h1 h2 h3 h4
    have hp1 : parse_request_head buf = .error 400 := by
      unfold parse_request_head
      simp only [h1, h2]
      unfold strip_absolute_url
      simp only [h3, h4, hpre, if_true, Bool.not_false]
    exact ⟨hp1, by unfold httpd_parse_request; rw [hp1]⟩
  obtain ⟨a1, a2⟩ := e400 _ _ _ hb2 (by rw [cstr_nul_free _ l2]; exact hs2) rfl rfl
  refine ⟨a1, a2, ?_, ?_⟩
  · intro h10
    exact e400 _ _ _ hb3 (by rw [cstr_nul_free _ hline3.2]; exact hs3) rfl
      (by show (!strcasecmp_eq protocol "HTTP/1.0".toList) = false; rw [h10]; rfl)
  · intro h10 host path m hhost hslash hdot hmeth
    have hstrip := strip_absolute_url_host url host path hpre hhost hslash hdot
    unfold parse_request_head
    simp only [hb3, cstr_nul_free _ hline3.2, hs3, h10, Bool.not_false, hstrip]
    have hc : cAt ('/' :: path) 0 = '/' := rfl
    simp only [hc, ne_eq, not_true_eq_false, if_false, hmeth]
    exact ⟨_, rfl, rfl, rfl, rfl, rfl, rfl⟩

/-- The hypotheses of `absolute_url_protocol` hold for the request line
`GET http://www.example.com/index.html HTTP/1.1`: without the protocol the request is
answered 400, and with it the host is `www.example.com` and the URL `/index.html`. -/
theorem absolute_url_protocol_witness :
    parse_request_head (simple_request_line "GET".toList
      "http://www.example.com/index.html".toList "\r\n".toList) = .error 400 ∧
    ∃ r, parse_request_head (request_line "GET".toList
        "http://www.example.com/index.html".toList "HTTP/1.1".toList "\r\n".toList) = .ok r ∧
      r.reqhost = "www.example.com".toList ∧ r.encodedurl = "/index.html".toList ∧
      r.method = .GET ∧ r.protocol = "HTTP/1.1".toList ∧ r.one_one = true :=
  ⟨(absolute_url_protocol "GET".toList "http://www.example.com/index.html".toList
      "HTTP/1.1".toList "\r\n".toList (by unfold Word; decide) (by unfold Word; decide)
      (by unfold Word; decide) (by decide) (by decide)).1,
    (absolute_url_protocol "GET".toList "http://www.example.com/index.html".toList
      "HTTP/1.1".toList "\r\n".toList (by unfold Word; decide) (by unfold Word; decide)
      (by unfold Word; decide) (by decide) (by decide)).2.2.2 (by decide)
      "www.example.com".toList "index.html".toList .GET (by decide) (by decide) (by decide)
      (by decide)⟩

/-- C14 fails as stated for a protocol that is neither `HTTP/1.0` nor `HTTP/1.1`: the
request lines `GET http://host/path HTTP/1.2` and `GET http://host/path FOO` are not
answered 400; the host is copied to `reqhost` and the URL is `/path`. -/
theorem absolute_url_unknown_protocol :
    (httpd_parse_request (request_line "GET".toList "http://host/path".toList
      "HTTP/1.2".toList "\r\n".toList)).toOption.map
        (fun r => (r.one_one, r.reqhost, r.encodedurl, r.origfilename)) =
      some (true, "host".toList, "/path".toList, "path".toList) ∧
    (httpd_parse_request (request_line "GET".toList "http://host/path".toList
      "FOO".toList "\r\n".toList)).toOption.map
        (fun r => (r.one_one, r.reqhost, r.encodedurl, r.origfilename)) =
      some (true, "host".toList, "/path".toList, "path".toList) := by
  refine ⟨by decide, by decide⟩

/-- C15 at the failing input. Two header lines `Accept-Encoding: gzip` and
`Accept-Encoding: deflate` leave `deflate` in `accepte`, where the claim has
`gzip, deflate`; the same two values sent as `Accept:` lines leave `gzip, deflate` in
`accept`. A single `Accept-Encoding:` line is stored as the claim says. -/
theorem accept_encoding_overwritten :
    (parsed_accept_fields
      "Accept-Encoding: gzip\r\nAccept-Encoding: deflate\r\n\r\n".toList).map
        (fun r => r.toOption.map (fun s => s.accepte)) = some (some "deflate".toList) ∧
    (parsed_accept_fields
      "Accept: gzip\r\nAccept: deflate\r\n\r\n".toList).map
        (fun r => r.toOption.map (fun s => s.accept)) = some (some "gzip, deflate".toList) ∧
    (parsed_accept_fields
      "Accept-Encoding: gzip\r\n\r\n".toList).map
        (fun r => r.toOption.map (fun s => s.accepte)) = some (some "gzip".toList) := by
  refine ⟨by decide, by decide, by decide⟩

/-! ## The free list of the connection table (C16) -/

theorem freeChain_set (connects : List Slot) (j : Nat) (x : Slot) :
    ∀ (l : List Nat) (first : Int), FreeChain connects first l → j ∉ l →
      FreeChain (connects.set j x) first l := by
  intro l
  induction l with
  | nil => intro first h _; exact h
  | cons i l ih =>
    intro first h hj
    obtain ⟨h1, c, hc, h2⟩ := h
    have hne : j ≠ i := fun e => hj (by rw [e]; exact List.mem_cons_self _ _)
    refine ⟨h1, c, ?_, ih _ h2 (fun hm => hj (List.mem_cons_of_mem _ hm))⟩
    rw [List.getElem?_set_ne hne]
    exact hc

theorem freeChain_walk (connects : List Slot) :
    ∀ (l : List Nat) (fuel : Nat) (first : Int), FreeChain connects first l → l.length ≤ fuel →
      free_list_walk connects fuel first = some l := by
  intro l
  induction l with
  | nil =>
    intro fuel first h _
    have h1 : first = -1 := h
    cases fuel <;> simp [free_list_walk, h1]
  | cons i l ih =>
    intro fuel first h hlen
    obtain ⟨h1, c, hc, h2⟩ := h
    obtain ⟨f, rfl⟩ : ∃ f, fuel = f + 1 := ⟨fuel - 1, by simp at hlen; omega⟩
    have hn1 : ¬ first = -1 := by omega
    have hn2 : ¬ first < 0 := by omega
    have ht : first.toNat = i := by omega
    simp only [free_list_walk, hn1, hn2, if_false, ht, hc,
      ih f _ h2 (by simp at hlen; omega), Option.map_some']

theorem poolInv_length (p : Pool) (l : List Nat) (h : PoolInv p l) :
    l.length ≤ p.connects.length := by
  have hsub : l ⊆ List.range p.connects.length := by
    intro i hi
    obtain ⟨c, hc, _⟩ := (h.free i).1 hi
    rw [List.mem_range]
    rcases Nat.lt_or_ge i p.connects.length with h1 | h1
    · exact h1
    · rw [List.getElem?_eq_none h1] at hc; cases hc
  have := (List.Nodup.subperm h.nodup hsub).length_le
  simpa using this

theorem pool_init_length (n : Nat) : (pool_init n).connects.length = n := by
  simp [pool_init]

theorem pool_init_slot (n i : Nat) (hi : i < n) :
    (pool_init n).connects[i]? =
      some { conn_state := .CNST_FREE,
             next_free_connect := if i + 1 = n then -1 else (i : Int) + 1 } := by
  unfold pool_init
  simp only [List.getElem?_set, List.length_map, List.length_range]
  by_cases h : n - 1 = i
  · have h1 : n - 1 < n := by omega
    have h2 : i + 1 = n := by omega
    simp [h, h1, h2, hi]
  · have h2 : ¬ i + 1 = n := by omega
    simp [h, h2, hi]

theorem pool_init_chain (n : Nat) :
    ∀ (m k : Nat), k + m = n →
      FreeChain (pool_init n).connects (if m = 0 then -1 else (k : Int)) (List.range' k m) := by
  intro m
  induction m with
  | zero => intro k _; simp [FreeChain]
  | succ m ih =>
    intro k hk
    rw [List.range'_succ]
    refine ⟨by simp, _, pool_init_slot n k (by omega), ?_⟩
    have := ih (k + 1) (by omega)
    simp only at this ⊢
    by_cases hm : m = 0
    · have : k + 1 = n := by omega
      simp only [hm, if_true, this] at *
      assumption
    · have h2 : ¬ k + 1 = n := by omega
      simp only [hm, if_false, h2] at *
      exact_mod_cast this

theorem pool_init_inv (n : Nat) (hn : 1 ≤ n) : PoolInv (pool_init n) (List.range n) where
  chain := by
    have := pool_init_chain n n 0 (by omega)
    rw [List.range_eq_range']
    have hn0 : ¬ n = 0 := by omega
    simp only [hn0, if_false] at this
    exact this
  nodup := List.nodup_range n
  free := by
    intro i
    rw [List.mem_range]
    constructor
    · intro hi
      exact ⟨_, pool_init_slot n i hi, rfl⟩
    · rintro ⟨c, hc, _⟩
      rcases Nat.lt_or_ge i n with h1 | h1
      · exact h1
      · rw [List.getElem?_eq_none (by rw [pool_init_length]; exact h1)] at hc; cases hc
  count := by
    rw [pool_init_length, List.length_range]
    simp [pool_init]

theorem really_clear_connection_inv (p : Pool) (l : List Nat) (cnum : Nat) (c : Slot)
    (h : PoolInv p l) (hc : p.connects[cnum]? = some c) (hs : c.conn_state ≠ .CNST_FREE) :
    PoolInv (really_clear_connection p cnum) (cnum :: l) := by
  have hnot : cnum ∉ l := by
    intro hm
    obtain ⟨c', hc', hf⟩ := (h.free cnum).1 hm
    rw [hc] at hc'
    cases hc'
    exact hs hf
  have hlt : cnum < p.connects.length := by
    rcases Nat.lt_or_ge cnum p.connects.length with h1 | h1
    · exact h1
    · rw [List.getElem?_eq_none h1] at hc; cases hc
  refine ⟨?_, List.nodup_cons.2 ⟨hnot, h.nodup⟩, ?_, ?_⟩
  · refine ⟨rfl, _, List.getElem?_set_self hlt, ?_⟩
    exact freeChain_set _ _ _ _ _ h.chain hnot
  · intro i
    show i ∈ cnum :: l ↔ ∃ c', (p.connects.set cnum _)[i]? = some c' ∧ _
    by_cases hi : i = cnum
    · subst hi
      rw [List.getElem?_set_self hlt]
      simp
    · rw [List.getElem?_set_ne (Ne.symm hi), List.mem_cons]
      simp only [hi, false_or]
      exact h.free i
  · show p.num_connects - 1 = ((p.connects.set cnum _).length : Int) - ((cnum :: l).length : Int)
    rw [List.length_set, List.length_cons, h.count]
    push_cast
    omega

theorem set_conn_state_inv (p : Pool) (l : List Nat) (cnum : Nat) (c : Slot) (st : ConnState)
    (h : PoolInv p l) (hc : p.connects[cnum]? = some c) (hs : c.conn_state ≠ .CNST_FREE)
    (hst : st ≠ .CNST_FREE) :
    PoolInv (set_conn_state p cnum st) l := by
  have hnot : cnum ∉ l := by
    intro hm
    obtain ⟨c', hc', hf⟩ := (h.free cnum).1 hm
    rw [hc] at hc'
    cases hc'
    exact hs hf
  have hlt : cnum < p.connects.length := by
    rcases Nat.lt_or_ge cnum p.connects.length with h1 | h1
    · exact h1
    · rw [List.getElem?_eq_none h1] at hc; cases hc
  unfold set_conn_state
  rw [hc]
  refine ⟨freeChain_set _ _ _ _ _ h.chain hnot, h.nodup, ?_, ?_⟩
  · intro i
    show i ∈ l ↔ ∃ c', (p.connects.set cnum _)[i]? = some c' ∧ _
    by_cases hi : i = cnum
    · subst hi
      rw [List.getElem?_set_self hlt]
      constructor
      · intro hm; exact absurd hm hnot
      · rintro ⟨c', hc', hf⟩
        cases hc'
        exact absurd hf hst
    · rw [List.getElem?_set_ne (Ne.symm hi)]
      exact h.free i
  · show p.num_connects = ((p.connects.set cnum _).length : Int) - (l.length : Int)
    rw [List.length_set, h.count]

theorem handle_newconnect_turn_inv (gc : GetConn) (p : Pool) (l : List Nat) (h : PoolInv p l) :
    (∀ p', handle_newconnect_turn gc p = .inl p' →
      gc = .GC_OK ∧ (∃ l', PoolInv p' l') ∧ p'.connects.length = p.connects.length) ∧
    handle_newconnect_turn gc p ≠ .inr .free_list_messed_up := by
  unfold handle_newconnect_turn
  by_cases hroom : p.num_connects ≥ p.max_connects
  · simp only [hroom, if_true]
    exact ⟨fun p' hp => (nomatch hp), by simp⟩
  · simp only [hroom, if_false]
    have hlen := poolInv_length p l h
    have hcount := h.count
    unfold Pool.max_connects at hroom
    rcases l with _ | ⟨a, l⟩
    · simp only [List.length_nil] at hcount
      omega
    · obtain ⟨h1, c, hc, h2⟩ := h.chain
      have hslot : p.slot p.first_free_connect = some c := by
        unfold Pool.slot
        rw [h1]
        simp only [Int.toNat_ofNat]
        rw [if_neg (by omega)]
        exact hc
      obtain ⟨c', hc', hfree⟩ := (h.free a).1 (List.mem_cons_self _ _)
      rw [hc] at hc'
      cases hc'
      have hn : ¬ (p.first_free_connect = -1 ∨ c.conn_state ≠ .CNST_FREE) := by
        rintro (h3 | h3)
        · omega
        · exact h3 hfree
      simp only [hslot, hn, if_false]
      cases gc with
      | GC_FAIL => exact ⟨fun p' hp => (nomatch hp), by simp⟩
      | GC_NO_MORE => exact ⟨fun p' hp => (nomatch hp), by simp⟩
      | GC_OK =>
        refine ⟨?_, by simp⟩
        intro p' hp
        simp only [Sum.inl.injEq] at hp
        subst hp
        have ht : p.first_free_connect.toNat = a := by omega
        have hnd := List.nodup_cons.1 h.nodup
        have hlt : a < p.connects.length := by
          rcases Nat.lt_or_ge a p.connects.length with h4 | h4
          · exact h4
          · rw [List.getElem?_eq_none h4] at hc; cases hc
        refine ⟨rfl, ⟨l, ?_, hnd.2, ?_, ?_⟩, ?_⟩
        · simp only [ht]
          exact freeChain_set _ _ _ _ _ h2 hnd.1
        · intro i
          simp only [ht]
          by_cases hi : i = a
          · subst hi
            rw [List.getElem?_set_self hlt]
            constructor
            · intro hm; exact absurd hm hnd.1
            · rintro ⟨c', hc', hf⟩
              cases hc'
              cases hf
          · rw [List.getElem?_set_ne (Ne.symm hi)]
            rw [← h.free i, List.mem_cons]
            simp [hi]
        · simp only [List.length_set, hcount, List.length_cons]
          push_cast
          omega
        · simp only [List.length_set]

theorem handle_newconnect_inv (results : List GetConn) :
    ∀ (p : Pool) (l : List Nat), PoolInv p l →
      (∃ l', PoolInv (handle_newconnect results p).1 l') ∧
      (handle_newconnect results p).1.connects.length = p.connects.length ∧
      (handle_newconnect results p).2 ≠ .free_list_messed_up := by
  induction results with
  | nil =>
    intro p l h
    obtain ⟨t1, t2⟩ := handle_newconnect_turn_inv .GC_NO_MORE p l h
    unfold handle_newconnect
    cases ht : handle_newconnect_turn .GC_NO_MORE p with
    | inl p' => exact absurd (t1 p' ht).1 (by simp)
    | inr r =>
      refine ⟨⟨l, h⟩, rfl, ?_⟩
      intro hr
      apply t2
      rw [ht]
      exact congrArg _ hr
  | cons gc results ih =>
    intro p l h
    obtain ⟨t1, t2⟩ := handle_newconnect_turn_inv gc p l h
    unfold handle_newconnect
    cases ht : handle_newconnect_turn gc p with
    | inl p' =>
      obtain ⟨_, ⟨l', hl'⟩, hlen⟩ := t1 p' ht
      obtain ⟨i1, i2, i3⟩ := ih p' l' hl'
      exact ⟨i1, i2.trans hlen, i3⟩
    | inr r =>
      refine ⟨⟨l, h⟩, rfl, ?_⟩
      intro hr
      apply t2
      rw [ht]
      exact congrArg _ hr

theorem reachable_inv (n : Nat) (hn : 1 ≤ n) (p : Pool) (h : Reachable n p) :
    (∃ l, PoolInv p l) ∧ p.connects.length = n := by
  induction h with
  | init => exact ⟨⟨_, pool_init_inv n hn⟩, pool_init_length n⟩
  | newconnect p results _ ih =>
    obtain ⟨⟨l, hl⟩, hlen⟩ := ih
    obtain ⟨i1, i2, _⟩ := handle_newconnect_inv results p l hl
    exact ⟨i1, i2.trans hlen⟩
  | clear p cnum c _ hc hs ih =>
    obtain ⟨⟨l, hl⟩, hlen⟩ := ih
    refine ⟨⟨_, really_clear_connection_inv p l cnum c hl hc hs⟩, ?_⟩
    show (p.connects.set cnum _).length = n
    rw [List.length_set, hlen]
  | state p cnum c st _ hc hs hst ih =>
    obtain ⟨⟨l, hl⟩, hlen⟩ := ih
    refine ⟨⟨_, set_conn_state_inv p l cnum c st hl hc hs hst⟩, ?_⟩
    unfold set_conn_state
    rw [hc]
    show (p.connects.set cnum _).length = n
    rw [List.length_set, hlen]

/-- C16. Connection-pool free list: in every state of the connection table reachable
from its initialisation, the list that starts at `first_free_connect` and follows
`next_free_connect` ends with -1 and visits exactly the slots whose state is `CNST_FREE`,
each once; `num_connects` is `max_connects` minus its length, so that
`0 ≤ num_connects ≤ max_connects`; and `handle_newconnect` never ends with "the connects
free list is messed up". -/
theorem free_list_exact (max_connects : Nat) (hmax : 1 ≤ max_connects) (p : Pool)
    (h : Reachable max_connects p) :
    p.connects.length = max_connects ∧
    (∃ l, free_list p = some l ∧ l.Nodup ∧
      (∀ i, i ∈ l ↔ ∃ c, p.connects[i]? = some c ∧ c.conn_state = .CNST_FREE) ∧
      p.num_connects = (max_connects : Int) - (l.length : Int)) ∧
    0 ≤ p.num_connects ∧ p.num_connects ≤ max_connects ∧
    ∀ results, (handle_newconnect results p).2 ≠ .free_list_messed_up := by
  obtain ⟨⟨l, hl⟩, hlen⟩ := reachable_inv max_connects hmax p h
  have hle := poolInv_length p l hl
  have hcount := hl.count
  rw [hlen] at hle hcount
  refine ⟨hlen, ⟨l, ?_, hl.nodup, hl.free, hcount⟩, by omega, by omega, ?_⟩
  · unfold free_list
    exact freeChain_walk p.connects l _ _ hl.chain (by rw [hlen]; exact hle)
  · intro results
    exact (handle_newconnect_inv results p l hl).2.2

/-- The state of a table of four slots after two connections have been accepted and the
first of them has been cleared is reachable: its free list is 0, 2, 3 and one connection
is in use. -/
theorem free_list_exact_witness :
    free_list (really_clear_connection
      (handle_newconnect [.GC_OK, .GC_OK, .GC_NO_MORE] (pool_init 4)).1 0) = some [0, 2, 3] ∧
    (really_clear_connection
      (handle_newconnect [.GC_OK, .GC_OK, .GC_NO_MORE] (pool_init 4)).1 0).num_connects = 1 ∧
    ∀ results, (handle_newconnect results (really_clear_connection
      (handle_newconnect [.GC_OK, .GC_OK, .GC_NO_MORE] (pool_init 4)).1 0)).2
        ≠ .free_list_messed_up :=
  ⟨by decide, by decide,
    (free_list_exact 4 (by decide) _
      (Reachable.clear _ 0 { conn_state := .CNST_READING, next_free_connect := -1 }
        (Reachable.newconnect _ [.GC_OK, .GC_OK, .GC_NO_MORE] Reachable.init)
        (by decide) (by decide))).2.2.2.2⟩

/-! ## The aging threshold of the cache (C17) -/

theorem unmap_walk_expire_age (cond : Map → Bool) (l : List Map) (s : Mmc) :
    (unmap_walk cond l s).2.expire_age = s.expire_age := by
  induction l generalizing s with
  | nil => rfl
  | cons m rest ih =>
    simp only [unmap_walk]
    split
    · rw [ih]; rfl
    · exact ih s

theorem trim_free_expire_age (n : Nat) (s : Mmc) : (trim_free n s).expire_age = s.expire_age := by
  induction n generalizing s with
  | zero => rfl
  | succ n ih =>
    simp only [trim_free]
    split
    · rw [ih]
    · rfl

theorem panic_expire_age (s : Mmc) : (panic s).expire_age = s.expire_age := by
  unfold panic
  simp only
  rw [unmap_walk_expire_age]

theorem new_hash_table_expire_age (s : Mmc) (ok : Bool) :
    (new_hash_table s ok).2.expire_age = s.expire_age := by
  unfold new_hash_table
  split <;> rfl

theorem check_hash_size_expire_age (s : Mmc) (ok : Bool) :
    (check_hash_size s ok).2.expire_age = s.expire_age := by
  unfold check_hash_size
  split
  · rw [new_hash_table_expire_age]
  · split
    · rfl
    · rw [new_hash_table_expire_age]

theorem mmc_map_link_expire_age (s : Mmc) (m : Map) :
    (mmc_map_link s m).2.expire_age = s.expire_age := by
  unfold mmc_map_link
  split
  · rfl
  · split <;> rfl

theorem mmc_map_expire_age (s : Mmc) (sb : Stat) (now : Int) (env : MapEnv) :
    (mmc_map s sb now env).2.expire_age = s.expire_age := by
  have hc := check_hash_size_expire_age s env.table_malloc_ok
  unfold mmc_map
  split
  · rfl
  · simp only
    split
    · exact hc
    · split
      · exact hc
      · split
        · exact hc
        · split
          · exact hc
          · rename_i p s' hgot
            have hs' : s'.expire_age = s.expire_age := by
              split at hgot
              · cases hgot; exact hc
              · split at hgot
                · cases hgot; exact hc
                · cases hgot
            split
            · rw [mmc_map_link_expire_age, hs']
            · split
              · rw [mmc_map_link_expire_age, hs']
              · exact hs'
              · split
                · rw [mmc_map_link_expire_age, panic_expire_age, hs']
                · show (panic s').expire_age = _
                  rw [panic_expire_age, hs']

theorem mmc_unmap_expire_age (s : Mmc) (addr : Nat) (sbP : Option Stat) (now : Int) :
    (mmc_unmap s addr sbP now).expire_age = s.expire_age := by
  unfold mmc_unmap
  simp only
  split
  · rfl
  · split <;> rfl

theorem mmc_cleanup_expire_age (s : Mmc) (now : Int) (hage : 0 ≤ s.expire_age) :
    (mmc_cleanup s now).expire_age =
      (if (unmap_walk (fun m => m.refcount == 0 && decide (now - m.reftime ≥ s.expire_age))
            s.maps s).2.mapped_bytes > DESIRED_MAX_MAPPED_BYTES ∨
          (unmap_walk (fun m => m.refcount == 0 && decide (now - m.reftime ≥ s.expire_age))
            s.maps s).2.map_count > DESIRED_MAX_MAPPED_FILES then
        max (s.expire_age * 2 / 3) (DEFAULT_EXPIRE_AGE / 10)
      else if (unmap_walk (fun m => m.refcount == 0 && decide (now - m.reftime ≥ s.expire_age))
            s.maps s).2.map_count < DESIRED_MAX_MAPPED_FILES / 2 then
        min (s.expire_age * 5 / 4) (DEFAULT_EXPIRE_AGE * 3)
      else s.expire_age) := by
  obtain ⟨r, hr⟩ : ∃ r, r = unmap_walk
    (fun m => m.refcount == 0 && decide (now - m.reftime ≥ s.expire_age)) s.maps s := ⟨_, rfl⟩
  have hre : r.2.expire_age = s.expire_age := by rw [hr, unmap_walk_expire_age]
  have d1 : Int.tdiv (s.expire_age * 2) 3 = s.expire_age * 2 / 3 :=
    Int.tdiv_eq_ediv (by omega) (by omega)
  have d2 : Int.tdiv (s.expire_age * 5) 4 = s.expire_age * 5 / 4 :=
    Int.tdiv_eq_ediv (by omega) (by omega)
  have d3 : Int.tdiv DEFAULT_EXPIRE_AGE 10 = DEFAULT_EXPIRE_AGE / 10 := by decide
  have d4 : Int.tdiv DESIRED_MAX_MAPPED_FILES 2 = DESIRED_MAX_MAPPED_FILES / 2 := by decide
  unfold mmc_cleanup
  simp only
  rw [trim_free_expire_age, ← hr]
  by_cases h1 : r.2.mapped_bytes > DESIRED_MAX_MAPPED_BYTES
  · simp only [h1, if_true, true_or, hre, d1, d3]
  · by_cases h2 : r.2.map_count > DESIRED_MAX_MAPPED_FILES
    · simp only [h1, if_false, h2, if_true, or_true, hre, d1, d3]
    · by_cases h3 : r.2.map_count < DESIRED_MAX_MAPPED_FILES / 2
      · simp only [h1, if_false, h2, or_self, d4, h3, if_true, hre, d2]
      · simp only [h1, if_false, h2, or_self, d4, h3, hre]

theorem free_all_expire_age (l : List Map) (s : Mmc) :
    (free_all l s).expire_age = s.expire_age := by
  induction l generalizing s with
  | nil => rfl
  | cons m rest ih => simp only [free_all]; rw [ih]

theorem mmc_destroy_expire_age (s : Mmc) : (mmc_destroy s).expire_age = s.expire_age := by
  unfold mmc_destroy
  simp only
  rw [free_all_expire_age]
  exact unmap_walk_expire_age _ _ _

theorem expire_age_in_range (s : Mmc) (h : MmcReachable s) :
    60 ≤ s.expire_age ∧ s.expire_age ≤ 1800 := by
  induction h with
  | init => decide
  | map s sb now env _ ih => rw [mmc_map_expire_age]; exact ih
  | unmap s addr sbP now _ ih => rw [mmc_unmap_expire_age]; exact ih
  | cleanup s now _ ih =>
    rw [mmc_cleanup_expire_age s now (by omega)]
    have e1 : DEFAULT_EXPIRE_AGE / 10 = 60 := by decide
    have e2 : DEFAULT_EXPIRE_AGE * 3 = 1800 := by decide
    rw [e1, e2]
    split_ifs <;> omega
  | destroy s _ ih => rw [mmc_destroy_expire_age]; exact ih

/-- C17. Aging-threshold tuning: in every state of the cache reachable from its initial
values, `expire_age` lies between `DEFAULT_EXPIRE_AGE / 10 = 60` and
`3 * DEFAULT_EXPIRE_AGE = 1800`, and `mmc_cleanup` sets it, from the byte and entry counts
left by its unmapping pass, to `max (2 * old / 3) (DEFAULT_EXPIRE_AGE / 10)` (the quotient
rounded down) when `mapped_bytes > DESIRED_MAX_MAPPED_BYTES` or
`map_count > DESIRED_MAX_MAPPED_FILES`, to `min (5 * old / 4) (3 * DEFAULT_EXPIRE_AGE)` when
otherwise `map_count < DESIRED_MAX_MAPPED_FILES / 2`, and leaves it unchanged in all other
cases. -/
theorem expire_age_tuning (s : Mmc) (now : Int) (h : MmcReachable s) :
    (DEFAULT_EXPIRE_AGE / 10 = 60 ∧ DEFAULT_EXPIRE_AGE * 3 = 1800 ∧
      mmc_init.expire_age = DEFAULT_EXPIRE_AGE) ∧
    (60 ≤ s.expire_age ∧ s.expire_age ≤ 1800) ∧
    (60 ≤ (mmc_cleanup s now).expire_age ∧ (mmc_cleanup s now).expire_age ≤ 1800) ∧
    (mmc_cleanup s now).expire_age =
      (if (unmap_walk (fun m => m.refcount == 0 && decide (now - m.reftime ≥ s.expire_age))
            s.maps s).2.mapped_bytes > DESIRED_MAX_MAPPED_BYTES ∨
          (unmap_walk (fun m => m.refcount == 0 && decide (now - m.reftime ≥ s.expire_age))
            s.maps s).2.map_count > DESIRED_MAX_MAPPED_FILES then
        max (s.expire_age * 2 / 3) (DEFAULT_EXPIRE_AGE / 10)
      else if (unmap_walk (fun m => m.refcount == 0 && decide (now - m.reftime ≥ s.expire_age))
            s.maps s).2.map_count < DESIRED_MAX_MAPPED_FILES / 2 then
        min (s.expire_age * 5 / 4) (DEFAULT_EXPIRE_AGE * 3)
      else s.expire_age) := by
  have hr := expire_age_in_range s h
  exact ⟨⟨by decide, by decide, rfl⟩, hr,
    expire_age_in_range _ (MmcReachable.cleanup s now h),
    mmc_cleanup_expire_age s now (by omega)⟩

/-- The cache after one `mmc_cleanup` from its initial values is reachable; no file is
mapped, so that a second `mmc_cleanup` raises `expire_age` from 750 to
`5 * 750 / 4 = 937`. -/
theorem expire_age_tuning_witness :
    (mmc_cleanup mmc_init 0).expire_age = 750 ∧
    (60 ≤ (mmc_cleanup (mmc_cleanup mmc_init 0) 0).expire_age ∧
      (mmc_cleanup (mmc_cleanup mmc_init 0) 0).expire_age ≤ 1800) ∧
    (mmc_cleanup (mmc_cleanup mmc_init 0) 0).expire_age = 937 :=
  ⟨by decide,
    (expire_age_tuning (mmc_cleanup mmc_init 0) 0
      (MmcReachable.cleanup mmc_init 0 MmcReachable.init)).2.2.1,
    by decide⟩

/-! ## defang (C18) -/

theorem defang_byte_eq (c : Char) :
    defang_byte c = html_escape [c] := by
  unfold defang_byte html_escape
  simp only [List.map_cons, List.map_nil, List.flatten_cons, List.flatten_nil, List.append_nil]
  split_ifs <;> rfl

theorem html_escape_cons (c : Char) (s : List Char) :
    html_escape (c :: s) = defang_byte c ++ html_escape s := by
  rw [defang_byte_eq]
  unfold html_escape
  simp

theorem defang_byte_length (c : Char) :
    1 ≤ (defang_byte c).length ∧ (defang_byte c).length ≤ 4 := by
  unfold defang_byte
  split_ifs <;> simp

theorem defang_byte_clean (c : Char) : '<' ∉ defang_byte c ∧ '>' ∉ defang_byte c := by
  unfold defang_byte
  by_cases h1 : c = '<'
  · simp only [h1, if_true]; decide
  · by_cases h2 : c = '>'
    · simp only [h2, if_true]; decide
    · simp only [h1, h2, if_false, List.mem_singleton]
      exact ⟨fun h => h1 h.symm, fun h => h2 h.symm⟩

theorem defang_loop_spec (dfsize : Int) :
    ∀ (str : List Char) (pos : Nat),
      (∃ n, n ≤ str.length ∧ defang_loop dfsize str pos = html_escape (str.take n)) ∧
      ('<' ∉ defang_loop dfsize str pos ∧ '>' ∉ defang_loop dfsize str pos) ∧
      (((pos : Int) + (html_escape str).length < dfsize - 5 →
        defang_loop dfsize str pos = html_escape str)) ∧
      ((pos : Int) + (defang_loop dfsize str pos).length ≤ max (pos : Int) (dfsize - 2)) := by
  intro str
  induction str with
  | nil =>
    intro pos
    refine ⟨⟨0, by simp, rfl⟩, by simp [defang_loop], fun _ => rfl, by simp [defang_loop]⟩
  | cons c rest ih =>
    intro pos
    obtain ⟨l1, l2⟩ := defang_byte_length c
    obtain ⟨k1, k2⟩ := defang_byte_clean c
    by_cases hpos : (pos : Int) < dfsize - 5
    · obtain ⟨⟨n, hn, hpre⟩, ⟨c1, c2⟩, hall, hlen⟩ := ih (pos + (defang_byte c).length)
      have hdef : defang_loop dfsize (c :: rest) pos =
          defang_byte c ++ defang_loop dfsize rest (pos + (defang_byte c).length) := by
        rw [defang_loop, if_pos hpos]
      rw [hdef]
      refine ⟨⟨n + 1, by simp; omega, ?_⟩, ⟨?_, ?_⟩, ?_, ?_⟩
      · rw [List.take_succ_cons, html_escape_cons, hpre]
      · simp only [List.mem_append, not_or]; exact ⟨k1, c1⟩
      · simp only [List.mem_append, not_or]; exact ⟨k2, c2⟩
      · intro h
        rw [html_escape_cons] at h ⊢
        rw [hall (by simp only [List.length_append] at h; push_cast at h ⊢; omega)]
      · simp only [List.length_append]
        push_cast at hlen ⊢
        omega
    · have hdef : defang_loop dfsize (c :: rest) pos = [] := by
        rw [defang_loop, if_neg hpos]
      rw [hdef]
      refine ⟨⟨0, by simp, rfl⟩, by simp, ?_, by simp⟩
      intro h
      exfalso
      have : (0 : Int) ≤ ((html_escape (c :: rest)).length : Int) := by positivity
      omega

/-- C18. HTML defanging: for every string `str` and every `dfsize ≥ 6`, what `defang`
writes is the escape of a prefix of `str`; it has no `<` and no `>`; it is the escape of
the whole of `str` when that escape is shorter than `dfsize - 5`; and its length is at
most `dfsize - 2`, so that it fits in `dfsize` bytes with its terminator. -/
theorem defang_fits (str : List Char) (dfsize : Int) (hsize : 6 ≤ dfsize) :
    (∃ n, n ≤ str.length ∧ defang str dfsize = html_escape (str.take n)) ∧
    ('<' ∉ defang str dfsize ∧ '>' ∉ defang str dfsize) ∧
    (((html_escape str).length : Int) < dfsize - 5 → defang str dfsize = html_escape str) ∧
    ((defang str dfsize).length : Int) ≤ dfsize - 2 := by
  obtain ⟨h1, h2, h3, h4⟩ := defang_loop_spec dfsize str 0
  unfold defang
  refine ⟨h1, h2, ?_, ?_⟩
  · intro h
    exact h3 (by push_cast; omega)
  · push_cast at h4
    omega

/-- The hypothesis of `defang_fits` holds for a buffer of 12 bytes: of `a<b>c<<<<<<<` the
escape of the prefix `a<b>` is written, 10 bytes, and with a buffer of 1000 bytes the
whole string is escaped. -/
theorem defang_fits_witness :
    defang "a<b>c<<<<<<<".toList 12 = "a&lt;b&gt;".toList ∧
    ((defang "a<b>c<<<<<<<".toList 12).length : Int) ≤ 12 - 2 ∧
    defang "a<b>c".toList 1000 = "a&lt;b&gt;c".toList :=
  ⟨by decide, (defang_fits "a<b>c<<<<<<<".toList 12 (by decide)).2.2.2, by decide⟩

/-! ## make_argp (C19) -/

theorem strdecode_mem_in_place (s pre post : List Char) (hs : ∀ c ∈ s, c ≠ '\x00') :
    strdecode_mem (pre ++ s ++ '\x00' :: post) pre.length pre.length =
      some (pre ++ percent_decode s ++
          '\x00' :: ((s ++ ['\x00']).drop ((percent_decode s).length + 1) ++ post),
        pre.length + (percent_decode s).length, true) := by
  have heq : percent_decode s = strdecode s := percent_decode_from_eq s
  have hle := strdecode_length_le s
  unfold strdecode_mem
  rw [strdecode_loop_spec s _ (pre ++ s ++ '\x00' :: post) pre.length pre.length true post hs
    (le_refl _) (by rw [List.append_assoc, List.drop_left' rfl])
    (by simp only [List.length_append, List.length_cons]; omega)]
  rw [heq]
  congr 3
  · rw [List.append_assoc, List.take_left' rfl]
  · rw [List.append_assoc, Nat.add_assoc, ← List.drop_drop, List.drop_left' rfl]
    have : s ++ '\x00' :: post = (s ++ ['\x00']) ++ post := by simp
    rw [this, List.drop_append_of_le_length (by simp; omega)]

theorem cstr_append_nul (a b : List Char) : cstr (a ++ '\x00' :: b) = cstr a := by
  unfold cstr
  induction a with
  | nil => simp
  | cons c a ih =>
    by_cases hc : c = '\x00'
    · simp [hc]
    · simp [List.takeWhile_cons, hc, ih]

theorem query_pieces_plus (cur rest : List Char) (hcur : ∀ c ∈ cur, c ≠ '+') :
    query_pieces (cur ++ '+' :: rest) = cur :: query_pieces rest := by
  have h1 : (cur ++ '+' :: rest).splitOn '+' = cur :: rest.splitOn '+' :=
    List.splitOnP_first _ cur (fun x hx => by simpa using hcur x hx) '+' (by simp) rest
  have hne : rest.splitOn '+' ≠ [] := List.splitOnP_ne_nil _ _
  unfold query_pieces
  rw [h1]
  obtain ⟨x, xs, hx⟩ : ∃ x xs, rest.splitOn '+' = x :: xs := by
    cases h : rest.splitOn '+' with
    | nil => exact absurd h hne
    | cons x xs => exact ⟨x, xs, rfl⟩
  rw [hx]
  simp only [List.getLast?_cons_cons, List.dropLast_cons₂]
  split_ifs <;> rfl

theorem query_pieces_single (cur : List Char) (hcur : ∀ c ∈ cur, c ≠ '+') :
    query_pieces cur = if cur = [] then [] else [cur] := by
  have h1 : cur.splitOn '+' = [cur] :=
    List.splitOnP_eq_single _ cur (fun x hx => by simpa using hcur x hx)
  unfold query_pieces
  rw [h1]
  by_cases h : cur = []
  · simp [h]
  · simp [h]

theorem set_length_append (a b : List Char) (c x : Char) :
    (a ++ c :: b).set a.length x = a ++ x :: b := by
  induction a with
  | nil => rfl
  | cons d a ih => simp [ih]

theorem make_argp_loop_spec :
    ∀ (rest : List Char) (fuel : Nat) (mem pre cur post : List Char) (args : List Nat),
      mem = pre ++ cur ++ rest ++ '\x00' :: post →
      (∀ c ∈ cur, c ≠ '+' ∧ c ≠ '\x00') → (∀ c ∈ rest, c ≠ '\x00') → rest.length + 1 ≤ fuel →
      ∃ mem' newptrs tail,
        make_argp_loop fuel mem pre.length (pre.length + cur.length) args =
          some (mem', args ++ newptrs) ∧
        mem' = pre ++ tail ∧
        newptrs.map (fun p => cstr (mem'.drop p)) =
          (query_pieces (cur ++ rest)).map (fun s => cstr (percent_decode s)) ∧
        newptrs.length ≤ cur.length + rest.length := by
  intro rest
  induction rest with
  | nil =>
    intro fuel mem pre cur post args hmem hcur _ hfuel
    obtain ⟨f, rfl⟩ : ∃ f, fuel = f + 1 := ⟨fuel - 1, by simp at hfuel; omega⟩
    have hmem' : mem = pre ++ cur ++ '\x00' :: post := by simpa using hmem
    have hdrop : mem.drop (pre.length + cur.length) = '\x00' :: post := by
      rw [hmem', List.drop_left' (by simp)]
    have h0 : cAt mem (pre.length + cur.length) = '\x00' := by
      have := cAt_of_drop mem _ _ 0 hdrop
      simpa using this
    have hp := query_pieces_single cur (fun c hc => (hcur c hc).1)
    rw [make_argp_loop]
    simp only [h0, if_true, List.append_nil]
    by_cases hne : cur = []
    · subst hne
      simp only [List.length_nil, Nat.add_zero, ne_eq, not_true_eq_false, if_false]
      refine ⟨mem, [], '\x00' :: post, by simp, by simpa using hmem', ?_, by simp⟩
      rw [hp]
      simp
    · have hlen : pre.length + cur.length ≠ pre.length := by
        have : cur.length ≠ 0 := fun h => hne (List.length_eq_zero.1 h)
        omega
      simp only [ne_eq, hlen, not_false_eq_true, if_true]
      rw [hmem', strdecode_mem_in_place cur pre post (fun c hc => (hcur c hc).2)]
      refine ⟨_, [pre.length], _, rfl, by rw [List.append_assoc], ?_, ?_⟩
      · rw [hp, if_neg hne]
        simp only [List.map_cons, List.map_nil, List.cons.injEq, and_true]
        rw [List.append_assoc, List.drop_left' rfl, cstr_append_nul]
      · have : cur.length ≠ 0 := fun h => hne (List.length_eq_zero.1 h)
        simp
        omega
  | cons c rest ih =>
    intro fuel mem pre cur post args hmem hcur hrest hfuel
    obtain ⟨f, rfl⟩ : ∃ f, fuel = f + 1 := ⟨fuel - 1, by simp at hfuel; omega⟩
    have hc0 : c ≠ '\x00' := hrest c (List.mem_cons_self _ _)
    have hrest' : ∀ d ∈ rest, d ≠ '\x00' := fun d hd => hrest d (List.mem_cons_of_mem _ hd)
    have hmem' : mem = (pre ++ cur) ++ c :: (rest ++ '\x00' :: post) := by
      rw [hmem]; simp
    have hdrop : mem.drop (pre.length + cur.length) = c :: (rest ++ '\x00' :: post) := by
      rw [hmem', List.drop_left' (by simp)]
    have h0 : cAt mem (pre.length + cur.length) = c := by
      have := cAt_of_drop mem _ _ 0 hdrop
      simpa using this
    rw [make_argp_loop]
    simp only [h0, hc0, if_false]
    by_cases hplus : c = '+'
    · subst hplus
      simp only [if_true]
      have hset : mem.set (pre.length + cur.length) '\x00' =
          pre ++ cur ++ '\x00' :: (rest ++ '\x00' :: post) := by
        rw [hmem']
        have := set_length_append (pre ++ cur) (rest ++ '\x00' :: post) '+' '\x00'
        rw [List.length_append] at this
        exact this
      rw [hset, strdecode_mem_in_place cur pre _ (fun c hc => (hcur c hc).2)]
      simp only
      obtain ⟨junk, hjunk⟩ : ∃ junk, junk =
        (cur ++ ['\x00']).drop ((percent_decode cur).length + 1) := ⟨_, rfl⟩
      rw [← hjunk]
      have hpl : (percent_decode cur).length ≤ cur.length := by
        rw [show percent_decode cur = strdecode cur from percent_decode_from_eq cur]
        exact strdecode_length_le cur
      have hjl : junk.length = cur.length - (percent_decode cur).length := by
        rw [hjunk, List.length_drop, List.length_append, List.length_singleton]
        omega
      obtain ⟨mem', newptrs, tail, e1, e2, e3, e4⟩ := ih f
        (pre ++ percent_decode cur ++ '\x00' :: (junk ++ (rest ++ '\x00' :: post)))
        (pre ++ percent_decode cur ++ '\x00' :: junk) [] post (args ++ [pre.length])
        (by simp) (by simp) hrest' (by simp at hfuel ⊢; omega)
      have hl : (pre ++ percent_decode cur ++ '\x00' :: junk).length
          = pre.length + cur.length + 1 := by
        simp only [List.length_append, List.length_cons, hjl]
        omega
      rw [hl] at e1
      simp only [List.length_nil, Nat.add_zero] at e1
      refine ⟨mem', pre.length :: newptrs, percent_decode cur ++ '\x00' :: junk ++ tail, ?_,
        ?_, ?_, ?_⟩
      · rw [e1]; simp
      · rw [e2]; simp
      · rw [query_pieces_plus cur rest (fun c hc => (hcur c hc).1)]
        simp only [List.map_cons, List.nil_append] at e3 ⊢
        rw [e3]
        congr 1
        rw [e2]
        simp only [List.append_assoc]
        rw [List.drop_left' rfl]
        exact cstr_append_nul _ (junk ++ tail)
      · simp only [List.length_cons, List.length_nil, Nat.zero_add] at e4 ⊢
        omega
    · simp only [hplus, if_false]
      obtain ⟨mem', newptrs, tail, e1, e2, e3, e4⟩ := ih f mem pre (cur ++ [c]) post args
        (by rw [hmem]; simp)
        (by
          intro d hd
          rcases List.mem_append.1 hd with h | h
          · exact hcur d h
          · rw [List.mem_singleton.1 h]; exact ⟨hplus, hc0⟩)
        hrest' (by simp at hfuel ⊢; omega)
      rw [List.length_append, List.length_singleton, ← Nat.add_assoc] at e1
      refine ⟨mem', newptrs, tail, e1, e2, ?_, ?_⟩
      · rw [e3]; simp
      · rw [List.length_append, List.length_singleton] at e4
        rw [List.length_cons]
        omega

theorem strrchr_spec (c : Char) :
    ∀ s : List Char,
      (∀ i, strrchr s c = some i → ∃ a b, s = a ++ c :: b ∧ a.length = i ∧ c ∉ b) ∧
      (strrchr s c = none → c ∉ s) := by
  intro s
  induction s with
  | nil => exact ⟨fun i h => by simp [strrchr] at h, fun _ => by simp⟩
  | cons d s ih =>
    obtain ⟨ih1, ih2⟩ := ih
    cases hs : strrchr s c with
    | some j =>
      obtain ⟨a, b, e1, e2, e3⟩ := ih1 j hs
      constructor
      · intro i hi
        simp only [strrchr, hs, Option.some.injEq] at hi
        exact ⟨d :: a, b, by rw [e1]; rfl, by simp [e2, hi], e3⟩
      · intro h
        simp [strrchr, hs] at h
    | none =>
      have hno := ih2 hs
      by_cases hd : d = c
      · constructor
        · intro i hi
          simp only [strrchr, hs, hd, if_true, Option.some.injEq] at hi
          exact ⟨[], s, by rw [hd]; rfl, by simp [hi], hno⟩
        · intro h
          simp [strrchr, hs, hd] at h
      · constructor
        · intro i hi
          simp [strrchr, hs, hd] at hi
        · intro _
          simp only [List.mem_cons, not_or]
          exact ⟨fun e => hd e.symm, hno⟩

theorem strchr_isSome_iff (s : List Char) (c : Char) : (strchr s c).isSome = true ↔ c ∈ s := by
  unfold strchr
  induction s with
  | nil => simp [strpbrk]
  | cons d s ih =>
    by_cases hd : d = c
    · simp [strpbrk, hd]
    · have hd' : ¬ c = d := fun e => hd e.symm
      simp only [strpbrk, List.contains_cons, List.contains_nil, Bool.or_false, beq_iff_eq, hd,
        if_false, List.mem_cons, hd', false_or]
      rw [← ih]
      cases strpbrk s [c] <;> simp

/-- C19. CGI argument vector: `make_argp` returns, with `argv[0]` the part of the
expanded filename after its last `/` (all of it when it has none). When the query
contains `=` there is no other argument. Otherwise `argv[1..]` are, in order, the
percent-decoded pieces of the query split at every `+`, read as C strings, the empty piece
after a trailing `+` being dropped. The entries written, the terminating NULL included,
are at most `strlen( query ) + 2`. -/
theorem make_argp_vector (expnfilename query : List Char) (hq : ∀ c ∈ query, c ≠ '\x00') :
    ∃ argp0 args, make_argp expnfilename query = some (argp0 :: args) ∧
      (('/' ∉ expnfilename ∧ argp0 = expnfilename) ∨
        (∃ dir, expnfilename = dir ++ '/' :: argp0 ∧ '/' ∉ argp0)) ∧
      ('=' ∈ query → args = []) ∧
      ('=' ∉ query → args = (query_pieces query).map (fun s => cstr (percent_decode s))) ∧
      (argp0 :: args).length + 1 ≤ query.length + 2 := by
  obtain ⟨argp0, h0def⟩ : ∃ argp0, argp0 = (match strrchr expnfilename '/' with
    | some i => expnfilename.drop (i + 1)
    | none => expnfilename) := ⟨_, rfl⟩
  have h0 : ('/' ∉ expnfilename ∧ argp0 = expnfilename) ∨
      (∃ dir, expnfilename = dir ++ '/' :: argp0 ∧ '/' ∉ argp0) := by
    obtain ⟨s1, s2⟩ := strrchr_spec '/' expnfilename
    cases hs : strrchr expnfilename '/' with
    | none =>
      rw [hs] at h0def
      exact Or.inl ⟨s2 hs, h0def⟩
    | some i =>
      obtain ⟨a, b, e1, e2, e3⟩ := s1 i hs
      rw [hs] at h0def
      simp only at h0def
      have hb : argp0 = b := by
        rw [h0def, e1, ← e2]
        exact drop_succ_append a b '/'
      exact Or.inr ⟨a, by rw [hb]; exact e1, by rw [hb]; exact e3⟩
  by_cases heq : '=' ∈ query
  · have h1 : (strchr query '=').isNone = false := by
      have := (strchr_isSome_iff query '=').2 heq
      cases h : strchr query '=' with
      | none => rw [h] at this; cases this
      | some _ => rfl
    refine ⟨argp0, [], ?_, h0, fun _ => rfl, fun h => absurd heq h, by simp⟩
    unfold make_argp
    simp only [h1, Bool.false_eq_true, if_false, ← h0def]
  · have h1 : (strchr query '=').isNone = true := by
      cases h : strchr query '=' with
      | none => rfl
      | some _ =>
        exact absurd ((strchr_isSome_iff query '=').1 (by rw [h]; rfl)) heq
    obtain ⟨mem', newptrs, tail, e1, _, e3, e4⟩ := make_argp_loop_spec query (query.length + 1)
      (query ++ ['\x00']) [] [] [] [] (by simp) (by simp) hq (le_refl _)
    simp only [List.length_nil, Nat.add_zero, List.nil_append] at e1 e3 e4
    refine ⟨argp0, newptrs.map (fun p => cstr (mem'.drop p)), ?_, h0, fun h => absurd h heq,
      fun _ => e3, ?_⟩
    · unfold make_argp
      simp only [h1, if_true, e1, ← h0def]
    · simp only [List.length_cons, List.length_map]
      omega

/-- The hypothesis of `make_argp_vector` holds for the query `a%20b+c++d+` of the script
`cgi-bin/prog`: the arguments are `prog`, `a b`, `c`, the empty string and `d`. -/
theorem make_argp_vector_witness :
    make_argp "cgi-bin/prog".toList "a%20b+c++d+".toList =
      some ["prog".toList, "a b".toList, "c".toList, [], "d".toList] ∧
    ∃ argp0 args, make_argp "cgi-bin/prog".toList "a%20b+c++d+".toList = some (argp0 :: args) ∧
      (('/' ∉ "cgi-bin/prog".toList ∧ argp0 = "cgi-bin/prog".toList) ∨
        (∃ dir, "cgi-bin/prog".toList = dir ++ '/' :: argp0 ∧ '/' ∉ argp0)) ∧
      ('=' ∈ "a%20b+c++d+".toList → args = []) ∧
      ('=' ∉ "a%20b+c++d+".toList →
        args = (query_pieces "a%20b+c++d+".toList).map (fun s => cstr (percent_decode s))) ∧
      (argp0 :: args).length + 1 ≤ "a%20b+c++d+".toList.length + 2 :=
  ⟨by decide, make_argp_vector "cgi-bin/prog".toList "a%20b+c++d+".toList (by decide)⟩

/-! ## The status of a CGI answer (C20) -/

/-- C20 at the failing input. The headers `Content-Location: /a`, `Location: /b` hold a
header line that begins with `Location:` and no `Status:` line, and the status figured
out is 200, not 302: only the first occurrence of the text `Location:` is looked at, and
it lies inside `Content-Location:`. In the same way `X-Status: 1` hides the header line
`Status: 404`. Without the line in front the status is 302 and 404; an `HTTP/` first line
gives its number, and 200 is the default. -/
theorem cgi_status_first_occurrence :
    cgi_status "Content-Location: /a\r\nLocation: /b\r\n\r\n".toList = some 200 ∧
    cgi_status "Location: /b\r\n\r\n".toList = some 302 ∧
    cgi_status "Content-Type: text/html\r\nLocation: /b\r\n\r\n".toList = some 302 ∧
    cgi_status "X-Status: 1\r\nStatus: 404 Not Found\r\n\r\n".toList = some 200 ∧
    cgi_status "Status: 404 Not Found\r\n\r\n".toList = some 404 ∧
    cgi_status "HTTP/1.0 201 Created\r\nContent-Type: text/html\r\n\r\n".toList = some 201 ∧
    cgi_status "Content-Type: text/html\r\n\r\n".toList = some 200 := by
  refine ⟨by decide, by decide, by decide, by decide, by decide, by decide, by decide⟩

/-! ## C21: the CGI count when no CGI is started -/

/-- C21 (code bug): `cgi` leaves `cgi_count` as it was when the ceiling answers 503, and a
fork that succeeds leaves it one higher in the parent, to be taken back by `handle_chld`
when the child is reaped; but a fork that fails (answered 500, return value -1) leaves it
one higher as well, for every count: the increment precedes the call of `fork` and is not
taken back, and no child exists whose reaping would take it back. With `cgi_limit = 1` a
single failed fork makes the next call answer 503. -/
theorem cgi_count_after_failed_fork :
    (∀ count : Int, cgi { cgi_limit := 0, cgi_count := count } (-1)
        = { ret := some (-1), status := some 500,
            hs := { cgi_limit := 0, cgi_count := count + 1 } })
    ∧ cgi { cgi_limit := 5, cgi_count := 4 } (-1)
        = { ret := some (-1), status := some 500, hs := { cgi_limit := 5, cgi_count := 5 } }
    ∧ cgi { cgi_limit := 5, cgi_count := 5 } 7
        = { ret := some (-1), status := some 503, hs := { cgi_limit := 5, cgi_count := 5 } }
    ∧ (∀ count : Int, cgi { cgi_limit := 0, cgi_count := count } 7
        = { ret := some 0, status := some 200,
            hs := { cgi_limit := 0, cgi_count := count + 1 } })
    ∧ handle_chld_reaped (cgi { cgi_limit := 1, cgi_count := 0 } 7).hs
        = { cgi_limit := 1, cgi_count := 0 }
    ∧ (cgi (cgi { cgi_limit := 1, cgi_count := 0 } (-1)).hs 7).status = some 503 := by
  refine ⟨?_, by decide, by decide, ?_, by decide, by decide⟩
  · intro count
    simp [cgi]
  · intro count
    simp [cgi]

/-! ## C23: a trailing `/..` -/

/-- C23 (counterexample): `de_dotdot` leaves `a/..` as it is, and `/..` too: the scan for
the slash in front of `xxx` runs off the start of the string and the loop breaks; the
same ending behind a slash is removed (`a/b/..` becomes `a`, `/a/..` becomes empty). -/
theorem de_dotdot_keeps_first_component_dotdot :
    de_dotdot "a/..".toList = "a/..".toList
    ∧ de_dotdot "/..".toList = "/..".toList
    ∧ de_dotdot "a/b/..".toList = "a".toList
    ∧ de_dotdot "/a/..".toList = [] := by
  refine ⟨by decide, by decide, by decide, by decide⟩

/-- C23 (amended): when the string left by `de_dotdot` ends with `/..`, what stands in
front of that ending holds no slash: the result is `xxx/..` with a single component `xxx`
(or `/..` alone), and never ends with `/xxx/..`. -/
theorem de_dotdot_trailing_dotdot (file p : List Char)
    (h : de_dotdot file = p ++ ['/', '.', '.']) : '/' ∉ p := by
  obtain ⟨-, -, -, -, h5⟩ := de_dotdot_spec file
  rcases h5 with h5 | ⟨x, hx, -, hno⟩
  · have hp : p = [] := by
      by_contra hne
      apply h5
      refine ⟨?_, p, h⟩
      rw [h, List.length_append]
      have : 0 < p.length := List.length_pos.2 hne
      simp only [List.length_cons, List.length_nil]
      omega
    rw [hp]
    simp
  · rw [h] at hx
    have hpx : p = x := List.append_cancel_right hx
    rw [hpx]
    intro hmem
    obtain ⟨i, hi, hget⟩ := List.getElem_of_mem hmem
    apply hno i hi
    unfold cAt
    rw [List.getD_eq_getElem?_getD, List.getElem?_eq_getElem hi, hget]
    rfl

/-- C23 (witness): the input `a/..`, whose result ends with `/..` behind `a`. -/
theorem de_dotdot_trailing_dotdot_witness :
    de_dotdot "a/..".toList = "a".toList ++ ['/', '.', '.'] ∧ '/' ∉ "a".toList :=
  ⟨by decide, de_dotdot_trailing_dotdot "a/..".toList "a".toList (by decide)⟩

/-! ## C24: framing does not depend on how the bytes arrive -/

open CheckedState GotRequest

theorem got_request_switch_no (st st1 : CheckedState) (c : Char) :
    got_request_switch st c ≠ (st1, some GR_NO_REQUEST) := by
  unfold got_request_switch
  split <;> (try split) <;> (try split) <;> (try split) <;> simp

theorem got_request_switch_bad (st st1 : CheckedState) (c : Char)
    (h : got_request_switch st c = (st1, some GR_BAD_REQUEST)) : st1 = CHST_BOGUS := by
  revert h
  unfold got_request_switch
  split <;> (try split) <;> (try split) <;> (try split) <;> simp <;> intro h <;> simp [← h]

theorem got_request_loop_scan (n : Nat) (hc : ReadState) (e : Nat)
    (hle : hc.checked_idx ≤ hc.read_idx) (hlen : hc.read_idx ≤ hc.read_buf.length)
    (hn : hc.read_idx - hc.checked_idx ≤ n) :
    ((got_request_loop n hc e).result, (got_request_loop n hc e).hc.checked_state,
        (got_request_loop n hc e).hc.checked_idx)
      = got_request_scan hc.checked_state hc.checked_idx
          ((hc.read_buf.take hc.read_idx).drop hc.checked_idx) ∧
    (got_request_loop n hc e).hc.read_buf = hc.read_buf ∧
    (got_request_loop n hc e).hc.read_idx = hc.read_idx := by
  induction n generalizing hc e with
  | zero =>
    have h0 : (hc.read_buf.take hc.read_idx).drop hc.checked_idx = [] := by
      apply List.drop_eq_nil_of_le
      rw [List.length_take]
      omega
    simp [got_request_loop, h0, got_request_scan]
  | succ n ih =>
    simp only [got_request_loop]
    split
    · rename_i hlt
      have hlt2 : hc.checked_idx < (hc.read_buf.take hc.read_idx).length := by
        rw [List.length_take]; omega
      have hcons : (hc.read_buf.take hc.read_idx).drop hc.checked_idx
          = cAt hc.read_buf hc.checked_idx
            :: (hc.read_buf.take hc.read_idx).drop (hc.checked_idx + 1) := by
        rw [List.drop_eq_getElem_cons hlt2]
        congr 1
        unfold cAt
        rw [List.getD_eq_getElem?_getD, List.getElem_take, List.getElem?_eq_getElem (by omega)]
        rfl
      rw [hcons]
      simp only [got_request_scan]
      split
      · rename_i st r hsw
        simp
      · rename_i st hsw
        have := ih { hc with checked_state := st, checked_idx := hc.checked_idx + 1 } (e + 1)
          (by simp only; omega) hlen (by simp only; omega)
        simpa using this
    · rename_i hge
      have h0 : (hc.read_buf.take hc.read_idx).drop hc.checked_idx = [] := by
        apply List.drop_eq_nil_of_le
        rw [List.length_take]
        omega
      simp [h0, got_request_scan]

theorem got_request_scan_no (st : CheckedState) (i : Nat) (bs : List Char)
    (h : (got_request_scan st i bs).1 = GR_NO_REQUEST) :
    (got_request_scan st i bs).2.2 = i + bs.length := by
  induction bs generalizing st i with
  | nil => simp [got_request_scan]
  | cons c cs ih =>
    simp only [got_request_scan] at h ⊢
    split at h
    · rename_i st1 r hsw
      simp only at h
      subst h
      exact absurd hsw (got_request_switch_no _ _ _)
    · rename_i st1 hsw
      rw [ih _ _ h, List.length_cons]
      omega

theorem got_request_scan_append (st : CheckedState) (i : Nat) (a b : List Char) :
    got_request_scan st i (a ++ b)
      = if (got_request_scan st i a).1 = GR_NO_REQUEST then
          got_request_scan (got_request_scan st i a).2.1 (got_request_scan st i a).2.2 b
        else got_request_scan st i a := by
  induction a generalizing st i with
  | nil => simp [got_request_scan]
  | cons c cs ih =>
    simp only [List.cons_append, got_request_scan]
    split
    · rename_i st1 r hsw
      have : r ≠ GR_NO_REQUEST := by
        rintro rfl
        exact got_request_switch_no _ _ _ hsw
      simp [this]
    · rename_i st1 hsw
      exact ih st1 (i + 1)

theorem read_bytes_inv (hc : ReadState) (chunk : List Char)
    (hle : hc.checked_idx ≤ hc.read_idx) (hlen : hc.read_idx ≤ hc.read_buf.length) :
    (read_bytes hc chunk).checked_idx ≤ (read_bytes hc chunk).read_idx ∧
    (read_bytes hc chunk).read_idx ≤ (read_bytes hc chunk).read_buf.length ∧
    ((read_bytes hc chunk).read_buf.take (read_bytes hc chunk).read_idx).drop
        (read_bytes hc chunk).checked_idx
      = (hc.read_buf.take hc.read_idx).drop hc.checked_idx ++ chunk := by
  have h1 : (hc.read_buf.take hc.read_idx).length = hc.read_idx := by
    rw [List.length_take]; omega
  refine ⟨?_, ?_, ?_⟩
  · simp only [read_bytes]; omega
  · simp only [read_bytes, List.length_append, h1]; omega
  · simp only [read_bytes]
    rw [List.take_of_length_le (by rw [List.length_append, h1]),
      List.drop_append_of_le_length (by omega)]

theorem httpd_got_request_scan (hc : ReadState)
    (hle : hc.checked_idx ≤ hc.read_idx) (hlen : hc.read_idx ≤ hc.read_buf.length) :
    ((httpd_got_request hc).result, (httpd_got_request hc).hc.checked_state,
        (httpd_got_request hc).hc.checked_idx)
      = got_request_scan hc.checked_state hc.checked_idx
          ((hc.read_buf.take hc.read_idx).drop hc.checked_idx) ∧
    (httpd_got_request hc).hc.read_buf = hc.read_buf ∧
    (httpd_got_request hc).hc.read_idx = hc.read_idx :=
  got_request_loop_scan _ hc 0 hle hlen (le_refl _)

theorem read_chunks_scan (chunks : List (List Char)) (hc : ReadState)
    (hle : hc.checked_idx = hc.read_idx) (hlen : hc.read_idx ≤ hc.read_buf.length) :
    ((read_chunks chunks hc).1, (read_chunks chunks hc).2.checked_state,
        (read_chunks chunks hc).2.checked_idx)
      = got_request_scan hc.checked_state hc.checked_idx chunks.flatten := by
  induction chunks generalizing hc with
  | nil => simp [read_chunks, got_request_scan]
  | cons chunk rest ih =>
    obtain ⟨i1, i2, i3⟩ := read_bytes_inv hc chunk (le_of_eq hle) hlen
    obtain ⟨s1, s2, s3⟩ := httpd_got_request_scan (read_bytes hc chunk) i1 i2
    rw [i3, List.drop_eq_nil_of_le (by rw [List.length_take]; omega), List.nil_append] at s1
    have hst : (read_bytes hc chunk).checked_state = hc.checked_state := rfl
    have hidx : (read_bytes hc chunk).checked_idx = hc.checked_idx := rfl
    rw [hst, hidx] at s1
    simp only [read_chunks, List.flatten_cons]
    rw [got_request_scan_append, ← s1]
    simp only
    split
    · rename_i hno
      have hfull := got_request_scan_no hc.checked_state hc.checked_idx chunk
        (by rw [← s1]; exact hno)
      rw [← s1] at hfull
      simp only at hfull
      apply ih
      · rw [s3, hfull]
        simp only [read_bytes]
        omega
      · rw [s3, s2]; exact i2
    · rfl

theorem got_request_loop_bad (n : Nat) (hc : ReadState) (e : Nat)
    (h : (got_request_loop n hc e).result = GR_BAD_REQUEST) :
    (got_request_loop n hc e).hc.checked_state = CHST_BOGUS ∧
    (got_request_loop n hc e).hc.checked_idx < (got_request_loop n hc e).hc.read_idx := by
  induction n generalizing hc e with
  | zero => simp [got_request_loop] at h
  | succ n ih =>
    simp only [got_request_loop] at h ⊢
    split at h
    · rename_i hlt
      rw [if_pos hlt]
      split at h
      · rename_i st r hsw
        simp only at h
        subst h
        exact ⟨got_request_switch_bad _ _ _ hsw, hlt⟩
      · rename_i st hsw
        exact ih _ _ h
    · simp at h

theorem got_request_bogus (hc : ReadState) (hst : hc.checked_state = CHST_BOGUS)
    (hlt : hc.checked_idx < hc.read_idx) :
    (httpd_got_request hc).result = GR_BAD_REQUEST := by
  unfold httpd_got_request
  obtain ⟨n, hn⟩ : ∃ n, hc.read_idx - hc.checked_idx = n + 1 := ⟨hc.read_idx - hc.checked_idx - 1, by omega⟩
  rw [hn]
  simp [got_request_loop, hlt, hst, got_request_switch]

theorem later_verdicts_bogus (later : List (List Char)) (hc : ReadState)
    (hst : hc.checked_state = CHST_BOGUS) (hlt : hc.checked_idx < hc.read_idx) :
    ∀ v ∈ later_verdicts later hc, v = GR_BAD_REQUEST := by
  induction later generalizing hc with
  | nil => simp [later_verdicts]
  | cons chunk rest ih =>
    have hbad : (httpd_got_request (read_bytes hc chunk)).result = GR_BAD_REQUEST :=
      got_request_bogus _ hst (by simp only [read_bytes]; omega)
    obtain ⟨h1, h2⟩ := got_request_loop_bad _ _ _ hbad
    intro v hv
    simp only [later_verdicts, List.mem_cons] at hv
    rcases hv with hv | hv
    · rw [hv]; exact hbad
    · exact ih _ h1 h2 v hv

/-- C24: however the bytes `b` are cut into chunks, asking `httpd_got_request` after each
chunk has been read (from the saved `checked_idx` and `checked_state`, until the first
verdict other than `GR_NO_REQUEST`) gives the verdict of a single call on the whole of
`b`, with the same `checked_idx` and the same `checked_state`; and after a call that
returned `GR_BAD_REQUEST`, every later call returns `GR_BAD_REQUEST`, whatever bytes
are read in between. -/
theorem framing_independent_of_chunks (chunks later : List (List Char)) (hc : ReadState)
    (hbad : (httpd_got_request hc).result = GR_BAD_REQUEST) :
    (read_chunks chunks initial_read).1
        = (httpd_got_request (fresh_read chunks.flatten)).result ∧
    (read_chunks chunks initial_read).2.checked_idx
        = (httpd_got_request (fresh_read chunks.flatten)).hc.checked_idx ∧
    (read_chunks chunks initial_read).2.checked_state
        = (httpd_got_request (fresh_read chunks.flatten)).hc.checked_state ∧
    ∀ v ∈ later_verdicts later (httpd_got_request hc).hc, v = GR_BAD_REQUEST := by
  have h1 := read_chunks_scan chunks initial_read rfl (Nat.zero_le _)
  have h2 := (httpd_got_request_scan (fresh_read chunks.flatten) (Nat.zero_le _)
    (le_refl _)).1
  have h3 : ((fresh_read chunks.flatten).read_buf.take (fresh_read chunks.flatten).read_idx).drop
      (fresh_read chunks.flatten).checked_idx = chunks.flatten := by
    simp [fresh_read]
  rw [h3] at h2
  have h4 : (fresh_read chunks.flatten).checked_state = initial_read.checked_state := rfl
  have h5 : (fresh_read chunks.flatten).checked_idx = initial_read.checked_idx := rfl
  rw [h4, h5, ← h1] at h2
  simp only [Prod.mk.injEq] at h2
  obtain ⟨a, b, c⟩ := h2
  obtain ⟨b1, b2⟩ := got_request_loop_bad _ _ _ hbad
  exact ⟨a.symm, c.symm, b.symm, later_verdicts_bogus later _ b1 b2⟩

/-- C24 (witness): the request `GET / HTTP/1.0` with its empty line arriving in three
pieces, and a connection whose first byte is a line feed, with two more reads. -/
theorem framing_independent_of_chunks_witness :
    (httpd_got_request (fresh_read "\n".toList)).result = GR_BAD_REQUEST ∧
    (read_chunks ["GET /".toList, " HTTP/1.0\r".toList, "\n\r\nxy".toList] initial_read).1
        = GR_GOT_REQUEST ∧
    (read_chunks ["GET /".toList, " HTTP/1.0\r".toList, "\n\r\nxy".toList] initial_read).2.checked_idx
        = 17 ∧
    ∀ v ∈ later_verdicts ["GET / HTTP/1.0\r\n".toList, "\r\n".toList]
        (httpd_got_request (fresh_read "\n".toList)).hc, v = GR_BAD_REQUEST := by
  have h := framing_independent_of_chunks
    ["GET /".toList, " HTTP/1.0\r".toList, "\n\r\nxy".toList]
    ["GET / HTTP/1.0\r\n".toList, "\r\n".toList] (fresh_read "\n".toList) (by decide)
  exact ⟨by decide, by decide, by decide, h.2.2.2⟩

/-! ## C22: base-64 decoding undoes base-64 encoding -/

set_option maxRecDepth 100000 in
theorem b64_table_char : ∀ v, v < 64 →
    b64_decode_table.getD (b64_char v).toNat (-1) = (v : Int) ∧ b64_char v ≠ '\x00' := by
  decide

set_option maxRecDepth 100000 in
theorem b64_table_outside : ∀ n, n < 256 →
    b64_decode_table.getD n (-1) ≠ -1 → n ∈ b64_alphabet.map Char.toNat := by
  decide

set_option maxRecDepth 100000 in
theorem b64_decode_table_length : b64_decode_table.length = 256 := by
  decide

theorem b64_table_junk (c : Char) (h : b64_alphabet.contains c = false) :
    b64_decode_table.getD c.toNat (-1) = -1 := by
  by_contra hne
  have hlt : c.toNat < 256 := by
    by_contra hge
    apply hne
    rw [List.getD_eq_getElem?_getD, List.getElem?_eq_none (by
      have := b64_decode_table_length
      omega)]
    rfl
  have hmem := b64_table_outside c.toNat hlt hne
  obtain ⟨e, he, heq⟩ := List.mem_map.1 hmem
  have hce : e = c := Char.ext (UInt32.ext (by simpa [Char.toNat] using heq))
  rw [hce] at he
  have h2 : b64_alphabet.contains c = true := List.elem_eq_true_of_mem he
  rw [h] at h2
  exact absurd h2 (by simp)

set_option maxRecDepth 100000 in
theorem b64_bits_first : ∀ d1, d1 < 64 → ∀ r, r < 4 → ∀ l, l < 16 →
    (d1 <<< 2) ||| (((r * 16 + l) &&& 0x30) >>> 4) = d1 * 4 + r := by
  decide

set_option maxRecDepth 100000 in
theorem b64_bits_second : ∀ h, h < 4 → ∀ l, l < 16 → ∀ m, m < 16 → ∀ k, k < 4 →
    (((h * 16 + l) &&& 0xf) <<< 4) ||| (((m * 4 + k) &&& 0x3c) >>> 2) = l * 16 + m := by
  decide

set_option maxRecDepth 100000 in
theorem b64_bits_third : ∀ m, m < 16 → ∀ k, k < 4 → ∀ d, d < 64 →
    (((m * 4 + k) &&& 0x03) <<< 6) ||| d = k * 64 + d := by
  decide

theorem b64_decode_loop_inserted (s : List Char) (enc : List Char) (size : Int)
    (st : B64State) (hs : ∀ c ∈ s, c ≠ '\x00') (h : outside_inserted enc s = true) :
    b64_decode_loop s size st = b64_decode_loop enc size st := by
  induction s generalizing enc st with
  | nil =>
    cases enc with
    | nil => rfl
    | cons e enc => simp [outside_inserted] at h
  | cons c s ih =>
    have hc : c ≠ '\x00' := hs c (List.mem_cons_self _ _)
    have hs2 : ∀ c ∈ s, c ≠ '\x00' := fun d hd => hs d (List.mem_cons_of_mem _ hd)
    have hjunk : b64_alphabet.contains c = false → ∀ enc2, outside_inserted enc2 s = true →
        b64_decode_loop (c :: s) size st = b64_decode_loop enc2 size st := by
      intro hout enc2 h2
      rw [b64_decode_loop, if_neg hc]
      simp only [b64_table_junk c hout, ne_eq, not_true_eq_false, if_false]
      exact ih enc2 st hs2 h2
    cases enc with
    | nil =>
      simp only [outside_inserted, Bool.and_eq_true, Bool.not_eq_true'] at h
      exact hjunk h.1 [] h.2
    | cons e enc =>
      simp only [outside_inserted, Bool.or_eq_true, Bool.and_eq_true, beq_iff_eq,
        Bool.not_eq_true'] at h
      rcases h with ⟨h1, h2⟩ | ⟨h1, h2⟩
      · subst h1
        rw [b64_decode_loop, if_neg hc, b64_decode_loop, if_neg hc]
        exact ih enc _ hs2 h2
      · exact hjunk h1 (e :: enc) h2

theorem b64_decode_loop_char (v : Nat) (hv : v < 64) (cp : List Char) (size : Int)
    (st : B64State) :
    b64_decode_loop (b64_char v :: cp) size st = b64_decode_loop cp size (b64_digit size st v) := by
  obtain ⟨h1, h2⟩ := b64_table_char v hv
  rw [b64_decode_loop, if_neg h2]
  simp only [h1]
  rw [if_pos (by omega)]
  simp

theorem b64_decode_loop_pad (cp : List Char) (size : Int) (st : B64State) :
    b64_decode_loop ('=' :: cp) size st = b64_decode_loop cp size st := by
  rw [b64_decode_loop, if_neg (by decide)]
  have : b64_decode_table.getD '='.toNat (-1) = -1 := by decide
  simp only [this, ne_eq, not_true_eq_false, if_false]

theorem b64_store_fits (space : List Nat) (size : Int) (c : Nat)
    (h : (space.length : Int) < size) (hc : c < 256) : b64_store space size c = space ++ [c] := by
  rw [b64_store, if_pos h, Nat.mod_eq_of_lt hc]

theorem b64_digit_0 (size : Int) (st : B64State) (d : Nat) (h : st.phase = 0) :
    b64_digit size st d = { space := st.space, phase := 1, prev_d := d } := by
  simp [b64_digit, h]

theorem b64_digit_1 (size : Int) (space : List Nat) (p d : Nat) :
    b64_digit size { space := space, phase := 1, prev_d := p } d
      = { space := b64_store space size ((p <<< 2) ||| ((d &&& 0x30) >>> 4)), phase := 2,
          prev_d := d } := by
  simp [b64_digit]

theorem b64_digit_2 (size : Int) (space : List Nat) (p d : Nat) :
    b64_digit size { space := space, phase := 2, prev_d := p } d
      = { space := b64_store space size (((p &&& 0xf) <<< 4) ||| ((d &&& 0x3c) >>> 2)),
          phase := 3, prev_d := d } := by
  simp [b64_digit]

theorem b64_digit_3 (size : Int) (space : List Nat) (p d : Nat) :
    b64_digit size { space := space, phase := 3, prev_d := p } d
      = { space := b64_store space size (((p &&& 0x03) <<< 6) ||| d), phase := 0,
          prev_d := d } := by
  simp [b64_digit]

theorem b64_decode_loop_encode (x : List Nat) (size : Int) (st : B64State)
    (hph : st.phase = 0) (hx : ∀ b ∈ x, b < 256)
    (hsize : ((st.space.length + x.length : Nat) : Int) ≤ size) :
    (b64_decode_loop (b64_encode x) size st).space = st.space ++ x := by
  induction x using b64_encode.induct generalizing st with
  | case1 => simp [b64_encode, b64_decode_loop]
  | case2 a =>
    have ha : a < 256 := hx a (by simp)
    simp only [List.length_cons, List.length_nil] at hsize
    rw [b64_encode, b64_decode_loop_char _ (by omega), b64_decode_loop_char _ (by omega),
      b64_decode_loop_pad, b64_decode_loop_pad, b64_digit_0 _ _ _ hph, b64_digit_1]
    have h1 := b64_bits_first (a / 4) (by omega) (a % 4) (by omega) 0 (by omega)
    rw [Nat.add_zero] at h1
    have s1 : b64_store st.space size a = st.space ++ [a] :=
      b64_store_fits _ _ _ (by omega) ha
    rw [h1, Nat.div_add_mod', s1]
    simp only [b64_decode_loop]
  | case3 a b =>
    have ha : a < 256 := hx a (by simp)
    have hb : b < 256 := hx b (by simp)
    simp only [List.length_cons, List.length_nil] at hsize
    rw [b64_encode, b64_decode_loop_char _ (by omega), b64_decode_loop_char _ (by omega),
      b64_decode_loop_char _ (by omega), b64_decode_loop_pad, b64_digit_0 _ _ _ hph,
      b64_digit_1, b64_digit_2]
    have h1 := b64_bits_first (a / 4) (by omega) (a % 4) (by omega) (b / 16) (by omega)
    have h2 := b64_bits_second (a % 4) (by omega) (b / 16) (by omega) (b % 16) (by omega)
      0 (by omega)
    rw [Nat.add_zero] at h2
    have s1 : b64_store st.space size a = st.space ++ [a] :=
      b64_store_fits _ _ _ (by omega) ha
    have s2 : b64_store (st.space ++ [a]) size b = st.space ++ [a] ++ [b] :=
      b64_store_fits _ _ _ (by
        simp only [List.length_append, List.length_cons, List.length_nil]; omega) hb
    rw [h1, h2, Nat.div_add_mod', Nat.div_add_mod', s1, s2]
    simp only [b64_decode_loop]
    simp
  | case4 a b c x ih =>
    have ha : a < 256 := hx a (by simp)
    have hb : b < 256 := hx b (by simp)
    have hc : c < 256 := hx c (by simp)
    have hx2 : ∀ b ∈ x, b < 256 := fun d hd => hx d (by simp [hd])
    simp only [List.length_cons] at hsize
    rw [b64_encode, b64_decode_loop_char _ (by omega), b64_decode_loop_char _ (by omega),
      b64_decode_loop_char _ (by omega), b64_decode_loop_char _ (by omega),
      b64_digit_0 _ _ _ hph, b64_digit_1, b64_digit_2, b64_digit_3]
    have h1 := b64_bits_first (a / 4) (by omega) (a % 4) (by omega) (b / 16) (by omega)
    have h2 := b64_bits_second (a % 4) (by omega) (b / 16) (by omega) (b % 16) (by omega)
      (c / 64) (by omega)
    have h3 := b64_bits_third (b % 16) (by omega) (c / 64) (by omega) (c % 64) (by omega)
    have s1 : b64_store st.space size a = st.space ++ [a] :=
      b64_store_fits _ _ _ (by omega) ha
    have s2 : b64_store (st.space ++ [a]) size b = st.space ++ [a] ++ [b] :=
      b64_store_fits _ _ _ (by
        simp only [List.length_append, List.length_cons, List.length_nil]; omega) hb
    have s3 : b64_store (st.space ++ [a] ++ [b]) size c = st.space ++ [a] ++ [b] ++ [c] :=
      b64_store_fits _ _ _ (by
        simp only [List.length_append, List.length_cons, List.length_nil]; omega) hc
    rw [h1, h2, h3, Nat.div_add_mod', Nat.div_add_mod', Nat.div_add_mod', s1, s2, s3]
    rw [ih _ rfl hx2 (by
      simp only [List.length_append, List.length_cons, List.length_nil]; omega)]
    simp

/-- C22: for a string of bytes `x` and a `size` of at least its length, `b64_decode`
applied to a C string `s` that is the standard base-64 encoding of `x` (padding included)
with bytes outside the alphabet inserted anywhere stores exactly the bytes of `x` and
returns their number. -/
theorem b64_decode_encode (x : List Nat) (s : List Char) (size : Int)
    (hx : ∀ b ∈ x, b < 256) (hs : ∀ c ∈ s, c ≠ '\x00')
    (hins : outside_inserted (b64_encode x) s = true) (hsize : (x.length : Int) ≤ size) :
    b64_decode s size = (x, (x.length : Int)) := by
  have h := b64_decode_loop_encode x size { space := [], phase := 0, prev_d := 0 } rfl hx
    (by simpa using hsize)
  rw [← b64_decode_loop_inserted s _ size _ hs hins] at h
  simp only [List.nil_append] at h
  simp only [b64_decode, h]

/-- C22 (witness): the bytes of `hi:pw!` (two groups of three), of `a:b` and of `ab:c`
(padding), encoded with blanks, a line end and more `=` thrown in. -/
theorem b64_decode_encode_witness :
    b64_encode [104, 105, 58, 112, 119, 33] = "aGk6cHch".toList ∧
    b64_encode [97, 58, 98, 99] = "YTpiYw==".toList ∧
    b64_decode " aG k6\r\ncH=ch\n".toList 6 = ([104, 105, 58, 112, 119, 33], 6) ∧
    b64_decode "YTpi Yw=\n==".toList 10 = ([97, 58, 98, 99], 4) :=
  ⟨by decide, by decide,
    b64_decode_encode [104, 105, 58, 112, 119, 33] " aG k6\r\ncH=ch\n".toList 6
      (by decide) (by decide) (by decide) (by decide),
    b64_decode_encode [97, 58, 98, 99] "YTpi Yw=\n==".toList 10
      (by decide) (by decide) (by decide) (by decide)⟩

/-! ## C25: the pacing computation does not divide by zero -/

theorem pace_hc (c : Connecttab) (now du : Int) : (pace c now du).1.hc = c.hc := by
  unfold pace
  simp only
  split <;> split <;> (try split) <;> (try split) <;> rfl

theorem count_written_counted (c : Connecttab) (ts : List Throttle) (now : Int) (sz : Nat)
    (hinv : Counted c) : Counted (count_written c ts now sz).1 := by
  obtain ⟨h1, h2⟩ := hinv
  unfold count_written
  simp only
  constructor
  · simp only
    split <;> (try split) <;> omega
  · intro hlen
    simp only [HttpdConn.responselen] at hlen h2 ⊢
    by_cases hr : 0 < c.hc.response.length
    · have h0 := h2 hr
      rw [if_pos hr] at hlen ⊢
      by_cases hs : sz < c.hc.response.length
      · rw [if_pos hs]; simp [h0]
      · rw [if_neg hs] at hlen; simp at hlen
    · rw [if_neg hr] at hlen
      omega

theorem count_written_budget_zero (c : Connecttab) (ts : List Throttle) (now : Int) (sz : Nat)
    (hinv : Counted c) (hsz : 0 < sz) (hle : sz ≤ c.hc.responselen) :
    (count_written c ts now sz).1.hc.bytes_sent = 0 := by
  have hr : 0 < c.hc.responselen := by omega
  have h0 := hinv.headers hr
  unfold count_written
  simp only [if_pos hr]
  split
  · simp [h0]
  · rw [h0]
    have : sz - c.hc.responselen = 0 := by omega
    simp [this]

theorem max_bytes_zero (c : Connecttab) (h : c.max_limit = 0) : file_bytes_offered c = 0 := by
  have : max_bytes c = 0 := by
    unfold max_bytes
    rw [h]
    decide
  rw [file_bytes_offered, this, Nat.min_zero]

theorem pace_no_division (c : Connecttab) (now du : Int)
    (h : c.max_limit = 0 → c.hc.bytes_sent = 0) : (pace c now du).2 ≠ .division_by_zero := by
  unfold pace
  simp only
  split <;> split <;> (try split) <;> (try split) <;> simp_all

theorem coast_nonneg (c : Connecttab) (elapsed : Int) (hb : 0 ≤ c.hc.bytes_sent)
    (hm : 0 < c.max_limit) (hrate : Int.tdiv c.hc.bytes_sent elapsed > c.max_limit)
    (hfit : Int.tdiv c.hc.bytes_sent c.max_limit - elapsed < (2 : Int) ^ 31) :
    0 ≤ coast c elapsed ∧ coast c elapsed = Int.tdiv c.hc.bytes_sent c.max_limit - elapsed := by
  have he : 0 < elapsed := by
    by_contra hne
    have hle : elapsed ≤ 0 := by omega
    have : Int.tdiv c.hc.bytes_sent elapsed ≤ 0 := by
      rcases Int.eq_ofNat_of_zero_le hb with ⟨b, hb2⟩
      rcases Int.eq_ofNat_of_zero_le (show 0 ≤ -elapsed by omega) with ⟨e, he2⟩
      have : elapsed = -(e : Int) := by omega
      rw [hb2, this, Int.tdiv_neg]
      have := Int.tdiv_nonneg (Int.ofNat_nonneg b) (Int.ofNat_nonneg e)
      omega
    omega
  rw [Int.tdiv_eq_ediv hb (le_of_lt he)] at hrate
  rw [Int.tdiv_eq_ediv hb (le_of_lt hm)] at hfit
  have h1 : (c.max_limit + 1) * elapsed ≤ c.hc.bytes_sent := by
    have := (Int.le_ediv_iff_mul_le he).1 (show c.max_limit + 1 ≤ c.hc.bytes_sent / elapsed by omega)
    exact this
  have h2 : elapsed ≤ c.hc.bytes_sent / c.max_limit := by
    apply (Int.le_ediv_iff_mul_le hm).2
    nlinarith
  have h3 : coast c elapsed = c.hc.bytes_sent / c.max_limit - elapsed := by
    unfold coast to_int
    rw [Int.tdiv_eq_ediv hb (le_of_lt hm)]
    omega
  rw [h3, Int.tdiv_eq_ediv hb (le_of_lt hm)]
  exact ⟨by omega, rfl⟩

/-- C25 (amended): let the byte count of the connection be as every call of `handle_send` leaves
it from `httpd_get_conn` on (`Counted`), let `max_limit` be `THROTTLE_NOLIMIT` or not
negative, and let `write` or `writev` accept at most the bytes requested. Then
`handle_send` does not divide by a `max_limit` of zero, and it leaves the byte count as
described, so that the same holds for the next call whatever `max_limit` is then. When
bytes were written with `max_limit` zero, no file byte is counted in `bytes_sent`. When
the connection is found to send too fast, `max_limit` is positive, and `coast` is not
negative provided the coasting time is in the range of `int`. -/
theorem handle_send_no_division_by_zero (c : Connecttab) (throttles : List Throttle)
    (file : List Char) (now : Int) (w : WriteResult) (delay_unit : Int)
    (hinv : Counted c)
    (hlim : c.max_limit = THROTTLE_NOLIMIT ∨ 0 ≤ c.max_limit)
    (hw : ∀ sz, w = .wrote sz → sz ≤ c.hc.responselen + file_bytes_offered c) :
    (handle_send c throttles file now w delay_unit).handled ≠ .division_by_zero ∧
    Counted (handle_send c throttles file now w delay_unit).c ∧
    ∀ n, w = .wrote (n + 1) →
      (c.max_limit = 0 → (count_written c throttles now (n + 1)).1.hc.bytes_sent = 0) ∧
      (c.max_limit ≠ THROTTLE_NOLIMIT →
        Int.tdiv (count_written c throttles now (n + 1)).1.hc.bytes_sent
            (elapsed_since (count_written c throttles now (n + 1)).1 now) > c.max_limit →
        0 < c.max_limit ∧
        (Int.tdiv (count_written c throttles now (n + 1)).1.hc.bytes_sent c.max_limit
            - elapsed_since (count_written c throttles now (n + 1)).1 now < (2 : Int) ^ 31 →
          0 ≤ coast (count_written c throttles now (n + 1)).1
                (elapsed_since (count_written c throttles now (n + 1)).1 now))) := by
  have hzero : c.max_limit = 0 → ∀ n, w = .wrote (n + 1) →
      (count_written c throttles now (n + 1)).1.hc.bytes_sent = 0 := by
    intro h0 n hsz
    have := hw (n + 1) hsz
    rw [max_bytes_zero c h0] at this
    exact count_written_budget_zero c throttles now (n + 1) hinv (by omega) (by omega)
  have hml : ∀ sz, (count_written c throttles now sz).1.max_limit = c.max_limit :=
    fun sz => (count_written_fields c throttles now sz).2.1
  refine ⟨?_, ?_, ?_⟩
  · cases w with
    | eintr => simp [handle_send]
    | failed => simp [handle_send]
    | ewouldblock => simp [handle_send]
    | wrote sz =>
      cases sz with
      | zero => simp [handle_send]
      | succ n =>
        rw [handle_send_wrote_eq]
        split
        · simp
        · exact pace_no_division _ _ _ (fun h0 => hzero ((hml (n + 1)).symm.trans h0) n rfl)
  · cases w with
    | eintr => exact hinv
    | failed => exact hinv
    | ewouldblock => exact ⟨hinv.nonneg, hinv.headers⟩
    | wrote sz =>
      cases sz with
      | zero => exact ⟨hinv.nonneg, hinv.headers⟩
      | succ n =>
        have hcw := count_written_counted c throttles now (n + 1) hinv
        rw [handle_send_wrote_eq]
        split
        · exact hcw
        · have hp := pace_hc (count_written c throttles now (n + 1)).1 now delay_unit
          exact ⟨by simp only [hp]; exact hcw.nonneg, by simp only [hp]; exact hcw.headers⟩
  · intro n hsz
    refine ⟨fun h0 => hzero h0 n hsz, ?_⟩
    intro hnl hrate
    have hcw := count_written_counted c throttles now (n + 1) hinv
    have h0 : c.max_limit ≠ 0 := by
      intro h0
      rw [hzero h0 n hsz, h0] at hrate
      simp at hrate
    have hpos : 0 < c.max_limit := by
      rcases hlim with h | h
      · exact absurd h hnl
      · omega
    refine ⟨hpos, fun hfit => ?_⟩
    have hc := coast_nonneg (count_written c throttles now (n + 1)).1
      (elapsed_since (count_written c throttles now (n + 1)).1 now) hcw.nonneg
      (by rw [hml]; exact hpos) (by rw [hml]; exact hrate) (by rw [hml]; exact hfit)
    exact hc.1

/-- C25 (witness): a connection with `max_limit` zero writes its headers and is not
paused, and a connection that has sent 5000 bytes under a limit of 1000 bytes per second
writes 250 bytes more in its first second and coasts for four seconds. -/
theorem handle_send_no_division_by_zero_witness :
    Counted starved_connecttab ∧ Counted hasty_connecttab ∧
    (handle_send starved_connecttab [] "hello".toList 1000 (.wrote 19) 100).handled
      ≠ .division_by_zero ∧
    (handle_send hasty_connecttab [] (List.replicate 9000 'x') 0 (.wrote 250) 100).c.wakeup_timer
      = some 4000 ∧
    (0 : Int) < 1000 ∧
    0 ≤ coast (count_written hasty_connecttab [] 0 250).1
          (elapsed_since (count_written hasty_connecttab [] 0 250).1 0) :=
  have h1 := handle_send_no_division_by_zero starved_connecttab [] "hello".toList 1000
    (.wrote 19) 100 ⟨by decide, by decide⟩ (Or.inr (by decide))
    (fun sz h => by cases h; decide)
  have h2 := handle_send_no_division_by_zero hasty_connecttab [] (List.replicate 9000 'x') 0
    (.wrote 250) 100 ⟨by decide, by decide⟩ (Or.inr (by decide))
    (fun sz h => by cases h; decide)
  have h3 := (h2.2.2 249 rfl).2 (by decide) (by decide)
  ⟨⟨by decide, by decide⟩, ⟨by decide, by decide⟩, h1.1, by decide, h3.1, h3.2 (by decide)⟩

theorem steady_offered (k : Nat) (hk : k < 860000) :
    file_bytes_offered (steady_connecttab k) = 10000 := by
  have h1 : max_bytes (steady_connecttab k) = 10000 := rfl
  have h2 : to_size_t ((steady_connecttab k).end_byte_index
      - (steady_connecttab k).next_byte_index) = (9000000000 - 10000 * k : Nat) := by
    show to_size_t (9000000000 - 10000 * (k : Int)) = _
    unfold to_size_t
    omega
  unfold file_bytes_offered
  rw [h1, h2]
  omega

theorem steady_step (file : List Char) (du : Int) (r b : Int) (k : Nat) (hk : 0 < k)
    (hk2 : k < 860000) (hdu : 0 ≤ du) :
    handle_send (steady_connecttab k) (steady_table r b 1) file (quarter_seconds k)
        (.wrote ((steady_connecttab k).hc.responselen + file_bytes_offered (steady_connecttab k)))
        du
      = { c := steady_connecttab (k + 1), throttles := steady_table r (b + 10000) 1,
          accepted := (bytes_offered (steady_connecttab k) file).take 10000,
          handled := .stays } := by
  rw [steady_offered k hk2]
  have hr : (steady_connecttab k).hc.responselen = 0 := rfl
  rw [hr]
  show handle_send (steady_connecttab k) (steady_table r b 1) file (quarter_seconds k)
    (.wrote (9999 + 1)) du = _
  rw [handle_send_wrote_eq]
  have hcw : count_written (steady_connecttab k) (steady_table r b 1) (quarter_seconds k)
      (9999 + 1) = (steady_connecttab (k + 1), steady_table r (b + 10000) 1) := by
    unfold count_written
    simp only [hr, gt_iff_lt, lt_self_iff_false, if_false]
    refine Prod.ext ?_ ?_
    · show ({ steady_connecttab k with
          active_at := quarter_seconds k,
          hc := { (steady_connecttab k).hc with
            response := [], bytes_sent := 10000 * (k : Int) + ((9999 + 1 : Nat) : Int) },
          next_byte_index := 10000 * (k : Int) + ((9999 + 1 : Nat) : Int) } : Connecttab) = _
      unfold steady_connecttab
      simp only [Nat.add_sub_cancel]
      congr 1
    · rfl
  rw [hcw]
  have hnext : ¬ (steady_connecttab (k + 1)).next_byte_index
      ≥ (steady_connecttab (k + 1)).end_byte_index := by
    show ¬ (10000 * ((k + 1 : Nat) : Int) ≥ 9000000000)
    omega
  rw [if_neg hnext]
  have hrate : ¬ Int.tdiv (steady_connecttab (k + 1)).hc.bytes_sent
      (elapsed_since (steady_connecttab (k + 1)) (quarter_seconds k)) > 40000 := by
    have he : elapsed_since (steady_connecttab (k + 1)) (quarter_seconds k)
        = ((k / 4 + 1 : Nat) : Int) := by
      unfold elapsed_since
      show (if quarter_seconds k - 0 = 0 then 1 else quarter_seconds k - 0) = _
      unfold quarter_seconds
      rw [if_neg (by omega)]
      omega
    rw [he]
    show ¬ Int.tdiv (10000 * ((k + 1 : Nat) : Int)) ((k / 4 + 1 : Nat) : Int) > 40000
    rw [Int.tdiv_eq_ediv (by omega) (by omega)]
    have := Int.ediv_lt_of_lt_mul (a := 10000 * ((k + 1 : Nat) : Int))
      (b := 40001) (c := ((k / 4 + 1 : Nat) : Int)) (by omega) (by omega)
    omega
  have hpace : pace (steady_connecttab (k + 1)) (quarter_seconds k) du
      = (steady_connecttab (k + 1), .stays) := by
    unfold pace
    have hw : ¬ (steady_connecttab (k + 1)).wouldblock_delay > du := by
      show ¬ (0 > du)
      omega
    have hl : (steady_connecttab (k + 1)).max_limit = 40000 := rfl
    simp only [hw, if_false, hl]
    rw [if_pos (by decide), if_neg hrate]
  rw [hpace]

theorem steady_run (file : List Char) (du : Int) (hdu : 0 ≤ du) (r : Int) (n : Nat) :
    ∀ (k : Nat) (b : Int), 0 < k → k + n ≤ 860000 →
      send_calls file quarter_seconds du n k (steady_connecttab k, steady_table r b 1)
        = (steady_connecttab (k + n), steady_table r (b + 10000 * (n : Int)) 1) := by
  induction n with
  | zero =>
    intro k b _ _
    simp [send_calls]
  | succ n ih =>
    intro k b hk hkn
    rw [send_calls]
    simp only
    rw [steady_step file du r b k hk (by omega) hdu,
      ih (k + 1) (b + 10000) (by omega) (by omega)]
    have h1 : k + 1 + n = k + (n + 1) := by omega
    have h2 : b + 10000 + 10000 * (n : Int) = b + 10000 * ((n + 1 : Nat) : Int) := by
      push_cast
      ring
    rw [h1, h2]

theorem patient_step (file : List Char) (du : Int) (hdu : 0 ≤ du) :
    handle_send patient_connecttab (steady_table 0 0 1) file (quarter_seconds 0)
        (.wrote (patient_connecttab.hc.responselen + file_bytes_offered patient_connecttab)) du
      = { c := steady_connecttab 1, throttles := steady_table 0 10000 1,
          accepted := (bytes_offered patient_connecttab file).take 10019,
          handled := .stays } := by
  have h1 : patient_connecttab.hc.responselen + file_bytes_offered patient_connecttab
      = 10018 + 1 := by decide
  rw [h1, handle_send_wrote_eq]
  have hcw : count_written patient_connecttab (steady_table 0 0 1) (quarter_seconds 0)
      (10018 + 1) = (steady_connecttab 1, steady_table 0 10000 1) := by decide
  rw [hcw, if_neg (by decide)]
  have hpace : pace (steady_connecttab 1) (quarter_seconds 0) du
      = (steady_connecttab 1, .stays) := by
    unfold pace
    have hw : ¬ (steady_connecttab 1).wouldblock_delay > du := by
      show ¬ (0 > du)
      omega
    have hl : (steady_connecttab 1).max_limit = 40000 := rfl
    simp only [hw, if_false, hl]
    rw [if_pos (by decide), if_neg (by decide)]
  rw [hpace]

theorem patient_run (file : List Char) (du : Int) (hdu : 0 ≤ du) (m : Nat) (hm : 0 < m)
    (hm2 : m ≤ 860000) :
    send_calls file quarter_seconds du m 0 (patient_connecttab, steady_table 0 0 1)
      = (steady_connecttab m, steady_table 0 (10000 * (m : Int)) 1) := by
  obtain ⟨n, rfl⟩ : ∃ n, m = n + 1 := ⟨m - 1, by omega⟩
  rw [send_calls]
  simp only
  rw [patient_step file du hdu, steady_run file du hdu 0 n 1 10000 (by omega) (by omega)]
  have h1 : 1 + n = n + 1 := by omega
  have h2 : (10000 : Int) + 10000 * (n : Int) = 10000 * ((n + 1 : Nat) : Int) := by
    push_cast
    ring
  rw [h1, h2]

theorem steady_update_round (r b : Int) (k : Nat) :
    update_round (steady_connecttab k, steady_table r b 1)
      = some (steady_connecttab k, steady_table (Int.tdiv (2 * r + Int.tdiv b 2) 3) 0 1) :=
  rfl

theorem steady_round (file : List Char) (du : Int) (hdu : 0 ≤ du) (n : Nat) :
    ∀ j : Nat, 0 < j → 8 * (j + n) ≤ 860000 →
      send_rounds file du n j (steady_connecttab (8 * j), steady_table (steady_rate j) 0 1)
        = some (steady_connecttab (8 * (j + n)), steady_table (steady_rate (j + n)) 0 1) := by
  induction n with
  | zero =>
    intro j _ _
    rfl
  | succ n ih =>
    intro j hj hjn
    have hrun := steady_run file du hdu (steady_rate j) 8 (8 * j) 0 (by omega) (by omega)
    rw [send_rounds, hrun, steady_update_round, Option.some_bind]
    have h1 : 8 * j + 8 = 8 * (j + 1) := by omega
    have h2 : Int.tdiv (2 * steady_rate j + Int.tdiv (0 + 10000 * ((8 : Nat) : Int)) 2) 3
        = steady_rate (j + 1) := rfl
    rw [h1, h2, ih (j + 1) (by omega) (by omega)]
    have h3 : j + 1 + n = j + (n + 1) := by omega
    rw [h3]

theorem patient_rounds (file : List Char) (du : Int) (hdu : 0 ≤ du) (m : Nat) (hm : 0 < m)
    (hm2 : 8 * m ≤ 860000) :
    send_rounds file du m 0 (patient_connecttab, steady_table 0 0 1)
      = some (steady_connecttab (8 * m), steady_table (steady_rate m) 0 1) := by
  obtain ⟨n, rfl⟩ : ∃ n, m = n + 1 := ⟨m - 1, by omega⟩
  have hrun : send_calls file quarter_seconds du 8 (8 * 0)
      (patient_connecttab, steady_table 0 0 1)
      = (steady_connecttab 8, steady_table 0 (10000 * ((8 : Nat) : Int)) 1) :=
    patient_run file du hdu 8 (by omega) (by omega)
  rw [send_rounds, hrun, steady_update_round, Option.some_bind]
  have h2 : Int.tdiv (2 * 0 + Int.tdiv (10000 * ((8 : Nat) : Int)) 2) 3 = steady_rate 1 := rfl
  have h := steady_round file du hdu n 1 (by omega) (by omega)
  rw [h2, h]
  have h3 : 1 + n = n + 1 := by omega
  rw [h3]

theorem steady_rate_limit (n : Nat) : steady_rate (n + 25) = 39998 := by
  induction n with
  | zero => decide
  | succ n ih =>
    show Int.tdiv (2 * steady_rate (n + 25) + Int.tdiv 80000 2) 3 = 39998
    rw [ih]
    decide

theorem more_senders_steady (fn : List Char) (c : Connecttab) (r b : Int) (n : Nat)
    (hr1 : ¬ r > 40000 * 2) (hr2 : ¬ r < 0) :
    ∀ m : Nat, more_senders match_star 10 fn c n (steady_table r b (m : Int))
      = steady_table r b ((m + n : Nat) : Int) := by
  induction n with
  | zero => intro m; rfl
  | succ n ih =>
    intro m
    rw [more_senders]
    have h1 : (check_throttles match_star 10 fn c (steady_table r b (m : Int))).2.2
        = steady_table r b ((m + 1 : Nat) : Int) := by
      have hm : ¬ ((m : Int) < 0) := by omega
      have hr3 : ¬ (80000 < r) := by omega
      unfold check_throttles steady_table
      simp [check_throttles_loop, bind_throttle, throttle_line, match_star, hm, hr3, hr2]
    rw [h1, ih (m + 1)]
    have : m + 1 + n = m + (n + 1) := by omega
    rw [this]

/-- C25 (counterexample): a request for a file of 9000000000 bytes is bound by
`check_throttles` to the throttle `* 40000` as its only sender. Its connection sends
10000 bytes four times a second for 215000 seconds and is never paused, while
`update_throttles` runs every two seconds and comes to measure 39998 bytes a second. Then
9999 more requests pass `check_throttles`, and `update_throttles` sets `max_limit` to
40000 / 10000 = 4. The next call of `handle_send` is offered one byte, writes it, finds
the connection too fast and takes the coasting branch: `bytes_sent / max_limit - elapsed`
is 2149784999, which is more than an `int` holds, and `coast` is -2145182297. -/
theorem coast_wraps_negative :
    check_throttles match_star 10 "a".toList (sample_connecttab patient_conn)
        (steady_table 0 0 0)
      = (true, { patient_connecttab with conn_state := .CNST_READING, end_byte_index := 0 },
          steady_table 0 0 1) ∧
    send_rounds patient_file 100 107500 0 (patient_connecttab, steady_table 0 0 1)
      = some (steady_connecttab 860000, steady_table 39998 0 1) ∧
    more_senders match_star 10 "a".toList (sample_connecttab (sample_conn 5)) 9999
        (steady_table 39998 0 1)
      = steady_table 39998 0 10000 ∧
    (update_throttles 2 (steady_table 39998 0 10000) [steady_connecttab 860000]).connects
      = some [crowded_connecttab] ∧
    (update_throttles 2 (steady_table 39998 0 10000) [steady_connecttab 860000]).throttles
      = steady_table 26665 0 10000 ∧
    Counted crowded_connecttab ∧ crowded_connecttab.max_limit = 4 ∧
    crowded_connecttab.hc.responselen + file_bytes_offered crowded_connecttab = 1 ∧
    (handle_send crowded_connecttab (steady_table 26665 0 10000) patient_file
        (quarter_seconds 860000) (.wrote 1) 100).handled = .stays ∧
    (handle_send crowded_connecttab (steady_table 26665 0 10000) patient_file
        (quarter_seconds 860000) (.wrote 1) 100).c.conn_state = .CNST_PAUSING ∧
    (handle_send crowded_connecttab (steady_table 26665 0 10000) patient_file
        (quarter_seconds 860000) (.wrote 1) 100).c.wakeup_timer = some 500 ∧
    Int.tdiv (count_written crowded_connecttab (steady_table 26665 0 10000)
          (quarter_seconds 860000) 1).1.hc.bytes_sent
        (elapsed_since (count_written crowded_connecttab (steady_table 26665 0 10000)
          (quarter_seconds 860000) 1).1 (quarter_seconds 860000))
      > crowded_connecttab.max_limit ∧
    Int.tdiv (count_written crowded_connecttab (steady_table 26665 0 10000)
          (quarter_seconds 860000) 1).1.hc.bytes_sent crowded_connecttab.max_limit
        - elapsed_since (count_written crowded_connecttab (steady_table 26665 0 10000)
          (quarter_seconds 860000) 1).1 (quarter_seconds 860000)
      = 2149784999 ∧
    coast (count_written crowded_connecttab (steady_table 26665 0 10000)
          (quarter_seconds 860000) 1).1
        (elapsed_since (count_written crowded_connecttab (steady_table 26665 0 10000)
          (quarter_seconds 860000) 1).1 (quarter_seconds 860000))
      = -2145182297 := by
  have hs : handle_send crowded_connecttab (steady_table 26665 0 10000) patient_file
      (quarter_seconds 860000) (.wrote (0 + 1)) 100
      = { c := (pace (count_written crowded_connecttab (steady_table 26665 0 10000)
            (quarter_seconds 860000) (0 + 1)).1 (quarter_seconds 860000) 100).1,
          throttles := (count_written crowded_connecttab (steady_table 26665 0 10000)
            (quarter_seconds 860000) (0 + 1)).2,
          accepted := (bytes_offered crowded_connecttab patient_file).take (0 + 1),
          handled := (pace (count_written crowded_connecttab (steady_table 26665 0 10000)
            (quarter_seconds 860000) (0 + 1)).1 (quarter_seconds 860000) 100).2 } := by
    rw [handle_send_wrote_eq, if_neg (by decide)]
  have h0 := more_senders_steady "a".toList (sample_connecttab (sample_conn 5)) 39998 0
    9999 (by decide) (by decide) 1
  have hrun := patient_rounds patient_file 100 (by decide) 107500 (by decide) (by decide)
  rw [steady_rate_limit 107475] at hrun
  refine ⟨by decide, hrun, h0, by decide, by decide, ⟨by decide, by decide⟩, rfl, by decide,
    ?_, ?_, ?_, by decide, by decide, by decide⟩
  · show (handle_send crowded_connecttab (steady_table 26665 0 10000) patient_file
      (quarter_seconds 860000) (.wrote (0 + 1)) 100).handled = .stays
    rw [hs]
    decide
  · show (handle_send crowded_connecttab (steady_table 26665 0 10000) patient_file
      (quarter_seconds 860000) (.wrote (0 + 1)) 100).c.conn_state = .CNST_PAUSING
    rw [hs]
    decide
  · show (handle_send crowded_connecttab (steady_table 26665 0 10000) patient_file
      (quarter_seconds 860000) (.wrote (0 + 1)) 100).c.wakeup_timer = some 500
    rw [hs]
    decide

/-! ## C26: the size of the hash table -/

/-- C26 (code bug): 342 files are mapped, which leaves a table of 1024 slots; the next
call of `mmc_map` finds the table too small, and the `malloc` of the bigger table fails:
the call fails and leaves no table. In the call after that `check_hash_size` finds no
table, takes the cache for empty, makes a table of `INITIAL_HASH_SIZE` slots for the 342
entries and returns 0: the table is smaller than three times the number of entries, and
stays so after the file has been mapped. -/
theorem check_hash_size_after_failed_malloc :
    (map_files 342 mmc_init).map_count = 342 ∧
    (map_files 342 mmc_init).hash_size = 1024 ∧
    table_malloc_failed.hash_table.isNone = true ∧
    table_malloc_failed.map_count = 342 ∧
    table_malloc_failed.log.head? = some "check_hash_size() failure" ∧
    (check_hash_size table_malloc_failed true).1 = true ∧
    (check_hash_size table_malloc_failed true).2.hash_size = 1024 ∧
    (check_hash_size table_malloc_failed true).2.map_count = 342 ∧
    ((check_hash_size table_malloc_failed true).2.hash_size : Int)
      < 3 * (check_hash_size table_malloc_failed true).2.map_count ∧
    (mmc_map table_malloc_failed (stat_of 343 1 0) 0 (env_ok 1404928)).1 = some 1404928 ∧
    (mmc_map table_malloc_failed (stat_of 343 1 0) 0 (env_ok 1404928)).2.hash_size = 1024 ∧
    (mmc_map table_malloc_failed (stat_of 343 1 0) 0 (env_ok 1404928)).2.map_count = 343 := by
  decide!

/-! ## C27: the counters of the cache add up -/

theorem unmap_walk_state (cond : Map → Bool) (l : List Map) (s : Mmc) :
    (unmap_walk cond l s).2.maps = s.maps ∧
    (unmap_walk cond l s).2.free_maps = (l.filter cond).reverse ++ s.free_maps ∧
    (unmap_walk cond l s).2.map_count = s.map_count - ((l.filter cond).length : Int) ∧
    (unmap_walk cond l s).2.free_count = s.free_count + ((l.filter cond).length : Int) ∧
    (unmap_walk cond l s).2.alloc_count = s.alloc_count ∧
    (unmap_walk cond l s).2.mapped_bytes
      = s.mapped_bytes - ((l.filter cond).map (fun m => (m.size : Int))).sum ∧
    (unmap_walk cond l s).2.next_ptr = s.next_ptr := by
  induction l generalizing s with
  | nil => simp [unmap_walk]
  | cons m rest ih =>
    simp only [unmap_walk]
    split
    · rename_i h
      obtain ⟨h1, h2, h3, h4, h5, h6, h7⟩ := ih (really_unmap s m)
      refine ⟨h1, ?_, ?_, ?_, h5, ?_, h7⟩
      · rw [h2]; simp [h, really_unmap]
      · rw [h3]; simp [h, really_unmap]; omega
      · rw [h4]; simp [h, really_unmap]; omega
      · rw [h6]; simp [h, really_unmap]; omega
    · rename_i h
      obtain ⟨h1, h2, h3, h4, h5, h6, h7⟩ := ih s
      simp only [h, Bool.false_eq_true, not_false_eq_true, List.filter_cons_of_neg]
      exact ⟨h1, h2, h3, h4, h5, h6, h7⟩

theorem filter_split_length (cond : Map → Bool) (l : List Map) :
    (l.filter cond).length + (l.filter (fun m => !cond m)).length = l.length := by
  induction l with
  | nil => rfl
  | cons m rest ih =>
    by_cases h : cond m = true
    · simp [h]; omega
    · simp [h]; omega

theorem filter_split_sum (cond : Map → Bool) (f : Map → Int) (l : List Map) :
    ((l.filter cond).map f).sum + ((l.filter (fun m => !cond m)).map f).sum
      = (l.map f).sum := by
  induction l with
  | nil => rfl
  | cons m rest ih =>
    by_cases h : cond m = true
    · simp [h]; omega
    · simp [h]; omega

theorem unmap_walk_inv (cond : Map → Bool) (s : Mmc) (held : List Nat)
    (hi : CacheInv s held) :
    CacheInv { (unmap_walk cond s.maps s).2 with maps := (unmap_walk cond s.maps s).1 }
      held := by
  obtain ⟨h1, h2, h3, h4, h5, h6, h7⟩ := unmap_walk_state cond s.maps s
  have hk := unmap_walk_fst cond s.maps s
  have hlen := filter_split_length cond s.maps
  have hsum := filter_split_sum cond (fun m => (m.size : Int)) s.maps
  obtain ⟨c1, c2, c3, c4, a1, a2⟩ := hi
  have hperm : ((s.maps.filter (fun m => !cond m)) ++ ((s.maps.filter cond).reverse
      ++ s.free_maps)).Perm (s.maps ++ s.free_maps) := by
    rw [← List.append_assoc]
    apply List.Perm.append_right
    have p1 : (s.maps.filter cond ++ s.maps.filter (fun m => !cond m)).Perm s.maps :=
      List.filter_append_perm _ _
    exact ((List.perm_append_comm).trans
      ((List.reverse_perm _).symm.append_right _).symm).trans p1
  have hperm2 := (hperm.map (fun m => m.ptr)).append_left held
  constructor
  · show (unmap_walk cond s.maps s).2.map_count = ((unmap_walk cond s.maps s).1.length : Int)
    rw [h3, hk, c1]; omega
  · show (unmap_walk cond s.maps s).2.free_count
      = ((unmap_walk cond s.maps s).2.free_maps.length : Int)
    rw [h4, h2, c2]; simp; omega
  · show (unmap_walk cond s.maps s).2.map_count + (unmap_walk cond s.maps s).2.free_count
      + held.length = (unmap_walk cond s.maps s).2.alloc_count
    rw [h3, h4, h5]; omega
  · show (unmap_walk cond s.maps s).2.mapped_bytes
      = ((unmap_walk cond s.maps s).1.map (fun m => (m.size : Int))).sum
    rw [h6, hk, c4]; omega
  · show (held ++ ((unmap_walk cond s.maps s).1 ++ (unmap_walk cond s.maps s).2.free_maps).map
      (fun m => m.ptr)).Nodup
    rw [hk, h2]
    exact (List.Perm.nodup_iff hperm2).2 a1
  · show ∀ p ∈ held ++ ((unmap_walk cond s.maps s).1
        ++ (unmap_walk cond s.maps s).2.free_maps).map (fun m => m.ptr),
      p < (unmap_walk cond s.maps s).2.next_ptr
    rw [hk, h2, h7]
    intro p hp
    exact a2 p (hperm2.subset hp)

theorem pop_free_inv (s : Mmc) (f : Map) (rest : List Map) (hf : s.free_maps = f :: rest)
    (hi : CacheInv s []) :
    CacheInv { s with free_maps := rest, free_count := s.free_count - 1,
                      alloc_count := s.alloc_count - 1 } [] := by
  obtain ⟨c1, c2, c3, c4, a1, a2⟩ := hi
  rw [hf] at c2 a1 a2
  simp only [List.length_cons, List.length_nil, List.nil_append] at c2 c3 a1 a2
  constructor
  · exact c1
  · show s.free_count - 1 = (rest.length : Int)
    rw [c2]; simp
  · show s.map_count + (s.free_count - 1) + ([] : List Nat).length = s.alloc_count - 1
    simp only [List.length_nil]; omega
  · exact c4
  · show (([] : List Nat) ++ List.map (fun (m : Map) => m.ptr) (s.maps ++ rest)).Nodup
    rw [List.nil_append]
    refine List.Nodup.sublist ?_ a1
    exact ((List.sublist_cons_self f rest).append_left s.maps).map _
  · intro p hp
    apply a2 p
    simp only [List.nil_append, List.map_append, List.mem_append, List.map_cons,
      List.mem_cons] at hp ⊢
    tauto

theorem trim_free_inv (n : Nat) (s : Mmc) (hi : CacheInv s []) : CacheInv (trim_free n s) [] := by
  induction n generalizing s with
  | zero => exact hi
  | succ n ih =>
    simp only [trim_free]
    split
    · rename_i hgt
      cases hf : s.free_maps with
      | nil =>
        have c2 := hi.free
        rw [hf] at c2
        have : DESIRED_FREE_COUNT = 100 := rfl
        simp only [List.length_nil] at c2
        omega
      | cons f rest => exact ih _ (pop_free_inv s f rest hf hi)
    · exact hi

theorem free_all_inv (l : List Map) (s : Mmc) (hl : s.free_maps = l) (hi : CacheInv s []) :
    CacheInv (free_all l s) [] ∧ (free_all l s).free_maps = [] ∧
    (free_all l s).maps = s.maps := by
  induction l generalizing s with
  | nil => exact ⟨hi, hl, rfl⟩
  | cons f rest ih =>
    simp only [free_all]
    exact ih _ rfl (pop_free_inv s f rest hl hi)

theorem add_hash_entry (table : Nat → Option Nat) (hash_size hash_mask : Nat) (m m' : Map)
    (table' : Nat → Option Nat) (h : add_hash table hash_size hash_mask m = some (table', m')) :
    m'.ptr = m.ptr ∧ m'.size = m.size ∧ m'.addr = m.addr := by
  unfold add_hash at h
  simp only at h
  split at h
  · simp only [Option.some.injEq, Prod.mk.injEq] at h
    rw [← h.2]
    exact ⟨rfl, rfl, rfl⟩
  · exact absurd h (by simp)

theorem rehash_entries (hash_size hash_mask : Nat) (l : List Map) (table : Nat → Option Nat) :
    (rehash hash_size hash_mask l table).2.2.map (fun m => m.ptr) = l.map (fun m => m.ptr) ∧
    (rehash hash_size hash_mask l table).2.2.map (fun m => (m.size : Int))
      = l.map (fun m => (m.size : Int)) := by
  induction l generalizing table with
  | nil => exact ⟨rfl, rfl⟩
  | cons m rest ih =>
    simp only [rehash]
    split
    · exact ⟨rfl, rfl⟩
    · rename_i table' m' hadd
      obtain ⟨e1, e2, -⟩ := add_hash_entry _ _ _ _ _ _ hadd
      obtain ⟨i1, i2⟩ := ih table'
      simp only [List.map_cons, i1, i2, e1, e2]
      exact ⟨by trivial, by trivial⟩

theorem inv_of_same_entries (s s' : Mmc) (held : List Nat)
    (hp : s'.maps.map (fun m => m.ptr) = s.maps.map (fun m => m.ptr))
    (hz : s'.maps.map (fun m => (m.size : Int)) = s.maps.map (fun m => (m.size : Int)))
    (hf : s'.free_maps = s.free_maps) (h1 : s'.map_count = s.map_count)
    (h2 : s'.free_count = s.free_count) (h3 : s'.alloc_count = s.alloc_count)
    (h4 : s'.mapped_bytes = s.mapped_bytes) (h5 : s'.next_ptr = s.next_ptr)
    (hi : CacheInv s held) : CacheInv s' held := by
  obtain ⟨c1, c2, c3, c4, a1, a2⟩ := hi
  have hlen : s'.maps.length = s.maps.length := by
    have := congrArg List.length hp
    simpa using this
  have hptr : (s'.maps ++ s'.free_maps).map (fun m => m.ptr)
      = (s.maps ++ s.free_maps).map (fun m => m.ptr) := by
    rw [List.map_append, hp, hf, ← List.map_append]
  exact ⟨by rw [h1, c1, hlen], by rw [h2, hf, c2], by rw [h1, h2, h3, c3],
    by rw [h4, hz, c4], by rw [hptr]; exact a1, by rw [hptr, h5]; exact a2⟩

theorem new_hash_table_inv (s : Mmc) (ok : Bool) (held : List Nat) (hi : CacheInv s held) :
    CacheInv (new_hash_table s ok).2 held := by
  unfold new_hash_table
  split
  · obtain ⟨r1, r2⟩ := rehash_entries s.hash_size s.hash_mask s.maps (fun _ => none)
    exact inv_of_same_entries s _ held r1 r2 rfl rfl rfl rfl rfl rfl hi
  · exact inv_of_same_entries s _ held rfl rfl rfl rfl rfl rfl rfl rfl hi

theorem check_hash_size_inv (s : Mmc) (ok : Bool) (held : List Nat) (hi : CacheInv s held) :
    CacheInv (check_hash_size s ok).2 held := by
  unfold check_hash_size
  split
  · apply new_hash_table_inv
    exact inv_of_same_entries s _ held rfl rfl rfl rfl rfl rfl rfl rfl hi
  · split
    · exact hi
    · apply new_hash_table_inv
      exact inv_of_same_entries s _ held rfl rfl rfl rfl rfl rfl rfl rfl hi

theorem panic_inv (s : Mmc) (held : List Nat) (hi : CacheInv s held) :
    CacheInv (panic s) held := by
  unfold panic
  exact unmap_walk_inv _ { s with log := "mmc panic - freeing all unreferenced maps" :: s.log }
    held (inv_of_same_entries s _ held rfl rfl rfl rfl rfl rfl rfl rfl hi)

theorem find_hash_probe_mem (s : Mmc) (table : Nat → Option Nat) (h he : Nat)
    (ino dev size ctime : Nat) (n i : Nat) (m : Map)
    (hf : find_hash_probe s table h he ino dev size ctime n i = some m) :
    m ∈ s.maps ++ s.free_maps := by
  induction n generalizing i with
  | zero => simp [find_hash_probe] at hf
  | succ n ih =>
    simp only [find_hash_probe] at hf
    split at hf
    · exact absurd hf (by simp)
    · split at hf
      · exact absurd hf (by simp)
      · rename_i p _ x hx
        split at hf
        · simp only [Option.some.injEq] at hf
          rw [← hf]
          exact List.mem_of_find?_eq_some hx
        · split at hf
          · exact absurd hf (by simp)
          · exact ih _ hf

theorem find_hash_mem (s : Mmc) (ino dev size ctime : Nat) (m : Map)
    (hf : find_hash s ino dev size ctime = some m) : m ∈ s.maps ++ s.free_maps := by
  unfold find_hash at hf
  split at hf
  · exact absurd hf (by simp)
  · exact find_hash_probe_mem _ _ _ _ _ _ _ _ _ _ _ hf

theorem store_entries (s : Mmc) (held : List Nat) (hi : CacheInv s held) (m m' : Map)
    (hm : m ∈ s.maps ++ s.free_maps) (hp : m'.ptr = m.ptr) (hz : m'.size = m.size) :
    (store s.maps m').map (fun x => x.ptr) = s.maps.map (fun x => x.ptr) ∧
    (store s.maps m').map (fun x => (x.size : Int)) = s.maps.map (fun x => (x.size : Int)) := by
  have hnd : ((s.maps ++ s.free_maps).map (fun x => x.ptr)).Nodup :=
    (List.nodup_append.1 hi.nodup).2.1
  have hinj := List.inj_on_of_nodup_map hnd
  unfold store
  rw [List.map_map, List.map_map]
  constructor
  · apply List.map_congr_left
    intro x _
    simp only [Function.comp]
    split
    · rename_i h; rw [h]
    · rfl
  · apply List.map_congr_left
    intro x hx
    simp only [Function.comp]
    split
    · rename_i h
      have : x = m := hinj (List.mem_append_left _ hx) hm (h.trans hp)
      rw [hz, this]
    · rfl

theorem drop_held_inv (s s' : Mmc) (p : Nat) (hi : CacheInv s [p])
    (hm : s'.maps = s.maps) (hf : s'.free_maps = s.free_maps) (h1 : s'.map_count = s.map_count)
    (h2 : s'.free_count = s.free_count) (h3 : s'.alloc_count = s.alloc_count - 1)
    (h4 : s'.mapped_bytes = s.mapped_bytes) (h5 : s'.next_ptr = s.next_ptr) :
    CacheInv s' [] := by
  obtain ⟨c1, c2, c3, c4, a1, a2⟩ := hi
  simp only [List.length_cons, List.length_nil] at c3
  refine ⟨by rw [h1, hm, c1], by rw [h2, hf, c2], ?_, by rw [h4, hm, c4], ?_, ?_⟩
  · rw [h1, h2, h3]; simp only [List.length_nil]; omega
  · rw [hm, hf, List.nil_append]
    exact (List.nodup_append.1 a1).2.1
  · intro q hq
    rw [hm, hf] at hq
    rw [h5]
    exact a2 q (List.mem_append_right _ (by simpa using hq))

theorem mmc_map_link_inv (s : Mmc) (m : Map) (hi : CacheInv s [m.ptr]) :
    CacheInv (mmc_map_link s m).2 [] := by
  unfold mmc_map_link
  split
  · exact drop_held_inv s _ m.ptr hi rfl rfl rfl rfl rfl rfl rfl
  · split
    · exact drop_held_inv s _ m.ptr hi rfl rfl rfl rfl rfl rfl rfl
    · rename_i table table' m' hadd
      obtain ⟨e1, e2, -⟩ := add_hash_entry _ _ _ _ _ _ hadd
      obtain ⟨c1, c2, c3, c4, a1, a2⟩ := hi
      simp only [List.length_cons, List.length_nil] at c3
      constructor
      · show s.map_count + 1 = ((m' :: s.maps).length : Int)
        rw [c1]; simp
      · exact c2
      · show s.map_count + 1 + s.free_count + (([] : List Nat).length : Int) = s.alloc_count
        simp only [List.length_nil]; omega
      · show s.mapped_bytes + (m'.size : Int)
          = ((m' :: s.maps).map (fun m => (m.size : Int))).sum
        rw [c4]; simp; omega
      · show (([] : List Nat) ++ List.map (fun (m : Map) => m.ptr) (m' :: s.maps ++ s.free_maps)).Nodup
        simpa [e1] using a1
      · intro q hq
        apply a2 q
        simpa [e1] using hq

theorem mmc_map_inv (s : Mmc) (sb : Stat) (now : Int) (env : MapEnv) (hi : CacheInv s []) :
    CacheInv (mmc_map s sb now env).2 [] := by
  have same : ∀ (s0 : Mmc) (held : List Nat) (msg : String), CacheInv s0 held →
      CacheInv { s0 with log := msg :: s0.log } held :=
    fun s0 held msg h => inv_of_same_entries s0 _ held rfl rfl rfl rfl rfl rfl rfl rfl h
  have hc := check_hash_size_inv s env.table_malloc_ok [] hi
  have hfresh : ∀ (p : Nat) (a : Nat), (fresh_map p sb now a).ptr = p := fun _ _ => rfl
  unfold mmc_map
  split
  · exact same _ _ _ hi
  · simp only
    split
    · exact same _ _ _ hc
    · split
      · rename_i m hfind
        have hm := find_hash_mem _ _ _ _ _ _ hfind
        obtain ⟨s1, s2⟩ := store_entries _ [] hc m
          { m with refcount := m.refcount + 1, reftime := now } hm rfl rfl
        exact inv_of_same_entries _ _ [] s1 s2 rfl rfl rfl rfl rfl rfl hc
      · split
        · exact same _ _ _ hc
        · -- the struct taken off the free list or allocated
          have hgot : ∀ (p : Nat) (s1 : Mmc),
              (match (check_hash_size s env.table_malloc_ok).2.free_maps with
                | f :: rest => some (f.ptr, { (check_hash_size s env.table_malloc_ok).2 with
                    free_maps := rest,
                    free_count := (check_hash_size s env.table_malloc_ok).2.free_count - 1 })
                | [] =>
                  if env.map_malloc_ok then
                    some ((check_hash_size s env.table_malloc_ok).2.next_ptr,
                      { (check_hash_size s env.table_malloc_ok).2 with
                        alloc_count := (check_hash_size s env.table_malloc_ok).2.alloc_count + 1,
                        next_ptr := (check_hash_size s env.table_malloc_ok).2.next_ptr + 1 })
                  else none) = some (p, s1) → CacheInv s1 [p] := by
            intro p s1 hg
            obtain ⟨c1, c2, c3, c4, a1, a2⟩ := hc
            split at hg
            · rename_i f rest hfm
              simp only [Option.some.injEq, Prod.mk.injEq] at hg
              obtain ⟨hp, hs⟩ := hg
              subst hp hs
              rw [hfm] at c2 a1 a2
              simp only [List.length_cons, List.length_nil, List.nil_append] at c2 c3 a1 a2
              constructor
              · exact c1
              · show (check_hash_size s env.table_malloc_ok).2.free_count - 1
                  = (rest.length : Int)
                rw [c2]; simp
              · show (check_hash_size s env.table_malloc_ok).2.map_count
                  + ((check_hash_size s env.table_malloc_ok).2.free_count - 1)
                  + (([f.ptr] : List Nat).length : Int)
                  = (check_hash_size s env.table_malloc_ok).2.alloc_count
                simp only [List.length_cons, List.length_nil]; omega
              · exact c4
              · show ([f.ptr] ++ List.map (fun (m : Map) => m.ptr)
                  ((check_hash_size s env.table_malloc_ok).2.maps ++ rest)).Nodup
                refine (List.Perm.nodup_iff ?_).2 a1
                simp only [List.map_append, List.map_cons, List.singleton_append]
                exact List.perm_middle.symm
              · intro q hq
                apply a2 q
                simp only [List.map_append, List.map_cons, List.singleton_append,
                  List.mem_cons, List.mem_append] at hq ⊢
                tauto
            · split at hg
              · simp only [Option.some.injEq, Prod.mk.injEq] at hg
                obtain ⟨hp, hs⟩ := hg
                subst hp hs
                simp only [List.length_nil, List.nil_append] at c3 a1 a2
                constructor
                · exact c1
                · exact c2
                · show (check_hash_size s env.table_malloc_ok).2.map_count
                    + (check_hash_size s env.table_malloc_ok).2.free_count
                    + (([(check_hash_size s env.table_malloc_ok).2.next_ptr] : List Nat).length : Int)
                    = (check_hash_size s env.table_malloc_ok).2.alloc_count + 1
                  simp only [List.length_cons, List.length_nil]; omega
                · exact c4
                · show ([(check_hash_size s env.table_malloc_ok).2.next_ptr]
                    ++ List.map (fun (m : Map) => m.ptr)
                      ((check_hash_size s env.table_malloc_ok).2.maps
                        ++ (check_hash_size s env.table_malloc_ok).2.free_maps)).Nodup
                  rw [List.singleton_append, List.nodup_cons]
                  refine ⟨fun hmem => ?_, a1⟩
                  exact absurd (a2 _ hmem) (lt_irrefl _)
                · intro q hq
                  show q < (check_hash_size s env.table_malloc_ok).2.next_ptr + 1
                  rw [List.singleton_append, List.mem_cons] at hq
                  rcases hq with hq | hq
                  · omega
                  · exact Nat.lt_succ_of_lt (a2 q hq)
              · exact absurd hg (by simp)
          split
          · exact same _ _ _ hc
          · rename_i p s1 hg
            have h1 := hgot p s1 hg
            split
            · exact mmc_map_link_inv s1 _ h1
            · split
              · exact mmc_map_link_inv s1 _ h1
              · exact drop_held_inv s1 _ p h1 rfl rfl rfl rfl rfl rfl rfl
              · have h2 := panic_inv s1 [p] h1
                split
                · exact mmc_map_link_inv _ _ h2
                · exact drop_held_inv _ _ p h2 rfl rfl rfl rfl rfl rfl rfl

theorem mmc_unmap_inv (s : Mmc) (addr : Nat) (sbP : Option Stat) (now : Int)
    (hi : CacheInv s []) : CacheInv (mmc_unmap s addr sbP now) [] := by
  have same : ∀ (msg : String), CacheInv { s with log := msg :: s.log } [] :=
    fun msg => inv_of_same_entries s _ [] rfl rfl rfl rfl rfl rfl rfl rfl hi
  unfold mmc_unmap
  simp only
  split
  · exact same _
  · rename_i m hfound
    have hm : m ∈ s.maps ++ s.free_maps := by
      split at hfound
      · rename_i x hx
        simp only [Option.some.injEq] at hfound
        rw [← hfound]
        split at hx
        · split at hx
          · rename_i y hy
            split at hx
            · exact absurd hx (by simp)
            · simp only [Option.some.injEq] at hx
              rw [← hx]
              exact find_hash_mem _ _ _ _ _ _ hy
          · exact absurd hx (by simp)
        · exact absurd hx (by simp)
      · exact List.mem_append_left _ (List.mem_of_find?_eq_some hfound)
    split
    · exact same _
    · obtain ⟨s1, s2⟩ := store_entries s [] hi m
        { m with refcount := m.refcount - 1, reftime := now } hm rfl rfl
      exact inv_of_same_entries s _ [] s1 s2 rfl rfl rfl rfl rfl rfl hi

theorem mmc_cleanup_inv (s : Mmc) (now : Int) (hi : CacheInv s []) :
    CacheInv (mmc_cleanup s now) [] := by
  have hw := unmap_walk_inv
    (fun m => m.refcount == 0 && decide (now - m.reftime ≥ s.expire_age)) s [] hi
  have age : ∀ (s0 : Mmc) (a : Int), CacheInv s0 [] → CacheInv { s0 with expire_age := a } [] :=
    fun s0 a h => inv_of_same_entries s0 _ [] rfl rfl rfl rfl rfl rfl rfl rfl h
  unfold mmc_cleanup
  simp only
  apply trim_free_inv
  split
  · exact age _ _ hw
  · split
    · exact age _ _ hw
    · split
      · exact age _ _ hw
      · exact hw

theorem mmc_destroy_inv (s : Mmc) (hi : CacheInv s []) :
    CacheInv (mmc_destroy s) [] ∧ (mmc_destroy s).maps = [] ∧ (mmc_destroy s).free_maps = [] := by
  have hw := unmap_walk_inv (fun _ => true) s [] hi
  have hk : (unmap_walk (fun _ => true) s.maps s).1 = [] := by
    rw [unmap_walk_fst]; simp
  unfold mmc_destroy
  simp only
  obtain ⟨f1, f2, f3⟩ := free_all_inv _ _ rfl hw
  exact ⟨f1, f3.trans hk, f2⟩

theorem cache_inv_reachable (s : Mmc) (h : MmcReachable s) : CacheInv s [] := by
  induction h with
  | init =>
    exact ⟨rfl, rfl, rfl, rfl, by simp [mmc_init], by simp [mmc_init]⟩
  | map s sb now env _ ih => exact mmc_map_inv s sb now env ih
  | unmap s addr sbP now _ ih => exact mmc_unmap_inv s addr sbP now ih
  | cleanup s now _ ih => exact mmc_cleanup_inv s now ih
  | destroy s _ ih => exact (mmc_destroy_inv s ih).1

/-- C27: in every state of the cache reachable from its initial values by calls of
`mmc_map` (whatever the system answers during the call, so on each of its returns),
`mmc_unmap`, `mmc_cleanup` and `mmc_destroy`, `map_count` is the length of the active
list, `free_count` the length of the free list, `map_count + free_count = alloc_count`,
and `mapped_bytes` is the sum of the sizes of the active entries; `mmc_logstats` then
does not report that the counts do not add up, and `mmc_destroy` leaves both lists empty
and the three counters at zero. -/
theorem mmc_counters_add_up (s : Mmc) (h : MmcReachable s) :
    s.map_count = s.maps.length ∧ s.free_count = s.free_maps.length ∧
    s.map_count + s.free_count = s.alloc_count ∧
    s.mapped_bytes = (s.maps.map (fun m => (m.size : Int))).sum ∧
    mmc_logstats s = none ∧
    ((mmc_destroy s).maps = [] ∧ (mmc_destroy s).free_maps = [] ∧
      (mmc_destroy s).map_count = 0 ∧ (mmc_destroy s).free_count = 0 ∧
      (mmc_destroy s).alloc_count = 0 ∧ (mmc_destroy s).mapped_bytes = 0) := by
  have hi := cache_inv_reachable s h
  obtain ⟨d, d1, d2⟩ := mmc_destroy_inv s hi
  have c3 := hi.alloc
  simp only [List.length_nil, Int.ofNat_zero, add_zero] at c3
  have e1 := d.active
  have e2 := d.free
  have e3 := d.alloc
  have e4 := d.bytes
  rw [d1] at e1 e4
  rw [d2] at e2
  simp only [List.length_nil, Int.ofNat_zero, add_zero, List.map_nil, List.sum_nil] at e1 e2 e3 e4
  refine ⟨hi.active, hi.free, c3, hi.bytes, ?_, d1, d2, e1, e2, ?_, e4⟩
  · unfold mmc_logstats
    rw [if_neg (by simp [c3])]
  · omega

/-- C27 (witness): two files are mapped, one is released and really unmapped by
`mmc_cleanup`, and then a call of `mmc_map` takes the struct off the free list and frees
it because `mmap` fails: one struct is left, on the active list, with seven bytes. -/
theorem mmc_counters_add_up_witness :
    MmcReachable (mmc_map probe_chain_broken (stat_of 9 3 0) 700
      { env_ok 12288 with mmap_first := .failed }).2 ∧
    probe_chain_broken.alloc_count = 2 ∧ probe_chain_broken.free_count = 1 ∧
    (mmc_map probe_chain_broken (stat_of 9 3 0) 700
      { env_ok 12288 with mmap_first := .failed }).1 = none ∧
    (mmc_map probe_chain_broken (stat_of 9 3 0) 700
      { env_ok 12288 with mmap_first := .failed }).2.alloc_count = 1 ∧
    (mmc_map probe_chain_broken (stat_of 9 3 0) 700
      { env_ok 12288 with mmap_first := .failed }).2.map_count = 1 ∧
    (mmc_map probe_chain_broken (stat_of 9 3 0) 700
      { env_ok 12288 with mmap_first := .failed }).2.mapped_bytes = 7 ∧
    mmc_logstats (mmc_map probe_chain_broken (stat_of 9 3 0) 700
      { env_ok 12288 with mmap_first := .failed }).2 = none :=
  have hr : MmcReachable (mmc_map probe_chain_broken (stat_of 9 3 0) 700
      { env_ok 12288 with mmap_first := .failed }).2 :=
    MmcReachable.map _ _ _ _ (MmcReachable.cleanup _ 600 (MmcReachable.unmap _ 4096
      (some (stat_of 1 5 0)) 0 (MmcReachable.map _ (stat_of 131 7 0) 0 (env_ok 8192)
        (MmcReachable.map _ (stat_of 1 5 0) 0 (env_ok 4096) MmcReachable.init))))
  ⟨hr, by decide, by decide, by decide, by decide, by decide, by decide,
    (mmc_counters_add_up _ hr).2.2.2.2.1⟩

/-! ## C28: the send window lies inside the file -/

theorem parse_range_header_parsed (hc : HttpdConn) (buf : List Char) (hm : hc.mime_flag = true)
    (hp : RangeParsed hc) : RangeParsed (parse_range_header hc buf) := by
  obtain ⟨p1, p2, p3⟩ := hp
  unfold parse_range_header
  split
  · exact ⟨p1, p2, p3⟩
  · split
    · exact ⟨p1, p2, p3⟩
    · simp only
      split
      · exact ⟨p1, p2, p3⟩
      · split
        · exact ⟨p1, p2, p3⟩
        · split
          · refine ⟨?_, ?_, fun _ => hm⟩
            · show (0 : Int) ≤ (if _ then (0 : Int) else _)
              split <;> omega
            · show (-1 : Int) ≤ (if _ then (-1 : Int) else _)
              split <;> omega
          · refine ⟨?_, p2, fun _ => hm⟩
            show (0 : Int) ≤ (if _ then (0 : Int) else _)
            split <;> omega

theorem send_mime_range (hc : HttpdConn) (clock : Clock) (status : Int)
    (title encodings extraheads fixed_type : List Char) (length : Int) (mod : Int)
    (hmime : hc.got_range = true → hc.mime_flag = true) :
    (send_mime hc clock status title encodings extraheads fixed_type length mod).first_byte_index
      = hc.first_byte_index ∧
    (send_mime hc clock status title encodings extraheads fixed_type length mod).last_byte_index
      = hc.last_byte_index ∧
    (send_mime hc clock status title encodings extraheads fixed_type length mod).bytes_to_send
      = length ∧
    (send_mime hc clock status title encodings extraheads fixed_type length mod).bytes_sent
      = hc.bytes_sent ∧
    (send_mime hc clock status title encodings extraheads fixed_type length mod).file_address
      = hc.file_address ∧
    ((send_mime hc clock status title encodings extraheads fixed_type length mod).got_range = true
      → partial_content hc status length = true) ∧
    ((send_mime hc clock status title encodings extraheads fixed_type length mod).status = 206
      → status = 206 ∨ partial_content hc status length = true) := by
  unfold send_mime
  split
  · simp only
    split
    · rename_i h
      exact ⟨rfl, rfl, rfl, rfl, rfl, fun _ => h, fun _ => Or.inr h⟩
    · exact ⟨rfl, rfl, rfl, rfl, rfl, fun h => absurd h (by simp), fun h => Or.inl h⟩
  · rename_i hm
    refine ⟨rfl, rfl, rfl, rfl, rfl, fun h => ?_, fun h => Or.inl h⟩
    exact absurd (hmime h) hm

theorem partial_content_window (hc : HttpdConn) (length : Int)
    (h : partial_content hc 200 length = true) :
    hc.first_byte_index ≤ hc.last_byte_index := by
  unfold partial_content at h
  simp only [Bool.and_eq_true, decide_eq_true_eq] at h
  omega

theorem send_mime_window (hf : HttpdConn) (S : Nat) (clock : Clock) (status : Int)
    (title encodings extraheads fixed_type : List Char) (length : Int) (mod : Int)
    (h1 : 0 ≤ hf.first_byte_index) (h2 : hf.got_range = true → hf.last_byte_index ≤ (S : Int) - 1)
    (h3 : hf.got_range = true → hf.mime_flag = true)
    (hs : (status = 200 ∧ length = S) ∨ (status = 304 ∧ length = -1)) :
    ((send_mime hf clock status title encodings extraheads fixed_type length mod).status = 206
      → 0 ≤ (send_mime hf clock status title encodings extraheads fixed_type length
              mod).first_byte_index ∧
        (send_mime hf clock status title encodings extraheads fixed_type length
              mod).first_byte_index
          ≤ (send_mime hf clock status title encodings extraheads fixed_type length
              mod).last_byte_index ∧
        (send_mime hf clock status title encodings extraheads fixed_type length
              mod).last_byte_index ≤ (S : Int) - 1) ∧
    ((send_mime hf clock status title encodings extraheads fixed_type length mod).got_range
        = true
      → 0 ≤ (send_mime hf clock status title encodings extraheads fixed_type length
              mod).first_byte_index ∧
        (send_mime hf clock status title encodings extraheads fixed_type length
              mod).first_byte_index
          ≤ (send_mime hf clock status title encodings extraheads fixed_type length
              mod).last_byte_index ∧
        (send_mime hf clock status title encodings extraheads fixed_type length
              mod).last_byte_index ≤ (S : Int) - 1) ∧
    ((send_mime hf clock status title encodings extraheads fixed_type length mod).bytes_to_send
        = S ∨
      (send_mime hf clock status title encodings extraheads fixed_type length mod).bytes_to_send
        = -1) ∧
    (send_mime hf clock status title encodings extraheads fixed_type length mod).bytes_sent
      = hf.bytes_sent ∧
    (send_mime hf clock status title encodings extraheads fixed_type length mod).file_address
      = hf.file_address := by
  obtain ⟨e1, e2, e3, e4, e5, e6, e7⟩ :=
    send_mime_range hf clock status title encodings extraheads fixed_type length mod h3
  have hpart : partial_content hf status length = true →
      0 ≤ hf.first_byte_index ∧ hf.first_byte_index ≤ hf.last_byte_index ∧
        hf.last_byte_index ≤ (S : Int) - 1 := by
    intro hp
    have hg : hf.got_range = true := by
      unfold partial_content at hp
      simp only [Bool.and_eq_true] at hp
      exact hp.1.1.1.2
    have hfl : hf.first_byte_index ≤ hf.last_byte_index := by
      unfold partial_content at hp
      simp only [Bool.and_eq_true, decide_eq_true_eq] at hp
      omega
    exact ⟨h1, hfl, h2 hg⟩
  rw [e1, e2, e3, e4, e5]
  refine ⟨fun h => ?_, fun h => hpart (e6 h), ?_, rfl, rfl⟩
  · rcases e7 h with h206 | hp
    · rcases hs with ⟨hs, -⟩ | ⟨hs, -⟩ <;> omega
    · exact hpart hp
  · rcases hs with ⟨-, hs⟩ | ⟨-, hs⟩
    · exact Or.inl hs
    · exact Or.inr hs

theorem really_start_request_window (hc : HttpdConn) (cache : Mmc) (now : Int)
    (env : StartEnv) (hp : RangeParsed hc)
    (hok : (really_start_request hc cache now env).1 = 0) :
    ((really_start_request hc cache now env).2.1.status = 206
      → 0 ≤ (really_start_request hc cache now env).2.1.first_byte_index ∧
        (really_start_request hc cache now env).2.1.first_byte_index
          ≤ (really_start_request hc cache now env).2.1.last_byte_index ∧
        (really_start_request hc cache now env).2.1.last_byte_index
          ≤ (hc.sb.st_size : Int) - 1) ∧
    ((really_start_request hc cache now env).2.1.got_range = true
      → 0 ≤ (really_start_request hc cache now env).2.1.first_byte_index ∧
        (really_start_request hc cache now env).2.1.first_byte_index
          ≤ (really_start_request hc cache now env).2.1.last_byte_index ∧
        (really_start_request hc cache now env).2.1.last_byte_index
          ≤ (hc.sb.st_size : Int) - 1) ∧
    ((really_start_request hc cache now env).2.1.bytes_to_send = hc.sb.st_size ∨
      (really_start_request hc cache now env).2.1.bytes_to_send = -1) ∧
    (really_start_request hc cache now env).2.1.bytes_sent = hc.bytes_sent := by
  obtain ⟨p1, p2, p3⟩ := hp
  -- the connection after `last_byte_index` is filled in and `figure_mime` has run
  obtain ⟨hf, hfdef⟩ : ∃ hf : HttpdConn, hf =
      { (if hc.got_range ∧ (hc.last_byte_index = -1 ∨ hc.last_byte_index ≥ hc.sb.st_size) then
          { hc with last_byte_index := (hc.sb.st_size : Int) - 1 }
        else hc) with type := env.figured_type, encodings := env.figured_encodings } :=
    ⟨_, rfl⟩
  have f1 : hf.first_byte_index = hc.first_byte_index := by
    rw [hfdef]; simp only; split <;> rfl
  have f2 : hf.got_range = hc.got_range := by
    rw [hfdef]; simp only; split <;> rfl
  have f3 : hf.mime_flag = hc.mime_flag := by
    rw [hfdef]; simp only; split <;> rfl
  have f4 : hf.sb = hc.sb := by
    rw [hfdef]; simp only; split <;> rfl
  have f5 : hf.bytes_sent = hc.bytes_sent := by
    rw [hfdef]; simp only; split <;> rfl
  have f6 : hf.got_range = true → hf.last_byte_index ≤ (hc.sb.st_size : Int) - 1 := by
    intro hg
    rw [f2] at hg
    rw [hfdef]
    simp only
    split
    · exact le_refl _
    · rename_i hn
      simp only [hg, true_and, not_or, not_le] at hn
      show hc.last_byte_index ≤ _
      omega
  have key : ∀ (x : HttpdConn), x.first_byte_index = hf.first_byte_index →
      x.last_byte_index = hf.last_byte_index → x.got_range = hf.got_range →
      x.mime_flag = hf.mime_flag → x.bytes_sent = hf.bytes_sent →
      ∀ (status : Int) (title encodings extraheads ft : List Char) (length mod : Int),
      ((status = 200 ∧ length = hc.sb.st_size) ∨ (status = 304 ∧ length = -1)) →
      _ := fun x x1 x2 x3 x4 x5 status title encodings extraheads ft length mod hs =>
    send_mime_window x hc.sb.st_size env.clock status title encodings extraheads ft length mod
      (by rw [x1, f1]; exact p1) (by rw [x3, x2]; exact f6)
      (by rw [x3, x4, f2, f3]; exact p3) hs
  have heq : really_start_request hc cache now env =
      if hc.method ≠ .GET ∧ hc.method ≠ .HEAD then
        (-1, httpd_send_err hc env 501 "Not Implemented".toList, cache)
      else if hf.method = .HEAD then
        (0, send_mime hf env.clock 200 "OK".toList hf.encodings [] (fixed_type hf.hs hf.type)
              hf.sb.st_size hf.st_mtime, cache)
      else if hf.if_modified_since ≠ -1 ∧ hf.if_modified_since ≥ hf.st_mtime then
        (0, send_mime hf env.clock 304 "Not Modified".toList hf.encodings []
              (fixed_type hf.hs hf.type) (-1) hf.st_mtime, cache)
      else
        match (mmc_map cache hf.sb now env.map_env).1 with
        | none => (-1, httpd_send_err hf env 500 "Internal Error".toList,
            (mmc_map cache hf.sb now env.map_env).2)
        | some a =>
          (0, send_mime { hf with file_address := some a } env.clock 200 "OK".toList
                hf.encodings [] (fixed_type hf.hs hf.type) hf.sb.st_size hf.st_mtime,
            (mmc_map cache hf.sb now env.map_env).2) := by
    rw [hfdef]
    rfl
  rw [heq] at hok ⊢
  clear heq hfdef
  split at hok
  · simp at hok
  · rename_i hmeth
    rw [if_neg hmeth]
    split
    · obtain ⟨k1, k2, k3, k4, -⟩ := key hf rfl rfl rfl rfl rfl 200 "OK".toList hf.encodings []
        (fixed_type hf.hs hf.type) hf.sb.st_size hf.st_mtime (Or.inl ⟨rfl, by rw [f4]⟩)
      exact ⟨k1, k2, k3, k4.trans f5⟩
    · rename_i hhead
      rw [if_neg hhead] at hok
      split
      · obtain ⟨k1, k2, k3, k4, -⟩ := key hf rfl rfl rfl rfl rfl 304 "Not Modified".toList
          hf.encodings [] (fixed_type hf.hs hf.type) (-1) hf.st_mtime (Or.inr ⟨rfl, rfl⟩)
        exact ⟨k1, k2, k3, k4.trans f5⟩
      · rename_i hims
        rw [if_neg hims] at hok
        split
        · rename_i hnone
          rw [hnone] at hok
          simp at hok
        · rename_i a hsome
          obtain ⟨k1, k2, k3, k4, -⟩ := key { hf with file_address := some a } rfl rfl rfl rfl
            rfl 200 "OK".toList hf.encodings [] (fixed_type hf.hs hf.type) hf.sb.st_size
            hf.st_mtime (Or.inl ⟨rfl, by rw [f4]⟩)
          exact ⟨k1, k2, k3, k4.trans f5⟩

theorem handle_read_start_window (c : Connecttab) (throttles : List Throttle) (now : Int)
    (S : Nat) (hn : c.next_byte_index = 0) (hb : c.hc.bytes_sent = 0)
    (hr : c.hc.got_range = true →
      0 ≤ c.hc.first_byte_index ∧ c.hc.first_byte_index ≤ c.hc.last_byte_index ∧
        c.hc.last_byte_index ≤ (S : Int) - 1)
    (hl : c.hc.bytes_to_send = S ∨ c.hc.bytes_to_send = -1) :
    0 ≤ (handle_read_start c throttles now).1.next_byte_index ∧
    (handle_read_start c throttles now).1.next_byte_index
      ≤ (handle_read_start c throttles now).1.end_byte_index ∧
    (handle_read_start c throttles now).1.end_byte_index ≤ S := by
  obtain ⟨w, hw⟩ : ∃ w : Connecttab, w =
      (if c.hc.got_range then
        { c with next_byte_index := c.hc.first_byte_index,
                 end_byte_index := c.hc.last_byte_index + 1 }
      else if c.hc.bytes_to_send < 0 then { c with end_byte_index := 0 }
      else { c with end_byte_index := c.hc.bytes_to_send }) := ⟨_, rfl⟩
  have hwin : 0 ≤ w.next_byte_index ∧ w.next_byte_index ≤ w.end_byte_index ∧
      w.end_byte_index ≤ S ∧ 0 ≤ w.end_byte_index := by
    rw [hw]
    split
    · rename_i hg
      obtain ⟨r1, r2, r3⟩ := hr hg
      exact ⟨r1, by show c.hc.first_byte_index ≤ c.hc.last_byte_index + 1; omega,
        by show c.hc.last_byte_index + 1 ≤ (S : Int); omega,
        by show 0 ≤ c.hc.last_byte_index + 1; omega⟩
    · split
      · exact ⟨by show 0 ≤ c.next_byte_index; omega, by show c.next_byte_index ≤ 0; omega,
          by show (0 : Int) ≤ S; omega, le_refl _⟩
      · rename_i hlt
        refine ⟨by show 0 ≤ c.next_byte_index; omega,
          by show c.next_byte_index ≤ c.hc.bytes_to_send; omega,
          by show c.hc.bytes_to_send ≤ (S : Int); omega,
          by show 0 ≤ c.hc.bytes_to_send; omega⟩
  have heq : handle_read_start c throttles now =
      if c.hc.file_address = none then
        ({ w with next_byte_index := c.hc.bytes_sent },
          add_bytes_since_avg throttles w.tnums c.hc.bytes_sent, .finish_connection)
      else if w.next_byte_index ≥ w.end_byte_index then (w, throttles, .finish_connection)
      else
        ({ w with conn_state := .CNST_SENDING, started_at := now, wouldblock_delay := 0 },
          throttles, .stays) := by
    rw [hw]
    rfl
  rw [heq]
  obtain ⟨w1, w2, w3, w4⟩ := hwin
  split
  · exact ⟨by show 0 ≤ c.hc.bytes_sent; omega, by show c.hc.bytes_sent ≤ w.end_byte_index; omega,
      w3⟩
  · split
    · exact ⟨w1, w2, w3⟩
    · exact ⟨w1, w2, w3⟩

theorem pace_window (c : Connecttab) (now du : Int) :
    (pace c now du).1.next_byte_index = c.next_byte_index ∧
    (pace c now du).1.end_byte_index = c.end_byte_index := by
  unfold pace
  simp only
  split <;> split <;> (try split) <;> (try split) <;> exact ⟨rfl, rfl⟩

theorem to_size_t_le (n : Int) (h : 0 ≤ n) : ((to_size_t n : Nat) : Int) ≤ n := by
  unfold to_size_t
  have h1 : 0 ≤ n % (2 : Int) ^ 64 := Int.emod_nonneg _ (by norm_num)
  rw [Int.toNat_of_nonneg h1]
  omega

theorem file_bytes_offered_le (c : Connecttab) (h : c.next_byte_index ≤ c.end_byte_index) :
    c.next_byte_index + (file_bytes_offered c : Int) ≤ c.end_byte_index := by
  have h1 := to_size_t_le (c.end_byte_index - c.next_byte_index) (by omega)
  have h2 : file_bytes_offered c ≤ to_size_t (c.end_byte_index - c.next_byte_index) :=
    Nat.min_le_left _ _
  omega

theorem count_written_window (c : Connecttab) (ts : List Throttle) (now : Int) (sz : Nat)
    (h : c.next_byte_index ≤ c.end_byte_index)
    (hw : sz ≤ c.hc.responselen + file_bytes_offered c) :
    c.next_byte_index ≤ (count_written c ts now sz).1.next_byte_index ∧
    (count_written c ts now sz).1.next_byte_index ≤ c.end_byte_index ∧
    (count_written c ts now sz).1.end_byte_index = c.end_byte_index := by
  have hf := file_bytes_offered_le c h
  unfold count_written
  simp only
  refine ⟨?_, ?_, by trivial⟩
  · split <;> (try split) <;> omega
  · split <;> (try split) <;> omega

theorem handle_send_window (c : Connecttab) (throttles : List Throttle) (file : List Char)
    (now : Int) (w : WriteResult) (delay_unit : Int)
    (h : c.next_byte_index ≤ c.end_byte_index)
    (hw : ∀ sz, w = .wrote sz → sz ≤ c.hc.responselen + file_bytes_offered c) :
    c.next_byte_index ≤ (handle_send c throttles file now w delay_unit).c.next_byte_index ∧
    (handle_send c throttles file now w delay_unit).c.next_byte_index ≤ c.end_byte_index ∧
    (handle_send c throttles file now w delay_unit).c.end_byte_index = c.end_byte_index := by
  cases w with
  | eintr => exact ⟨le_refl _, h, rfl⟩
  | failed => exact ⟨le_refl _, h, rfl⟩
  | ewouldblock => exact ⟨le_refl _, h, rfl⟩
  | wrote sz =>
    cases sz with
    | zero => exact ⟨le_refl _, h, rfl⟩
    | succ n =>
      obtain ⟨c1, c2, c3⟩ := count_written_window c throttles now (n + 1) h (hw _ rfl)
      rw [handle_send_wrote_eq]
      split
      · exact ⟨c1, c2, c3⟩
      · obtain ⟨p1, p2⟩ := pace_window (count_written c throttles now (n + 1)).1 now delay_unit
        exact ⟨by simp only [p1]; exact c1, by simp only [p1]; exact c2,
          by simp only [p2]; exact c3⟩

/-- C28: let the range fields of the connection be as the header loop of
`httpd_parse_request` leaves them (`RangeParsed`: any first and last index, a range got
or not), with nothing sent yet, and let `really_start_request` return 0 for a file of
`st_size` bytes. Then a 206 answer implies `0 ≤ first_byte_index ≤ last_byte_index ≤
st_size - 1`, and the window that `handle_read` sets up satisfies
`0 ≤ next_byte_index ≤ end_byte_index ≤ st_size`. A call of `handle_send` on a window with
`0 ≤ next_byte_index ≤ end_byte_index ≤ S`, in which `write` or `writev` accepts at most
the bytes requested, offers file bytes at offsets from `next_byte_index` up to below
`end_byte_index` only, and leaves such a window with the same `end_byte_index`. -/
theorem send_window_inside_file (hc : HttpdConn) (cache : Mmc) (now : Int) (env : StartEnv)
    (c : Connecttab) (throttles : List Throttle)
    (c2 : Connecttab) (throttles2 : List Throttle) (file : List Char) (now2 : Int)
    (w : WriteResult) (delay_unit : Int) (S : Nat)
    (hp : RangeParsed hc) (hb : hc.bytes_sent = 0) (hn : c.next_byte_index = 0)
    (hok : (really_start_request hc cache now env).1 = 0)
    (h2 : 0 ≤ c2.next_byte_index ∧ c2.next_byte_index ≤ c2.end_byte_index ∧
      c2.end_byte_index ≤ S)
    (hw : ∀ sz, w = .wrote sz → sz ≤ c2.hc.responselen + file_bytes_offered c2) :
    ((really_start_request hc cache now env).2.1.status = 206
      → 0 ≤ (really_start_request hc cache now env).2.1.first_byte_index ∧
        (really_start_request hc cache now env).2.1.first_byte_index
          ≤ (really_start_request hc cache now env).2.1.last_byte_index ∧
        (really_start_request hc cache now env).2.1.last_byte_index
          ≤ (hc.sb.st_size : Int) - 1) ∧
    (0 ≤ (handle_read_start { c with hc := (really_start_request hc cache now env).2.1 }
            throttles now).1.next_byte_index ∧
      (handle_read_start { c with hc := (really_start_request hc cache now env).2.1 }
            throttles now).1.next_byte_index
        ≤ (handle_read_start { c with hc := (really_start_request hc cache now env).2.1 }
            throttles now).1.end_byte_index ∧
      (handle_read_start { c with hc := (really_start_request hc cache now env).2.1 }
            throttles now).1.end_byte_index ≤ hc.sb.st_size) ∧
    (c2.next_byte_index + (file_bytes_offered c2 : Int) ≤ c2.end_byte_index ∧
      0 ≤ (handle_send c2 throttles2 file now2 w delay_unit).c.next_byte_index ∧
      (handle_send c2 throttles2 file now2 w delay_unit).c.next_byte_index
        ≤ (handle_send c2 throttles2 file now2 w delay_unit).c.end_byte_index ∧
      (handle_send c2 throttles2 file now2 w delay_unit).c.end_byte_index ≤ S ∧
      (handle_send c2 throttles2 file now2 w delay_unit).c.end_byte_index
        = c2.end_byte_index) := by
  obtain ⟨r1, r2, r3, r4⟩ := really_start_request_window hc cache now env hp hok
  obtain ⟨s1, s2, s3⟩ := handle_send_window c2 throttles2 file now2 w delay_unit h2.2.1 hw
  refine ⟨r1, ?_, file_bytes_offered_le c2 h2.2.1, by omega, by omega, by omega, s3⟩
  exact handle_read_start_window _ throttles now hc.sb.st_size hn (r4.trans hb) r2 r3

/-- C28 (witness): the header `Range: bytes=2-20` on a file of ten bytes gives a 206
answer for the bytes 2 to 9 and the window from 2 to 10; and a connection that has sent
5000 of 9000 bytes and writes 250 more stays inside its window. -/
theorem send_window_inside_file_witness :
    RangeParsed (parse_range_header (sample_conn 10) (range_line 2 20)) ∧
    (really_start_request (parse_range_header (sample_conn 10) (range_line 2 20)) mmc_init 0
      sample_env).2.1.status = 206 ∧
    (handle_read_start { sample_connecttab (sample_conn 10) with
        hc := (really_start_request (parse_range_header (sample_conn 10) (range_line 2 20))
          mmc_init 0 sample_env).2.1 } [] 0).1.next_byte_index = 2 ∧
    (handle_read_start { sample_connecttab (sample_conn 10) with
        hc := (really_start_request (parse_range_header (sample_conn 10) (range_line 2 20))
          mmc_init 0 sample_env).2.1 } [] 0).1.end_byte_index = 10 ∧
    (handle_send hasty_connecttab [] (List.replicate 9000 'x') 0 (.wrote 250) 100).c.next_byte_index
      ≤ (handle_send hasty_connecttab [] (List.replicate 9000 'x') 0 (.wrote 250)
          100).c.end_byte_index :=
  have h := send_window_inside_file (parse_range_header (sample_conn 10) (range_line 2 20))
    mmc_init 0 sample_env (sample_connecttab (sample_conn 10)) []
    hasty_connecttab [] (List.replicate 9000 'x') 0 (.wrote 250) 100 9000
    (parse_range_header_parsed _ _ rfl ⟨by decide, by decide, by decide⟩) (by decide) rfl
    (by decide) ⟨by decide, by decide, by decide⟩ (fun sz hsz => by cases hsz; decide)
  ⟨parse_range_header_parsed _ _ rfl ⟨by decide, by decide, by decide⟩, by decide, by decide,
    by decide, h.2.2.2.2.1⟩

/-! ## C29: the measured rate of an idle throttle -/

theorem senders_set (connects : List Connecttab) (cnum : Nat) (c c1 : Connecttab)
    (tnum : Nat) (h : connects[cnum]? = some c) :
    senders (connects.set cnum c1) tnum + (if sends_under tnum c then 1 else 0)
      = senders connects tnum + (if sends_under tnum c1 then 1 else 0) := by
  obtain ⟨hlt, hget⟩ := List.getElem?_eq_some_iff.1 h
  have h1 : connects = connects.take cnum ++ c :: connects.drop (cnum + 1) := by
    rw [← hget, ← List.drop_eq_getElem_cons hlt, List.take_append_drop]
  have h2 : connects.set cnum c1 = connects.take cnum ++ c1 :: connects.drop (cnum + 1) := by
    rw [List.set_eq_take_append_cons_drop, if_pos hlt]
  unfold senders
  rw [h2]
  conv_rhs => rw [h1]
  simp only [List.countP_append, List.countP_cons]
  omega

theorem bind_throttle_state (t : Throttle) (tnum : Nat) (c : Connecttab) :
    (bind_throttle t tnum c).2.conn_state = c.conn_state := by
  unfold bind_throttle
  simp only
  split_ifs <;> rfl

theorem check_throttles_loop_counts (mtch : List Char → List Char → Bool) (maxnums : Nat)
    (fname : List Char) (fuel tnum : Nat) (c : Connecttab) (ts : List Throttle)
    (hnn : ∀ t ∈ ts, 0 ≤ t.num_sending) :
    ∃ bound : List Nat,
      (check_throttles_loop mtch maxnums fname fuel tnum c ts).2.1.tnums = c.tnums ++ bound ∧
      bound.Nodup ∧ (∀ i ∈ bound, tnum ≤ i ∧ i < ts.length) ∧
      (check_throttles_loop mtch maxnums fname fuel tnum c ts).2.2.length = ts.length ∧
      (∀ i t, ts[i]? = some t →
        ∃ t1, (check_throttles_loop mtch maxnums fname fuel tnum c ts).2.2[i]? = some t1 ∧
          t1.num_sending = t.num_sending + (if i ∈ bound then 1 else 0)) ∧
      (check_throttles_loop mtch maxnums fname fuel tnum c ts).2.1.conn_state
        = c.conn_state := by
  have base : ∀ (tnum : Nat) (c : Connecttab) (ts : List Throttle) (b : Bool),
      ∃ bound : List Nat, c.tnums = c.tnums ++ bound ∧ bound.Nodup ∧
        (∀ i ∈ bound, tnum ≤ i ∧ i < ts.length) ∧ ts.length = ts.length ∧
        (∀ i t, ts[i]? = some t →
          ∃ t1, ts[i]? = some t1 ∧
            t1.num_sending = t.num_sending + (if i ∈ bound then 1 else 0)) ∧
        c.conn_state = c.conn_state :=
    fun _ c ts _ => ⟨[], by simp, List.nodup_nil, by simp, rfl,
      fun i t h => ⟨t, h, by simp⟩, rfl⟩
  induction fuel generalizing tnum c ts with
  | zero => exact base tnum c ts true
  | succ fuel ih =>
    unfold check_throttles_loop
    split
    · exact base tnum c ts true
    · rename_i t ht
      split
      · split
        · split
          · exact base tnum c ts false
          · split
            · exact base tnum c ts false
            · obtain ⟨hlt, hget⟩ := List.getElem?_eq_some_iff.1 ht
              have hb1 := bind_throttle_fst t tnum c
              have hnum : (bind_throttle t tnum c).1.num_sending = t.num_sending + 1 := by
                rw [hb1]
                have := hnn t (List.getElem?_mem ht)
                simp only
                rw [if_neg (by omega)]
              have hnn2 : ∀ u ∈ ts.set tnum (bind_throttle t tnum c).1, 0 ≤ u.num_sending := by
                intro u hu
                rcases List.mem_or_eq_of_mem_set hu with hu | hu
                · exact hnn u hu
                · rw [hu, hnum]
                  have := hnn t (List.getElem?_mem ht)
                  omega
              obtain ⟨bound, b1, b2, b3, b4, b5, b6⟩ := ih (tnum + 1) (bind_throttle t tnum c).2
                (ts.set tnum (bind_throttle t tnum c).1) hnn2
              have hnot : tnum ∉ bound := fun hmem => by
                have := (b3 tnum hmem).1
                omega
              refine ⟨tnum :: bound, ?_, ?_, ?_, ?_, ?_, ?_⟩
              · rw [b1, bind_throttle_tnums, List.append_assoc]
                rfl
              · exact List.nodup_cons.2 ⟨hnot, b2⟩
              · intro i hi
                rcases List.mem_cons.1 hi with hi | hi
                · rw [hi]; exact ⟨le_refl _, hlt⟩
                · have := b3 i hi
                  rw [List.length_set] at this
                  exact ⟨by omega, this.2⟩
              · rw [b4, List.length_set]
              · intro i u hu
                by_cases hi : i = tnum
                · subst hi
                  rw [ht] at hu
                  simp only [Option.some.injEq] at hu
                  subst hu
                  obtain ⟨t1, g1, g2⟩ := b5 i (bind_throttle t i c).1
                    (by rw [List.getElem?_set_self hlt])
                  refine ⟨t1, g1, ?_⟩
                  rw [g2, hnum, if_neg hnot]
                  simp
                · obtain ⟨t1, g1, g2⟩ := b5 i u
                    (by rw [List.getElem?_set_ne (Ne.symm hi)]; exact hu)
                  refine ⟨t1, g1, ?_⟩
                  rw [g2]
                  simp [hi]
              · rw [b6, bind_throttle_state]
        · obtain ⟨bound, b1, b2, b3, b4, b5, b6⟩ := ih (tnum + 1) c ts hnn
          exact ⟨bound, b1, b2, fun i hi => ⟨by have := (b3 i hi).1; omega, (b3 i hi).2⟩,
            b4, b5, b6⟩
      · exact base tnum c ts true

theorem dec_fold_counts (l : List Nat) (ts : List Throttle) (hnd : l.Nodup) :
    (l.foldl (fun ts tnum =>
        ts.modify (fun t => { t with num_sending := t.num_sending - 1 }) tnum) ts).length
      = ts.length ∧
    ∀ i t, ts[i]? = some t →
      ∃ t1, (l.foldl (fun ts tnum =>
          ts.modify (fun t => { t with num_sending := t.num_sending - 1 }) tnum) ts)[i]?
          = some t1 ∧
        t1.num_sending = t.num_sending - (if i ∈ l then 1 else 0) := by
  induction l generalizing ts with
  | nil => exact ⟨rfl, fun i t h => ⟨t, h, by simp⟩⟩
  | cons a rest ih =>
    obtain ⟨hna, hnr⟩ := List.nodup_cons.1 hnd
    obtain ⟨i1, i2⟩ := ih (ts.modify (fun t => { t with num_sending := t.num_sending - 1 }) a)
      hnr
    simp only [List.foldl_cons]
    refine ⟨by rw [i1, List.length_modify], ?_⟩
    intro i t ht
    by_cases hi : a = i
    · subst hi
      obtain ⟨t1, g1, g2⟩ := i2 a { t with num_sending := t.num_sending - 1 }
        (by rw [List.getElem?_modify, ht]; simp)
      refine ⟨t1, g1, ?_⟩
      rw [g2, if_neg hna]
      simp
    · obtain ⟨t1, g1, g2⟩ := i2 i t (by rw [List.getElem?_modify, ht]; simp [hi])
      refine ⟨t1, g1, ?_⟩
      rw [g2]
      have : i ≠ a := fun h => hi h.symm
      simp [this]

theorem clear_throttles_counts (c : Connecttab) (ts : List Throttle) (hnd : c.tnums.Nodup) :
    (clear_throttles c ts).length = ts.length ∧
    ∀ i t, ts[i]? = some t →
      ∃ t1, (clear_throttles c ts)[i]? = some t1 ∧
        t1.num_sending = t.num_sending - (if i ∈ c.tnums then 1 else 0) :=
  dec_fold_counts c.tnums ts hnd

theorem add_bytes_since_avg_counts (ts : List Throttle) (l : List Nat) (n : Int) :
    (add_bytes_since_avg ts l n).length = ts.length ∧
    ∀ (i : Nat) (t : Throttle), ts[i]? = some t →
      ∃ t1 : Throttle, (add_bytes_since_avg ts l n)[i]? = some t1 ∧
        t1.num_sending = t.num_sending := by
  unfold add_bytes_since_avg
  induction l generalizing ts with
  | nil => exact ⟨rfl, fun i t h => ⟨t, h, rfl⟩⟩
  | cons a rest ih =>
    obtain ⟨i1, i2⟩ := ih (ts.modify (fun th => { th with bytes_since_avg := th.bytes_since_avg + n }) a)
    simp only [List.foldl_cons]
    refine ⟨by rw [i1, List.length_modify], ?_⟩
    intro i t ht
    by_cases hi : a = i
    · subst hi
      obtain ⟨t1, g1, g2⟩ := i2 a { t with bytes_since_avg := t.bytes_since_avg + n }
        (by rw [List.getElem?_modify, ht]; simp)
      exact ⟨t1, g1, g2⟩
    · obtain ⟨t1, g1, g2⟩ := i2 i t (by rw [List.getElem?_modify, ht]; simp [hi])
      exact ⟨t1, g1, g2⟩

theorem sends_under_iff (tnum : Nat) (c : Connecttab) (h : c.conn_state ≠ .CNST_FREE) :
    sends_under tnum c = true ↔ tnum ∈ c.tnums := by
  unfold sends_under
  simp [h]

theorem sends_under_free (tnum : Nat) (c : Connecttab) (h : c.conn_state = .CNST_FREE) :
    sends_under tnum c = false := by
  unfold sends_under
  simp [h]

theorem sends_under_none (tnum : Nat) (c : Connecttab) (h : c.tnums = []) :
    sends_under tnum c = false := by
  unfold sends_under
  simp [h]

theorem handled_inv (s : Server) (cnum : Nat) (c c1 : Connecttab) (ts1 : List Throttle)
    (hi : SendersInv s) (hc : s.connects[cnum]? = some c)
    (hlen : ts1.length = s.throttles.length)
    (hnum : ∀ i t, s.throttles[i]? = some t →
      ∃ t1, ts1[i]? = some t1 ∧
        t1.num_sending + (if sends_under i c then 1 else 0)
          = t.num_sending + (if sends_under i c1 then 1 else 0))
    (hread : c1.conn_state = .CNST_READING → c1.tnums = [])
    (hbound : c1.conn_state ≠ .CNST_FREE →
      c1.tnums.Nodup ∧ ∀ tnum ∈ c1.tnums, tnum < s.throttles.length) :
    SendersInv (s.handled cnum (c1, ts1)) := by
  obtain ⟨e1, e2, e3⟩ := hi
  unfold Server.handled
  constructor
  · intro tnum t1 ht1
    have hlt : tnum < s.throttles.length := by
      have := (List.getElem?_eq_some_iff.1 ht1).1
      simp only at this
      omega
    obtain ⟨t2, g1, g2⟩ := hnum tnum _ (List.getElem?_eq_getElem hlt)
    simp only at ht1
    rw [ht1] at g1
    simp only [Option.some.injEq] at g1
    subst g1
    have h1 := e1 tnum _ (List.getElem?_eq_getElem hlt)
    have h2 := senders_set s.connects cnum c c1 tnum hc
    simp only
    cases hs : sends_under tnum c <;> cases hs1 : sends_under tnum c1 <;>
      simp only [hs, hs1, if_true, if_false, Bool.false_eq_true] at g2 h2 <;> omega
  · intro x hx hstate
    rcases List.mem_or_eq_of_mem_set hx with hx | hx
    · exact e2 x hx hstate
    · rw [hx] at hstate ⊢
      exact hread hstate
  · intro x hx hstate
    simp only [hlen]
    rcases List.mem_or_eq_of_mem_set hx with hx | hx
    · exact e3 x hx hstate
    · rw [hx] at hstate ⊢
      exact hbound hstate

theorem really_clear_step (c : Connecttab) (ts : List Throttle)
    (hfree : c.conn_state ≠ .CNST_FREE) (hnd : c.tnums.Nodup) :
    (really_clear_connection_throttles c ts).2.length = ts.length ∧
    (∀ (i : Nat) (t : Throttle), ts[i]? = some t →
      ∃ t1 : Throttle, (really_clear_connection_throttles c ts).2[i]? = some t1 ∧
        t1.num_sending + (if sends_under i c then 1 else 0)
          = t.num_sending
            + (if sends_under i (really_clear_connection_throttles c ts).1 then 1 else 0)) ∧
    (really_clear_connection_throttles c ts).1.conn_state = .CNST_FREE := by
  obtain ⟨h1, h2⟩ := clear_throttles_counts c ts hnd
  refine ⟨h1, ?_, rfl⟩
  intro i t ht
  obtain ⟨t1, g1, g2⟩ := h2 i t ht
  refine ⟨t1, g1, ?_⟩
  have hs1 : sends_under i (really_clear_connection_throttles c ts).1 = false :=
    sends_under_free _ _ rfl
  rw [hs1, g2]
  by_cases hm : i ∈ c.tnums
  · rw [(sends_under_iff i c hfree).2 hm]
    simp [hm]
  · have : sends_under i c = false := by
      rw [← Bool.not_eq_true]
      exact fun h => hm ((sends_under_iff i c hfree).1 h)
    rw [this]
    simp [hm]

theorem clear_step (c : Connecttab) (ts : List Throttle) (should_linger : Bool)
    (hfree : c.conn_state ≠ .CNST_FREE) (hnd : c.tnums.Nodup) :
    (clear_connection c ts should_linger).2.length = ts.length ∧
    (∀ (i : Nat) (t : Throttle), ts[i]? = some t →
      ∃ t1 : Throttle, (clear_connection c ts should_linger).2[i]? = some t1 ∧
        t1.num_sending + (if sends_under i c then 1 else 0)
          = t.num_sending
            + (if sends_under i (clear_connection c ts should_linger).1 then 1 else 0)) ∧
    (clear_connection c ts should_linger).1.conn_state ≠ .CNST_READING ∧
    (clear_connection c ts should_linger).1.tnums = c.tnums := by
  have hsame : ∀ i, sends_under i { c with wakeup_timer := none } = sends_under i c :=
    fun _ => rfl
  obtain ⟨r1, r2, r3⟩ := really_clear_step { c with wakeup_timer := none } ts hfree hnd
  have heq : clear_connection c ts should_linger =
      if c.conn_state ≠ .CNST_LINGERING ∧ should_linger = true then
        ({ c with wakeup_timer := none, conn_state := .CNST_LINGERING }, ts)
      else really_clear_connection_throttles { c with wakeup_timer := none } ts := by
    unfold clear_connection
    by_cases hl : c.conn_state = .CNST_LINGERING
    · simp [hl]
    · cases should_linger <;> simp [hl]
  rw [heq]
  split
  · refine ⟨rfl, fun i t ht => ⟨t, ht, ?_⟩, by simp, rfl⟩
    have : sends_under i { c with wakeup_timer := none, conn_state := .CNST_LINGERING }
        = sends_under i c := by
      unfold sends_under
      have hb : (c.conn_state != ConnState.CNST_FREE) = true := bne_iff_ne.2 hfree
      simp [hb]
    simp only [this]
  · refine ⟨r1, ?_, by rw [r3]; simp, rfl⟩
    intro i t ht
    obtain ⟨t1, g1, g2⟩ := r2 i t ht
    exact ⟨t1, g1, by rw [← hsame i]; exact g2⟩

theorem check_throttles_counts (mtch : List Char → List Char → Bool) (maxnums : Nat)
    (fname : List Char) (c : Connecttab) (ts : List Throttle)
    (hnn : ∀ t ∈ ts, 0 ≤ t.num_sending) :
    (check_throttles mtch maxnums fname c ts).2.1.tnums.Nodup ∧
    (∀ i ∈ (check_throttles mtch maxnums fname c ts).2.1.tnums, i < ts.length) ∧
    (check_throttles mtch maxnums fname c ts).2.2.length = ts.length ∧
    (∀ (i : Nat) (t : Throttle), ts[i]? = some t →
      ∃ t1 : Throttle, (check_throttles mtch maxnums fname c ts).2.2[i]? = some t1 ∧
        t1.num_sending = t.num_sending
          + (if i ∈ (check_throttles mtch maxnums fname c ts).2.1.tnums then 1 else 0)) ∧
    (check_throttles mtch maxnums fname c ts).2.1.conn_state = c.conn_state := by
  unfold check_throttles
  obtain ⟨bound, b1, b2, b3, b4, b5, b6⟩ := check_throttles_loop_counts mtch maxnums fname
    ts.length 0
    { c with tnums := [], max_limit := THROTTLE_NOLIMIT, min_limit := THROTTLE_NOLIMIT } ts hnn
  simp only [List.nil_append] at b1
  rw [b1]
  exact ⟨b2, fun i hi => (b3 i hi).2, b4, b5, b6⟩

theorem handle_read_checked_step (mtch : List Char → List Char → Bool) (maxnums : Nat)
    (fname : List Char) (c : Connecttab) (ts : List Throttle) (sending should_linger : Bool)
    (hstate : c.conn_state = .CNST_READING) (hnone : c.tnums = [])
    (hnn : ∀ t ∈ ts, 0 ≤ t.num_sending) :
    (handle_read_checked mtch maxnums fname c ts sending should_linger).2.length = ts.length ∧
    (∀ (i : Nat) (t : Throttle), ts[i]? = some t →
      ∃ t1 : Throttle,
        (handle_read_checked mtch maxnums fname c ts sending should_linger).2[i]? = some t1 ∧
        t1.num_sending + (if sends_under i c then 1 else 0)
          = t.num_sending
            + (if sends_under i
                (handle_read_checked mtch maxnums fname c ts sending should_linger).1
              then 1 else 0)) ∧
    (handle_read_checked mtch maxnums fname c ts sending should_linger).1.conn_state
      ≠ .CNST_READING ∧
    ((handle_read_checked mtch maxnums fname c ts sending should_linger).1.tnums.Nodup ∧
      ∀ tnum ∈ (handle_read_checked mtch maxnums fname c ts sending should_linger).1.tnums,
        tnum < ts.length) := by
  obtain ⟨k1, k2, k3, k4, k5⟩ := check_throttles_counts mtch maxnums fname c ts hnn
  have hkfree : (check_throttles mtch maxnums fname c ts).2.1.conn_state ≠ .CNST_FREE := by
    rw [k5, hstate]; decide
  have hc0 : ∀ i, sends_under i c = false := fun i => sends_under_none i c hnone
  have hclear : ∀ sl : Bool,
      (clear_connection (check_throttles mtch maxnums fname c ts).2.1
          (check_throttles mtch maxnums fname c ts).2.2 sl).2.length = ts.length ∧
      (∀ (i : Nat) (t : Throttle), ts[i]? = some t →
        ∃ t1 : Throttle, (clear_connection (check_throttles mtch maxnums fname c ts).2.1
            (check_throttles mtch maxnums fname c ts).2.2 sl).2[i]? = some t1 ∧
          t1.num_sending + (if sends_under i c then 1 else 0)
            = t.num_sending
              + (if sends_under i (clear_connection
                    (check_throttles mtch maxnums fname c ts).2.1
                    (check_throttles mtch maxnums fname c ts).2.2 sl).1 then 1 else 0)) ∧
      (clear_connection (check_throttles mtch maxnums fname c ts).2.1
          (check_throttles mtch maxnums fname c ts).2.2 sl).1.conn_state ≠ .CNST_READING ∧
      ((clear_connection (check_throttles mtch maxnums fname c ts).2.1
          (check_throttles mtch maxnums fname c ts).2.2 sl).1.tnums.Nodup ∧
        ∀ tnum ∈ (clear_connection (check_throttles mtch maxnums fname c ts).2.1
          (check_throttles mtch maxnums fname c ts).2.2 sl).1.tnums, tnum < ts.length) := by
    intro sl
    obtain ⟨s1, s2, s3, s4⟩ := clear_step (check_throttles mtch maxnums fname c ts).2.1
      (check_throttles mtch maxnums fname c ts).2.2 sl hkfree k1
    refine ⟨s1.trans k3, ?_, s3, by rw [s4]; exact ⟨k1, k2⟩⟩
    intro i t ht
    obtain ⟨tk, g1, g2⟩ := k4 i t ht
    obtain ⟨t1, g3, g4⟩ := s2 i tk g1
    refine ⟨t1, g3, ?_⟩
    rw [hc0 i]
    by_cases hm : i ∈ (check_throttles mtch maxnums fname c ts).2.1.tnums
    · rw [(sends_under_iff i _ hkfree).2 hm] at g4
      rw [if_pos hm] at g2
      simp only [if_true, Bool.false_eq_true, if_false] at g4 ⊢
      omega
    · have hf : sends_under i (check_throttles mtch maxnums fname c ts).2.1 = false := by
        rw [← Bool.not_eq_true]
        exact fun h => hm ((sends_under_iff i _ hkfree).1 h)
      rw [hf] at g4
      rw [if_neg hm] at g2
      simp only [Bool.false_eq_true, if_false] at g4 ⊢
      omega
  unfold handle_read_checked
  simp only
  split
  · exact hclear should_linger
  · split
    · refine ⟨k3, ?_, by simp, k1, k2⟩
      intro i t ht
      obtain ⟨tk, g1, g2⟩ := k4 i t ht
      refine ⟨tk, g1, ?_⟩
      rw [hc0 i, g2]
      have hs : sends_under i
          { (check_throttles mtch maxnums fname c ts).2.1 with conn_state := .CNST_SENDING }
          = decide (i ∈ (check_throttles mtch maxnums fname c ts).2.1.tnums) := by
        unfold sends_under
        simp
      simp only [hs, decide_eq_true_eq, Bool.false_eq_true, if_false, add_zero]
    · exact hclear should_linger

theorem update_connects_spec (ts : List Throttle) (cs cs1 : List Connecttab)
    (h : update_connects ts cs = some cs1) :
    (∀ tnum, senders cs1 tnum = senders cs tnum) ∧
    (∀ c1 ∈ cs1, ∃ c ∈ cs, c1.conn_state = c.conn_state ∧ c1.tnums = c.tnums) := by
  induction cs generalizing cs1 with
  | nil =>
    simp only [update_connects, Option.some.injEq] at h
    subst h
    exact ⟨fun _ => rfl, fun c1 hc1 => absurd hc1 (by simp)⟩
  | cons c rest ih =>
    simp only [update_connects] at h
    split at h
    · exact absurd h (by simp)
    · rename_i c1 hc1
      split at h
      · exact absurd h (by simp)
      · rename_i rest1 hrest
        simp only [Option.some.injEq] at h
        subst h
        obtain ⟨i1, i2⟩ := ih rest1 hrest
        have hsame : c1.conn_state = c.conn_state ∧ c1.tnums = c.tnums := by
          unfold update_max_limit at hc1
          split at hc1
          · split at hc1
            · exact absurd hc1 (by simp)
            · simp only [Option.some.injEq] at hc1
              rw [← hc1]
              exact ⟨rfl, rfl⟩
          · simp only [Option.some.injEq] at hc1
            rw [← hc1]
            exact ⟨rfl, rfl⟩
        constructor
        · intro tnum
          unfold senders at i1 ⊢
          have : sends_under tnum c1 = sends_under tnum c := by
            unfold sends_under
            rw [hsame.1, hsame.2]
          simp only [List.countP_cons, this, i1 tnum]
        · intro x hx
          rcases List.mem_cons.1 hx with hx | hx
          · exact ⟨c, List.mem_cons_self _ _, by rw [hx]; exact hsame⟩
          · obtain ⟨y, hy, hy2⟩ := i2 x hx
            exact ⟨y, List.mem_cons_of_mem _ hy, hy2⟩

theorem senders_inv_nonneg (s : Server) (hi : SendersInv s) :
    ∀ t ∈ s.throttles, 0 ≤ t.num_sending := by
  intro t ht
  obtain ⟨i, hlt, hget⟩ := List.getElem_of_mem ht
  have := hi.exact i t (by rw [List.getElem?_eq_getElem hlt, hget])
  omega

theorem server_reachable_inv (mtch : List Char → List Char → Bool) (maxnums : Nat)
    (s : Server) (h : ServerReachable mtch maxnums s) : SendersInv s := by
  induction h with
  | init connects throttles hfree hzero =>
    constructor
    · intro tnum t ht
      have h0 := hzero t (List.getElem?_mem ht)
      have : senders connects tnum = 0 := by
        unfold senders
        rw [List.countP_eq_zero]
        intro c hc
        rw [sends_under_free tnum c (hfree c hc)]
        simp
      simp only [h0, this, Nat.cast_zero]
    · intro c hc hstate
      rw [hfree c hc] at hstate
      exact absurd hstate (by decide)
    · intro c hc hstate
      exact absurd (hfree c hc) hstate
  | newconnect s cnum c now _ hc hfree ih =>
    apply handled_inv s cnum c _ _ ih hc rfl
    · intro i t ht
      refine ⟨t, ht, ?_⟩
      rw [sends_under_free i c hfree, sends_under_none i (handle_newconnect_slot c now) rfl]
    · intro _; rfl
    · intro _
      exact ⟨List.nodup_nil, fun tnum ht => absurd ht (by simp [handle_newconnect_slot])⟩
  | read s cnum c fname sending should_linger _ hc hstate ih =>
    have hmem : c ∈ s.connects := List.getElem?_mem hc
    obtain ⟨r1, r2, r3, r4⟩ := handle_read_checked_step mtch maxnums fname c s.throttles
      sending should_linger hstate (ih.reading c hmem hstate) (senders_inv_nonneg s ih)
    exact handled_inv s cnum c _ _ ih hc r1 r2 (fun h => absurd h r3) (fun _ => r4)
  | pace s cnum c st n _ hc hstate hst ih =>
    have hmem : c ∈ s.connects := List.getElem?_mem hc
    have hfree : c.conn_state ≠ .CNST_FREE := by
      rcases hstate with h | h <;> rw [h] <;> decide
    have hfree2 : st ≠ .CNST_FREE := by
      rcases hst with h | h <;> rw [h] <;> decide
    obtain ⟨a1, a2⟩ := add_bytes_since_avg_counts s.throttles c.tnums n
    apply handled_inv s cnum c _ _ ih hc a1
    · intro i t ht
      obtain ⟨t1, g1, g2⟩ := a2 i t ht
      refine ⟨t1, g1, ?_⟩
      have : sends_under i { c with conn_state := st } = sends_under i c := by
        unfold sends_under
        have hb : (c.conn_state != ConnState.CNST_FREE) = true := bne_iff_ne.2 hfree
        have hb2 : (st != ConnState.CNST_FREE) = true := bne_iff_ne.2 hfree2
        simp [hb, hb2]
      rw [this, g2]
    · intro hr
      have hr2 : st = .CNST_READING := hr
      rcases hst with h | h <;> rw [h] at hr2 <;> exact absurd hr2 (by decide)
    · intro _
      exact ih.bound c hmem hfree
  | clear s cnum c should_linger _ hc hfree ih =>
    have hmem : c ∈ s.connects := List.getElem?_mem hc
    obtain ⟨b1, b2⟩ := ih.bound c hmem hfree
    obtain ⟨s1, s2, s3, s4⟩ := clear_step c s.throttles should_linger hfree b1
    have hb : (clear_connection c s.throttles should_linger).1.conn_state ≠ .CNST_FREE →
        (clear_connection c s.throttles should_linger).1.tnums.Nodup ∧
        ∀ tnum ∈ (clear_connection c s.throttles should_linger).1.tnums,
          tnum < s.throttles.length := fun _ => by rw [s4]; exact ⟨b1, b2⟩
    exact handled_inv s cnum c _ _ ih hc s1 s2 (fun h => absurd h s3) hb
  | really_clear s cnum c _ hc hfree ih =>
    have hmem : c ∈ s.connects := List.getElem?_mem hc
    obtain ⟨b1, b2⟩ := ih.bound c hmem hfree
    obtain ⟨s1, s2, s3⟩ := really_clear_step c s.throttles hfree b1
    have hr : (really_clear_connection_throttles c s.throttles).1.conn_state = .CNST_READING →
        (really_clear_connection_throttles c s.throttles).1.tnums = [] := fun h => by
      rw [s3] at h; exact absurd h (by decide)
    have hb : (really_clear_connection_throttles c s.throttles).1.conn_state ≠ .CNST_FREE →
        (really_clear_connection_throttles c s.throttles).1.tnums.Nodup ∧
        ∀ tnum ∈ (really_clear_connection_throttles c s.throttles).1.tnums,
          tnum < s.throttles.length := fun h => absurd s3 h
    exact handled_inv s cnum c _ _ ih hc s1 s2 hr hb
  | other s connects throttles _ hcs hts ih =>
    have hlen : throttles.length = s.throttles.length := by
      have := congrArg List.length hts
      simpa using this
    have hsend : ∀ tnum, senders connects tnum = senders s.connects tnum := by
      intro tnum
      have e : ∀ l : List Connecttab, senders l tnum
          = (l.map (fun c => (c.conn_state, c.tnums))).countP
              (fun p => p.1 != ConnState.CNST_FREE && p.2.contains tnum) := by
        intro l
        unfold senders
        rw [List.countP_map]
        rfl
      rw [e connects, e s.connects, hcs]
    have hsame : ∀ c ∈ connects, ∃ c0 ∈ s.connects,
        c.conn_state = c0.conn_state ∧ c.tnums = c0.tnums := by
      intro c hc
      have : (c.conn_state, c.tnums) ∈ s.connects.map (fun c => (c.conn_state, c.tnums)) := by
        rw [← hcs]
        exact List.mem_map_of_mem _ hc
      obtain ⟨c0, h0, h1⟩ := List.mem_map.1 this
      simp only [Prod.mk.injEq] at h1
      exact ⟨c0, h0, h1.1.symm, h1.2.symm⟩
    constructor
    · intro tnum t ht
      have hlt : tnum < s.throttles.length := by
        have := (List.getElem?_eq_some_iff.1 ht).1
        simp only at this
        omega
      have h1 : (throttles.map (fun t => t.num_sending))[tnum]? = some t.num_sending := by
        simp only at ht
        rw [List.getElem?_map, ht]
        rfl
      rw [hts, List.getElem?_map, List.getElem?_eq_getElem hlt] at h1
      simp only [Option.map_some', Option.some.injEq] at h1
      rw [← h1, ih.exact tnum _ (List.getElem?_eq_getElem hlt), hsend tnum]
    · intro c hc hstate
      obtain ⟨c0, h0, e1, e2⟩ := hsame c hc
      rw [e2]
      exact ih.reading c0 h0 (by rw [← e1]; exact hstate)
    · intro c hc hstate
      obtain ⟨c0, h0, e1, e2⟩ := hsame c hc
      rw [e2]
      simp only [hlen]
      exact ih.bound c0 h0 (by rw [← e1]; exact hstate)
  | update s T connects _ hsome ih =>
    have hts : (update_throttles T s.throttles s.connects).throttles
        = s.throttles.map (update_rate T) := rfl
    have hcs : update_connects (s.throttles.map (update_rate T)) s.connects = some connects :=
      hsome
    obtain ⟨u1, u2⟩ := update_connects_spec _ _ _ hcs
    constructor
    · intro tnum t ht
      simp only [hts, List.getElem?_map, Option.map_eq_some'] at ht
      obtain ⟨t0, g1, g2⟩ := ht
      have := ih.exact tnum t0 g1
      rw [← g2]
      show t0.num_sending = _
      rw [this, u1 tnum]
    · intro c1 hc1 hstate
      obtain ⟨c, hc, e1, e2⟩ := u2 c1 hc1
      rw [e2]
      exact ih.reading c hc (by rw [← e1]; exact hstate)
    · intro c1 hc1 hstate
      obtain ⟨c, hc, e1, e2⟩ := u2 c1 hc1
      rw [e2]
      simp only [hts, List.length_map]
      exact ih.bound c hc (by rw [← e1]; exact hstate)

theorem share_max_limit_some (ts : List Throttle) (l : List Nat) (lim : Int)
    (h : ∀ tnum ∈ l, ∃ t, ts[tnum]? = some t ∧ t.num_sending ≠ 0) :
    ∃ r, share_max_limit ts l lim = some r := by
  induction l generalizing lim with
  | nil => exact ⟨lim, rfl⟩
  | cons a rest ih =>
    obtain ⟨t, g1, g2⟩ := h a (List.mem_cons_self _ _)
    simp only [share_max_limit, g1, g2, if_false]
    exact ih _ (fun tnum ht => h tnum (List.mem_cons_of_mem _ ht))

theorem update_connects_some (ts : List Throttle) (cs : List Connecttab)
    (h : ∀ c ∈ cs, c.conn_state ≠ .CNST_FREE →
      ∀ tnum ∈ c.tnums, ∃ t, ts[tnum]? = some t ∧ t.num_sending ≠ 0) :
    ∃ cs1, update_connects ts cs = some cs1 := by
  induction cs with
  | nil => exact ⟨[], rfl⟩
  | cons c rest ih =>
    obtain ⟨rest1, hrest⟩ := ih (fun x hx => h x (List.mem_cons_of_mem _ hx))
    have hc : ∃ c1, update_max_limit ts c = some c1 := by
      unfold update_max_limit
      split
      · rename_i hst
        have hfree : c.conn_state ≠ .CNST_FREE := by
          rcases hst with h1 | h1 <;> rw [h1] <;> decide
        obtain ⟨r, hr⟩ := share_max_limit_some ts c.tnums THROTTLE_NOLIMIT
          (h c (List.mem_cons_self _ _) hfree)
        rw [hr]
        exact ⟨_, rfl⟩
      · exact ⟨_, rfl⟩
    obtain ⟨c1, hc1⟩ := hc
    exact ⟨c1 :: rest1, by simp only [update_connects, hc1, hrest]⟩

/-- C30: in every state of the connection table and the throttle table reachable from the
start of the server through `handle_newconnect`, `handle_read` with its call of
`check_throttles`, `handle_send`, `clear_connection`, `really_clear_connection` and
`update_throttles`, the field `num_sending` of every throttle is the number of connections
that are not free and have the throttle among their `tnums`; so it is not negative, it is
at least 1 for every throttle of a connection that is not free, `update_throttles` does
not divide by zero, and `really_clear_connection` takes exactly one off the count of each
throttle of the connection it frees. The count by which `check_throttles` divides is at
least 1 in any state. -/
theorem num_sending_exact (mtch : List Char → List Char → Bool) (maxthrottlenums : Nat)
    (s : Server) (throttle_time : Int) (h : ServerReachable mtch maxthrottlenums s) :
    (∀ (tnum : Nat) (t : Throttle), s.throttles[tnum]? = some t →
      t.num_sending = ((senders s.connects tnum : Nat) : Int) ∧ 0 ≤ t.num_sending) ∧
    (∀ (cnum : Nat) (c : Connecttab), s.connects[cnum]? = some c →
      c.conn_state ≠ .CNST_FREE → c.tnums.Nodup ∧
      ∀ tnum ∈ c.tnums, ∃ t : Throttle, s.throttles[tnum]? = some t ∧ 1 ≤ t.num_sending) ∧
    (∃ connects,
      (update_throttles throttle_time s.throttles s.connects).connects = some connects) ∧
    (∀ (t : Throttle) (tnum : Nat) (c : Connecttab), 1 ≤ (bind_throttle t tnum c).1.num_sending) ∧
    (∀ (cnum : Nat) (c : Connecttab), s.connects[cnum]? = some c →
      c.conn_state ≠ .CNST_FREE →
      ∀ (tnum : Nat) (t : Throttle), s.throttles[tnum]? = some t →
        ∃ t1 : Throttle,
          (really_clear_connection_throttles c s.throttles).2[tnum]? = some t1 ∧
          t1.num_sending = t.num_sending - (if tnum ∈ c.tnums then 1 else 0)) := by
  have hi := server_reachable_inv mtch maxthrottlenums s h
  have hone : ∀ (c : Connecttab), c ∈ s.connects → c.conn_state ≠ .CNST_FREE →
      ∀ tnum ∈ c.tnums, ∃ t : Throttle, s.throttles[tnum]? = some t ∧ 1 ≤ t.num_sending := by
    intro c hc hfree tnum ht
    have hlt := (hi.bound c hc hfree).2 tnum ht
    refine ⟨s.throttles[tnum], List.getElem?_eq_getElem hlt, ?_⟩
    rw [hi.exact tnum _ (List.getElem?_eq_getElem hlt)]
    have : 0 < senders s.connects tnum := by
      unfold senders
      rw [List.countP_pos_iff]
      exact ⟨c, hc, (sends_under_iff tnum c hfree).2 ht⟩
    omega
  refine ⟨?_, ?_, ?_, ?_, ?_⟩
  · intro tnum t ht
    have := hi.exact tnum t ht
    exact ⟨this, by omega⟩
  · intro cnum c hc hfree
    exact ⟨(hi.bound c (List.getElem?_mem hc) hfree).1, hone c (List.getElem?_mem hc) hfree⟩
  · apply update_connects_some
    intro c hc hfree tnum ht
    obtain ⟨t, g1, g2⟩ := hone c hc hfree tnum ht
    refine ⟨update_rate throttle_time t, by simp [g1], ?_⟩
    show t.num_sending ≠ 0
    omega
  · intro t tnum c
    rw [bind_throttle_fst]
    simp only
    split <;> omega
  · intro cnum c hc hfree tnum t ht
    exact (clear_throttles_counts c s.throttles
      (hi.bound c (List.getElem?_mem hc) hfree).1).2 tnum t ht

/-- C30 (witness): a connection is accepted and its request read; the first of two
throttles is bound before the second rejects the request, and the connection lingers:
the first throttle counts one sender, the second none, and the real close of the
connection brings the first count back to zero. -/
theorem num_sending_exact_witness :
    ServerReachable match_star 10 rejected_server ∧
    rejected_server.connects.map (fun c => (c.conn_state, c.tnums))
      = [(ConnState.CNST_LINGERING, [0]), (ConnState.CNST_FREE, [])] ∧
    rejected_server.throttles.map (fun t => t.num_sending) = [1, 0] ∧
    senders rejected_server.connects 0 = 1 ∧
    (really_clear_connection_throttles (handle_read_checked match_star 10 "a".toList
        (handle_newconnect_slot free_slot 0) accepted_server.throttles true true).1
      rejected_server.throttles).2.map (fun t => t.num_sending) = [0, 0] ∧
    ∃ connects, (update_throttles 2 rejected_server.throttles rejected_server.connects).connects
      = some connects :=
  have hr : ServerReachable match_star 10 rejected_server :=
    ServerReachable.read accepted_server 0 (handle_newconnect_slot free_slot 0) "a".toList
      true true
      (ServerReachable.newconnect idle_server 0 free_slot 0
        (ServerReachable.init _ _ (by decide) (by decide)) rfl rfl)
      rfl rfl
  ⟨hr, by decide, by decide, by decide, by decide,
    (num_sending_exact match_star 10 rejected_server 2 hr).2.2.1⟩

/-! ## C29: the rates of the throttles in the states the server reaches -/

end Thttpd
